import Mathlib

/-!
# gmgm : Janggi board, move generation, make/unmake and terminality

Shallow embedding of `src/libgmgm/Board.h` and `src/libgmgm/Board.cpp`.

Conventions of the embedding

* A square is the integer `yx = y * 10 + x` (row `y` in `0..9`, column `x` in `0..8`), as in
  the source; squares are `Int` because the generator computes with signed offsets.
* A cell holds a piece code (`int8_t` in the source, always one of `0x00..0x1f` or `0x20` for
  an empty cell); codes are `Nat`.  The upper nibble is the side (`0` Cho, `1` Han, `2` empty).
* `std::array<int8_t,100> board` is a total function `Int → Nat`; the ten cells of column 9
  are never written by the constructor and never read by the code, the embedding leaves them
  at `0x20`.
* Two things end a run without a result and are `none` in the embedding: a failed `assert`
  and an out-of-bounds read of `board` (`board[-1]`, when the side to move has no General).
* `float` scores only ever hold multiples of `0.5` of small magnitude, on which `float`
  arithmetic is exact; they are rationals here.
* `std::uint64_t` hashes are `Nat` below `2 ^ 64`; the rotation is reduced modulo `2 ^ 64`.
* `BoardHashConstants.h` is not part of the sources at hand: the table and its size are a
  parameter (`HashConstants`).
-/

namespace gmgm

/-! ## Options (`globals.h`) -/

/-- The options of `gmgm::globals` that `Board` reads. -/
structure Globals where
  allow_bikjang : Bool
  board_based_repetitive_move : Bool
  jang_move_is_illegal : Bool
  deriving DecidableEq

/-- Values of `globals.cpp`: every option is off. -/
def Globals.default : Globals := ⟨false, false, false⟩

/-! ## Data model (`Board.h`) -/

/-- `enum class Side : int8_t { CHO, HAN = 16, NONE = 32 }`. -/
inductive Side where
  | CHO
  | HAN
  | NONE
  deriving DecidableEq

/-- `static_cast<int>(side)`. -/
def Side.toNat : Side → Nat
  | Side.CHO => 0
  | Side.HAN => 16
  | Side.NONE => 32

/-- `enum class StartingState`. -/
inductive StartingState where
  | SMSM
  | SMMS
  | MSSM
  | MSMS
  deriving DecidableEq

/-- `class Move`: piece code at the origin, origin, destination, content of the destination. -/
structure Move where
  piece : Nat
  yx_from : Int
  yx_to : Int
  captured : Nat
  deriving DecidableEq

/-- `Move::is_pass`: a pass is the only move whose origin equals its destination. -/
def Move.is_pass (m : Move) : Bool := decide (m.yx_from = m.yx_to)

/-- `struct BoardHistory`. -/
structure BoardHistory where
  move : Move
  boardhash : Nat
  playhash : Nat
  was_jang : Bool
  deriving DecidableEq

/-- The table `board_hash_constants` and `BOARD_HASH_SIZE` of `BoardHashConstants.h`
(not in the sources at hand); entries are `std::uint64_t`. -/
structure HashConstants where
  table : Int → Nat
  size : Nat
  table_lt : ∀ i, table i < 2 ^ 64

/-- The data members of `class Board` that the move generator reads: the cached scores, the
side to move and the cells. -/
structure Position where
  cached_score_han : ℚ
  cached_score_cho : ℚ
  to_move : Side
  board : Int → Nat

/-- `class Board` (data members): the position, the history, the hashes and the two caches
of legal moves. -/
structure Board extends Position where
  history : List BoardHistory
  boardhash : Nat
  playhash : Nat
  legal_move_cache : List Move
  legal_move_opponent_cache : List Move

namespace Board

/-- `Board::opponent`. -/
def opponent (x : Side) : Side :=
  if x = Side.CHO then Side.HAN
  else if x = Side.HAN then Side.CHO
  else Side.NONE

/-- `Board::score_cho`. -/
def score_cho (b : Position) : ℚ := b.cached_score_cho

/-- `Board::score_han`. -/
def score_han (b : Position) : ℚ := b.cached_score_han

/-- `Board::get_movenum`. -/
def get_movenum (b : Board) : Nat := b.history.length

/-- `Board::clear_cache`. -/
def clear_cache (b : Board) : Board :=
  { b with legal_move_cache := [], legal_move_opponent_cache := [] }

/-! ## Starting position (`Board::__init`) -/

/-- Row 9 of `__board` (Cho back rank) for each layout. -/
def init_row_cho : StartingState → List Nat
  | StartingState.SMSM => [0x03, 0x05, 0x07, 0x01, 0x20, 0x02, 0x06, 0x08, 0x04]
  | StartingState.SMMS => [0x03, 0x05, 0x07, 0x01, 0x20, 0x02, 0x08, 0x06, 0x04]
  | StartingState.MSSM => [0x03, 0x07, 0x05, 0x01, 0x20, 0x02, 0x06, 0x08, 0x04]
  | StartingState.MSMS => [0x03, 0x07, 0x05, 0x01, 0x20, 0x02, 0x08, 0x06, 0x04]

/-- Row 0 of `__board` (Han back rank) for each layout. -/
def init_row_han : StartingState → List Nat
  | StartingState.SMSM => [0x13, 0x15, 0x17, 0x11, 0x20, 0x12, 0x16, 0x18, 0x14]
  | StartingState.SMMS => [0x13, 0x15, 0x17, 0x11, 0x20, 0x12, 0x18, 0x16, 0x14]
  | StartingState.MSSM => [0x13, 0x17, 0x15, 0x11, 0x20, 0x12, 0x16, 0x18, 0x14]
  | StartingState.MSMS => [0x13, 0x17, 0x15, 0x11, 0x20, 0x12, 0x18, 0x16, 0x14]

/-- The local array `__board` of `__init`, rows 0 to 9. -/
def init_rows (cho_state han_state : StartingState) : List (List Nat) :=
  [ init_row_han han_state,
    [0x20, 0x20, 0x20, 0x20, 0x10, 0x20, 0x20, 0x20, 0x20],
    [0x20, 0x19, 0x20, 0x20, 0x20, 0x20, 0x20, 0x1a, 0x20],
    [0x1b, 0x20, 0x1c, 0x20, 0x1d, 0x20, 0x1e, 0x20, 0x1f],
    [0x20, 0x20, 0x20, 0x20, 0x20, 0x20, 0x20, 0x20, 0x20],
    [0x20, 0x20, 0x20, 0x20, 0x20, 0x20, 0x20, 0x20, 0x20],
    [0x0b, 0x20, 0x0c, 0x20, 0x0d, 0x20, 0x0e, 0x20, 0x0f],
    [0x20, 0x09, 0x20, 0x20, 0x20, 0x20, 0x20, 0x0a, 0x20],
    [0x20, 0x20, 0x20, 0x20, 0x00, 0x20, 0x20, 0x20, 0x20],
    init_row_cho cho_state ]

/-- The cells written by the copy loop `board[y * 10 + x] = __board[y][x]`. -/
def init_cells (cho_state han_state : StartingState) : Int → Nat := fun yx =>
  if 0 ≤ yx ∧ yx < 100 ∧ yx % 10 < 9 then
    ((init_rows cho_state han_state).getD (yx / 10).toNat []).getD (yx % 10).toNat 0x20
  else 0x20

/-- The squares of the board in the order of the loops
`for y in 0..BOARD_H-1, for x in 0..BOARD_W-1`, as `y * 10 + x`. -/
def squares : List Int :=
  (List.range 10).flatMap fun (y : Nat) =>
    (List.range 9).map fun (x : Nat) => (y : Int) * 10 + (x : Int)

/-- Index into `board_hash_constants` of a (row, column, piece):
`y * BOARD_W * 32 + x * 32 + piece`. -/
def hash_index (yx : Int) (piece : Nat) : Int :=
  yx / 10 * 9 * 32 + yx % 10 * 32 + (piece : Int)

/-- The hash loop of `__init`: XOR of the constants of the occupied cells. -/
def init_hash (H : HashConstants) (cells : Int → Nat) : Nat :=
  squares.foldl
    (fun h yx => if cells yx < 0x20 then h ^^^ H.table (hash_index yx (cells yx)) else h) 0

/-- The position set up by `Board::__init`; `to_move` has its default member initialiser. -/
def init_position (cho_state han_state : StartingState) : Position :=
  { cached_score_han := 73.5
    cached_score_cho := 72
    to_move := Side.CHO
    board := init_cells cho_state han_state }

/-- `Board::__init` (and the two constructors, which only select the layouts). -/
def init (H : HashConstants) (cho_state han_state : StartingState) : Board :=
  { toPosition := init_position cho_state han_state
    history := []
    boardhash := init_hash H (init_cells cho_state han_state)
    playhash := init_hash H (init_cells cho_state han_state)
    legal_move_cache := []
    legal_move_opponent_cache := [] }

/-! ## Move generation (`Board::__get_legal_moves`) -/

/-- Lambda `is_empty`. -/
def is_empty (b : Position) (yx : Int) : Bool := decide (0x20 = b.board yx)

/-- Lambda `is_same_side`: equal upper nibbles. -/
def is_same_side (b : Position) (yx_from yx_to : Int) : Bool :=
  decide (b.board yx_from >>> 4 = b.board yx_to >>> 4)

/-- The call `callback(yx_from, yx_to, board[yx_to])`.  Every consumer of the generator
starts with `elem_from = board[yx_from_]`, which the emitted move records as `piece`. -/
def emit (b : Position) (yx_from yx_to : Int) : Move :=
  ⟨b.board yx_from, yx_from, yx_to, b.board yx_to⟩

/-- Lambda `possible_legal_move` of `append_sa_goong`, and the guarded callback
`if (in_range() && !sameside()) callback(...)` once the range is known. -/
def possible_legal_move (b : Position) (yx_from yx_to : Int) : List Move :=
  if is_same_side b yx_from yx_to then [] else [emit b yx_from yx_to]

/-- The `switch` of `append_sa_goong`: destinations tried from each palace square, in source
order; `none` is the `default: assert(false)` branch. -/
def sa_goong_targets (yx_from : Int) : Option (List Int) :=
  if yx_from = 3 ∨ yx_from = 73 then some [yx_from + 1, yx_from + 10, yx_from + 11]
  else if yx_from = 4 ∨ yx_from = 74 then some [yx_from - 1, yx_from + 10, yx_from + 1]
  else if yx_from = 5 ∨ yx_from = 75 then some [yx_from - 1, yx_from + 10, yx_from + 9]
  else if yx_from = 13 ∨ yx_from = 83 then some [yx_from - 10, yx_from + 10, yx_from + 1]
  else if yx_from = 14 ∨ yx_from = 84 then
    some [yx_from - 11, yx_from - 10, yx_from - 9, yx_from - 1,
          yx_from + 1, yx_from + 9, yx_from + 10, yx_from + 11]
  else if yx_from = 15 ∨ yx_from = 85 then some [yx_from - 1, yx_from - 10, yx_from + 10]
  else if yx_from = 23 ∨ yx_from = 93 then some [yx_from + 1, yx_from - 10, yx_from - 9]
  else if yx_from = 24 ∨ yx_from = 94 then some [yx_from - 1, yx_from + 1, yx_from - 10]
  else if yx_from = 25 ∨ yx_from = 95 then some [yx_from - 11, yx_from - 10, yx_from - 1]
  else none

/-- Lambda `append_sa_goong` (General and Guard). -/
def append_sa_goong (b : Position) (yx_from : Int) : Option (List Move) :=
  (sa_goong_targets yx_from).map fun ts => ts.flatMap (possible_legal_move b yx_from)

/-- Squares visited by a scanning loop
`while (cond) { yx_to = yo * 10 + xo; ...; yo += dy; xo += dx; }`, in order.  The bound on the
number of iterations is the first argument; no loop of the generator runs ten times from a
square of the board. -/
def ray (cond : Int → Int → Bool) (dy dx : Int) : Nat → Int → Int → List Int
  | 0, _, _ => []
  | n + 1, yo, xo =>
    if cond yo xo then (yo * 10 + xo) :: ray cond dy dx n (yo + dy) (xo + dx) else []

/-- Body of the Chariot loops, `if (handle_as_cha(yx_from, yx_to)) break;`: the callback is
made unless the square holds a piece of the same side, and the loop stops on the first
square that is not empty. -/
def cha_loop (b : Position) (yx_from : Int) : List Int → List Move
  | [] => []
  | yx_to :: rest =>
    possible_legal_move b yx_from yx_to ++
      (if is_empty b yx_to then cha_loop b yx_from rest else [])

/-- The eight rays of `append_cha` and `append_po`, in source order: up, down, left, right;
then, from the squares of the first diagonal, right-up and left-down; then, from the squares
of the second diagonal, right-down and left-up. -/
def ray_up (y x : Int) : List Int := ray (fun yo _ => decide (yo ≥ 0)) (-1) 0 10 (y - 1) x
/-- Loop `yo = y + 1; while (yo < BOARD_H)`. -/
def ray_down (y x : Int) : List Int := ray (fun yo _ => decide (yo < 10)) 1 0 10 (y + 1) x
/-- Loop `xo = x - 1; while (xo >= 0)`. -/
def ray_left (y x : Int) : List Int := ray (fun _ xo => decide (xo ≥ 0)) 0 (-1) 10 y (x - 1)
/-- Loop `xo = x + 1; while (xo < BOARD_W)`. -/
def ray_right (y x : Int) : List Int := ray (fun _ xo => decide (xo < 9)) 0 1 10 y (x + 1)
/-- Loop `xo = x + 1; yo = y - 1; while (xo < 6)`. -/
def ray_right_up (y x : Int) : List Int :=
  ray (fun _ xo => decide (xo < 6)) (-1) 1 10 (y - 1) (x + 1)
/-- Loop `xo = x - 1; yo = y + 1; while (xo >= 3)`. -/
def ray_left_down (y x : Int) : List Int :=
  ray (fun _ xo => decide (xo ≥ 3)) 1 (-1) 10 (y + 1) (x - 1)
/-- Loop `xo = x + 1; yo = y + 1; while (xo < 6)`. -/
def ray_right_down (y x : Int) : List Int :=
  ray (fun _ xo => decide (xo < 6)) 1 1 10 (y + 1) (x + 1)
/-- Loop `xo = x - 1; yo = y - 1; while (xo >= 3)`. -/
def ray_left_up (y x : Int) : List Int :=
  ray (fun _ xo => decide (xo ≥ 3)) (-1) (-1) 10 (y - 1) (x - 1)

/-- Lambda `append_cha` (Chariot). -/
def append_cha (b : Position) (yx_from : Int) : List Move :=
  let y := yx_from / 10
  let x := yx_from % 10
  cha_loop b yx_from (ray_up y x) ++ cha_loop b yx_from (ray_down y x) ++
  cha_loop b yx_from (ray_left y x) ++ cha_loop b yx_from (ray_right y x) ++
  (if yx_from = 93 ∨ yx_from = 84 ∨ yx_from = 75 ∨ yx_from = 23 ∨ yx_from = 14 ∨ yx_from = 5
   then cha_loop b yx_from (ray_right_up y x) ++ cha_loop b yx_from (ray_left_down y x)
   else []) ++
  (if yx_from = 95 ∨ yx_from = 84 ∨ yx_from = 73 ∨ yx_from = 25 ∨ yx_from = 14 ∨ yx_from = 3
   then cha_loop b yx_from (ray_right_down y x) ++ cha_loop b yx_from (ray_left_up y x)
   else [])

/-- The test `piece == 0x9 || piece == 0xa || piece == 0x19 || piece == 0x1a` (a Cannon). -/
def is_po (piece : Nat) : Bool :=
  decide (piece = 0x9 ∨ piece = 0xa ∨ piece = 0x19 ∨ piece = 0x1a)

/-- Lambda `handle_as_po`, the callback part: made unless the square holds a Cannon or a
piece of the same side. -/
def handle_as_po (b : Position) (yx_from yx_to : Int) : List Move :=
  if ¬ is_po (b.board yx_to) ∧ ¬ is_same_side b yx_from yx_to then [emit b yx_from yx_to]
  else []

/-- Body of the Cannon loops; the flag is `found_jump`.  Before the screen is found the loop
skips empty squares, stops on a Cannon and takes any other piece as the screen; after it,
`if (handle_as_po(yx_from, yx_to)) break;`. -/
def po_loop (b : Position) (yx_from : Int) : Bool → List Int → List Move
  | _, [] => []
  | false, yx_to :: rest =>
    if is_empty b yx_to then po_loop b yx_from false rest
    else if is_po (b.board yx_to) then []
    else po_loop b yx_from true rest
  | true, yx_to :: rest =>
    handle_as_po b yx_from yx_to ++
      (if is_empty b yx_to then po_loop b yx_from true rest else [])

/-- Lambda `append_po` (Cannon). -/
def append_po (b : Position) (yx_from : Int) : List Move :=
  let y := yx_from / 10
  let x := yx_from % 10
  po_loop b yx_from false (ray_up y x) ++ po_loop b yx_from false (ray_down y x) ++
  po_loop b yx_from false (ray_left y x) ++ po_loop b yx_from false (ray_right y x) ++
  (if yx_from = 93 ∨ yx_from = 75 ∨ yx_from = 23 ∨ yx_from = 5
   then po_loop b yx_from false (ray_right_up y x) ++
        po_loop b yx_from false (ray_left_down y x)
   else []) ++
  (if yx_from = 95 ∨ yx_from = 73 ∨ yx_from = 25 ∨ yx_from = 3
   then po_loop b yx_from false (ray_right_down y x) ++
        po_loop b yx_from false (ray_left_up y x)
   else [])

/-- Lambda `in_range`. -/
def in_range (yo xo : Int) : Bool := decide (yo ≥ 0 ∧ yo < 10 ∧ xo ≥ 0 ∧ xo < 9)

/-- The statement `if (in_range() && !sameside()) callback(yx_from, yo * 10 + xo, ...)`. -/
def leap_to (b : Position) (yx_from yo xo : Int) : List Move :=
  if in_range yo xo then possible_legal_move b yx_from (yo * 10 + xo) else []

/-- The test `in_range() && empty()` at (`yo`, `xo`). -/
def free_at (b : Position) (yo xo : Int) : Bool := in_range yo xo && is_empty b (yo * 10 + xo)

/-- Lambda `check_x` of `append_ma`. -/
def ma_check_x (b : Position) (yx_from direction : Int) : List Move :=
  let y := yx_from / 10
  let x := yx_from % 10
  if free_at b y (x + direction) then
    leap_to b yx_from (y + 1) (x + direction + direction) ++
    leap_to b yx_from (y + 1 - 1 - 1) (x + direction + direction)
  else []

/-- Lambda `check_y` of `append_ma`. -/
def ma_check_y (b : Position) (yx_from direction : Int) : List Move :=
  let y := yx_from / 10
  let x := yx_from % 10
  if free_at b (y + direction) x then
    leap_to b yx_from (y + direction + direction) (x + 1) ++
    leap_to b yx_from (y + direction + direction) (x + 1 - 1 - 1)
  else []

/-- Lambda `append_ma` (Horse). -/
def append_ma (b : Position) (yx_from : Int) : List Move :=
  ma_check_x b yx_from 1 ++ ma_check_x b yx_from (-1) ++
  ma_check_y b yx_from 1 ++ ma_check_y b yx_from (-1)

/-- Lambda `check_x` of `append_sang`. -/
def sang_check_x (b : Position) (yx_from direction : Int) : List Move :=
  let y := yx_from / 10
  let x := yx_from % 10
  if free_at b y (x + direction) then
    (if free_at b (y + 1) (x + direction + direction)
     then leap_to b yx_from (y + 1 + 1) (x + direction + direction + direction) else []) ++
    (if free_at b (y + 1 - 1 - 1) (x + direction + direction)
     then leap_to b yx_from (y + 1 - 1 - 1 - 1) (x + direction + direction + direction)
     else [])
  else []

/-- Lambda `check_y` of `append_sang`. -/
def sang_check_y (b : Position) (yx_from direction : Int) : List Move :=
  let y := yx_from / 10
  let x := yx_from % 10
  if free_at b (y + direction) x then
    (if free_at b (y + direction + direction) (x + 1)
     then leap_to b yx_from (y + direction + direction + direction) (x + 1 + 1) else []) ++
    (if free_at b (y + direction + direction) (x + 1 - 1 - 1)
     then leap_to b yx_from (y + direction + direction + direction) (x + 1 - 1 - 1 - 1)
     else [])
  else []

/-- Lambda `append_sang` (Elephant). -/
def append_sang (b : Position) (yx_from : Int) : List Move :=
  sang_check_x b yx_from 1 ++ sang_check_x b yx_from (-1) ++
  sang_check_y b yx_from 1 ++ sang_check_y b yx_from (-1)

/-- Lambda `append_jol` (Soldier): forward (by the side to move), right, left; then the
diagonal cases. -/
def append_jol (b : Position) (yx_from : Int) : List Move :=
  let y := yx_from / 10
  let x := yx_from % 10
  let forward : Int := if b.to_move = Side.CHO then -1 else 1
  leap_to b yx_from (y + forward) (x + 0) ++
  leap_to b yx_from (y + 0) (x + 1) ++
  leap_to b yx_from (y + 0) (x + -1) ++
  (if yx_from = 14
   then leap_to b yx_from (y - 1) (x - 1) ++ leap_to b yx_from (y - 1) (x + 1) else []) ++
  (if yx_from = 84
   then leap_to b yx_from (y + 1) (x - 1) ++ leap_to b yx_from (y + 1) (x + 1) else []) ++
  (if yx_from = 23 then leap_to b yx_from (y - 1) (x + 1) else []) ++
  (if yx_from = 25 then leap_to b yx_from (y - 1) (x - 1) else []) ++
  (if yx_from = 73 then leap_to b yx_from (y + 1) (x + 1) else []) ++
  (if yx_from = 75 then leap_to b yx_from (y + 1) (x - 1) else [])

/-- Body of the loops of `append_bikjang`: empty squares are skipped, a General (of either
code) is reported and the loop goes on, any other piece stops the loop. -/
def bikjang_loop (b : Position) (yx_from : Int) : List Int → List Move
  | [] => []
  | yx_to :: rest =>
    if is_empty b yx_to then bikjang_loop b yx_from rest
    else if b.board yx_to = 0x00 ∨ b.board yx_to = 0x10 then
      emit b yx_from yx_to :: bikjang_loop b yx_from rest
    else []

/-- Lambda `append_bikjang` (face-off of the Generals). -/
def append_bikjang (b : Position) (yx_from : Int) : List Move :=
  if b.to_move = Side.CHO ∧ score_han b ≥ 72 then []
  else if b.to_move = Side.HAN ∧ score_cho b ≥ 72 then []
  else
    let y := yx_from / 10
    let x := yx_from % 10
    if y > 6 then bikjang_loop b yx_from (ray_up y x)
    else bikjang_loop b yx_from (ray_down y x)

/-- The body of the double loop of `__get_legal_moves` at one square: the moves reported for
the piece on `yx`; `none` when `assert(false)` is reached. -/
def append_piece (g : Globals) (b : Position) (yx : Int) : Option (List Move) :=
  let move := b.board yx
  if move / 16 = b.to_move.toNat / 16 then
    if move % 16 = 0 then
      (append_sa_goong b yx).map fun ms =>
        ms ++ (if g.allow_bikjang then append_bikjang b yx else [])
    else if move % 16 = 1 ∨ move % 16 = 2 then append_sa_goong b yx
    else if move % 16 = 3 ∨ move % 16 = 4 then some (append_cha b yx)
    else if move % 16 = 9 ∨ move % 16 = 10 then some (append_po b yx)
    else if move % 16 = 5 ∨ move % 16 = 6 then some (append_sang b yx)
    else if move % 16 = 7 ∨ move % 16 = 8 then some (append_ma b yx)
    else if move % 16 = 11 ∨ move % 16 = 12 ∨ move % 16 = 13 ∨ move % 16 = 14
        ∨ move % 16 = 15 then some (append_jol b yx)
    else some []
  else some []

/-- The double loop of `__get_legal_moves` over a list of squares: all the moves reported,
in order. -/
def piece_moves_on (g : Globals) (b : Position) : List Int → Option (List Move)
  | [] => some []
  | yx :: rest =>
    match append_piece g b yx with
    | none => none
    | some ms =>
      match piece_moves_on g b rest with
      | none => none
      | some ms' => some (ms ++ ms')

/-- The variable `goongpos` after the double loop over a list of squares, starting from
`acc`: the last square holding the General of the side to move (`none` for `-1`). -/
def goongpos_on (b : Position) : Option Int → List Int → Option Int
  | acc, [] => acc
  | acc, yx :: rest =>
    if b.board yx / 16 = b.to_move.toNat / 16 ∧ b.board yx % 16 = 0
    then goongpos_on b (some yx) rest else goongpos_on b acc rest

/-- The moves reported by the double loop of `__get_legal_moves` (all but the pass). -/
def piece_moves (g : Globals) (b : Position) : Option (List Move) := piece_moves_on g b squares

/-- The value of `goongpos` at the end of `__get_legal_moves`. -/
def goongpos (b : Position) : Option Int := goongpos_on b none squares

/-- `Board::__get_legal_moves`, as the list of the callbacks made, in order: the piece moves,
then the pass `callback(goongpos, goongpos, board[goongpos])`.  With `goongpos == -1` the
pass reads `board[-1]`: no result. -/
def raw_get_legal_moves (g : Globals) (b : Position) : Option (List Move) :=
  match piece_moves g b with
  | none => none
  | some ms =>
    match goongpos b with
    | none => none
    | some gp => some (ms ++ [emit b gp gp])

/-! ## Piece-only make and unmake

`move_piece_only` and `unmove_piece_only` change the cells, the side to move and `boardhash`.
The part on the cells and the side to move is stated on `Position` (it is all the generator
can see); the `Board` versions add the hash. -/

/-- Write `v` into cell `yx` (`board[yx] = v`). -/
def set_cell (cells : Int → Nat) (yx : Int) (v : Nat) : Int → Nat :=
  fun i => if i = yx then v else cells i

/-- The side-to-move toggle of `move_piece_only` and `unmove_piece_only`. -/
def toggle (s : Side) : Side := if s = Side.CHO then Side.HAN else Side.CHO

/-- `Board::move_piece_only`, cells and side to move. -/
def move_cells (b : Position) (m : Move) : Position :=
  let piece := b.board m.yx_from
  { b with
    board := set_cell (set_cell b.board m.yx_from 0x20) m.yx_to piece
    to_move := toggle b.to_move }

/-- `Board::unmove_piece_only`, cells and side to move; `none` when `assert(piece < 0x20)`
fails. -/
def unmove_cells (b : Position) (m : Move) : Option Position :=
  let piece := b.board m.yx_to
  if piece < 0x20 then
    some { b with
      board := set_cell (set_cell b.board m.yx_to m.captured) m.yx_from piece
      to_move := toggle b.to_move }
  else none

/-- The `boardhash` updates of `move_piece_only`: the captured piece (if any) out of the
destination, the piece into the destination and out of the origin, then the constant
`board_hash_constants[BOARD_HASH_SIZE-1]`. -/
def move_boardhash (H : HashConstants) (b : Board) (m : Move) : Nat :=
  let piece := b.board m.yx_from
  let h0 := b.boardhash
  let h1 := if m.captured ≠ 0x20 then h0 ^^^ H.table (hash_index m.yx_to m.captured) else h0
  let h2 := h1 ^^^ H.table (hash_index m.yx_to piece)
  let h3 := h2 ^^^ H.table (hash_index m.yx_from piece)
  h3 ^^^ H.table ((H.size : Int) - 1)

/-- `Board::move_piece_only`. -/
def move_piece_only (H : HashConstants) (b : Board) (m : Move) : Board :=
  { b with
    toPosition := move_cells b.toPosition m
    boardhash := move_boardhash H b m }

/-- The `boardhash` updates of `unmove_piece_only`; `piece` is `board[m.yx_to]` read before
the cells are restored. -/
def unmove_boardhash (H : HashConstants) (b : Board) (m : Move) : Nat :=
  let piece := b.board m.yx_to
  let h0 := b.boardhash
  let h1 := h0 ^^^ H.table (hash_index m.yx_from piece)
  let h2 := h1 ^^^ H.table (hash_index m.yx_to piece)
  let h3 := if m.captured ≠ 0x20 then h2 ^^^ H.table (hash_index m.yx_to m.captured) else h2
  h3 ^^^ H.table ((H.size : Int) - 1)

/-- `Board::unmove_piece_only`; `none` when `assert(piece < 0x20)` fails. -/
def unmove_piece_only (H : HashConstants) (b : Board) (m : Move) : Option Board :=
  match unmove_cells b.toPosition m with
  | none => none
  | some p =>
    some { b with
      toPosition := p
      boardhash := unmove_boardhash H b m }

/-! ## Legal moves, check -/

/-- The test made by the callback of `can_win_immediately` (and of `__can_win`): a move that
is not a pass, whose piece is not a General, and that captures a General. -/
def captures_goong (m : Move) : Bool :=
  decide (m.yx_from ≠ m.yx_to) && (decide (m.piece ≠ 0x10) && decide (m.piece ≠ 0x00))
    && (decide (m.captured = 0x10) || decide (m.captured = 0x00))

/-- `Board::can_win_immediately`. -/
def can_win_immediately (g : Globals) (b : Position) : Option Bool :=
  (raw_get_legal_moves g b).map fun ms => ms.any captures_goong

/-- The callback of `get_legal_moves` under `jang_move_is_illegal`, for one reported move:
`move_piece_only(m); keep = !can_win_immediately(); unmove_piece_only(m);`.  The result is
whether the move is kept.  The two piece-only calls leave the board, hash included, as they
found it (`unmove_piece_only_move_piece_only`). -/
def jang_callback (g : Globals) (b : Position) (m : Move) : Option Bool :=
  match can_win_immediately g (move_cells b m) with
  | none => none
  | some w =>
    match unmove_cells (move_cells b m) m with
    | none => none
    | some _ => some (!w)

/-- The callbacks of `get_legal_moves` under `jang_move_is_illegal` over the reported moves:
the moves kept, in order. -/
def jang_filter (g : Globals) (b : Position) : List Move → Option (List Move)
  | [] => some []
  | m :: rest =>
    match jang_callback g b m with
    | none => none
    | some keep =>
      match jang_filter g b rest with
      | none => none
      | some ms => some (if keep then m :: ms else ms)

/-- The list that `get_legal_moves` computes when `legal_move_cache` is empty. -/
def compute_legal_moves (g : Globals) (b : Position) : Option (List Move) :=
  match raw_get_legal_moves g b with
  | none => none
  | some ms => if g.jang_move_is_illegal then jang_filter g b ms else some ms

/-- `Board::get_legal_moves`: the list returned, and the board with its cache filled. -/
def get_legal_moves (g : Globals) (b : Board) : Option (List Move × Board) :=
  if b.legal_move_cache.isEmpty then
    (compute_legal_moves g b.toPosition).map fun ms => (ms, { b with legal_move_cache := ms })
  else some (b.legal_move_cache, b)

/-- `Board::get_legal_moves_if_opponent`: the list returned, and the board with its cache
filled. -/
def get_legal_moves_if_opponent (g : Globals) (b : Board) : Option (List Move × Board) :=
  if ¬ b.legal_move_opponent_cache.isEmpty then some (b.legal_move_opponent_cache, b)
  else
    (raw_get_legal_moves g { b.toPosition with to_move := opponent b.to_move }).map fun ms =>
      (ms, { b with legal_move_opponent_cache := ms })

/-- The test of the loop of `is_jang`: a move of the opponent that is not a pass and
captures a General. -/
def threatens_goong (m : Move) : Bool :=
  decide (m.yx_from ≠ m.yx_to) && (decide (m.captured = 0x0) || decide (m.captured = 0x10))

/-- `Board::is_jang`: the answer, and the board with its opponent cache filled. -/
def is_jang (g : Globals) (b : Board) : Option (Bool × Board) :=
  (get_legal_moves_if_opponent g b).map fun r => (r.1.any threatens_goong, r.2)

/-! ## Make and unmake -/

/-- The rotation `(playhash << 1) | (playhash >> 63)` on 64 bits. -/
def rotl1 (p : Nat) : Nat := ((p <<< 1) ||| (p >>> 63)) % 2 ^ 64

/-- The rotation `(playhash >> 1) | (playhash << 63)` on 64 bits. -/
def rotr1 (p : Nat) : Nat := ((p >>> 1) ||| (p <<< 63)) % 2 ^ 64

/-- The constant XORed into `playhash` for a (square, piece) when the history holds `n`
records after the move:
`board_hash_constants[(y*BOARD_W*32 + x*32 + piece + 37 * n) % BOARD_HASH_SIZE]`. -/
def play_constant (H : HashConstants) (yx : Int) (piece : Nat) (n : Nat) : Nat :=
  H.table ((hash_index yx piece + 37 * (n : Int)) % (H.size : Int))

/-- Lambda `apply` of `Board::move`. -/
def play_apply (H : HashConstants) (n : Nat) (p : Nat) (yx : Int) (piece : Nat) : Nat :=
  rotl1 (p ^^^ play_constant H yx piece n)

/-- Lambda `apply` of `Board::unmove`. -/
def play_unapply (H : HashConstants) (n : Nat) (p : Nat) (yx : Int) (piece : Nat) : Nat :=
  rotr1 p ^^^ play_constant H yx piece n

/-- The `switch (m.captured)` of `Board::move` and `Board::unmove`: value of the captured
piece for Cho's score, in points. -/
def captured_value_cho (captured : Nat) : ℚ :=
  if captured = 1 ∨ captured = 2 then 3
  else if captured = 3 ∨ captured = 4 then 13
  else if captured = 9 ∨ captured = 10 then 7
  else if captured = 5 ∨ captured = 6 then 3
  else if captured = 7 ∨ captured = 8 then 5
  else if captured = 11 ∨ captured = 12 ∨ captured = 13 ∨ captured = 14 ∨ captured = 15 then 2
  else 0

/-- The `switch (m.captured)` of `Board::move` and `Board::unmove`: value of the captured
piece for Han's score, in points. -/
def captured_value_han (captured : Nat) : ℚ :=
  if captured = 17 ∨ captured = 18 then 3
  else if captured = 19 ∨ captured = 20 then 13
  else if captured = 25 ∨ captured = 26 then 7
  else if captured = 21 ∨ captured = 22 then 3
  else if captured = 23 ∨ captured = 24 then 5
  else if captured = 27 ∨ captured = 28 ∨ captured = 29 ∨ captured = 30 ∨ captured = 31 then 2
  else 0

/-- The `playhash` updates of `Board::move`: `apply` for the captured piece (if any), for
the piece on the destination and for the piece on the origin, with `1 + history.size()`
read before the record is pushed. -/
def move_playhash (H : HashConstants) (b : Board) (m : Move) : Nat :=
  let piece := b.board m.yx_from
  let n := 1 + b.history.length
  let p0 := b.playhash
  let p1 := if m.captured ≠ 0x20 then play_apply H n p0 m.yx_to m.captured else p0
  let p2 := play_apply H n p1 m.yx_to piece
  play_apply H n p2 m.yx_from piece

/-- `Board::move`.  `none` when the `is_jang()` of the history record has no result. -/
def move (g : Globals) (H : HashConstants) (b : Board) (m : Move) : Option Board :=
  let b0 := clear_cache b
  let old_boardhash := b0.boardhash
  let old_playhash := b0.playhash
  let b1 := move_piece_only H b0 m
  let b2 := { b1 with playhash := move_playhash H b0 m }
  match is_jang g b2 with
  | none => none
  | some (jang, b3) =>
    some { b3 with
      history := b3.history ++ [⟨m, old_boardhash, old_playhash, jang⟩]
      cached_score_cho := b3.cached_score_cho - captured_value_cho m.captured
      cached_score_han := b3.cached_score_han - captured_value_han m.captured }

/-- The `playhash` updates of `Board::unmove`: `apply` for the piece on the origin, for the
piece on the destination and for the captured piece (if any), with `history.size()` read
before the record is popped; `piece` is `board[m.yx_to]` read before the cells are
restored. -/
def unmove_playhash (H : HashConstants) (b : Board) (m : Move) : Nat :=
  let piece := b.board m.yx_to
  let n := b.history.length
  let p0 := b.playhash
  let p1 := play_unapply H n p0 m.yx_from piece
  let p2 := play_unapply H n p1 m.yx_to piece
  if m.captured ≠ 0x20 then play_unapply H n p2 m.yx_to m.captured else p2

/-- `Board::unmove`: the move taken back and the board.  `none` when the history is empty
(the source throws `std::out_of_range`) or when one of the two `assert`s on the hashes, or
the one of `unmove_piece_only`, fails.  The `switch` reads `m.captured` through the
reference into the record that `pop_back` has just removed; the embedding reads the record's
value. -/
def unmove (H : HashConstants) (b : Board) : Option (Move × Board) :=
  match b.history.getLast? with
  | none => none
  | some rec =>
    let b0 := clear_cache b
    let m := rec.move
    match unmove_piece_only H b0 m with
    | none => none
    | some b1 =>
      let p3 := unmove_playhash H b0 m
      if b1.boardhash = rec.boardhash ∧ p3 = rec.playhash then
        some (m, { b1 with
          playhash := p3
          history := b1.history.dropLast
          cached_score_cho := b1.cached_score_cho + captured_value_cho m.captured
          cached_score_han := b1.cached_score_han + captured_value_han m.captured })
      else none

/-! ## Material -/

/-- The `switch (move % 16)` of `Board::__score`: the value table. -/
def piece_value (code : Nat) : ℚ :=
  if code % 16 = 0 then 0
  else if code % 16 = 1 ∨ code % 16 = 2 then 3
  else if code % 16 = 3 ∨ code % 16 = 4 then 13
  else if code % 16 = 9 ∨ code % 16 = 10 then 7
  else if code % 16 = 5 ∨ code % 16 = 6 then 3
  else if code % 16 = 7 ∨ code % 16 = 8 then 5
  else if code % 16 = 11 ∨ code % 16 = 12 ∨ code % 16 = 13 ∨ code % 16 = 14
      ∨ code % 16 = 15 then 2
  else 0

/-- `Board::__score`: material of a side counted from the cells, plus 1.5 for Han. -/
def raw_score (b : Position) (s : Side) : ℚ :=
  squares.foldl
    (fun score yx =>
      if b.board yx / 16 = s.toNat / 16 then score + piece_value (b.board yx) else score) 0
  + (if s = Side.HAN then 1.5 else 0)

/-! ## Terminality -/

/-- `Board::winner_piece_only`: the Han General is looked for in rows 0..2 and the Cho
General in rows 7..9, columns 3..5. -/
def winner_piece_only (b : Position) : Side :=
  let found_han_goong :=
    [(0 : Int), 1, 2].any fun y => [(3 : Int), 4, 5].any fun x => b.board (y * 10 + x) == 0x10
  let found_cho_goong :=
    [(7 : Int), 8, 9].any fun y => [(3 : Int), 4, 5].any fun x => b.board (y * 10 + x) == 0x0
  if found_cho_goong && found_han_goong then Side.NONE
  else if found_cho_goong then Side.CHO
  else if found_han_goong then Side.HAN
  else Side.NONE

/-- The record read where the source indexes `history[i]`; every index the source uses is
within the history. -/
def hist (b : Board) (i : Int) : BoardHistory :=
  b.history.getD i.toNat ⟨⟨0, 0, 0, 0⟩, 0, 0, false⟩

/-- The loop of the board-based repetition rule:
`while (repeat_cnt < 3 && pt >= 0) { if (hashes equal) { repeat_cnt++; pt -= 4; } else break; }`;
the first argument bounds the number of iterations. -/
def board_repeat_loop (b : Board) (last : Nat) : Nat → Nat → Int → Nat
  | 0, repeat_cnt, _ => repeat_cnt
  | fuel + 1, repeat_cnt, pt =>
    if repeat_cnt < 3 ∧ pt ≥ 0 then
      if last = (hist b pt).boardhash then board_repeat_loop b last fuel (repeat_cnt + 1) (pt - 4)
      else repeat_cnt
    else repeat_cnt

/-- Lambda `move_equals`: same piece and same destination. -/
def move_equals (x y : Move) : Bool := decide (x.piece = y.piece ∧ x.yx_to = y.yx_to)

/-- The loop of the move-based repetition rule; the first argument bounds the number of
iterations. -/
def move_repeat_loop (b : Board) (mv : Move) : Nat → Nat → Int → Nat
  | 0, repeat_cnt, _ => repeat_cnt
  | fuel + 1, repeat_cnt, pt =>
    if repeat_cnt < 2 ∧ pt ≥ 0 then
      if (hist b pt).move.is_pass then move_repeat_loop b mv fuel repeat_cnt (pt - 4)
      else if mv.captured = 0x20 ∧ (hist b pt).move.captured = 0x20
          ∧ move_equals mv (hist b pt).move then
        move_repeat_loop b mv fuel (repeat_cnt + 1) (pt - 4)
      else repeat_cnt
    else repeat_cnt

/-- The variable `repeat_cnt` of `Board::winner` after the repetition block. -/
def repeat_count (g : Globals) (b : Board) : Nat :=
  let sz : Int := b.history.length
  if g.board_based_repetitive_move then
    let cnt :=
      if sz ≥ 8 ∧ ¬ (hist b (sz - 1)).move.is_pass then
        board_repeat_loop b (hist b (sz - 1)).boardhash b.history.length 0 (sz - 1)
      else 0
    if cnt ≥ 3 then (if (hist b (sz - 2)).was_jang then 0 else cnt) else cnt
  else
    let pt := sz - 5
    let cnt :=
      if pt ≥ 0 then
        let mv := (hist b (sz - 1)).move
        if mv.is_pass then 0
        else if mv.piece = 0 ∨ mv.piece = 1 ∨ mv.piece = 2
            ∨ mv.piece = 16 ∨ mv.piece = 17 ∨ mv.piece = 18 then 0
        else move_repeat_loop b mv b.history.length 0 pt
      else 0
    if sz ≥ 2 ∧ (hist b (sz - 2)).was_jang then 0 else cnt

/-- Lambda `is_passend`: the last two moves are passes. -/
def is_passend (b : Board) : Bool :=
  let sz : Int := b.history.length
  if b.history.length < 2 then false
  else (hist b (sz - 1)).move.is_pass && (hist b (sz - 2)).move.is_pass

/-- The result of a score comparison: `if (sc > sh) return CHO; else return HAN;`. -/
def by_score (b : Position) : Side :=
  if score_cho b > score_han b then Side.CHO else Side.HAN

/-- The part of `Board::winner` after the check of `jang_move_is_illegal`. -/
def winner_rest (g : Globals) (b : Board) : Option Side :=
  if repeat_count g b ≥ 2 then some b.to_move
  else
    let sz : Int := b.history.length
    let late : Option Bool :=
      if score_cho b.toPosition < 10 ∨ score_han b.toPosition < 10
          ∨ b.history.length ≥ 200 then
        if b.history.length > 0 ∧ (hist b (sz - 1)).move.captured = 0x20 then
          (is_jang g b).map fun r => !r.1 && !(hist b (sz - 1)).was_jang
        else some false
      else some false
    match late with
    | none => none
    | some true => some (by_score b.toPosition)
    | some false =>
      if b.history.length ≥ 240 then some (by_score b.toPosition)
      else if is_passend b then some (by_score b.toPosition)
      else some (winner_piece_only b.toPosition)

/-- `Board::winner`; `none` when a call it makes (`get_legal_moves`, `is_jang`) has no
result. -/
def winner (g : Globals) (b : Board) : Option Side :=
  if g.jang_move_is_illegal then
    match get_legal_moves g b with
    | none => none
    | some (ms, _) =>
      if ms.length = 0 ∧ b.to_move = Side.HAN then some Side.CHO
      else if ms.length = 0 ∧ b.to_move = Side.CHO then some Side.HAN
      else winner_rest g b
  else winner_rest g b

/-! ## Predicates used in the statements -/

/-- A square of the 9x10 board. -/
def on_board (yx : Int) : Prop := 0 ≤ yx ∧ yx < 100 ∧ yx % 10 < 9

instance on_board_decidable (yx : Int) : Decidable (on_board yx) := by
  unfold on_board; infer_instance

/-- The eighteen squares of the two palaces: the `case` labels of `append_sa_goong`. -/
def palace (yx : Int) : Prop :=
  (yx / 10 ≤ 2 ∨ 7 ≤ yx / 10) ∧ 3 ≤ yx % 10 ∧ yx % 10 ≤ 5 ∧ 0 ≤ yx ∧ yx < 100

instance palace_decidable (yx : Int) : Decidable (palace yx) := by
  unfold palace; infer_instance

/-- The test of the double loop of the generator: the cell holds a piece of side `s`. -/
def is_side (s : Side) (code : Nat) : Prop := code / 16 = s.toNat / 16

instance is_side_decidable (s : Side) (code : Nat) : Decidable (is_side s code) := by
  unfold is_side; infer_instance

/-- What the generator reports from square `f`: the piece standing on `f`, the origin `f`, a
destination on the board other than `f`, and the content of the destination. -/
def Reported (p : Position) (f : Int) (m : Move) : Prop :=
  m.piece = p.board f ∧ m.yx_from = f ∧ m.captured = p.board m.yx_to
    ∧ on_board m.yx_to ∧ m.yx_to ≠ f

/-- Contribution of a cell to the material of side `s`: the summand of `__score`. -/
def cell_value (s : Side) (code : Nat) : ℚ :=
  if code / 16 = s.toNat / 16 then piece_value code else 0

/-- What holds of every move the generator reports on position `p`: origin and destination
are squares of the board, the origin holds a piece of the side to move, `piece` and
`captured` are the contents of origin and destination, only a General stays in place (the
pass), a piece other than a General never lands on a piece of its side, and a General or
Guard goes from a palace square to a palace square or onto a General (face-off). -/
def Generated (p : Position) (m : Move) : Prop :=
  on_board m.yx_from ∧ on_board m.yx_to ∧ is_side p.to_move (p.board m.yx_from)
    ∧ m.piece = p.board m.yx_from ∧ m.captured = p.board m.yx_to
    ∧ (m.yx_from = m.yx_to → p.board m.yx_from % 16 = 0)
    ∧ (p.board m.yx_from % 16 ≠ 0 → p.board m.yx_from / 16 ≠ p.board m.yx_to / 16)
    ∧ (p.board m.yx_from % 16 ≤ 2 →
        palace m.yx_from
          ∧ (palace m.yx_to ∨ p.board m.yx_to = 0x00 ∨ p.board m.yx_to = 0x10))

/-- Generals and Guards stand on palace squares (what `append_sa_goong` asserts). -/
def palace_ok (p : Position) : Prop :=
  ∀ yx, on_board yx → p.board yx < 0x20 → p.board yx % 16 ≤ 2 → palace yx

/-- The side to move has a General on the board. -/
def has_goong (p : Position) : Prop :=
  ∃ yx, on_board yx ∧ is_side p.to_move (p.board yx) ∧ p.board yx % 16 = 0

/-- Boards reachable from a starting layout by playing moves taken from `get_legal_moves`;
the options may differ from one call to the next. -/
inductive Reachable (H : HashConstants) : Board → Prop
  | start (cho_state han_state : StartingState) : Reachable H (init H cho_state han_state)
  | step (g g' : Globals) (b b1 b2 : Board) (ms : List Move) (m : Move) :
      Reachable H b → get_legal_moves g b = some (ms, b1) → m ∈ ms →
      move g' H b1 m = some b2 → Reachable H b2

/-- Invariant of the reachable boards. -/
structure Inv (b : Board) : Prop where
  side : b.to_move ≠ Side.NONE
  pal : palace_ok b.toPosition
  bh : b.boardhash < 2 ^ 64
  ph : b.playhash < 2 ^ 64
  cache : b.legal_move_cache = []
  cho : b.cached_score_cho = raw_score b.toPosition Side.CHO
  han : b.cached_score_han = raw_score b.toPosition Side.HAN
  passes : ∀ r ∈ b.history, r.move.yx_from = r.move.yx_to → r.move.captured ≠ 0x20

/-! ## Concrete instances -/

/-- A table of hash constants for the concrete instances (any table of 64-bit values
does). -/
def example_hash : HashConstants :=
  ⟨fun i => (i.toNat * 2654435761 + 12345) % 2 ^ 64, 2881, fun _ => Nat.mod_lt _ (by norm_num)⟩

/-- The opening position with both sides on the layout "smsm". -/
def opening : Board := init example_hash StartingState.SMSM StartingState.SMSM

/-- Play a sequence of moves with `Board::move`. -/
def play (g : Globals) (H : HashConstants) : Board → List Move → Option Board
  | b, [] => some b
  | b, m :: rest =>
    match move g H b m with
    | none => none
    | some b' => play g H b' rest

/-- The list `get_legal_moves()` returns on the opening position "smsm"/"smsm" with the
default options: 31 piece moves in generation order, then the pass. -/
def opening_moves : List Move :=
  [⟨11, 60, 50, 32⟩, ⟨11, 60, 61, 32⟩, ⟨12, 62, 52, 32⟩, ⟨12, 62, 63, 32⟩, ⟨12, 62, 61, 32⟩,
   ⟨13, 64, 54, 32⟩, ⟨13, 64, 65, 32⟩, ⟨13, 64, 63, 32⟩, ⟨14, 66, 56, 32⟩, ⟨14, 66, 67, 32⟩,
   ⟨14, 66, 65, 32⟩, ⟨15, 68, 58, 32⟩, ⟨15, 68, 67, 32⟩, ⟨0, 84, 73, 32⟩, ⟨0, 84, 74, 32⟩,
   ⟨0, 84, 75, 32⟩, ⟨0, 84, 83, 32⟩, ⟨0, 84, 85, 32⟩, ⟨0, 84, 94, 32⟩, ⟨3, 90, 80, 32⟩,
   ⟨3, 90, 70, 32⟩, ⟨5, 91, 63, 32⟩, ⟨7, 92, 73, 32⟩, ⟨1, 93, 94, 32⟩, ⟨1, 93, 83, 32⟩,
   ⟨2, 95, 85, 32⟩, ⟨2, 95, 94, 32⟩, ⟨8, 97, 78, 32⟩, ⟨8, 97, 76, 32⟩, ⟨4, 98, 88, 32⟩,
   ⟨4, 98, 78, 32⟩, ⟨0, 84, 84, 0⟩]

/-- The code of the General of a side. -/
def goong_code : Side → Nat
  | Side.CHO => 0x00
  | Side.HAN => 0x10
  | Side.NONE => 0x20

/-- Claim C3 in its own words: after `m` is played, the opponent has a move (not a pass)
that captures the mover's General. -/
def spec_exposes_goong (g : Globals) (p : Position) (m : Move) : Bool :=
  match raw_get_legal_moves g (move_cells p m) with
  | some oms =>
    oms.any fun m' => decide (m'.yx_from ≠ m'.yx_to) && decide (m'.captured = goong_code p.to_move)
  | none => false

/-- Claim C3 in its own words: with `jang_move_is_illegal` on, the moves of the generator
that do not expose the mover's General, in generation order; with the option off, all of
them. -/
def spec_legal_moves (g : Globals) (p : Position) : Option (List Move) :=
  (raw_get_legal_moves g p).map fun ms =>
    if g.jang_move_is_illegal then ms.filter fun m => !spec_exposes_goong g p m else ms

/-- What the code tests after `m` is played (`can_win_immediately`): the opponent has a move
(not a pass), by a piece other than a General, that captures a General. -/
def loses_goong (g : Globals) (p : Position) (m : Move) : Bool :=
  match raw_get_legal_moves g (move_cells p m) with
  | some oms => oms.any captures_goong
  | none => false

/-- The board after 1. Soldier 60-61, pass; 2. Chariot 90x30, pass; 3. Soldier 64-63, played
with `allow_bikjang` on: Han is to move and only Han's Soldier on 34 stands between the two
Generals. -/
def exposed_board : Option Board :=
  play ⟨true, false, false⟩ example_hash opening
    [⟨11, 60, 61, 32⟩, ⟨16, 14, 14, 16⟩, ⟨3, 90, 30, 27⟩, ⟨16, 14, 14, 16⟩, ⟨13, 64, 63, 32⟩]

/-- Claim C7 in its own words: `t` is on the board, it is reached from `s` by one orthogonal
step (`oy`, `ox`) followed by two diagonal steps (`dy`, `dx`) that lead away from `s`, the
square after the orthogonal step and the square after the first diagonal step are empty, and
`t` does not hold a piece of the side to move. -/
def spec_sang_leap (p : Position) (s t : Int) : Prop :=
  on_board t ∧ ∃ oy ox dy dx : Int,
    ((oy = 0 ∧ (ox = 1 ∨ ox = -1)) ∨ (ox = 0 ∧ (oy = 1 ∨ oy = -1)))
    ∧ (dy = 1 ∨ dy = -1) ∧ (dx = 1 ∨ dx = -1)
    ∧ (oy ≠ 0 → dy = oy) ∧ (ox ≠ 0 → dx = ox)
    ∧ t / 10 = s / 10 + oy + 2 * dy ∧ t % 10 = s % 10 + ox + 2 * dx
    ∧ p.board ((s / 10 + oy) * 10 + (s % 10 + ox)) = 0x20
    ∧ p.board ((s / 10 + oy + dy) * 10 + (s % 10 + ox + dx)) = 0x20
    ∧ ¬ is_side p.to_move (p.board t)

/-- Square `s` lies strictly between the squares `a` and `c` on the rank, the file or the
diagonal that joins them. -/
def strictly_between (a c s : Int) : Prop :=
  (a % 10 = c % 10 ∧ s % 10 = a % 10
      ∧ ((a / 10 < s / 10 ∧ s / 10 < c / 10) ∨ (c / 10 < s / 10 ∧ s / 10 < a / 10)))
  ∨ (a / 10 = c / 10 ∧ s / 10 = a / 10
      ∧ ((a % 10 < s % 10 ∧ s % 10 < c % 10) ∨ (c % 10 < s % 10 ∧ s % 10 < a % 10)))
  ∨ (((s / 10 - a / 10 = s % 10 - a % 10 ∧ c / 10 - s / 10 = c % 10 - s % 10)
        ∨ (s / 10 - a / 10 = a % 10 - s % 10 ∧ c / 10 - s / 10 = s % 10 - c % 10))
      ∧ ((a / 10 < s / 10 ∧ s / 10 < c / 10) ∨ (c / 10 < s / 10 ∧ s / 10 < a / 10)))

/-- The lines a Cannon travels (claim C6): a file, a rank, or a palace diagonal from a palace
corner through the palace centre to the opposite corner. -/
def po_line (a c : Int) : Prop :=
  (a % 10 = c % 10 ∧ a / 10 ≠ c / 10) ∨ (a / 10 = c / 10 ∧ a % 10 ≠ c % 10)
  ∨ (a = 3 ∧ c = 25) ∨ (a = 25 ∧ c = 3) ∨ (a = 5 ∧ c = 23) ∨ (a = 23 ∧ c = 5)
  ∨ (a = 73 ∧ c = 95) ∨ (a = 95 ∧ c = 73) ∨ (a = 75 ∧ c = 93) ∨ (a = 93 ∧ c = 75)

/-- The cells after Cho's Horse 92 -> 73 and a pass of Han, from the opening position: Cho is
to move and the Cannon on 71 has the Horse on 73 as a screen. -/
def po_board : Position :=
  move_cells (move_cells opening.toPosition ⟨7, 92, 73, 32⟩) ⟨16, 14, 14, 16⟩

instance strictly_between_decidable (a c s : Int) : Decidable (strictly_between a c s) := by
  unfold strictly_between; infer_instance

/-- The position after the given moves from the opening position, played by `Board::move`
with `allow_bikjang` on (the opening position itself if a move had no result). -/
def position_after (ms : List Move) : Position :=
  ((play ⟨true, false, false⟩ example_hash opening ms).map Board.toPosition).getD
    opening.toPosition

/-- After 1. Soldier 64-63, Soldier 34-33: Cho is to move, no piece has been taken and the
file between the Generals on 84 and 14 is empty. -/
def faceoff_level : Position := position_after [⟨13, 64, 63, 32⟩, ⟨29, 34, 33, 32⟩]

/-- After 1. Soldier 60-61, Soldier 34-33; 2. Chariot 90x30, pass; 3. Soldier 64-63, pass:
Cho is to move and has taken a Soldier, the file between the Generals is empty. -/
def faceoff_ahead : Position :=
  position_after [⟨11, 60, 61, 32⟩, ⟨29, 34, 33, 32⟩, ⟨3, 90, 30, 27⟩, ⟨16, 14, 14, 16⟩,
    ⟨13, 64, 63, 32⟩, ⟨16, 14, 14, 16⟩]

/-- The score `append_bikjang` compares with 72: that of the side not to move. -/
def opponent_score (p : Position) : ℚ :=
  if p.to_move = Side.CHO then score_han p else score_cho p

/-- Play a sequence of moves, each taken from the list `get_legal_moves()` returns on the
board at hand and made with `Board::move`; `none` when a move is not in that list or a call
has no result. -/
def play_legal (g : Globals) (H : HashConstants) : Board → List Move → Option Board
  | b, [] => some b
  | b, m :: rest =>
    match get_legal_moves g b with
    | none => none
    | some (ms, b1) =>
      if m ∈ ms then
        match move g H b1 m with
        | none => none
        | some b2 => play_legal g H b2 rest
      else none

/-- The game 1. Soldier 60-61, Soldier 34-33; 2. Chariot 90x30, pass; 3. Soldier 64-63, pass;
4. General 84x14 (face-off), every move taken from `get_legal_moves()` with `allow_bikjang`
on: Cho's General stands on 14 and Han has no General. -/
def faceoff_taken : Option Board :=
  play_legal ⟨true, false, false⟩ example_hash opening
    [⟨11, 60, 61, 32⟩, ⟨29, 34, 33, 32⟩, ⟨3, 90, 30, 27⟩, ⟨16, 14, 14, 16⟩,
      ⟨13, 64, 63, 32⟩, ⟨16, 14, 14, 16⟩, ⟨0, 84, 14, 16⟩]

/-- The board after a pass of Cho and a pass of Han from the opening position, both taken
from `get_legal_moves()` with the default options. -/
def two_passes : Board :=
  (play_legal Globals.default example_hash opening [⟨0, 84, 84, 0⟩, ⟨16, 14, 14, 16⟩]).getD
    opening

/-- A board with the cells of the opening position and a history of 240 records (passes of
the two sides): the hard cap of `winner()` applies. -/
def capped_board : Board :=
  { opening with
    history := List.replicate 240 ⟨⟨0, 84, 84, 0⟩, opening.boardhash, opening.playhash, false⟩ }

/-- The game 1. Chariot 90-80, Chariot 0-10; 2. Chariot 80-90, Chariot 10-0, played twice
(eight plies), every move taken from `get_legal_moves()` with
`board_based_repetitive_move` on. -/
def shuffle_game : Option Board :=
  play_legal ⟨false, true, false⟩ example_hash opening
    [⟨3, 90, 80, 32⟩, ⟨19, 0, 10, 32⟩, ⟨3, 80, 90, 32⟩, ⟨19, 10, 0, 32⟩,
      ⟨3, 90, 80, 32⟩, ⟨19, 0, 10, 32⟩, ⟨3, 80, 90, 32⟩, ⟨19, 10, 0, 32⟩]

/-- The constant of piece `v` on square `yx` in the hash loop of `__init` (nothing for a
cell that is not occupied). -/
def piece_hash (H : HashConstants) (yx : Int) (v : Nat) : Nat :=
  if v < 0x20 then H.table (hash_index yx v) else 0

/-- XOR of a list of constants. -/
def xor_all : List Nat → Nat
  | [] => 0
  | a :: rest => a ^^^ xor_all rest

/-- The constant `board_hash_constants[BOARD_HASH_SIZE-1]` that `move_piece_only` XORs into
`boardhash` at every move, after `n` moves. -/
def side_salt (H : HashConstants) (n : Nat) : Nat :=
  if n % 2 = 1 then H.table ((H.size : Int) - 1) else 0

/-- What the passes of a history leave in `boardhash`: for each pass, the constant of its
`captured` field (the code of the passing General) on its square. -/
def pass_salt (H : HashConstants) : List BoardHistory → Nat
  | [] => 0
  | r :: rest =>
    (if r.move.yx_from = r.move.yx_to then H.table (hash_index r.move.yx_to r.move.captured)
      else 0) ^^^ pass_salt H rest

/-- The board after the first move of `opening_moves`, Soldier 60 -> 50. -/
def one_move : Option Board :=
  play_legal Globals.default example_hash opening [⟨11, 60, 50, 32⟩]

/-! ## Text form of a move (`Move::operator std::string`) -/

/-- Lambda `convert_to_printable`; `/` and `%` of C++ truncate toward zero. -/
def convert_to_printable (flip_display : Bool) (v : Int) : Int :=
  let v1 := if flip_display then (9 - Int.tdiv v 10) * 10 + Int.tmod v 10 else v
  let v2 := if v1 ≥ 90 then v1 - 90 else v1 + 10
  if Int.tmod v2 10 = 9 then v2 - 9 else v2 + 1

/-- `Move::operator std::string`: the two converted squares, written as integers in decimal
by `operator<<`, joined by `-`. -/
def Move.string (flip_display : Bool) (m : Move) : String :=
  toString (convert_to_printable flip_display m.yx_from) ++ "-"
    ++ toString (convert_to_printable flip_display m.yx_to)

/-- Claim C15 in its own words: the two-digit decimal `RC` of a square, `R = (y+1) mod 10`
and `C = x+1`. -/
def spec_coord (yx : Int) : String :=
  String.mk [Nat.digitChar (((yx / 10).toNat + 1) % 10), Nat.digitChar ((yx % 10).toNat + 1)]

/-- Claim C15 in its own words: the text `FF-TT` of a move. -/
def spec_move_text (m : Move) : String :=
  spec_coord m.yx_from ++ "-" ++ spec_coord m.yx_to

/-- The text of a square as the code writes it: `RC` on rows 0 to 8, and on row 9, where
`R` is 0, the single digit `C`. -/
def text_coord (yx : Int) : String :=
  if yx / 10 = 9 then String.mk [Nat.digitChar ((yx % 10).toNat + 1)] else spec_coord yx

/-! ## Evaluation cache (`PositionEval::evaluate`) -/

/-- `Move::operator==`: same origin, destination and piece (`captured` is not compared). -/
def Move.operator_eq (a b : Move) : Bool :=
  decide (a.yx_from = b.yx_from) && decide (a.yx_to = b.yx_to) && decide (a.piece = b.piece)

/-- `Move::operator!=`. -/
def Move.operator_ne (a b : Move) : Bool := !Move.operator_eq a b

/-- `class EvalResult`: the policy, a vector of (move, prior), and the value; the `float`s
are carried as rationals, no arithmetic is done on them here. -/
structure EvalResult where
  policy : List (Move × ℚ)
  value : ℚ
  deriving DecidableEq

/-- One `std::unordered_map<std::uint64_t, std::shared_ptr<EvalResult>>`, as the list of its
entries; no two entries have the same key. -/
abbrev CacheMap := List (Nat × EvalResult)

/-- `map.find(h)`: the entry's value, `none` for `end()`. -/
def CacheMap.find (m : CacheMap) (h : Nat) : Option EvalResult :=
  match m with
  | [] => none
  | e :: rest => if e.1 = h then some e.2 else CacheMap.find rest h

/-- `map[h] = r`: the value of an existing entry is replaced, otherwise an entry is added. -/
def CacheMap.assign (m : CacheMap) (h : Nat) (r : EvalResult) : CacheMap :=
  match m with
  | [] => [(h, r)]
  | e :: rest => if e.1 = h then (h, r) :: rest else e :: CacheMap.assign rest h r

/-- `map.erase(it)` for the entry of key `h`. -/
def CacheMap.erase (m : CacheMap) (h : Nat) : CacheMap :=
  match m with
  | [] => []
  | e :: rest => if e.1 = h then rest else e :: CacheMap.erase rest h

/-- The pair `primary_cache[pos]`, `secondary_cache[pos]` of one bucket. -/
structure Bucket where
  primary : CacheMap
  secondary : CacheMap
  deriving DecidableEq

/-- The validation loop of `evaluate` on a hit,
`for (i = 0; i < lm.size(); i++) if (ret->policy[i].first != lm[i]) ...`: `some true` when a
difference is found, `some false` when the loop ends without one, `none` when `policy[i]`
is read past the end of the cached policy. -/
def validate : List (Move × ℚ) → List Move → Option Bool
  | _, [] => some false
  | [], _ :: _ => none
  | p :: ps, m :: ms => if Move.operator_ne p.1 m then some true else validate ps ms

/-- What `evaluate` does after a hit with cached result `ret` in bucket `bk`: the cached
result is returned if the validation finds no difference; otherwise `evaluate_raw` is called
(its result is `raw`), written into the primary map and returned. -/
def evaluate_hit (bk : Bucket) (h : Nat) (lm : List Move) (raw ret : EvalResult) :
    Option (EvalResult × Bucket) :=
  match validate ret.policy lm with
  | none => none
  | some true => some (raw, { bk with primary := CacheMap.assign bk.primary h raw })
  | some false => some (ret, bk)

/-- `PositionEval::evaluate` on the bucket of `h = b.get_hash()`; `lm` is
`b.get_legal_moves()` and `raw` the result of the virtual `evaluate_raw(b)`, both used only on
the paths that call them.  Returns the result and the bucket after the call; `none` when
the cached policy is indexed out of range. -/
def evaluate_bucket (cache_size : Nat) (bk : Bucket) (h : Nat) (lm : List Move)
    (raw : EvalResult) : Option (EvalResult × Bucket) :=
  match CacheMap.find bk.primary h with
  | some ret => evaluate_hit bk h lm raw ret
  | none =>
    match CacheMap.find bk.secondary h with
    | some ret =>
      evaluate_hit ⟨CacheMap.assign bk.primary h ret, CacheMap.erase bk.secondary h⟩ h lm raw ret
    | none =>
      let p := CacheMap.assign bk.primary h raw
      if p.length ≥ cache_size then some (raw, ⟨[], p⟩)
      else some (raw, ⟨p, bk.secondary⟩)

/-- One call of `evaluate`: the hash of the position, its legal moves and the result that
`evaluate_raw` has for it. -/
structure EvalCall where
  hash : Nat
  legal : List Move
  raw : EvalResult

/-- A sequence of `evaluate` calls on one bucket, from the bucket `bk`. -/
def run_bucket (cache_size : Nat) : Bucket → List EvalCall → Option Bucket
  | bk, [] => some bk
  | bk, c :: rest =>
    match evaluate_bucket cache_size bk c.hash c.legal c.raw with
    | none => none
    | some r => run_bucket cache_size r.2 rest

/-- The keys of a map. -/
def CacheMap.keys (m : CacheMap) : List Nat := m.map Prod.fst

/-- The entries that a sequence of misses writes. -/
def entries (calls : List EvalCall) : CacheMap := calls.map fun c => (c.hash, c.raw)

/-- A call of `evaluate` for a position of hash `16 * k` (bucket 0) whose only legal move is
the pass of Cho's General and whose `evaluate_raw` result gives that move the prior 1. -/
def sample_call (k : Nat) : EvalCall :=
  ⟨16 * k, [⟨0, 84, 84, 0⟩], ⟨[(⟨0, 84, 84, 0⟩, 1)], 0⟩⟩

/-- A sequence of `evaluate` calls that makes a bucket grow: `c` new positions, then `n`
rounds, each made of the positions evaluated so far once more (hits in the secondary map)
and of one new position. -/
def growth_calls (c : Nat) : Nat → List EvalCall
  | 0 => (List.range c).map sample_call
  | n + 1 =>
    growth_calls c n ++ (List.range (c + n)).map sample_call ++ [sample_call (c + n)]

/-! ## Floating point (`float`, `double`)

Values of type `float` and `double` are carried as rationals; every arithmetic operation of
the source is followed by the rounding of its type (IEEE-754 binary32 and binary64, round to
nearest, ties to even).  The exponent range (overflow, subnormal numbers), infinities and
NaN are not modelled. -/

/-- Position of the leading bit of `n`, by halving at most `fuel` times. -/
def log2_fuel : Nat → Nat → Nat
  | 0, _ => 0
  | fuel + 1, n => if n ≥ 2 then log2_fuel fuel (n / 2) + 1 else 0

/-- Position of the leading bit: the largest `e` with `2 ^ e ≤ n` (0 for `n = 0`). -/
def log2_floor (n : Nat) : Nat := log2_fuel n n

/-- The integer nearest to `n / d`, ties to even (`d` positive). -/
def round_div (n d : Nat) : Nat :=
  let m := n / d
  let r := n % d
  if 2 * r > d ∨ (2 * r = d ∧ m % 2 = 1) then m + 1 else m

/-- Rounding of `n / d` (both positive) to a significand of `p` bits. -/
def round_pos (p n d : Nat) : ℚ :=
  -- `n / d` lies between `2 ^ (e0 - 1)` and `2 ^ (e0 + 1)`
  let e0 : Int := (log2_floor n : Int) - (log2_floor d : Int)
  let k0 : Int := (p : Int) - 1 - e0
  -- the scaling `k` with `2 ^ (p - 1) ≤ n / d * 2 ^ k < 2 ^ p`
  let k : Int :=
    if n * 2 ^ k0.toNat < 2 ^ (p - 1) * (d * 2 ^ (-k0).toNat) then k0 + 1 else k0
  let m := round_div (n * 2 ^ k.toNat) (d * 2 ^ (-k).toNat)
  ((m * 2 ^ (-k).toNat : Nat) : ℚ) / ((2 ^ k.toNat : Nat) : ℚ)

/-- Rounding to nearest, ties to even, with a significand of `p` bits. -/
def round_to (p : Nat) (q : ℚ) : ℚ :=
  if q = 0 then 0
  else if q < 0 then - round_pos p q.num.natAbs q.den
  else round_pos p q.num.natAbs q.den

/-- Rounding to `float` (binary32, 24-bit significand). -/
def f32 (q : ℚ) : ℚ := round_to 24 q

/-- Rounding to `double` (binary64, 53-bit significand). -/
def f64 (q : ℚ) : ℚ := round_to 53 q

/-- Integer square root by bits: the largest `r` below `2 ^ bits` with `r * r ≤ x`, from
the accumulated `r`. -/
def isqrt_bits (x : Nat) : Nat → Nat → Nat
  | 0, r => r
  | b + 1, r => isqrt_bits x b (if (r + 2 ^ b) * (r + 2 ^ b) ≤ x then r + 2 ^ b else r)

/-- Integer square root. -/
def isqrt (x : Nat) : Nat := isqrt_bits x (log2_floor x / 2 + 1) 0

/-- The function `std::sqrt(double)`: the square root rounded to `double` (IEEE-754 requires
the correctly rounded result); 0 for an argument that is not positive. -/
def sqrt64 (q : ℚ) : ℚ :=
  if q ≤ 0 then 0
  else
    let n := q.num.natAbs
    let d := q.den
    let e0 : Int := (log2_floor n : Int) - (log2_floor d : Int)
    -- the scaling `k` with `2 ^ 104 ≤ q * 4 ^ k < 2 ^ 106`
    let k : Int := (106 - e0) / 2
    let x := (n * 4 ^ k.toNat) / (d * 4 ^ (-k).toNat)
    let k' : Int := if x < 2 ^ 104 then k + 1 else k
    let y : ℚ := q * ((4 ^ k'.toNat : Nat) : ℚ) / ((4 ^ (-k').toNat : Nat) : ℚ)
    let m := isqrt ((n * 4 ^ k'.toNat) / (d * 4 ^ (-k').toNat))
    let half : ℚ := ((m * m + m : Nat) : ℚ) + 1 / 4
    let m' := if y > half ∨ (y = half ∧ m % 2 = 1) then m + 1 else m
    ((m' * 2 ^ (-k').toNat : Nat) : ℚ) / ((2 ^ k'.toNat : Nat) : ℚ)


/-- The value of an `int` (32 bits, two's complement) after an arithmetic operation whose
exact result is `x`; `std::atomic<int>` arithmetic wraps, and the plain `int` sums of the
selection loop (where overflow is undefined) are taken to wrap too. -/
def int32 (x : Int) : Int := (x + 2 ^ 31) % 2 ^ 32 - 2 ^ 31

/-! ## Search tree (`SearchNode.h`, `SearchNode.cpp`)

A node owns its candidates and a candidate owns its child, so the tree is carried as a value.
The code is followed for one thread: an atomic read-modify-write is the plain operation, and
a spin loop that no other thread can end has no result. -/

mutual
/-- `class SearchNode`: `accum_value`, `accum_visits`, `vloss`, `state`, `children`. -/
inductive SearchNode where
  | mk (accum_value : ℚ) (accum_visits : Int) (vloss : Int) (state : Int)
      (children : List SearchCandidate) : SearchNode
/-- `class SearchCandidate`: `child` (`none` for `nullptr`), `move`, `policy`. -/
inductive SearchCandidate where
  | mk (child : Option SearchNode) (move : Move) (policy : ℚ) : SearchCandidate
end

def SearchNode.accum_value : SearchNode → ℚ
  | SearchNode.mk v _ _ _ _ => v

def SearchNode.accum_visits : SearchNode → Int
  | SearchNode.mk _ n _ _ _ => n

def SearchNode.vloss : SearchNode → Int
  | SearchNode.mk _ _ l _ _ => l

def SearchNode.state : SearchNode → Int
  | SearchNode.mk _ _ _ s _ => s

def SearchNode.children : SearchNode → List SearchCandidate
  | SearchNode.mk _ _ _ _ cs => cs

/-- `SearchCandidate::get_child`. -/
def SearchCandidate.get_child : SearchCandidate → Option SearchNode
  | SearchCandidate.mk c _ _ => c

def SearchCandidate.move : SearchCandidate → Move
  | SearchCandidate.mk _ m _ => m

def SearchCandidate.policy : SearchCandidate → ℚ
  | SearchCandidate.mk _ _ p => p

/-- `new SearchNode()`. -/
def SearchNode.fresh : SearchNode := SearchNode.mk 0 0 0 0 []

/-- `constexpr int VIRTUAL_LOSS = 3`. -/
def VIRTUAL_LOSS : Int := 3

/-- `SearchNode::add_value`: `accum_visits += 1`, then `accum_value` becomes
`accum_value + v` (the compare-exchange loop succeeds at once with one thread). -/
def add_value (node : SearchNode) (v : ℚ) : SearchNode :=
  SearchNode.mk (f32 (node.accum_value + v)) (int32 (node.accum_visits + 1)) node.vloss
    node.state node.children

/-- What the options and the environment give to a search: the options of `globals`, the
table of hash constants, `std::tanh` on `float`, and the virtual function
`PositionEval::evaluate_raw(Board &)` (its result and the board it leaves; `none` when it has
no result). -/
structure SearchEnv where
  g : Globals
  H : HashConstants
  cache_size : Nat
  score_based_bias_rate : ℚ
  tanh : ℚ → ℚ
  evaluate_raw : Board → Option (EvalResult × Board)

/-- The first loop of `create_children`: `total_policy`. -/
def total_policy (rate : ℚ) (n : Nat) : List (Move × ℚ) → ℚ → ℚ
  | [], t => t
  | x :: rest, t => total_policy rate n rest (f32 (f32 (t + x.2) + f32 (rate / f32 n)))

/-- `SearchNode::create_children`.  `none` when `total_policy` is zero: the quotients are
then infinities or NaN, which are not modelled. -/
def create_children (env : SearchEnv) (node : SearchNode) (eval_result : EvalResult)
    (board : Board) : Option SearchNode :=
  let rate := env.score_based_bias_rate
  let v0 := if board.to_move = Side.CHO then - eval_result.value else eval_result.value
  let v1 := f32 (f32 (v0 + 1) * (1 / 2))
  let score_based_bias := f32 (score_han board.toPosition - score_cho board.toPosition)
  let v2 := f32 (v1 * f32 (1 - rate))
  let v3 := f32 (v2 + f32 (f32 (rate * (1 / 2))
    * f32 (1 + env.tanh (f32 (score_based_bias / f32 (72 / 5))))))
  let n := eval_result.policy.length
  let total := total_policy rate n eval_result.policy 0
  if total = 0 ∧ n ≠ 0 then none
  else
    some (SearchNode.mk v3 (int32 (node.accum_visits + 1)) node.vloss node.state
      (node.children ++ eval_result.policy.map fun x =>
        let p0 := if x.2 < 0 then 0 else x.2
        let p1 := f32 (p0 + f32 (rate / f32 n))
        SearchCandidate.mk none x.1 (f32 (p1 / total))))

/-- The score `value` that the loop of `SearchNode::expand` computes for a candidate (a
`double`); `node` is the node with `vloss` already raised, `to_move` is
`board.get_to_move()`.  `none` when `_visits + _vloss` is zero (division by zero). -/
def candidate_value (node : SearchNode) (to_move : Side) (c : SearchCandidate) : Option ℚ :=
  let visited : Option SearchNode :=
    match c.get_child with
    | some ch => if ch.accum_visits ≠ 0 then some ch else none
    | none => none
  let src := visited.getD node
  let _value0 := src.accum_value
  let _vloss := src.vloss
  let _visits := src.accum_visits
  let _value := if to_move = Side.CHO then f32 (f32 _visits - _value0) else _value0
  if int32 (_visits + _vloss) = 0 then none
  else
    let winrate := f32 (_value / f32 (int32 (_visits + _vloss)))
    let numerator := sqrt64 (int32 (node.accum_visits + node.vloss))
    let denom := f64 (1 + (match c.get_child with
      | some ch => int32 (ch.accum_visits + ch.vloss)
      | none => 0))
    let puct := f64 (c.policy * f64 (numerator / denom))
    some (f64 (winrate + f64 (3 * puct)))

/-- The loop `for (auto & candidate : children)` of `SearchNode::expand` from the candidate
of index `i`: `best` (an index, `none` for `nullptr`) and `best_val`, a `float`, to which
the `double` `value` is converted by `best_val = value`. -/
def select_loop (node : SearchNode) (to_move : Side) :
    List SearchCandidate → Nat → Option Nat → ℚ → Option (Option Nat)
  | [], _, best, _ => some best
  | c :: rest, i, best, best_val =>
    match candidate_value node to_move c with
    | none => none
    | some value =>
      if value > best_val then select_loop node to_move rest (i + 1) (some i) (f32 value)
      else select_loop node to_move rest (i + 1) best best_val

/-- The candidate that `SearchNode::expand` descends into, as an index into `children`;
`none` when no candidate is chosen (`assert(false)`, then `best->createChild()` on a null
pointer). -/
def select_best (node : SearchNode) (to_move : Side) : Option Nat :=
  match select_loop node to_move node.children 0 none (-9999) with
  | some (some i) => some i
  | _ => none

/-! ## The evaluator with its sixteen buckets -/

/-- The search of `evaluate` in the two maps of a bucket: the cached result and the bucket
after the search (an entry found in the secondary map is moved to the primary map); `none`
when neither map has the key. -/
def cache_lookup (bk : Bucket) (h : Nat) : Option (EvalResult × Bucket) :=
  match CacheMap.find bk.primary h with
  | some ret => some (ret, bk)
  | none =>
    match CacheMap.find bk.secondary h with
    | some ret => some (ret, ⟨CacheMap.assign bk.primary h ret, CacheMap.erase bk.secondary h⟩)
    | none => none

/-- `PositionEval::evaluate`: the result, the sixteen buckets (by index) and the board after
the call (`get_legal_moves` and `evaluate_raw` may fill its caches).  `none` when
`get_legal_moves` or `evaluate_raw` has no result or the cached policy is indexed out of
range. -/
def evaluate (env : SearchEnv) (ev : Nat → Bucket) (b : Board) :
    Option (EvalResult × (Nat → Bucket) × Board) :=
  let h := b.playhash
  let pos := h % 16
  let bk := ev pos
  match cache_lookup bk h with
  | none =>
    match env.evaluate_raw b with
    | none => none
    | some (raw, b1) =>
      let p := CacheMap.assign bk.primary h raw
      let bk1 : Bucket := if p.length ≥ env.cache_size then ⟨[], p⟩ else ⟨p, bk.secondary⟩
      some (raw, Function.update ev pos bk1, b1)
  | some (ret, bk1) =>
    match get_legal_moves env.g b with
    | none => none
    | some (lm, b1) =>
      match validate ret.policy lm with
      | none => none
      | some false => some (ret, Function.update ev pos bk1, b1)
      | some true =>
        match env.evaluate_raw b1 with
        | none => none
        | some (raw, b2) =>
          some (raw, Function.update ev pos
            { bk1 with primary := CacheMap.assign bk1.primary h raw }, b2)

/-- The board that `get_legal_moves()` leaves (its cache filled). -/
def fill_legal (g : Globals) (b : Board) : Board :=
  match get_legal_moves g b with
  | some r => r.2
  | none => b

/-- The board that `is_jang()` leaves (its opponent cache filled). -/
def fill_opponent (g : Globals) (b : Board) : Board :=
  match is_jang g b with
  | some r => r.2
  | none => b

/-- The board that `Board::winner` leaves: the function is `const`, the two caches are
`mutable` and are filled by the calls of `get_legal_moves()` and `is_jang()` that it
reaches. -/
def winner_board (g : Globals) (b : Board) : Board :=
  let b1 := if g.jang_move_is_illegal then fill_legal g b else b
  let stuck := g.jang_move_is_illegal ∧ b1.legal_move_cache.length = 0
    ∧ (b.to_move = Side.HAN ∨ b.to_move = Side.CHO)
  if stuck then b1
  else if repeat_count g b ≥ 2 then b1
  else if (score_cho b.toPosition < 10 ∨ score_han b.toPosition < 10 ∨ b.history.length ≥ 200)
      ∧ b.history.length > 0
      ∧ (hist b ((b.history.length : Int) - 1)).move.captured = 0x20 then
    fill_opponent g b1
  else b1

/-! ## Descent (`SearchNode::expand`) -/

/-- What one call of `SearchNode::expand` leaves: the value returned, the node, the buckets
of the evaluator and the board. -/
structure Descent where
  ret : ℚ
  node : SearchNode
  eval : Nat → Bucket
  board : Board

/-- `SearchNode::expand` up to the descent: the two terminal returns and the branch
`acquire_expand() == true` give the finished call (`Sum.inl`); on an expanded node
(`state >= 3`) the board after `winner()` is handed on (`Sum.inr`).  `none` when a call has
no result, when `assert(children.empty())` fails, and for `state` 1, 2 or negative, where
`acquire_expand` or `expanded_rlock` spins. -/
def expand_head (env : SearchEnv) (node : SearchNode) (ev : Nat → Bucket) (board : Board) :
    Option (Descent ⊕ Board) :=
  match winner env.g board with
  | none => none
  | some w =>
    let board0 := winner_board env.g board
    if w = Side.CHO then some (Sum.inl ⟨0, add_value node 0, ev, board0⟩)
    else if w = Side.HAN then some (Sum.inl ⟨1, add_value node 1, ev, board0⟩)
    else if node.state = 0 then
      match evaluate env ev board0 with
      | none => none
      | some (r1, ev1, board1) =>
        let again :=
          if r1.policy.isEmpty then evaluate env ev1 board1 else some (r1, ev1, board1)
        match again with
        | none => none
        | some (r2, ev2, board2) =>
          if ¬ node.children.isEmpty then none
          else
            -- `vloss += VIRTUAL_LOSS; create_children; expand_done(); vloss -= VIRTUAL_LOSS`
            let raised := SearchNode.mk node.accum_value node.accum_visits
              (int32 (node.vloss + VIRTUAL_LOSS)) 1 node.children
            match create_children env raised r2 board2 with
            | none => none
            | some made =>
              some (Sum.inl ⟨made.accum_value,
                SearchNode.mk made.accum_value made.accum_visits
                  (int32 (made.vloss - VIRTUAL_LOSS)) 3 made.children, ev2, board2⟩)
    else if node.state ≥ 3 then some (Sum.inr board0)
    else none

mutual
/-- `SearchNode::expand`. -/
def expand (env : SearchEnv) : SearchNode → (Nat → Bucket) → Board → Option Descent
  | SearchNode.mk av n vl st cs, ev, board =>
    match expand_head env (SearchNode.mk av n vl st cs) ev board with
    | none => none
    | some (Sum.inl d) => some d
    | some (Sum.inr board0) =>
      -- `vloss += VIRTUAL_LOSS`, the loop, `createChild`, `move`, the child's `expand`
      let vl1 := int32 (vl + VIRTUAL_LOSS)
      match select_best (SearchNode.mk av n vl1 st cs) board0.to_move with
      | none => none
      | some i =>
        match descend env cs i ev board0 with
        | none => none
        | some (ret, cs1, ev1, board1) =>
          -- `add_value(ret); board.unmove(); vloss -= VIRTUAL_LOSS`
          match unmove env.H board1 with
          | none => none
          | some (_, board2) =>
            some ⟨ret,
              SearchNode.mk (f32 (av + ret)) (int32 (n + 1)) (int32 (vl1 - VIRTUAL_LOSS)) st cs1,
              ev1, board2⟩
/-- The part `best->createChild(); board.move(m); best->get_child()->expand(eval, board)` of
`SearchNode::expand` for the candidate of index `i` of the list: the value returned, the
candidates with the child of that candidate replaced, the buckets and the board. -/
def descend (env : SearchEnv) :
    List SearchCandidate → Nat → (Nat → Bucket) → Board →
      Option (ℚ × List SearchCandidate × (Nat → Bucket) × Board)
  | [], _, _, _ => none
  | c :: rest, i + 1, ev, board =>
    match descend env rest i ev board with
    | none => none
    | some (ret, rest1, ev1, board1) => some (ret, c :: rest1, ev1, board1)
  | SearchCandidate.mk none m p :: rest, 0, ev, board =>
    match move env.g env.H board m with
    | none => none
    | some board1 =>
      -- a new node has `state == 0`: its call ends before the descent
      match expand_head env SearchNode.fresh ev board1 with
      | some (Sum.inl d) =>
        some (d.ret, SearchCandidate.mk (some d.node) m p :: rest, d.eval, d.board)
      | _ => none
  | SearchCandidate.mk (some ch) m p :: rest, 0, ev, board =>
    match move env.g env.H board m with
    | none => none
    | some board1 =>
      match expand env ch ev board1 with
      | none => none
      | some d => some (d.ret, SearchCandidate.mk (some d.node) m p :: rest, d.eval, d.board)
end

/-! ## Search (`Search.cpp`) -/

/-- `class SearchResult`. -/
structure SearchResult where
  visits : Int
  winrate : ℚ
  policy : ℚ
  move : Move

/-- `Search::analyze`: one result for each candidate of the root (the quotient of a child
with `accum_visits == 0`, a NaN, is carried as 0). -/
def analyze (root : SearchNode) : List SearchResult :=
  root.children.map fun x =>
    match x.get_child with
    | some ch => ⟨ch.accum_visits, f32 (ch.accum_value / f32 ch.accum_visits), x.policy, x.move⟩
    | none => ⟨0, 0, x.policy, x.move⟩

/-- What a call of `Search::search` leaves: the results returned, the root (kept in
`rootcache`), the buckets of the evaluator, the board `b2` of the descents, the counter
`runcount`, and the number of calls of `root->expand` that were made. -/
structure SearchOutcome where
  results : List SearchResult
  root : SearchNode
  eval : Nat → Bucket
  board : Board
  runcount : Nat
  descents : Nat

/-- The loop `do { root->expand(*eval, b2); runcount++; ... } while (runcount < visits)` of
`Search::search` with `num_threads == 1` (no worker thread is started) and
`print_period == 0`.  `timeout k` tells whether the deadline has passed when the clock is
read after the `k`-th call; `target` is `static_cast<size_t>(visits)`.  The first argument
bounds the number of iterations. -/
def search_loop (env : SearchEnv) (timeout : Nat → Bool) (target : Nat) :
    Nat → SearchNode → (Nat → Bucket) → Board → Nat → Nat → Option SearchOutcome
  | 0, _, _, _, _, _ => none
  | fuel + 1, root, ev, b2, runcount, descents =>
    match expand env root ev b2 with
    | none => none
    | some d =>
      let runcount1 := (runcount + 1) % 2 ^ 64
      if timeout (descents + 1) then
        some ⟨analyze d.node, d.node, d.eval, d.board, runcount1, descents + 1⟩
      else if runcount1 < target then
        search_loop env timeout target fuel d.node d.eval d.board runcount1 (descents + 1)
      else some ⟨analyze d.node, d.node, d.eval, d.board, runcount1, descents + 1⟩

/-- `Search::search` on a `Search` object without a cached root (`rootcache == nullptr`), with
`num_threads == 1`: the root is a new node, `runcount` starts at its visit count, and the
loop ends after at most `max(1, static_cast<size_t>(visits))` descents. -/
def search (env : SearchEnv) (b : Board) (ev : Nat → Bucket) (visits : Int)
    (timeout : Nat → Bool) : Option SearchOutcome :=
  let root := SearchNode.fresh
  let runcount := (root.accum_visits % 2 ^ 64).toNat
  let target := (visits % 2 ^ 64).toNat
  search_loop env timeout target (target + 1) root ev b runcount 0

/-- The node as the selection loop of `expand` reads it: `vloss` raised by
`VIRTUAL_LOSS`. -/
def raised (node : SearchNode) : SearchNode :=
  SearchNode.mk node.accum_value node.accum_visits (int32 (node.vloss + VIRTUAL_LOSS))
    node.state node.children

/-- The scores `winrate + 3.0f * puct` of the candidates of a node, in the order of
`children`. -/
def candidate_values (node : SearchNode) (to_move : Side) : List (Option ℚ) :=
  node.children.map (candidate_value (raised node) to_move)

/-- The choice of the specification: the first index, in the order of `children`, whose
score is maximal. -/
def spec_first_max : List ℚ → Option Nat
  | [] => none
  | v :: rest =>
    match spec_first_max rest with
    | none => some 0
    | some i => if rest.getD i 0 > v then some (i + 1) else some 0

/-- The empty evaluation cache. -/
def empty_eval : Nat → Bucket := fun _ => ⟨[], []⟩

/-- An `evaluate_raw` that gives the legal moves of the board in their order, the prior 1 to
each of the first three and 0 to the others, and the value 0. -/
def three_way_eval (g : Globals) (b : Board) : Option (EvalResult × Board) :=
  match get_legal_moves g b with
  | none => none
  | some (lm, b1) => some (⟨lm.enum.map fun x => (x.2, if x.1 < 3 then 1 else 0), 0⟩, b1)

/-- The options of `globals.cpp` with the evaluator `three_way_eval`; with the rate 0 the
value of `std::tanh` is multiplied by 0, the identity stands for it. -/
def three_way_env : SearchEnv :=
  ⟨Globals.default, example_hash, 20000, 0, fun x => x, three_way_eval Globals.default⟩

/-- The indices of the candidates that have a child, in a list of candidates. -/
def visited_indices (cs : List SearchCandidate) : List Nat :=
  (cs.enum.filter fun x => x.2.get_child.isSome).map Prod.fst

/-- The two caches of legal moves of a board are empty or hold what the generator computes
for the board under the options `g`. -/
def cache_ok (g : Globals) (b : Board) : Prop :=
  (b.legal_move_cache = [] ∨ compute_legal_moves g b.toPosition = some b.legal_move_cache)
    ∧ (b.legal_move_opponent_cache = []
      ∨ raw_get_legal_moves g { b.toPosition with to_move := opponent b.to_move }
          = some b.legal_move_opponent_cache)

/-- The function `evaluate_raw` leaves the board as it is but for its two caches, and coherent
caches stay coherent (the two `evaluate_raw` of the repository call `const` member
functions of the board only). -/
def keeps_board (env : SearchEnv) : Prop :=
  ∀ b r b1, env.evaluate_raw b = some (r, b1) →
    clear_cache b1 = clear_cache b ∧ (cache_ok env.g b → cache_ok env.g b1)

/-- Sum of the visit counts of the children of a node (0 for a null child). -/
def child_visits (cs : List SearchCandidate) : Int :=
  (cs.map fun c =>
    match c.get_child with
    | some ch => ch.accum_visits
    | none => 0).sum

mutual
/-- In the tree under a node whose board is `b`, the field `captured` of every candidate's
move is the content of the move's destination on the board of the candidate's node (the
board of a child is the board of its parent after `move`). -/
def wf_tree (g : Globals) (H : HashConstants) : Board → SearchNode → Bool
  | b, SearchNode.mk _ _ _ _ cs => wf_children g H b cs
/-- The candidates of a list, on the board `b` of their node, and the trees below them. -/
def wf_children (g : Globals) (H : HashConstants) : Board → List SearchCandidate → Bool
  | _, [] => true
  | b, SearchCandidate.mk none m _ :: rest =>
    decide (m.captured = b.board m.yx_to) && wf_children g H b rest
  | b, SearchCandidate.mk (some ch) m _ :: rest =>
    decide (m.captured = b.board m.yx_to)
      && (match move g H b m with
          | some b1 => wf_tree g H b1 ch
          | none => true)
      && wf_children g H b rest
end

mutual
/-- The tally of the visits in a tree: no visit count is negative, and every node is either
unexpanded (`state == 0`) without candidates, or expanded (`state >= 3`) with a visit count
of one plus the sum of the visit counts of its children. -/
def counted : SearchNode → Prop
  | SearchNode.mk _ n _ st cs =>
    0 ≤ n ∧ ((st = 0 ∧ cs = []) ∨ (3 ≤ st ∧ n = 1 + child_visits cs)) ∧ counted_children cs
/-- The nodes below the candidates of a list are counted. -/
def counted_children : List SearchCandidate → Prop
  | [] => True
  | SearchCandidate.mk none _ _ :: rest => counted_children rest
  | SearchCandidate.mk (some ch) _ _ :: rest => counted ch ∧ counted_children rest
end

mutual
/-- In the tree under a node of board `b`, every expanded node stands on a board without a
winner, and every unexpanded node that has been visited on a board with a winner. -/
def live (g : Globals) (H : HashConstants) : Board → SearchNode → Prop
  | b, SearchNode.mk _ n _ st cs =>
    (3 ≤ st → winner g b = some Side.NONE)
      ∧ (st = 0 → n ≠ 0 → winner g b = some Side.CHO ∨ winner g b = some Side.HAN)
      ∧ live_children g H b cs
/-- The trees below the candidates of a list, on the board `b` of their node. -/
def live_children (g : Globals) (H : HashConstants) : Board → List SearchCandidate → Prop
  | _, [] => True
  | b, SearchCandidate.mk none _ _ :: rest => live_children g H b rest
  | b, SearchCandidate.mk (some ch) m _ :: rest =>
    (match move g H b m with
      | some b1 => live g H b1 ch
      | none => True) ∧ live_children g H b rest
end

/-- No candidate of the list has a child. -/
def all_null (cs : List SearchCandidate) : Prop := ∀ c ∈ cs, c.get_child = none

/-- What a call of `expand` on `node` does when the board keeps its side to move and its
hashes are 64-bit values, the tree is tallied and live, the visit count stays below
`2 ^ 31` and the tree after the call is well formed: the board keeps all but its caches, the
tree stays tallied and live, and the visit count of the node goes up by one. -/
def descent_ok (env : SearchEnv) (node : SearchNode) : Prop :=
  ∀ ev b d, b.to_move ≠ Side.NONE → b.playhash < 2 ^ 64 → counted node →
    live env.g env.H b node → node.accum_visits + 1 < 2 ^ 31 →
    expand env node ev b = some d → wf_tree env.g env.H b d.node = true →
    clear_cache d.board = clear_cache b ∧ (cache_ok env.g b → cache_ok env.g d.board)
      ∧ counted d.node ∧ live env.g env.H b d.node
      ∧ d.node.accum_visits = node.accum_visits + 1

/-- An `evaluate_raw` that gives the legal moves of the board in their order, each with the
prior 1, and the value 0. -/
def uniform_eval (g : Globals) (b : Board) : Option (EvalResult × Board) :=
  match get_legal_moves g b with
  | none => none
  | some (lm, b1) => some (⟨lm.map fun m => (m, 1), 0⟩, b1)

/-- The options of `globals.cpp` with the evaluator `uniform_eval`; with the rate 0 the
value of `std::tanh` is multiplied by 0, the identity stands for it. -/
def uniform_env : SearchEnv :=
  ⟨Globals.default, example_hash, 20000, 0, fun x => x, uniform_eval Globals.default⟩

/-! ## Concrete instances for the history record -/

/-- A game of two plies from the opening position: Soldier 60-61, Soldier 30-31. -/
def before_check : Option Board :=
  play Globals.default example_hash opening [⟨11, 60, 61, 32⟩, ⟨27, 30, 31, 32⟩]

/-- The Chariot move 90-10, which gives check in the game `before_check`. -/
def checking_move : Move := ⟨3, 90, 10, 32⟩

/-! ## Weight files (`Network.cpp`) -/

/-- The value `linecount - (1 + 4 + 14)` of `load_v1_network` and `load_v5_network`, a
`size_t`: the subtraction is taken modulo `2 ^ 64`. -/
def residual_lines (linecount : Nat) : Nat := (((linecount : Int) - (1 + 4 + 14)) % 2 ^ 64).toNat

/-- The count of `load_v1_network`: `linecount` is 1 for the version line plus one for each
line that `std::getline` reads.  `none` when "Inconsistent number of weights in the file."
is thrown, otherwise the number of residual blocks. -/
def load_v1_network_blocks (linecount : Nat) : Option Nat :=
  if residual_lines linecount % 8 ≠ 0 then none else some (residual_lines linecount / 8)

/-- The count of `load_v5_network`. -/
def load_v5_network_blocks (linecount : Nat) : Option Nat :=
  if residual_lines linecount % 10 ≠ 0 then none else some (residual_lines linecount / 10)

/-! ## The strict legal-move utility (`util.cpp`) -/

/-- The loop of `get_legal_moves_wrapper`: `b.move(x)`, the test
`b.winner() == NONE || b.winner() == to_move` (the second call is made only when the first
does not return NONE), `b.unmove()`.  Returns the moves kept and the board. -/
def wrapper_loop (g : Globals) (H : HashConstants) (to_move : Side) :
    Board → List Move → Option (List Move × Board)
  | b, [] => some ([], b)
  | b, x :: rest =>
    match move g H b x with
    | none => none
    | some b1 =>
      match winner g b1 with
      | none => none
      | some w =>
        let b2 := winner_board g b1
        let b3 := if w = Side.NONE then b2 else winner_board g b2
        match unmove H b3 with
        | none => none
        | some (_, b4) =>
          match wrapper_loop g H to_move b4 rest with
          | none => none
          | some (ret, b5) => some (if w = Side.NONE ∨ w = to_move then x :: ret else ret, b5)

/-- `get_legal_moves_wrapper`: the moves returned, the options and the board after the call.
The options are a global of the program; they are passed in and out. -/
def get_legal_moves_wrapper (g : Globals) (H : HashConstants) (b : Board) :
    Option (List Move × Globals × Board) :=
  let g1 := { g with jang_move_is_illegal := true }
  let b1 := clear_cache b
  match get_legal_moves g1 b1 with
  | none => none
  | some (lm, b2) =>
    match wrapper_loop g1 H b2.to_move b2 lm with
    | none => none
    | some (ret, b3) => some (ret, { g1 with jang_move_is_illegal := false }, clear_cache b3)

/-- A board with the two Generals only: Cho's on 93, Han's on 5, Cho to move. -/
def duel : Board :=
  { cached_score_han := 3 / 2, cached_score_cho := 0, to_move := Side.CHO,
    board := fun yx => if yx = 93 then 0 else if yx = 5 then 16 else 32,
    history := [], boardhash := 0, playhash := 0,
    legal_move_cache := [], legal_move_opponent_cache := [] }

/-! ## Reachability under fixed options; placement of Soldiers, Generals and Guards -/

/-- Boards reachable from a starting layout by playing moves taken from `get_legal_moves`,
every call being made under options that satisfy `ok`. -/
inductive ReachableUnder (ok : Globals → Prop) (H : HashConstants) : Board → Prop
  | start (cho_state han_state : StartingState) :
      ReachableUnder ok H (init H cho_state han_state)
  | step (g g' : Globals) (b b1 b2 : Board) (ms : List Move) (m : Move) :
      ReachableUnder ok H b → ok g → ok g' → get_legal_moves g b = some (ms, b1) → m ∈ ms →
      move g' H b1 m = some b2 → ReachableUnder ok H b2

/-- A Cho Soldier (codes 0x0b..0x0f). -/
def is_cho_jol (code : Nat) : Prop := 0x0b ≤ code ∧ code ≤ 0x0f

/-- A Han Soldier (codes 0x1b..0x1f). -/
def is_han_jol (code : Nat) : Prop := 0x1b ≤ code ∧ code ≤ 0x1f

/-- Every Cho Soldier stands on a row `y <= 6` and every Han Soldier on a row `y >= 3`. -/
def jol_rows (cells : Int → Nat) : Prop :=
  ∀ yx, on_board yx → (is_cho_jol (cells yx) → yx / 10 ≤ 6) ∧ (is_han_jol (cells yx) → 3 ≤ yx / 10)

/-- The Soldier steps of the specification, for a Soldier of side `s` (Cho's forward is
towards row 0, Han's towards row 9): one step forward, one step sideways, or one
forward-diagonal step inside the enemy palace. -/
def spec_jol_step (s : Side) (m : Move) : Prop :=
  let fw : Int := if s = Side.CHO then -1 else 1
  let dy := m.yx_to / 10 - m.yx_from / 10
  let dx := m.yx_to % 10 - m.yx_from % 10
  (dy = fw ∧ dx = 0) ∨ (dy = 0 ∧ (dx = 1 ∨ dx = -1))
    ∨ (dy = fw ∧ (dx = 1 ∨ dx = -1) ∧ palace m.yx_from ∧ palace m.yx_to
        ∧ (if s = Side.CHO then m.yx_from / 10 ≤ 2 ∧ m.yx_to / 10 ≤ 2
            else 7 ≤ m.yx_from / 10 ∧ 7 ≤ m.yx_to / 10))

/-- The nine squares of the palace of the side of a piece code: rows 7..9 for Cho (codes
below 0x10), rows 0..2 for Han, columns 3..5. -/
def home_palace (code : Nat) (yx : Int) : Prop :=
  3 ≤ yx % 10 ∧ yx % 10 ≤ 5 ∧ 0 ≤ yx ∧ yx < 100
    ∧ (if code / 16 = 0 then 7 ≤ yx / 10 else yx / 10 ≤ 2)

instance home_palace_decidable (code : Nat) (yx : Int) : Decidable (home_palace code yx) := by
  unfold home_palace; infer_instance

/-- Every General and Guard stands on a square of the palace of its side. -/
def at_home (cells : Int → Nat) : Prop :=
  ∀ yx, on_board yx → cells yx < 0x20 → cells yx % 16 ≤ 2 → home_palace (cells yx) yx

/-- No side has two Generals on the board. -/
def one_goong (cells : Int → Nat) : Prop :=
  ∀ a b, on_board a → on_board b → cells a = cells b → cells a < 0x20 → cells a % 16 = 0 → a = b

/-- The options with `allow_bikjang` off. -/
def no_bikjang (g : Globals) : Prop := g.allow_bikjang = false

/-- The options of `globals.cpp`. -/
def default_options (g : Globals) : Prop := g = Globals.default

/-- The game 1. Soldier 60-61, Soldier 30-31; 2. Chariot 90-10 (check), Soldier 38-37, every
move taken from `get_legal_moves()` under the options of `globals.cpp`: Cho's Chariot on 10
attacks Han's General on 14. -/
def capture_game : Board :=
  (play_legal Globals.default example_hash opening
    [⟨11, 60, 61, 32⟩, ⟨27, 30, 31, 32⟩, ⟨3, 90, 10, 32⟩, ⟨31, 38, 37, 32⟩]).getD opening

/-! ## Forced wins (`Board::can_win`, `__can_win`, `__must_lose`)

The three functions work on the cells and the side to move, through `move_piece_only` and
`unmove_piece_only`, which leave the board, hash included, as they found it
(`unmove_piece_only_move_piece_only`); they are stated on `Position`.  The flag `timeout`,
set by the timer thread, is taken to keep one value during a call. -/

/-- The callbacks of `__can_win` over the reported moves.  `must_lose` is
`__must_lose(depth - 1, timeout)` on the board at hand and `deep` is `depth > 1`.  Once
`retv` is not empty the remaining callbacks return at once. -/
def can_win_scan (must_lose : Position → Option (List Move)) (deep : Bool) (p : Position) :
    List Move → Option (List Move)
  | [] => some []
  | m :: rest =>
    if captures_goong m then some [m]
    else if deep then
      match must_lose (move_cells p m) with
      | none => none
      | some v =>
        match unmove_cells (move_cells p m) m with
        | none => none
        | some _ =>
          if v.length > 0 then some (m :: v) else can_win_scan must_lose deep p rest
    else can_win_scan must_lose deep p rest

/-- The callbacks of `__must_lose` over the reported moves, from the value `vv` of the
accumulator.  `can_win` is `__can_win(depth, timeout)` on the board at hand.  A reply
without a winning answer clears `vv` and sets `found_undecided`: the remaining callbacks
return at once. -/
def must_lose_scan (can_win : Position → Option (List Move)) (p : Position) :
    List Move → List Move → Option (List Move)
  | [], vv => some vv
  | m :: rest, vv =>
    match can_win (move_cells p m) with
    | none => none
    | some v =>
      match unmove_cells (move_cells p m) m with
      | none => none
      | some _ =>
        if v.length > 0 then
          must_lose_scan can_win p rest (if vv.length ≤ v.length then m :: v else vv)
        else some []

/-- `Board::__must_lose(depth, timeout)`, given `__can_win(depth, timeout)` (`win_same`) and
`__can_win(depth - 1, timeout)` (`win_less`).  The lambda `__is_jang` is
`can_win_immediately()` with the side to move switched. -/
def must_lose (g : Globals) (win_same win_less : Position → Option (List Move)) (depth : Nat)
    (p : Position) : Option (List Move) :=
  if depth = 0 then some []
  else if winner_piece_only p ≠ Side.NONE then some []
  else
    match can_win_immediately g { p with to_move := opponent p.to_move } with
    | none => none
    | some jang =>
      if (if jang then depth else depth - 1) = 0 then some []
      else
        match raw_get_legal_moves g p with
        | none => none
        | some ms => must_lose_scan (if jang then win_same else win_less) p ms []

/-- `Board::__can_win` after the tests on `depth`: the test on `winner_piece_only()` and the
callbacks. -/
def can_win_body (g : Globals) (must_lose : Position → Option (List Move)) (deep : Bool)
    (p : Position) : Option (List Move) :=
  if winner_piece_only p ≠ Side.NONE then some []
  else
    match raw_get_legal_moves g p with
    | none => none
    | some ms => can_win_scan must_lose deep p ms

/-- `Board::__can_win(depth, timeout)`: with `depth > 2` and the flag set the depth becomes
1. -/
def can_win_rec (g : Globals) (timeout : Bool) : Nat → Position → Option (List Move)
  | 0, _ => some []
  | 1, p => can_win_body g (fun _ => some []) false p
  | d + 2, p =>
    if d + 2 > 2 ∧ timeout = true then can_win_body g (fun _ => some []) false p
    else
      can_win_body g
        (must_lose g (can_win_rec g timeout (d + 1)) (can_win_rec g timeout d) (d + 1)) true p

/-- The loop `for (int i = 1; !timeout && i <= depth; i++)` of `Board::can_win` from `i`,
with the number of iterations left. -/
def can_win_loop (g : Globals) (timeout : Bool) (p : Position) : Nat → Nat → Option (List Move)
  | 0, _ => some []
  | n + 1, i =>
    if timeout then some []
    else
      match can_win_rec g timeout i p with
      | none => none
      | some x => if x.length > 0 then some x else can_win_loop g timeout p n (i + 1)

/-- `Board::can_win(depth, timeout_ms)`, for the value `timeout` of the timer's flag. -/
def can_win (g : Globals) (depth : Int) (timeout : Bool) (p : Position) : Option (List Move) :=
  can_win_loop g timeout p depth.toNat 1

/-- Both Generals are on the board. -/
def both_goongs (p : Position) : Prop :=
  (∃ a, on_board a ∧ p.board a = 0x00) ∧ (∃ a, on_board a ∧ p.board a = 0x10)

/-- A move by which a piece that is not a General captures the enemy General. -/
def takes_goong (m : Move) : Prop :=
  m.piece % 16 ≠ 0 ∧ (m.captured = 0x00 ∨ m.captured = 0x10) ∧ m.captured / 16 ≠ m.piece / 16

instance takes_goong_decidable (m : Move) : Decidable (takes_goong m) := by
  unfold takes_goong; infer_instance

/-- Some generated move of a piece that is not a General captures the enemy General. -/
def spec_capture (g : Globals) (p : Position) : Prop :=
  ∃ ms, raw_get_legal_moves g p = some ms ∧ ∃ m ∈ ms, takes_goong m

/-- The side to move is in check: the opponent, if it were to move, could capture its
General. -/
def spec_in_check (g : Globals) (p : Position) : Prop :=
  spec_capture g { p with to_move := opponent p.to_move }

/-- The predicate `Lose(b, d)` of the specification, given `Win(., d)` and `Win(., d - 1)`. -/
def spec_lose_of (g : Globals) (win_same win_less : Position → Prop) (d : Nat)
    (p : Position) : Prop :=
  both_goongs p
    ∧ ((spec_in_check g p ∧ 1 ≤ d
        ∧ ∀ ms, raw_get_legal_moves g p = some ms → ∀ r ∈ ms, win_same (move_cells p r))
      ∨ (¬ spec_in_check g p ∧ 1 ≤ d - 1
        ∧ ∀ ms, raw_get_legal_moves g p = some ms → ∀ r ∈ ms, win_less (move_cells p r)))

/-- The predicate `Win(b, d)` of the specification. -/
def spec_win (g : Globals) : Nat → Position → Prop
  | 0, _ => False
  | 1, p => both_goongs p ∧ spec_capture g p
  | d + 2, p =>
    both_goongs p
      ∧ (spec_capture g p
        ∨ ∃ ms, raw_get_legal_moves g p = some ms ∧ ∃ m ∈ ms,
            spec_lose_of g (spec_win g (d + 1)) (spec_win g d) (d + 1) (move_cells p m))

/-- The predicate `Lose(b, d)` of the specification. -/
def spec_lose (g : Globals) (d : Nat) (p : Position) : Prop :=
  spec_lose_of g (spec_win g d) (spec_win g (d - 1)) d p

/-- A sequence of moves, each generated on the position that the moves before it lead to
(the sides alternate). -/
def is_line (g : Globals) : Position → List Move → Prop
  | _, [] => True
  | p, m :: rest =>
    (∃ ms, raw_get_legal_moves g p = some ms ∧ m ∈ ms) ∧ is_line g (move_cells p m) rest

/-- A line of generated moves on `p` whose length has parity `par` and whose last move is the
capture of the enemy General by a piece that is not a General. -/
def forced_line (par : Nat) (g : Globals) (p : Position) (res : List Move) : Prop :=
  res.length % 2 = par ∧ is_line g p res ∧ ∃ m, res.getLast? = some m ∧ takes_goong m

/-- The conditions on the boards of the forced-win search: the side to move is CHO or HAN,
Generals and Guards stand in the palace of their side, no side has two Generals, and some
General is on the board. -/
def search_board (p : Position) : Prop :=
  p.to_move ≠ Side.NONE ∧ at_home p.board ∧ one_goong p.board
    ∧ ∃ a, on_board a ∧ (p.board a = 0x00 ∨ p.board a = 0x10)

/-- The function `cw` decides the predicate `W` on the boards of the search: it has a result,
which is not empty exactly when `W` holds, and a result that is not empty is a line of odd
length ending with the capture of the General. -/
def win_ok (g : Globals) (cw : Position → Option (List Move)) (W : Position → Prop) : Prop :=
  ∀ p, search_board p →
    ∃ res, cw p = some res ∧ (res ≠ [] ↔ W p) ∧ (res ≠ [] → forced_line 1 g p res)

/-- A position with Cho's General on 83, Han's General on 4 and Cho Chariots on 10 and 58,
Cho to move: Chariot 58-8 gives check along the top row, the other Chariot holds the second
row, and after any reply a Chariot takes the General. -/
def mate_position : Position :=
  { cached_score_han := 3 / 2, cached_score_cho := 26, to_move := Side.CHO,
    board := fun yx =>
      if yx = 83 then 0 else if yx = 4 then 16 else if yx = 10 then 3
      else if yx = 58 then 4 else 32 }

/-- The position `mate_position` with the second Chariot on 8 already: it attacks Han's
General along the top row. -/
def check_position : Position :=
  { cached_score_han := 3 / 2, cached_score_cho := 26, to_move := Side.CHO,
    board := fun yx =>
      if yx = 83 then 0 else if yx = 4 then 16 else if yx = 10 then 3
      else if yx = 8 then 4 else 32 }

/-! ## The expansion lock of a node (`SearchNode::state`)

Threads that call `SearchNode::expand` on one node, on a board without winner.  Every
operation on the atomic `state` has the default ordering (sequentially consistent), so an
execution is an interleaving of the atomic operations of the threads; a step below is one
such operation by one thread, together with the accesses to `children` that follow it in
that thread up to its next atomic operation.  `compare_exchange_weak` may fail although the
value is the expected one (`spurious`). -/

/-- Where a thread stands in `SearchNode::expand` on the node. -/
inductive Pc where
  /-- Outside `expand` on this node (before a call, or after `expand_done()` or
  `expanded_runlock()`). -/
  | idle
  /-- In `acquire_expand`, before `state.load()`. -/
  | acquire_load
  /-- In `acquire_expand` after a load of 0, before `compare_exchange_weak(expected, 1)`. -/
  | acquire_cas
  /-- After `acquire_expand()` returned true, before `assert(children.empty())`. -/
  | asserting
  /-- In `create_children`, before an `emplace_back` or, after the last one, before
  `expand_done()`. -/
  | creating
  /-- In `expanded_rlock`, before `state.load()`. -/
  | rlock_load
  /-- In `expanded_rlock` after a load of `x >= 3`, before `compare_exchange_weak(x, x+1)`. -/
  | rlock_cas (x : Int)
  /-- In the loop over `children`, before `expanded_runlock()`. -/
  | reading
  /-- After `assert(children.empty())` failed. -/
  | crashed
  deriving DecidableEq

/-- The node as the threads share it: `state`, the number of candidates in `children`, the
number of candidates `create_children` will have put there (the size of the policy), the
number of calls of `acquire_expand()` that returned true so far, and where each thread
stands. -/
structure NodeLock where
  state : Int
  built : Nat
  total : Nat
  wins : Nat
  pcs : List Pc

/-- `SearchNode::is_expanded` on a loaded value. -/
def is_expanded (state : Int) : Bool := decide (state ≥ 2)

/-- `SearchNode::expand_done`: `state.store(3)`. -/
def expand_done (c : NodeLock) : NodeLock := { c with state := 3 }

/-- `SearchNode::expanded_runlock`: `state--`. -/
def expanded_runlock (c : NodeLock) : NodeLock := { c with state := c.state - 1 }

/-- One atomic step of thread `i`.  A call of `expand` evaluates the board or not according
to `is_expanded()` and enters `acquire_expand()`; `acquire_expand` loads `state`, tries the
exchange on 0, returns false on a value of 2 or more and loops otherwise; the winner checks
`children.empty()`, puts the candidates into `children` one by one and calls
`expand_done()`; the others enter `expanded_rlock()`, which loads `state` until it is 3 or
more and tries the exchange to `x + 1`, read `children` and call `expanded_runlock()`. -/
def expand_step (c : NodeLock) (i : Nat) (spurious : Bool) : NodeLock :=
  match c.pcs[i]? with
  | none => c
  | some Pc.idle => { c with pcs := c.pcs.set i Pc.acquire_load }
  | some Pc.acquire_load =>
    if c.state = 0 then { c with pcs := c.pcs.set i Pc.acquire_cas }
    else if is_expanded c.state then { c with pcs := c.pcs.set i Pc.rlock_load }
    else c
  | some Pc.acquire_cas =>
    if c.state = 0 ∧ spurious = false then
      { c with state := 1, wins := c.wins + 1, pcs := c.pcs.set i Pc.asserting }
    else { c with pcs := c.pcs.set i Pc.acquire_load }
  | some Pc.asserting =>
    if c.built = 0 then { c with pcs := c.pcs.set i Pc.creating }
    else { c with pcs := c.pcs.set i Pc.crashed }
  | some Pc.creating =>
    if c.built < c.total then { c with built := c.built + 1 }
    else { expand_done c with pcs := c.pcs.set i Pc.idle }
  | some Pc.rlock_load =>
    if c.state ≥ 3 then { c with pcs := c.pcs.set i (Pc.rlock_cas c.state) }
    else c
  | some (Pc.rlock_cas x) =>
    if c.state = x ∧ spurious = false then
      { c with state := x + 1, pcs := c.pcs.set i Pc.reading }
    else { c with pcs := c.pcs.set i Pc.rlock_load }
  | some Pc.reading => { expanded_runlock c with pcs := c.pcs.set i Pc.idle }
  | some Pc.crashed => c

/-- An execution: the steps of a schedule, each naming the thread that moves and whether
its exchange, if the step is one, fails spuriously. -/
def run_schedule (c : NodeLock) : List (Nat × Bool) → NodeLock
  | [] => c
  | (i, s) :: rest => run_schedule (expand_step c i s) rest

/-- A new node (`state{0}`, no candidates) and `n` threads about to call `expand` on it. -/
def fresh_lock (n total : Nat) : NodeLock := ⟨0, 0, total, 0, List.replicate n Pc.idle⟩

/-- The thread is the expander: it won `acquire_expand()` and has not called
`expand_done()` yet. -/
def is_expander : Pc → Bool
  | Pc.asserting => true
  | Pc.creating => true
  | _ => false

/-- The thread is before `assert(children.empty())`. -/
def is_asserting : Pc → Bool
  | Pc.asserting => true
  | _ => false

/-- The thread is in `create_children`. -/
def is_creating : Pc → Bool
  | Pc.creating => true
  | _ => false

/-- The thread holds the read lock. -/
def is_reading : Pc → Bool
  | Pc.reading => true
  | _ => false

/-- Invariant of the executions: `state` is 0 with no expander, no reader and no candidate;
or 1 with one expander and no reader; or 3 plus the number of readers, with no expander and
all the candidates in place; every value held for the exchange of `expanded_rlock` is 3 or
more; no assert has failed. -/
def lock_inv (c : NodeLock) : Prop :=
  ((c.state = 0 ∧ c.wins = 0 ∧ c.pcs.countP is_asserting = 0 ∧ c.pcs.countP is_creating = 0
      ∧ c.pcs.countP is_reading = 0 ∧ c.built = 0)
    ∨ (c.state = 1 ∧ c.wins = 1
      ∧ c.pcs.countP is_asserting + c.pcs.countP is_creating = 1
      ∧ c.pcs.countP is_reading = 0 ∧ c.built ≤ c.total
      ∧ (c.pcs.countP is_asserting = 1 → c.built = 0))
    ∨ (c.state = 3 + (c.pcs.countP is_reading : Int) ∧ c.wins = 1
      ∧ c.pcs.countP is_asserting = 0 ∧ c.pcs.countP is_creating = 0 ∧ c.built = c.total))
  ∧ (∀ x, Pc.rlock_cas x ∈ c.pcs → 3 ≤ x)
  ∧ Pc.crashed ∉ c.pcs

/-! ## Reuse of the cached root (`Search::search`, the block on `rootcache`)

The members `rootcache` (`none` for `nullptr`) and `boardcache` of the `Search` object are
arguments; a call leaves its root in `rootcache` and a copy of its board in `boardcache`. -/

/-- `Move::operator==`: origin, destination and piece are compared, `captured` is not. -/
def move_same (a b : Move) : Bool :=
  decide (a.yx_from = b.yx_from) && decide (a.yx_to = b.yx_to) && decide (a.piece = b.piece)

/-- `Board::compare`; `none` when one of its `assert`s fails. -/
def compare (b other : Board) : Option Bool :=
  if squares.any fun yx => decide (b.board yx ≠ other.board yx) then
    if b.boardhash ≠ other.boardhash ∧ b.playhash ≠ other.playhash then some false else none
  else if b.to_move ≠ other.to_move then some false
  else if b.boardhash ≠ other.boardhash then none
  else if b.history.length ≠ other.history.length then some false
  else if (b.history.zip other.history).any fun x => !(move_same x.1.move x.2.move) then some false
  else if b.playhash ≠ other.playhash then none
  else some true

/-- The loop `while (boardcache.get_movenum() != b.get_movenum())` of `Search::search`, for
the number of moves that `b` has more than `boardcache`: `b.unmove()` and
`stack.push_front(m)`. -/
def unmake (H : HashConstants) : Nat → Board → List Move → Option (Board × List Move)
  | 0, b, stack => some (b, stack)
  | k + 1, b, stack =>
    match unmove H b with
    | none => none
    | some (m, b1) => unmake H k b1 (m :: stack)

/-- The inner loop `for (auto & x : root->children)` for one move of the stack: the first
candidate whose move equals `mv` gives its child (`nullptr` when it has none) to `root`;
when no candidate has the move, `root` is left as it is. -/
def promote (root : SearchNode) (mv : Move) : Option SearchNode :=
  match root.children.find? fun x => move_same x.move mv with
  | some x => x.get_child
  | none => some root

/-- The loop `for (auto & mv : stack)` with its `if (root == nullptr) break;`. -/
def follow : Option SearchNode → List Move → Option SearchNode
  | none, _ => none
  | some root, [] => some root
  | some root, mv :: rest => follow (promote root mv) rest

/-- The block of `Search::search` on `rootcache`: the value of `root` after it (`none` for
`nullptr`) and the board `b`, unmade down to the length of `boardcache` and made again. -/
def reuse_root (env : SearchEnv) (rootcache : Option SearchNode) (boardcache b : Board) :
    Option (Option SearchNode × Board) :=
  match rootcache with
  | none => some (none, b)
  | some cached =>
    if boardcache.history.length ≤ b.history.length then
      match unmake env.H (b.history.length - boardcache.history.length) b [] with
      | none => none
      | some (b0, stack) =>
        match compare boardcache b0 with
        | none => none
        | some same =>
          match play env.g env.H b0 stack with
          | none => none
          | some b1 => some (if same then follow (some cached) stack else none, b1)
    else some (none, b)

/-- `Search::search` with `num_threads == 1` on a `Search` object that holds `rootcache` and
`boardcache`: the root is the node the block on `rootcache` leaves or a new node, `runcount`
starts at its visit count. -/
def search_cached (env : SearchEnv) (rootcache : Option SearchNode) (boardcache b : Board)
    (ev : Nat → Bucket) (visits : Int) (timeout : Nat → Bool) : Option SearchOutcome :=
  match reuse_root env rootcache boardcache b with
  | none => none
  | some (r, b1) =>
    let root := r.getD SearchNode.fresh
    let runcount := (root.accum_visits % 2 ^ 64).toNat
    let target := (visits % 2 ^ 64).toNat
    search_loop env timeout target (target + 1) root ev b1 runcount 0

/-- The opening position after a pass of each side: the game is over, `winner()` is HAN by
the score. -/
def passed_out : Option Board :=
  play Globals.default example_hash opening [⟨0, 84, 84, 0⟩, ⟨16, 14, 14, 16⟩]

/-- A first call of `Search::search` with `visits = 2`, on `passed_out`, by a `Search`
object without cached root. -/
def finished_search : Option SearchOutcome :=
  passed_out.bind fun b => search uniform_env b empty_eval 2 fun _ => false

/-- The board `passed_out` after the Soldier move 60-61. -/
def played_on : Option Board :=
  passed_out.bind fun b => move Globals.default example_hash b ⟨11, 60, 61, 32⟩

/-! ## Concrete instances for the forced-win search and the visit tally -/

/-- A position with the two Generals only, Cho's on 93 and Han's on 3, on the same file with
nothing between them, Cho to move; Han's score is below 72, so with `allow_bikjang` on the
generator reports the capture 93x3 by Cho's General. -/
def facing : Position :=
  { cached_score_han := 3 / 2, cached_score_cho := 0, to_move := Side.CHO,
    board := fun yx => if yx = 93 then 0 else if yx = 3 then 16 else 32 }

/-- An `evaluate_raw` that gives the legal moves of the board in their order, the prior 1 to
the moves that go to square 4 and 0 to the others, and the value 0. -/
def aimed_eval (g : Globals) (b : Board) : Option (EvalResult × Board) :=
  match get_legal_moves g b with
  | none => none
  | some (lm, b1) => some (⟨lm.map fun m => (m, if m.yx_to = 4 then 1 else 0), 0⟩, b1)

/-- The options of `globals.cpp` with the evaluator `aimed_eval`; with the rate 0 the value of
`std::tanh` is multiplied by 0, the identity stands for it. -/
def aimed_env : SearchEnv :=
  ⟨Globals.default, example_hash, 20000, 0, fun x => x, aimed_eval Globals.default⟩

/-- A board with Cho's General on 83, Cho Chariots on 10 and 8 and Han's General on 4, Cho to
move, `playhash` 0: the Chariot on 8 can take the General. -/
def trap : Board :=
  { cached_score_han := 3 / 2, cached_score_cho := 26, to_move := Side.CHO,
    board := fun yx =>
      if yx = 83 then 0 else if yx = 4 then 16 else if yx = 10 then 3
      else if yx = 8 then 4 else 32,
    history := [], boardhash := 0, playhash := 0,
    legal_move_cache := [], legal_move_opponent_cache := [] }

theorem mem_squares (yx : Int) : yx ∈ squares ↔ on_board yx := by
  unfold squares on_board
  simp only [List.mem_flatMap, List.mem_map, List.mem_range]
  constructor
  · rintro ⟨y, hy, x, hx, rfl⟩
    omega
  · intro h
    refine ⟨(yx / 10).toNat, by omega, (yx % 10).toNat, by omega, by omega⟩

theorem squares_nodup : squares.Nodup := by decide

theorem palace_on_board {yx : Int} (h : palace yx) : on_board yx := by
  unfold palace at h; unfold on_board; omega

/-! ## What each part of the generator reports -/

theorem mem_possible_legal_move {p : Position} {f t : Int} {m : Move} :
    m ∈ possible_legal_move p f t ↔ (m = emit p f t ∧ p.board f / 16 ≠ p.board t / 16) := by
  unfold possible_legal_move is_same_side
  simp only [Nat.shiftRight_eq_div_pow, decide_eq_true_eq]
  split <;> simp_all

theorem mem_leap_to {p : Position} {f yo xo : Int} {m : Move} :
    m ∈ leap_to p f yo xo ↔
      ((0 ≤ yo ∧ yo < 10 ∧ 0 ≤ xo ∧ xo < 9) ∧ m = emit p f (yo * 10 + xo)
        ∧ p.board f / 16 ≠ p.board (yo * 10 + xo) / 16) := by
  unfold leap_to in_range
  simp only [decide_eq_true_eq, ge_iff_le]
  split <;> simp_all [mem_possible_legal_move]

theorem mem_ray {cond : Int → Int → Bool} {dy dx : Int} {t : Int} :
    ∀ (n : Nat) (yo xo : Int), t ∈ ray cond dy dx n yo xo →
      ∃ k : Nat, k < n ∧ t = (yo + k * dy) * 10 + (xo + k * dx)
        ∧ cond (yo + k * dy) (xo + k * dx) = true
  | 0, _, _, h => by simp [ray] at h
  | n + 1, yo, xo, h => by
    unfold ray at h
    split at h
    · rename_i hc
      rcases List.mem_cons.1 h with h | h
      · exact ⟨0, by omega, by simp [h], by simpa using hc⟩
      · obtain ⟨k, hk, ht, hcond⟩ := mem_ray n _ _ h
        refine ⟨k + 1, by omega, ?_, ?_⟩
        · rw [ht]; push_cast; ring
        · have e1 : yo + ((k + 1 : Nat) : Int) * dy = yo + dy + k * dy := by push_cast; ring
          have e2 : xo + ((k + 1 : Nat) : Int) * dx = xo + dx + k * dx := by push_cast; ring
          rw [e1, e2]; exact hcond
    · simp at h

theorem emit_reported {p : Position} {f t : Int} (ht : on_board t) (hne : t ≠ f) :
    Reported p f (emit p f t) := ⟨rfl, rfl, rfl, ht, hne⟩

theorem mem_cha_loop {p : Position} {f : Int} {m : Move} :
    ∀ (l : List Int), m ∈ cha_loop p f l →
      ∃ t ∈ l, m = emit p f t ∧ p.board f / 16 ≠ p.board t / 16
  | [], h => by simp [cha_loop] at h
  | t :: rest, h => by
    unfold cha_loop at h
    rcases List.mem_append.1 h with h | h
    · exact ⟨t, List.mem_cons_self _ _, mem_possible_legal_move.1 h⟩
    · split at h
      · obtain ⟨t', ht', h'⟩ := mem_cha_loop rest h
        exact ⟨t', List.mem_cons_of_mem _ ht', h'⟩
      · simp at h

theorem mem_handle_as_po {p : Position} {f t : Int} {m : Move} :
    m ∈ handle_as_po p f t ↔
      (m = emit p f t ∧ is_po (p.board t) = false ∧ p.board f / 16 ≠ p.board t / 16) := by
  unfold handle_as_po is_same_side
  simp only [Nat.shiftRight_eq_div_pow, decide_eq_true_eq]
  split <;> simp_all

theorem mem_po_loop {p : Position} {f : Int} {m : Move} :
    ∀ (l : List Int) (found : Bool), m ∈ po_loop p f found l →
      ∃ t ∈ l, m = emit p f t ∧ is_po (p.board t) = false ∧ p.board f / 16 ≠ p.board t / 16
  | [], found, h => by cases found <;> simp [po_loop] at h
  | t :: rest, false, h => by
    unfold po_loop at h
    split at h
    · obtain ⟨t', ht', h'⟩ := mem_po_loop rest false h
      exact ⟨t', List.mem_cons_of_mem _ ht', h'⟩
    · split at h
      · simp at h
      · obtain ⟨t', ht', h'⟩ := mem_po_loop rest true h
        exact ⟨t', List.mem_cons_of_mem _ ht', h'⟩
  | t :: rest, true, h => by
    unfold po_loop at h
    rcases List.mem_append.1 h with h | h
    · exact ⟨t, List.mem_cons_self _ _, mem_handle_as_po.1 h⟩
    · split at h
      · obtain ⟨t', ht', h'⟩ := mem_po_loop rest true h
        exact ⟨t', List.mem_cons_of_mem _ ht', h'⟩
      · simp at h

theorem mem_bikjang_loop {p : Position} {f : Int} {m : Move} :
    ∀ (l : List Int), m ∈ bikjang_loop p f l →
      ∃ t ∈ l, m = emit p f t ∧ (p.board t = 0x00 ∨ p.board t = 0x10)
  | [], h => by simp [bikjang_loop] at h
  | t :: rest, h => by
    unfold bikjang_loop at h
    split at h
    · obtain ⟨t', ht', h'⟩ := mem_bikjang_loop rest h
      exact ⟨t', List.mem_cons_of_mem _ ht', h'⟩
    · split at h
      · rename_i hg
        rcases List.mem_cons.1 h with h | h
        · exact ⟨t, List.mem_cons_self _ _, h, hg⟩
        · obtain ⟨t', ht', h'⟩ := mem_bikjang_loop rest h
          exact ⟨t', List.mem_cons_of_mem _ ht', h'⟩
      · simp at h

/-- The squares of the four orthogonal rays from a square of the board are on the board and
differ from the origin. -/
theorem ray_orth_ok {f t : Int} (hf : on_board f)
    (h : t ∈ ray_up (f / 10) (f % 10) ∨ t ∈ ray_down (f / 10) (f % 10)
      ∨ t ∈ ray_left (f / 10) (f % 10) ∨ t ∈ ray_right (f / 10) (f % 10)) :
    on_board t ∧ t ≠ f := by
  unfold on_board at hf ⊢
  unfold ray_up ray_down ray_left ray_right at h
  rcases h with h | h | h | h <;>
  · obtain ⟨k, hk, ht, hc⟩ := mem_ray _ _ _ h
    simp only [decide_eq_true_eq] at hc
    omega

/-- The squares of the first-diagonal rays, from the squares the source allows. -/
theorem ray_diag1_ok {f t : Int}
    (hf : f = 93 ∨ f = 84 ∨ f = 75 ∨ f = 23 ∨ f = 14 ∨ f = 5)
    (h : t ∈ ray_right_up (f / 10) (f % 10) ∨ t ∈ ray_left_down (f / 10) (f % 10)) :
    palace t ∧ t ≠ f := by
  unfold palace
  unfold ray_right_up ray_left_down at h
  rcases h with h | h <;>
  · obtain ⟨k, hk, ht, hc⟩ := mem_ray _ _ _ h
    simp only [decide_eq_true_eq] at hc
    have hk3 : k = 0 ∨ k = 1 ∨ 2 ≤ k := by omega
    rcases hk3 with rfl | rfl | hk3 <;> rcases hf with rfl | rfl | rfl | rfl | rfl | rfl <;>
      omega

/-- The squares of the second-diagonal rays, from the squares the source allows. -/
theorem ray_diag2_ok {f t : Int}
    (hf : f = 95 ∨ f = 84 ∨ f = 73 ∨ f = 25 ∨ f = 14 ∨ f = 3)
    (h : t ∈ ray_right_down (f / 10) (f % 10) ∨ t ∈ ray_left_up (f / 10) (f % 10)) :
    palace t ∧ t ≠ f := by
  unfold palace
  unfold ray_right_down ray_left_up at h
  rcases h with h | h <;>
  · obtain ⟨k, hk, ht, hc⟩ := mem_ray _ _ _ h
    simp only [decide_eq_true_eq] at hc
    have hk3 : k = 0 ∨ k = 1 ∨ 2 ≤ k := by omega
    rcases hk3 with rfl | rfl | hk3 <;> rcases hf with rfl | rfl | rfl | rfl | rfl | rfl <;>
      omega

theorem sa_goong_targets_ok {f : Int} {ts : List Int} (h : sa_goong_targets f = some ts) :
    palace f ∧ ∀ t ∈ ts, palace t ∧ t ≠ f := by
  unfold sa_goong_targets at h
  split_ifs at h with h1 h2 h3 h4 h5 h6 h7 h8 h9 <;>
    simp only [Option.some.injEq] at h <;> subst h
  · rcases h1 with rfl | rfl <;> decide
  · rcases h2 with rfl | rfl <;> decide
  · rcases h3 with rfl | rfl <;> decide
  · rcases h4 with rfl | rfl <;> decide
  · rcases h5 with rfl | rfl <;> decide
  · rcases h6 with rfl | rfl <;> decide
  · rcases h7 with rfl | rfl <;> decide
  · rcases h8 with rfl | rfl <;> decide
  · rcases h9 with rfl | rfl <;> decide

theorem sa_goong_targets_of_palace {f : Int} (h : palace f) :
    ∃ ts, sa_goong_targets f = some ts := by
  have h18 : f = 3 ∨ f = 4 ∨ f = 5 ∨ f = 13 ∨ f = 14 ∨ f = 15 ∨ f = 23 ∨ f = 24 ∨ f = 25
      ∨ f = 73 ∨ f = 74 ∨ f = 75 ∨ f = 83 ∨ f = 84 ∨ f = 85 ∨ f = 93 ∨ f = 94 ∨ f = 95 := by
    unfold palace at h; omega
  rcases h18 with rfl | rfl | rfl | rfl | rfl | rfl | rfl | rfl | rfl | rfl | rfl | rfl
    | rfl | rfl | rfl | rfl | rfl | rfl <;> exact ⟨_, by simp [sa_goong_targets]; rfl⟩

/-- General and Guard: every move reported goes from a palace square to another palace
square that does not hold a piece of the same side. -/
theorem mem_append_sa_goong {p : Position} {f : Int} {l : List Move} {m : Move}
    (h : append_sa_goong p f = some l) (hm : m ∈ l) :
    palace f ∧ Reported p f m ∧ palace m.yx_to ∧ p.board f / 16 ≠ p.board m.yx_to / 16 := by
  unfold append_sa_goong at h
  cases hts : sa_goong_targets f with
  | none => simp [hts] at h
  | some ts =>
    simp only [hts, Option.map_some', Option.some.injEq] at h
    subst h
    obtain ⟨hp, hts'⟩ := sa_goong_targets_ok hts
    obtain ⟨t, ht, hmt⟩ := List.mem_flatMap.1 hm
    obtain ⟨rfl, hside⟩ := mem_possible_legal_move.1 hmt
    obtain ⟨hpt, hne⟩ := hts' t ht
    exact ⟨hp, emit_reported (palace_on_board hpt) hne, hpt, hside⟩

/-- Chariot: every move reported goes to a square of the board that does not hold a piece
of the same side. -/
theorem mem_append_cha {p : Position} {f : Int} {m : Move} (hf : on_board f)
    (hm : m ∈ append_cha p f) :
    Reported p f m ∧ p.board f / 16 ≠ p.board m.yx_to / 16 := by
  unfold append_cha at hm
  simp only [List.mem_append] at hm
  have key : ∀ l : List Int, (∀ t ∈ l, on_board t ∧ t ≠ f) → m ∈ cha_loop p f l →
      Reported p f m ∧ p.board f / 16 ≠ p.board m.yx_to / 16 := by
    intro l hl h
    obtain ⟨t, ht, rfl, hs⟩ := mem_cha_loop l h
    exact ⟨emit_reported (hl t ht).1 (hl t ht).2, hs⟩
  rcases hm with ((((h | h) | h) | h) | h) | h
  · exact key _ (fun t ht => ray_orth_ok hf (Or.inl ht)) h
  · exact key _ (fun t ht => ray_orth_ok hf (Or.inr (Or.inl ht))) h
  · exact key _ (fun t ht => ray_orth_ok hf (Or.inr (Or.inr (Or.inl ht)))) h
  · exact key _ (fun t ht => ray_orth_ok hf (Or.inr (Or.inr (Or.inr ht)))) h
  · split at h
    · rename_i hc
      rcases List.mem_append.1 h with h | h
      · exact key _ (fun t ht =>
          ⟨palace_on_board (ray_diag1_ok hc (Or.inl ht)).1, (ray_diag1_ok hc (Or.inl ht)).2⟩) h
      · exact key _ (fun t ht =>
          ⟨palace_on_board (ray_diag1_ok hc (Or.inr ht)).1, (ray_diag1_ok hc (Or.inr ht)).2⟩) h
    · simp at h
  · split at h
    · rename_i hc
      rcases List.mem_append.1 h with h | h
      · exact key _ (fun t ht =>
          ⟨palace_on_board (ray_diag2_ok hc (Or.inl ht)).1, (ray_diag2_ok hc (Or.inl ht)).2⟩) h
      · exact key _ (fun t ht =>
          ⟨palace_on_board (ray_diag2_ok hc (Or.inr ht)).1, (ray_diag2_ok hc (Or.inr ht)).2⟩) h
    · simp at h

/-- Cannon: every move reported goes to a square of the board that holds neither a Cannon
nor a piece of the same side. -/
theorem mem_append_po {p : Position} {f : Int} {m : Move} (hf : on_board f)
    (hm : m ∈ append_po p f) :
    Reported p f m ∧ p.board f / 16 ≠ p.board m.yx_to / 16
      ∧ is_po (p.board m.yx_to) = false := by
  unfold append_po at hm
  simp only [List.mem_append] at hm
  have key : ∀ l : List Int, (∀ t ∈ l, on_board t ∧ t ≠ f) → m ∈ po_loop p f false l →
      Reported p f m ∧ p.board f / 16 ≠ p.board m.yx_to / 16
        ∧ is_po (p.board m.yx_to) = false := by
    intro l hl h
    obtain ⟨t, ht, rfl, hpo, hs⟩ := mem_po_loop l false h
    exact ⟨emit_reported (hl t ht).1 (hl t ht).2, hs, hpo⟩
  rcases hm with ((((h | h) | h) | h) | h) | h
  · exact key _ (fun t ht => ray_orth_ok hf (Or.inl ht)) h
  · exact key _ (fun t ht => ray_orth_ok hf (Or.inr (Or.inl ht))) h
  · exact key _ (fun t ht => ray_orth_ok hf (Or.inr (Or.inr (Or.inl ht)))) h
  · exact key _ (fun t ht => ray_orth_ok hf (Or.inr (Or.inr (Or.inr ht)))) h
  · split at h
    · rename_i hc
      have hc' : f = 93 ∨ f = 84 ∨ f = 75 ∨ f = 23 ∨ f = 14 ∨ f = 5 := by omega
      rcases List.mem_append.1 h with h | h
      · exact key _ (fun t ht =>
          ⟨palace_on_board (ray_diag1_ok hc' (Or.inl ht)).1, (ray_diag1_ok hc' (Or.inl ht)).2⟩) h
      · exact key _ (fun t ht =>
          ⟨palace_on_board (ray_diag1_ok hc' (Or.inr ht)).1, (ray_diag1_ok hc' (Or.inr ht)).2⟩) h
    · simp at h
  · split at h
    · rename_i hc
      have hc' : f = 95 ∨ f = 84 ∨ f = 73 ∨ f = 25 ∨ f = 14 ∨ f = 3 := by omega
      rcases List.mem_append.1 h with h | h
      · exact key _ (fun t ht =>
          ⟨palace_on_board (ray_diag2_ok hc' (Or.inl ht)).1, (ray_diag2_ok hc' (Or.inl ht)).2⟩) h
      · exact key _ (fun t ht =>
          ⟨palace_on_board (ray_diag2_ok hc' (Or.inr ht)).1, (ray_diag2_ok hc' (Or.inr ht)).2⟩) h
    · simp at h

/-- A guarded leap from a square of the board to another square. -/
theorem leap_reported {p : Position} {f yo xo : Int} {m : Move} (hm : m ∈ leap_to p f yo xo)
    (hne : yo * 10 + xo ≠ f) :
    Reported p f m ∧ p.board f / 16 ≠ p.board m.yx_to / 16 := by
  obtain ⟨hr, rfl, hs⟩ := mem_leap_to.1 hm
  refine ⟨emit_reported ?_ hne, hs⟩
  unfold on_board; omega

/-- Horse: every move reported goes to a square of the board that does not hold a piece of
the same side. -/
theorem mem_append_ma {p : Position} {f : Int} {m : Move} (hm : m ∈ append_ma p f) :
    Reported p f m ∧ p.board f / 16 ≠ p.board m.yx_to / 16 := by
  unfold append_ma ma_check_x ma_check_y at hm
  simp only [List.mem_append] at hm
  rcases hm with ((h | h) | h) | h <;> split at h <;>
    first
    | (rcases List.mem_append.1 h with h | h <;> exact leap_reported h (by omega))
    | simp at h

/-- Elephant: every move reported goes to a square of the board that does not hold a piece
of the same side. -/
theorem mem_append_sang {p : Position} {f : Int} {m : Move} (hm : m ∈ append_sang p f) :
    Reported p f m ∧ p.board f / 16 ≠ p.board m.yx_to / 16 := by
  unfold append_sang sang_check_x sang_check_y at hm
  simp only [List.mem_append] at hm
  rcases hm with ((h | h) | h) | h <;> split at h <;>
    first
    | (rcases List.mem_append.1 h with h | h <;> split at h <;>
        first
        | exact leap_reported h (by omega)
        | simp at h)
    | simp at h

/-- Soldier: every move reported goes to a square of the board that does not hold a piece
of the same side. -/
theorem mem_append_jol {p : Position} {f : Int} {m : Move} (hm : m ∈ append_jol p f) :
    Reported p f m ∧ p.board f / 16 ≠ p.board m.yx_to / 16 := by
  unfold append_jol at hm
  simp only [List.mem_append] at hm
  rcases hm with (((((((h | h) | h) | h) | h) | h) | h) | h) | h
  · refine leap_reported h ?_
    split <;> omega
  · exact leap_reported h (by omega)
  · exact leap_reported h (by omega)
  · split at h
    · rcases List.mem_append.1 h with h | h <;> exact leap_reported h (by omega)
    · simp at h
  · split at h
    · rcases List.mem_append.1 h with h | h <;> exact leap_reported h (by omega)
    · simp at h
  all_goals
    split at h
    · exact leap_reported h (by omega)
    · simp at h

/-- Face-off: every move reported goes to a square of the board that holds a General. -/
theorem mem_append_bikjang {p : Position} {f : Int} {m : Move} (hf : on_board f)
    (hm : m ∈ append_bikjang p f) :
    Reported p f m ∧ (p.board m.yx_to = 0x00 ∨ p.board m.yx_to = 0x10) := by
  unfold append_bikjang at hm
  split at hm
  · simp at hm
  · split at hm
    · simp at hm
    · dsimp only at hm
      split at hm
      · obtain ⟨t, ht, rfl, hg⟩ := mem_bikjang_loop _ hm
        have := ray_orth_ok hf (Or.inl ht)
        exact ⟨emit_reported this.1 this.2, hg⟩
      · obtain ⟨t, ht, rfl, hg⟩ := mem_bikjang_loop _ hm
        have := ray_orth_ok hf (Or.inr (Or.inl ht))
        exact ⟨emit_reported this.1 this.2, hg⟩

/-- The `assert(false)` of `append_sa_goong` is not reached at a square when the General or
Guard of the side to move standing there, if any, is on a palace square. -/
theorem append_piece_some_iff {g : Globals} {p : Position} {f : Int} :
    (∃ l, append_piece g p f = some l) ↔
      (is_side p.to_move (p.board f) → p.board f % 16 ≤ 2 → palace f) := by
  unfold append_piece is_side append_sa_goong
  constructor
  · rintro ⟨l, h⟩ hs h2
    by_contra hp
    have hn : sa_goong_targets f = none := by
      cases hts : sa_goong_targets f with
      | none => rfl
      | some ts => exact absurd (sa_goong_targets_ok hts).1 hp
    have h3 : p.board f % 16 = 0 ∨ p.board f % 16 = 1 ∨ p.board f % 16 = 2 := by omega
    simp only [hs, hn, Option.map_none', if_true] at h
    rcases h3 with h3 | h3 | h3 <;> simp [h3] at h
  · intro h
    by_cases hs : p.board f / 16 = p.to_move.toNat / 16
    · simp only [hs, if_true]
      by_cases h0 : p.board f % 16 = 0
      · obtain ⟨ts, hts⟩ := sa_goong_targets_of_palace (h hs (by omega))
        simp [h0, hts]
      · by_cases h12 : p.board f % 16 = 1 ∨ p.board f % 16 = 2
        · obtain ⟨ts, hts⟩ := sa_goong_targets_of_palace (h hs (by omega))
          simp [h0, h12, hts]
        · simp only [h0, h12, if_false]
          split_ifs <;> exact ⟨_, rfl⟩
    · simp [hs]

/-- What the body of the double loop reports at a square of the board. -/
theorem mem_append_piece {g : Globals} {p : Position} {f : Int} {l : List Move} {m : Move}
    (hf : on_board f) (h : append_piece g p f = some l) (hm : m ∈ l) :
    is_side p.to_move (p.board f) ∧ Reported p f m
      ∧ (p.board f / 16 ≠ p.board m.yx_to / 16
          ∨ (p.board f % 16 = 0 ∧ (p.board m.yx_to = 0x00 ∨ p.board m.yx_to = 0x10)))
      ∧ (p.board f % 16 ≤ 2 →
          palace f ∧ (palace m.yx_to ∨ p.board m.yx_to = 0x00 ∨ p.board m.yx_to = 0x10)) := by
  unfold append_piece at h
  unfold is_side
  dsimp only at h
  split at h
  · rename_i hs
    refine ⟨hs, ?_⟩
    split at h
    · rename_i h0
      cases hsa : append_sa_goong p f with
      | none => simp [hsa] at h
      | some l0 =>
        simp only [hsa, Option.map_some', Option.some.injEq] at h
        subst h
        rcases List.mem_append.1 hm with hm | hm
        · obtain ⟨hp, hr, hpt, hside⟩ := mem_append_sa_goong hsa hm
          exact ⟨hr, Or.inl hside, fun _ => ⟨hp, Or.inl hpt⟩⟩
        · have hp : palace f := by
            cases hts : sa_goong_targets f with
            | none => simp [append_sa_goong, hts] at hsa
            | some ts => exact (sa_goong_targets_ok hts).1
          split at hm
          · obtain ⟨hr, hg⟩ := mem_append_bikjang hf hm
            exact ⟨hr, Or.inr ⟨h0, hg⟩, fun _ => ⟨hp, Or.inr hg⟩⟩
          · simp at hm
    · split at h
      · obtain ⟨hp, hr, hpt, hside⟩ := mem_append_sa_goong h hm
        exact ⟨hr, Or.inl hside, fun _ => ⟨hp, Or.inl hpt⟩⟩
      · rename_i h0 h12
        have hn2 : ¬ p.board f % 16 ≤ 2 := by omega
        split at h
        · simp only [Option.some.injEq] at h; subst h
          obtain ⟨hr, hside⟩ := mem_append_cha hf hm
          exact ⟨hr, Or.inl hside, fun h2 => absurd h2 hn2⟩
        · split at h
          · simp only [Option.some.injEq] at h; subst h
            obtain ⟨hr, hside, _⟩ := mem_append_po hf hm
            exact ⟨hr, Or.inl hside, fun h2 => absurd h2 hn2⟩
          · split at h
            · simp only [Option.some.injEq] at h; subst h
              obtain ⟨hr, hside⟩ := mem_append_sang hm
              exact ⟨hr, Or.inl hside, fun h2 => absurd h2 hn2⟩
            · split at h
              · simp only [Option.some.injEq] at h; subst h
                obtain ⟨hr, hside⟩ := mem_append_ma hm
                exact ⟨hr, Or.inl hside, fun h2 => absurd h2 hn2⟩
              · split at h
                · simp only [Option.some.injEq] at h; subst h
                  obtain ⟨hr, hside⟩ := mem_append_jol hm
                  exact ⟨hr, Or.inl hside, fun h2 => absurd h2 hn2⟩
                · simp only [Option.some.injEq] at h; subst h
                  simp at hm
  · simp only [Option.some.injEq] at h; subst h
    simp at hm

/-- The moves reported by the double loop are those reported at its squares. -/
theorem mem_piece_moves_on {g : Globals} {p : Position} {m : Move} :
    ∀ (sq : List Int) (ms : List Move), piece_moves_on g p sq = some ms →
      (m ∈ ms ↔ ∃ f ∈ sq, ∃ l, append_piece g p f = some l ∧ m ∈ l)
  | [], ms, h => by
    simp only [piece_moves_on, Option.some.injEq] at h
    subst h; simp
  | f :: rest, ms, h => by
    unfold piece_moves_on at h
    cases h1 : append_piece g p f with
    | none => simp [h1] at h
    | some l1 =>
      cases h2 : piece_moves_on g p rest with
      | none => simp [h1, h2] at h
      | some l2 =>
        simp only [h1, h2, Option.some.injEq] at h
        subst h
        have ih := mem_piece_moves_on (m := m) rest l2 h2
        simp only [List.mem_append, ih, List.mem_cons, exists_eq_or_imp, h1,
          Option.some.injEq, exists_eq_left']

/-- The double loop runs to its end exactly when no `assert(false)` is reached. -/
theorem piece_moves_on_some_iff {g : Globals} {p : Position} :
    ∀ (sq : List Int), (∃ ms, piece_moves_on g p sq = some ms) ↔
      ∀ f ∈ sq, ∃ l, append_piece g p f = some l
  | [] => by simp [piece_moves_on]
  | f :: rest => by
    have ih := piece_moves_on_some_iff (g := g) (p := p) rest
    unfold piece_moves_on
    constructor
    · rintro ⟨ms, h⟩
      cases h1 : append_piece g p f with
      | none => simp [h1] at h
      | some l1 =>
        cases h2 : piece_moves_on g p rest with
        | none => simp [h1, h2] at h
        | some l2 =>
          intro f' hf'
          rcases List.mem_cons.1 hf' with rfl | hf'
          · exact ⟨l1, h1⟩
          · exact (ih.1 ⟨l2, h2⟩) f' hf'
    · intro h
      obtain ⟨l1, h1⟩ := h f (List.mem_cons_self _ _)
      obtain ⟨l2, h2⟩ := ih.2 (fun f' hf' => h f' (List.mem_cons_of_mem _ hf'))
      exact ⟨l1 ++ l2, by simp [h1, h2]⟩

/-- The square kept in `goongpos` holds the General of the side to move. -/
theorem goongpos_on_spec {p : Position} {gp : Int} :
    ∀ (sq : List Int) (acc : Option Int), goongpos_on p acc sq = some gp →
      acc = some gp ∨ (gp ∈ sq ∧ is_side p.to_move (p.board gp) ∧ p.board gp % 16 = 0)
  | [], acc, h => by simp only [goongpos_on] at h; exact Or.inl h
  | f :: rest, acc, h => by
    unfold goongpos_on at h
    split at h
    · rename_i hc
      rcases goongpos_on_spec rest _ h with h' | h'
      · simp only [Option.some.injEq] at h'; subst h'
        exact Or.inr ⟨List.mem_cons_self _ _, hc.1, hc.2⟩
      · exact Or.inr ⟨List.mem_cons_of_mem _ h'.1, h'.2⟩
    · rcases goongpos_on_spec rest _ h with h' | h'
      · exact Or.inl h'
      · exact Or.inr ⟨List.mem_cons_of_mem _ h'.1, h'.2⟩

/-- `goongpos` is set as soon as a square of the loop holds the General of the side to
move. -/
theorem goongpos_on_some {p : Position} :
    ∀ (sq : List Int) (acc : Option Int),
      (acc ≠ none ∨ ∃ f ∈ sq, is_side p.to_move (p.board f) ∧ p.board f % 16 = 0) →
      ∃ gp, goongpos_on p acc sq = some gp
  | [], acc, h => by
    rcases h with h | ⟨f, hf, _⟩
    · cases acc with
      | none => exact absurd rfl h
      | some a => exact ⟨a, rfl⟩
    · simp at hf
  | f :: rest, acc, h => by
    unfold goongpos_on
    split
    · exact goongpos_on_some rest _ (Or.inl (by simp))
    · rename_i hc
      refine goongpos_on_some rest _ ?_
      rcases h with h | ⟨f', hf', hg⟩
      · exact Or.inl h
      · rcases List.mem_cons.1 hf' with rfl | hf'
        · exact absurd hg hc
        · exact Or.inr ⟨f', hf', hg⟩

/-- Shape of the generator's output: the piece moves, then the pass on the General's
square. -/
theorem raw_get_legal_moves_eq {g : Globals} {p : Position} {ms : List Move} :
    raw_get_legal_moves g p = some ms ↔
      ∃ pm gp, piece_moves g p = some pm ∧ goongpos p = some gp ∧ ms = pm ++ [emit p gp gp] := by
  unfold raw_get_legal_moves
  cases h1 : piece_moves g p with
  | none => simp
  | some pm =>
    cases h2 : goongpos p with
    | none => simp
    | some gp =>
      simp only [Option.some.injEq, exists_and_left, exists_eq_left']
      constructor
      · intro h; exact h.symm
      · intro h; exact h.symm

theorem rotl1_lt (p : Nat) : rotl1 p < 2 ^ 64 := Nat.mod_lt _ (by norm_num)

theorem xor_lt_64 {a b : Nat} (ha : a < 2 ^ 64) (hb : b < 2 ^ 64) : a ^^^ b < 2 ^ 64 :=
  Nat.xor_lt_two_pow ha hb

theorem rotl1_eq {p : Nat} (hp : p < 2 ^ 64) : rotl1 p = 2 * (p % 2 ^ 63) + p / 2 ^ 63 := by
  unfold rotl1
  have h1 : p >>> 63 = p / 2 ^ 63 := Nat.shiftRight_eq_div_pow p 63
  have h2 : p <<< 1 = 2 ^ 1 * p := by rw [Nat.shiftLeft_eq]; ring
  have h3 : p / 2 ^ 63 < 2 ^ 1 := by
    rw [Nat.div_lt_iff_lt_mul (by norm_num)]; norm_num at hp ⊢; omega
  rw [h1, h2, ← Nat.mul_add_lt_is_or h3]
  norm_num at hp h3 ⊢
  omega

theorem rotr1_eq {p : Nat} (hp : p < 2 ^ 64) : rotr1 p = p / 2 + (p % 2) * 2 ^ 63 := by
  unfold rotr1
  have h1 : p >>> 1 = p / 2 := by rw [Nat.shiftRight_eq_div_pow]
  have h2 : p <<< 63 = 2 ^ 63 * p := by rw [Nat.shiftLeft_eq]; ring
  have h3 : p / 2 < 2 ^ 63 := by
    rw [Nat.div_lt_iff_lt_mul (by norm_num)]; norm_num at hp ⊢; omega
  rw [h1, h2, Nat.lor_comm, ← Nat.mul_add_lt_is_or h3]
  norm_num at hp h3 ⊢
  omega

/-- The two rotations of `playhash` undo each other on 64-bit values. -/
theorem rotr1_rotl1 {p : Nat} (hp : p < 2 ^ 64) : rotr1 (rotl1 p) = p := by
  rw [rotr1_eq (rotl1_lt p), rotl1_eq hp]
  norm_num at hp ⊢
  omega

theorem play_unapply_apply (H : HashConstants) (n : Nat) {p : Nat} (hp : p < 2 ^ 64) (yx : Int)
    (piece : Nat) : play_unapply H n (play_apply H n p yx piece) yx piece = p := by
  unfold play_unapply play_apply
  have hc : play_constant H yx piece n < 2 ^ 64 := H.table_lt _
  rw [rotr1_rotl1 (xor_lt_64 hp hc), Nat.xor_assoc, Nat.xor_self, Nat.xor_zero]

theorem play_apply_lt (H : HashConstants) (n : Nat) (p : Nat) (yx : Int) (piece : Nat) :
    play_apply H n p yx piece < 2 ^ 64 := rotl1_lt _

/-! ## Material -/

theorem captured_value_cho_eq (c : Nat) : captured_value_cho c = cell_value Side.CHO c := by
  by_cases h : c < 32
  · interval_cases c <;> norm_num [captured_value_cho, cell_value, piece_value, Side.toNat]
  · have h16 : ¬ c / 16 = 0 := by omega
    unfold captured_value_cho cell_value Side.toNat
    have hc : ¬ c < 32 := h
    rw [if_neg (by omega), if_neg (by omega), if_neg (by omega)]
    rw [if_neg (by omega), if_neg (by omega), if_neg (by omega)]
    exact (if_neg (by simpa using h16)).symm

theorem captured_value_han_eq (c : Nat) : captured_value_han c = cell_value Side.HAN c := by
  by_cases h : c < 32
  · interval_cases c <;> norm_num [captured_value_han, cell_value, piece_value, Side.toNat]
  · have h16 : ¬ c / 16 = 1 := by omega
    unfold captured_value_han cell_value Side.toNat
    have hc : ¬ c < 32 := h
    rw [if_neg (by omega), if_neg (by omega), if_neg (by omega)]
    rw [if_neg (by omega), if_neg (by omega), if_neg (by omega)]
    exact (if_neg (by simpa using h16)).symm

theorem score_foldl_eq (cells : Int → Nat) (s : Side) :
    ∀ (sq : List Int) (acc : ℚ),
      sq.foldl (fun score yx =>
        if cells yx / 16 = s.toNat / 16 then score + piece_value (cells yx) else score) acc
      = acc + (sq.map fun yx => cell_value s (cells yx)).sum
  | [], acc => by simp
  | yx :: rest, acc => by
    simp only [List.foldl_cons, List.map_cons, List.sum_cons]
    rw [score_foldl_eq cells s rest]
    unfold cell_value
    split <;> ring

theorem raw_score_eq (p : Position) (s : Side) :
    raw_score p s = (squares.map fun yx => cell_value s (p.board yx)).sum
      + (if s = Side.HAN then 1.5 else 0) := by
  unfold raw_score
  rw [score_foldl_eq]
  ring

theorem sum_map_set_cell (F : Nat → ℚ) (cells : Int → Nat) (k : Int) (v : Nat) :
    ∀ (sq : List Int), sq.Nodup →
      (sq.map fun yx => F (set_cell cells k v yx)).sum
        = (sq.map fun yx => F (cells yx)).sum + (if k ∈ sq then F v - F (cells k) else 0)
  | [], _ => by simp
  | yx :: rest, hn => by
    have hn' := List.nodup_cons.1 hn
    have ih := sum_map_set_cell F cells k v rest hn'.2
    simp only [List.map_cons, List.sum_cons, ih, List.mem_cons]
    by_cases hk : yx = k
    · subst hk
      simp [set_cell, hn'.1]
      ring
    · have hk' : ¬ k = yx := fun h => hk h.symm
      simp only [set_cell, hk, hk', if_false, false_or]
      ring

/-- Material after the cells change of a move (`board[from] = 0x20; board[to] = piece`),
when both squares are on the board. -/
theorem material_move_cells (p : Position) (s : Side) (hs : s ≠ Side.NONE) (m : Move)
    (hf : on_board m.yx_from) (ht : on_board m.yx_to) :
    (squares.map fun yx => cell_value s ((move_cells p m).board yx)).sum
      = (squares.map fun yx => cell_value s (p.board yx)).sum
        - (if m.yx_from = m.yx_to then 0 else cell_value s (p.board m.yx_to)) := by
  have h20 : cell_value s 0x20 = 0 := by
    unfold cell_value; cases s <;> simp [Side.toNat] at hs ⊢
  unfold move_cells
  simp only
  rw [sum_map_set_cell (cell_value s) _ _ _ squares squares_nodup,
    sum_map_set_cell (cell_value s) _ _ _ squares squares_nodup]
  simp only [(mem_squares _).2 hf, (mem_squares _).2 ht, if_true, h20]
  by_cases hft : m.yx_from = m.yx_to
  · simp [set_cell, hft, h20]
  · have : ¬ m.yx_to = m.yx_from := fun h => hft h.symm
    simp only [set_cell, this, hft, if_false]
    ring

/-! ## Every reported move -/

theorem goongpos_spec {p : Position} {gp : Int} (h : goongpos p = some gp) :
    on_board gp ∧ is_side p.to_move (p.board gp) ∧ p.board gp % 16 = 0 := by
  rcases goongpos_on_spec squares none h with h' | ⟨h1, h2, h3⟩
  · simp at h'
  · exact ⟨(mem_squares gp).1 h1, h2, h3⟩

theorem goongpos_some_iff {p : Position} : (∃ gp, goongpos p = some gp) ↔ has_goong p := by
  constructor
  · rintro ⟨gp, h⟩
    exact ⟨gp, goongpos_spec h⟩
  · rintro ⟨yx, h1, h2⟩
    exact goongpos_on_some squares none (Or.inr ⟨yx, (mem_squares yx).2 h1, h2⟩)

/-- A General or Guard of the side to move on a square of the board is on a palace square
whenever the generator runs to its end. -/
theorem piece_moves_palace {g : Globals} {p : Position} {pm : List Move}
    (h : piece_moves g p = some pm) {f : Int} (hf : on_board f)
    (hs : is_side p.to_move (p.board f)) (h2 : p.board f % 16 ≤ 2) : palace f :=
  append_piece_some_iff.1 ((piece_moves_on_some_iff squares).1 ⟨pm, h⟩ f ((mem_squares f).2 hf))
    hs h2

theorem raw_generated {g : Globals} {p : Position} {ms : List Move} {m : Move}
    (h : raw_get_legal_moves g p = some ms) (hm : m ∈ ms) : Generated p m := by
  obtain ⟨pm, gp, hpm, hgp, rfl⟩ := raw_get_legal_moves_eq.1 h
  rcases List.mem_append.1 hm with hm | hm
  · obtain ⟨f, hf, l, hl, hml⟩ := (mem_piece_moves_on squares pm hpm).1 hm
    have hfb := (mem_squares f).1 hf
    obtain ⟨hs, ⟨h1, h2, h3, h4, h5⟩, h6, h7⟩ := mem_append_piece hfb hl hml
    refine ⟨by rw [h2]; exact hfb, h4, by rw [h2]; exact hs, by rw [h2]; exact h1, h3,
      fun e => absurd e.symm (by rw [h2]; exact h5), ?_, by rw [h2]; exact h7⟩
    rw [h2]
    intro h0
    rcases h6 with h6 | h6
    · exact h6
    · exact absurd h6.1 h0
  · simp only [List.mem_singleton] at hm
    subst hm
    obtain ⟨hb, hs, h0⟩ := goongpos_spec hgp
    have hp := piece_moves_palace hpm hb hs (by omega)
    exact ⟨hb, hb, hs, rfl, rfl, fun _ => h0, fun h => absurd h0 h, fun _ => ⟨hp, Or.inl hp⟩⟩

/-- The generator has a result exactly when no `assert(false)` is reached and the side to
move has a General. -/
theorem raw_get_legal_moves_some_iff {g : Globals} {p : Position} :
    (∃ ms, raw_get_legal_moves g p = some ms) ↔
      ((∀ f, on_board f → is_side p.to_move (p.board f) → p.board f % 16 ≤ 2 → palace f)
        ∧ has_goong p) := by
  constructor
  · rintro ⟨ms, h⟩
    obtain ⟨pm, gp, hpm, hgp, rfl⟩ := raw_get_legal_moves_eq.1 h
    exact ⟨fun f hf hs h2 => piece_moves_palace hpm hf hs h2, goongpos_some_iff.1 ⟨gp, hgp⟩⟩
  · rintro ⟨h1, h2⟩
    obtain ⟨pm, hpm⟩ := (piece_moves_on_some_iff (g := g) (p := p) squares).2
      (fun f hf => append_piece_some_iff.2 (h1 f ((mem_squares f).1 hf)))
    obtain ⟨gp, hgp⟩ := goongpos_some_iff.2 h2
    exact ⟨_, raw_get_legal_moves_eq.2 ⟨pm, gp, hpm, hgp, rfl⟩⟩

/-! ## The position after a reported move -/

theorem opponent_toggle {s : Side} (hs : s ≠ Side.NONE) : opponent (toggle s) = s := by
  cases s <;> simp [opponent, toggle] at hs ⊢

theorem toggle_ne_none (s : Side) : toggle s ≠ Side.NONE := by
  cases s <;> simp [toggle]

theorem toggle_toggle {s : Side} (hs : s ≠ Side.NONE) : toggle (toggle s) = s := by
  cases s <;> simp [toggle] at hs ⊢

theorem is_side_lt {s : Side} {c : Nat} (hs : s ≠ Side.NONE) (h : is_side s c) : c < 0x20 := by
  unfold is_side at h
  cases s <;> simp [Side.toNat] at hs h ⊢ <;> omega

theorem move_cells_to (p : Position) (m : Move) :
    (move_cells p m).board m.yx_to = p.board m.yx_from := by
  simp [move_cells, set_cell]

theorem move_cells_from (p : Position) (m : Move) (h : m.yx_from ≠ m.yx_to) :
    (move_cells p m).board m.yx_from = 0x20 := by
  simp [move_cells, set_cell, h]

theorem move_cells_other (p : Position) (m : Move) {yx : Int} (h1 : yx ≠ m.yx_from)
    (h2 : yx ≠ m.yx_to) : (move_cells p m).board yx = p.board yx := by
  simp [move_cells, set_cell, h1, h2]

theorem move_cells_to_move (p : Position) (m : Move) :
    (move_cells p m).to_move = toggle p.to_move := rfl

/-- A reported move keeps Generals and Guards on palace squares. -/
theorem palace_ok_move_cells {p : Position} {m : Move} (hp : palace_ok p) (hm : Generated p m) : palace_ok (move_cells p m) := by
  obtain ⟨hf, ht, hside, -, -, -, -, hpal⟩ := hm
  intro yx hyx hlt h2
  by_cases e2 : yx = m.yx_to
  · subst e2
    rw [move_cells_to] at hlt h2
    rcases (hpal h2).2 with h | h | h
    · exact h
    · exact hp _ ht (by omega) (by omega)
    · exact hp _ ht (by omega) (by omega)
  · by_cases e1 : yx = m.yx_from
    · subst e1
      rw [move_cells_from p m (fun h => e2 h)] at hlt
      omega
    · rw [move_cells_other p m e1 e2] at hlt h2
      exact hp yx hyx hlt h2

/-- After a reported move the mover still has a General. -/
theorem has_goong_move_cells {p : Position} {m : Move} (hg : has_goong p) (hm : Generated p m) :
    has_goong { move_cells p m with to_move := p.to_move } := by
  obtain ⟨hf, ht, hside, -, -, -, hown, -⟩ := hm
  obtain ⟨gp, hgp, hgs, hg0⟩ := hg
  unfold has_goong
  simp only
  by_cases e0 : p.board m.yx_from % 16 = 0
  · exact ⟨m.yx_to, ht, by rw [move_cells_to]; exact hside, by rw [move_cells_to]; exact e0⟩
  · have e1 : gp ≠ m.yx_from := by
      intro h; rw [h] at hg0; exact e0 hg0
    have e2 : gp ≠ m.yx_to := by
      intro h; rw [h] at hgs
      unfold is_side at hgs hside
      exact hown e0 (by omega)
    exact ⟨gp, hgp, by rw [move_cells_other p m e1 e2]; exact hgs,
      by rw [move_cells_other p m e1 e2]; exact hg0⟩

/-- After a reported move the generator has a result for the mover: the `is_jang()` of
`Board::move` is defined. -/
theorem raw_after_move {g : Globals} {p : Position} {m : Move} (hs : p.to_move ≠ Side.NONE)
    (hp : palace_ok p) (hg : has_goong p) (hm : Generated p m) :
    ∃ ms, raw_get_legal_moves g
      { move_cells p m with to_move := opponent (move_cells p m).to_move } = some ms := by
  rw [move_cells_to_move, opponent_toggle hs]
  refine raw_get_legal_moves_some_iff.2 ⟨?_, has_goong_move_cells hg hm⟩
  intro f hf hside h2
  exact palace_ok_move_cells hp hm f hf (is_side_lt hs hside) h2

/-! ## Make and unmake -/

theorem is_jang_eq {g : Globals} {b : Board} (hc : b.legal_move_opponent_cache = []) :
    is_jang g b =
      (raw_get_legal_moves g { b.toPosition with to_move := opponent b.to_move }).map
        fun ms => (ms.any threatens_goong, { b with legal_move_opponent_cache := ms }) := by
  unfold is_jang get_legal_moves_if_opponent
  simp only [hc, List.isEmpty_nil, not_true_eq_false, if_false, Option.map_map]
  rfl

/-- The board that `Board::move` produces once the generator has a result `oms` for the
mover on the new cells. -/
theorem move_eq {g : Globals} {H : HashConstants} {b : Board} {m : Move} {oms : List Move}
    (h : raw_get_legal_moves g
      { move_cells b.toPosition m with to_move := opponent (move_cells b.toPosition m).to_move }
        = some oms) :
    move g H b m = some
      { toPosition :=
          { move_cells b.toPosition m with
            cached_score_cho := b.cached_score_cho - captured_value_cho m.captured
            cached_score_han := b.cached_score_han - captured_value_han m.captured }
        history := b.history ++ [⟨m, b.boardhash, b.playhash, oms.any threatens_goong⟩]
        boardhash := move_boardhash H b m
        playhash := move_playhash H b m
        legal_move_cache := []
        legal_move_opponent_cache := oms } := by
  unfold move
  simp only
  rw [is_jang_eq (by rfl)]
  have h' : raw_get_legal_moves g
      { ({ move_piece_only H (clear_cache b) m with
            playhash := move_playhash H (clear_cache b) m } : Board).toPosition with
        to_move := opponent ({ move_piece_only H (clear_cache b) m with
            playhash := move_playhash H (clear_cache b) m } : Board).to_move } = some oms := h
  rw [h']
  rfl

/-- `Board::move` has a result only when the generator has one for the mover on the new
cells. -/
theorem move_some {g : Globals} {H : HashConstants} {b b2 : Board} {m : Move}
    (h : move g H b m = some b2) :
    ∃ oms, raw_get_legal_moves g
      { move_cells b.toPosition m with to_move := opponent (move_cells b.toPosition m).to_move }
        = some oms := by
  cases h1 : raw_get_legal_moves g
      { move_cells b.toPosition m with to_move := opponent (move_cells b.toPosition m).to_move }
    with
  | some oms => exact ⟨oms, rfl⟩
  | none =>
    exfalso
    unfold move at h
    simp only at h
    rw [is_jang_eq (by rfl)] at h
    have h' : raw_get_legal_moves g
        { ({ move_piece_only H (clear_cache b) m with
              playhash := move_playhash H (clear_cache b) m } : Board).toPosition with
          to_move := opponent ({ move_piece_only H (clear_cache b) m with
              playhash := move_playhash H (clear_cache b) m } : Board).to_move } = none := h1
    rw [h'] at h
    simp at h

theorem xor_cancel_capture (h c t f l : Nat) :
    ((((((((h ^^^ c) ^^^ t) ^^^ f) ^^^ l) ^^^ f) ^^^ t) ^^^ c) ^^^ l) = h := by
  apply Nat.eq_of_testBit_eq
  intro i
  simp only [Nat.testBit_xor]
  cases h.testBit i <;> cases c.testBit i <;> cases t.testBit i <;> cases f.testBit i <;>
    cases l.testBit i <;> rfl

theorem xor_cancel_quiet (h t f l : Nat) :
    ((((((h ^^^ t) ^^^ f) ^^^ l) ^^^ f) ^^^ t) ^^^ l) = h := by
  apply Nat.eq_of_testBit_eq
  intro i
  simp only [Nat.testBit_xor]
  cases h.testBit i <;> cases t.testBit i <;> cases f.testBit i <;>
    cases l.testBit i <;> rfl

/-- The cells after `move_piece_only` then `unmove_piece_only` of a reported move. -/
theorem unmove_cells_move_cells {p q : Position} {m : Move} (hs : p.to_move ≠ Side.NONE)
    (hm : Generated p m) (hq1 : q.board = (move_cells p m).board)
    (hq2 : q.to_move = toggle p.to_move) :
    unmove_cells q m = some { q with board := p.board, to_move := p.to_move } := by
  obtain ⟨-, -, hside, -, hcap, -, -, -⟩ := hm
  unfold unmove_cells
  simp only [hq1, hq2, move_cells_to, is_side_lt hs hside, if_true, Option.some.injEq]
  have hb : set_cell (set_cell (move_cells p m).board m.yx_to m.captured) m.yx_from
      (p.board m.yx_from) = p.board := by
    funext i
    simp only [set_cell, move_cells]
    by_cases h1 : i = m.yx_from
    · simp [h1]
    · by_cases h2 : i = m.yx_to
      · subst h2
        simp [h1, hcap]
      · simp [h1, h2]
  rw [hb, toggle_toggle hs]

/-- The callback of `get_legal_moves` under `jang_move_is_illegal` leaves the board as it
found it: `unmove_piece_only` undoes `move_piece_only`, hash included. -/
theorem unmove_piece_only_move_piece_only {H : HashConstants} {b : Board} {m : Move}
    (hs : b.to_move ≠ Side.NONE) (hm : Generated b.toPosition m) :
    unmove_piece_only H (move_piece_only H b m) m = some b := by
  unfold unmove_piece_only
  have h1 := unmove_cells_move_cells (q := (move_piece_only H b m).toPosition) hs hm rfl rfl
  rw [h1]
  simp only [Option.some.injEq]
  have hh : unmove_boardhash H (move_piece_only H b m) m = b.boardhash := by
    unfold unmove_boardhash move_piece_only move_boardhash
    simp only [move_cells_to]
    split
    · exact xor_cancel_capture _ _ _ _ _
    · exact xor_cancel_quiet _ _ _ _
  rw [hh]
  rfl

/-- `Board::unmove` on a board that has the fields `Board::move` gives it. -/
theorem unmove_of_fields {H : HashConstants} {b q : Board} {m : Move} {jang : Bool}
    (hs : b.to_move ≠ Side.NONE) (hm : Generated b.toPosition m)
    (hph : b.playhash < 2 ^ 64)
    (h1 : q.board = (move_cells b.toPosition m).board)
    (h2 : q.to_move = toggle b.to_move)
    (h3 : q.cached_score_cho = b.cached_score_cho - captured_value_cho m.captured)
    (h4 : q.cached_score_han = b.cached_score_han - captured_value_han m.captured)
    (h5 : q.history = b.history ++ [⟨m, b.boardhash, b.playhash, jang⟩])
    (h6 : q.boardhash = move_boardhash H b m)
    (h7 : q.playhash = move_playhash H b m) :
    unmove H q = some (m, clear_cache b) := by
  have hto : q.board m.yx_to = b.board m.yx_from := by rw [h1, move_cells_to]
  have hh : unmove_boardhash H (clear_cache q) m = b.boardhash := by
    unfold unmove_boardhash move_boardhash at *
    simp only [clear_cache, hto, h6]
    split
    · exact xor_cancel_capture _ _ _ _ _
    · exact xor_cancel_quiet _ _ _ _
  have hp : unmove_playhash H (clear_cache q) m = b.playhash := by
    unfold unmove_playhash move_playhash at *
    have hl : q.history.length = 1 + b.history.length := by
      rw [h5, List.length_append, List.length_singleton]; omega
    simp only [clear_cache, hto, h7, hl]
    split
    · rw [play_unapply_apply H _ (play_apply_lt _ _ _ _ _), play_unapply_apply H _
        (play_apply_lt _ _ _ _ _), play_unapply_apply H _ hph]
    · rw [play_unapply_apply H _ (play_apply_lt _ _ _ _ _), play_unapply_apply H _ hph]
  have hc := unmove_cells_move_cells (q := (clear_cache q).toPosition) hs hm h1 h2
  unfold unmove
  rw [h5]
  simp only [List.getLast?_append, List.getLast?_singleton, Option.or_some]
  unfold unmove_piece_only
  rw [hc]
  simp only [hh, hp, and_self, if_true, Option.some.injEq, Prod.mk.injEq, true_and]
  have e1 : (clear_cache q).cached_score_cho + captured_value_cho m.captured
      = b.cached_score_cho := by
    show q.cached_score_cho + _ = _
    rw [h3, sub_add_cancel]
  have e2 : (clear_cache q).cached_score_han + captured_value_han m.captured
      = b.cached_score_han := by
    show q.cached_score_han + _ = _
    rw [h4, sub_add_cancel]
  have e3 : (clear_cache q).history.dropLast = b.history := by
    show q.history.dropLast = _
    rw [h5, List.dropLast_concat]
  rw [e1, e2, e3]
  rfl

/-- `Board::unmove` after `Board::move` of a reported move gives back the move and the
board, caches cleared; in particular the three `assert`s hold. -/
theorem unmove_move {g : Globals} {H : HashConstants} {b b2 : Board} {m : Move}
    (hs : b.to_move ≠ Side.NONE) (hm : Generated b.toPosition m)
    (hph : b.playhash < 2 ^ 64) (h : move g H b m = some b2) :
    unmove H b2 = some (m, clear_cache b) := by
  obtain ⟨oms, ho⟩ := move_some h
  rw [move_eq ho, Option.some.injEq] at h
  subst h
  exact unmove_of_fields hs hm hph rfl rfl rfl rfl rfl rfl rfl

/-! ## Legal moves are reported moves -/

theorem jang_filter_subset {g : Globals} {p : Position} {m : Move} :
    ∀ (l l' : List Move), jang_filter g p l = some l' → m ∈ l' → m ∈ l
  | [], l', h, hm => by
    simp only [jang_filter, Option.some.injEq] at h
    subst h; exact hm
  | a :: rest, l', h, hm => by
    unfold jang_filter at h
    cases h1 : jang_callback g p a with
    | none => simp [h1] at h
    | some keep =>
      cases h2 : jang_filter g p rest with
      | none => simp [h1, h2] at h
      | some l2 =>
        simp only [h1, h2, Option.some.injEq] at h
        subst h
        cases keep with
        | true =>
          simp only [if_true] at hm
          rcases List.mem_cons.1 hm with rfl | hm
          · exact List.mem_cons_self _ _
          · exact List.mem_cons_of_mem _ (jang_filter_subset rest l2 h2 hm)
        | false =>
          simp only [Bool.false_eq_true, if_false] at hm
          exact List.mem_cons_of_mem _ (jang_filter_subset rest l2 h2 hm)

/-- Every move of `get_legal_moves`, computed on an empty cache, is a move the generator
reports; the board returned differs by the cache only. -/
theorem get_legal_moves_spec {g : Globals} {b b1 : Board} {ms : List Move}
    (hc : b.legal_move_cache = []) (h : get_legal_moves g b = some (ms, b1)) :
    b1 = { b with legal_move_cache := ms }
      ∧ ∃ raw, raw_get_legal_moves g b.toPosition = some raw ∧ ∀ m ∈ ms, m ∈ raw := by
  unfold get_legal_moves at h
  simp only [hc, List.isEmpty_nil, if_true] at h
  cases hcm : compute_legal_moves g b.toPosition with
  | none => simp [hcm] at h
  | some l =>
    simp only [hcm, Option.map_some', Option.some.injEq, Prod.mk.injEq] at h
    obtain ⟨rfl, rfl⟩ := h
    refine ⟨rfl, ?_⟩
    unfold compute_legal_moves at hcm
    cases hr : raw_get_legal_moves g b.toPosition with
    | none => simp [hr] at hcm
    | some raw =>
      simp only [hr] at hcm
      refine ⟨raw, rfl, ?_⟩
      split at hcm
      · exact fun m hm => jang_filter_subset raw _ hcm hm
      · simp only [Option.some.injEq] at hcm
        subst hcm
        exact fun m hm => hm

/-! ## The invariant of the reachable boards -/

theorem init_hash_lt (H : HashConstants) (cells : Int → Nat) : init_hash H cells < 2 ^ 64 := by
  unfold init_hash
  have key : ∀ (sq : List Int) (acc : Nat), acc < 2 ^ 64 →
      sq.foldl (fun h yx =>
        if cells yx < 0x20 then h ^^^ H.table (hash_index yx (cells yx)) else h) acc < 2 ^ 64 := by
    intro sq
    induction sq with
    | nil => intro acc h; exact h
    | cons a rest ih =>
      intro acc h
      simp only [List.foldl_cons]
      apply ih
      split
      · exact xor_lt_64 h (H.table_lt _)
      · exact h
  exact key squares 0 (by norm_num)

theorem move_boardhash_lt {H : HashConstants} {b : Board} (m : Move)
    (h : b.boardhash < 2 ^ 64) : move_boardhash H b m < 2 ^ 64 := by
  unfold move_boardhash
  simp only
  refine xor_lt_64 (xor_lt_64 (xor_lt_64 ?_ (H.table_lt _)) (H.table_lt _)) (H.table_lt _)
  split
  · exact xor_lt_64 h (H.table_lt _)
  · exact h

theorem move_playhash_lt (H : HashConstants) (b : Board) (m : Move) :
    move_playhash H b m < 2 ^ 64 := play_apply_lt _ _ _ _ _

/-- The starting layouts, cell by cell: no code above `0x20`, the Generals on 84 and 14, the
Guards in the palace of their side, Cho's Soldiers on rows up to 6 and Han's from row 3. -/
theorem init_table (cs hs : StartingState) : ∀ yx ∈ squares,
    init_cells cs hs yx ≤ 0x20
      ∧ (init_cells cs hs yx = 0 → yx = 84) ∧ (init_cells cs hs yx = 16 → yx = 14)
      ∧ (init_cells cs hs yx = 1 ∨ init_cells cs hs yx = 2 →
          3 ≤ yx % 10 ∧ yx % 10 ≤ 5 ∧ 7 ≤ yx / 10)
      ∧ (init_cells cs hs yx = 17 ∨ init_cells cs hs yx = 18 →
          3 ≤ yx % 10 ∧ yx % 10 ≤ 5 ∧ yx / 10 ≤ 2)
      ∧ (11 ≤ init_cells cs hs yx ∧ init_cells cs hs yx ≤ 15 → yx / 10 ≤ 6)
      ∧ (27 ≤ init_cells cs hs yx ∧ init_cells cs hs yx ≤ 31 → 3 ≤ yx / 10) := by
  cases cs <;> cases hs <;> decide

theorem init_palace_ok (cs hs : StartingState) : palace_ok (init_position cs hs) := by
  intro yx h hlt h2
  obtain ⟨-, t2, t3, t4, t5, -, -⟩ := init_table cs hs yx ((mem_squares yx).2 h)
  have hlt' : init_cells cs hs yx < 0x20 := hlt
  have h2' : init_cells cs hs yx % 16 ≤ 2 := h2
  unfold on_board at h
  unfold palace
  omega

theorem init_raw_score (cs hs : StartingState) :
    raw_score (init_position cs hs) Side.CHO = 72
      ∧ raw_score (init_position cs hs) Side.HAN = 73.5 := by
  cases cs <;> cases hs <;> decide!

theorem inv_init (H : HashConstants) (cs hs : StartingState) : Inv (init H cs hs) where
  side := by simp [init, init_position]
  pal := init_palace_ok cs hs
  bh := init_hash_lt H _
  ph := init_hash_lt H _
  cache := rfl
  cho := (init_raw_score cs hs).1.symm
  han := (init_raw_score cs hs).2.symm
  passes := by simp [init]

/-- Material of a side after a reported move: the value of the captured piece is taken
from its owner, and a pass changes nothing. -/
theorem raw_score_move_cells {p q : Position} {m : Move} (s : Side) (hs : s ≠ Side.NONE)
    (hm : Generated p m) (hq : q.board = (move_cells p m).board) :
    raw_score q s = raw_score p s - cell_value s m.captured := by
  obtain ⟨hf, ht, hside, -, hcap, hpass, -, -⟩ := hm
  rw [raw_score_eq, raw_score_eq, hq, material_move_cells p s hs m hf ht, hcap]
  by_cases e : m.yx_from = m.yx_to
  · have h0 := hpass e
    have hz : cell_value s (p.board m.yx_to) = 0 := by
      rw [← e]
      unfold cell_value piece_value
      simp [h0]
    rw [if_pos e, hz]
    ring
  · rw [if_neg e]
    ring

theorem inv_move_aux {g' : Globals} {H : HashConstants} {b1 b2 : Board} {m : Move}
    (hs : b1.to_move ≠ Side.NONE) (hpal : palace_ok b1.toPosition)
    (hbh : b1.boardhash < 2 ^ 64)
    (hcho : b1.cached_score_cho = raw_score b1.toPosition Side.CHO)
    (hhan : b1.cached_score_han = raw_score b1.toPosition Side.HAN)
    (hpasses : ∀ r ∈ b1.history, r.move.yx_from = r.move.yx_to → r.move.captured ≠ 0x20)
    (hgen : Generated b1.toPosition m) (hmv : move g' H b1 m = some b2) : Inv b2 := by
  obtain ⟨oms, ho⟩ := move_some hmv
  rw [move_eq ho, Option.some.injEq] at hmv
  subst hmv
  refine ⟨toggle_ne_none _, palace_ok_move_cells hpal hgen, move_boardhash_lt m hbh,
    move_playhash_lt _ _ _, rfl, ?_, ?_, ?_⟩
  · have h1 := raw_score_move_cells (p := b1.toPosition)
      (q := ({ move_cells b1.toPosition m with
        cached_score_cho := b1.cached_score_cho - captured_value_cho m.captured
        cached_score_han := b1.cached_score_han - captured_value_han m.captured } : Position))
      Side.CHO (by simp) hgen rfl
    rw [← captured_value_cho_eq, ← hcho] at h1
    exact h1.symm
  · have h1 := raw_score_move_cells (p := b1.toPosition)
      (q := ({ move_cells b1.toPosition m with
        cached_score_cho := b1.cached_score_cho - captured_value_cho m.captured
        cached_score_han := b1.cached_score_han - captured_value_han m.captured } : Position))
      Side.HAN (by simp) hgen rfl
    rw [← captured_value_han_eq, ← hhan] at h1
    exact h1.symm
  · obtain ⟨hf, ht, hside, hpiece, hcap, hpass, -, -⟩ := hgen
    intro r hr
    rcases List.mem_append.1 hr with hr | hr
    · exact hpasses r hr
    · simp only [List.mem_singleton] at hr
      subst hr
      intro e
      have e' : m.yx_from = m.yx_to := e
      have h0 := hpass e'
      have hlt := is_side_lt hs hside
      show m.captured ≠ 0x20
      rw [hcap, ← e']
      omega

theorem inv_move {g g' : Globals} {H : HashConstants} {b b1 b2 : Board} {ms : List Move}
    {m : Move} (hb : Inv b) (hl : get_legal_moves g b = some (ms, b1)) (hm : m ∈ ms)
    (hmv : move g' H b1 m = some b2) : Inv b2 := by
  obtain ⟨rfl, raw, hraw, hsub⟩ := get_legal_moves_spec hb.cache hl
  exact inv_move_aux hb.side hb.pal hb.bh hb.cho hb.han hb.passes
    (raw_generated hraw (hsub m hm)) hmv

/-- Every reachable board satisfies the invariant. -/
theorem reachable_inv {H : HashConstants} {b : Board} (h : Reachable H b) : Inv b := by
  induction h with
  | start cs hs => exact inv_init H cs hs
  | step g g' b b1 b2 ms m _ hl hm hmv ih => exact inv_move ih hl hm hmv

/-- C1. For every board `b` reachable from a starting layout and every move `m` of
`get_legal_moves()` on it (whatever the options), `move(m)` has a result, and `unmove()` on
that result returns `m` and a board whose cells, side to move, history, `boardhash`,
`playhash`, `cached_score_cho` and `cached_score_han` are those of `b`. -/
theorem move_unmove_roundtrip (H : HashConstants) (g g' : Globals) (b b1 : Board)
    (ms : List Move) (m : Move) (hb : Reachable H b)
    (hl : get_legal_moves g b = some (ms, b1)) (hm : m ∈ ms) :
    ∃ b2, move g' H b1 m = some b2 ∧ ∃ b3, unmove H b2 = some (m, b3)
      ∧ b3.board = b.board ∧ b3.to_move = b.to_move ∧ b3.history = b.history
      ∧ b3.boardhash = b.boardhash ∧ b3.playhash = b.playhash
      ∧ b3.cached_score_cho = b.cached_score_cho
      ∧ b3.cached_score_han = b.cached_score_han := by
  have hi := reachable_inv hb
  obtain ⟨rfl, raw, hraw, hsub⟩ := get_legal_moves_spec hi.cache hl
  have hgen : Generated b.toPosition m := raw_generated hraw (hsub m hm)
  have hg : has_goong b.toPosition := (raw_get_legal_moves_some_iff.1 ⟨raw, hraw⟩).2
  obtain ⟨oms, ho⟩ := raw_after_move (g := g') hi.side hi.pal hg hgen
  refine ⟨_, move_eq ho, clear_cache b, ?_, rfl, rfl, rfl, rfl, rfl, rfl, rfl⟩
  exact unmove_move (b := { b with legal_move_cache := ms }) hi.side hgen hi.ph (move_eq ho)

/-- C1 at a concrete input: the opening position and the Soldier move 60 -> 50. -/
theorem move_unmove_roundtrip_witness :
    ∃ b2, move Globals.default example_hash
        { opening with legal_move_cache := opening_moves } ⟨11, 60, 50, 32⟩ = some b2
      ∧ ∃ b3, unmove example_hash b2 = some (⟨11, 60, 50, 32⟩, b3)
      ∧ b3.board = opening.board ∧ b3.to_move = opening.to_move
      ∧ b3.history = opening.history
      ∧ b3.boardhash = opening.boardhash ∧ b3.playhash = opening.playhash
      ∧ b3.cached_score_cho = opening.cached_score_cho
      ∧ b3.cached_score_han = opening.cached_score_han :=
  move_unmove_roundtrip example_hash Globals.default Globals.default opening
    { opening with legal_move_cache := opening_moves } opening_moves ⟨11, 60, 50, 32⟩
    (Reachable.start _ _) (by rfl) (by decide)

/-- C2. On every board reachable from one of the 16 starting-layout pairs by moves of
`get_legal_moves()` (the starting board included), `score_cho()` is the sum of the value
table over Cho's pieces on the board and `score_han()` is the same sum over Han's pieces
plus 1.5, both being what `__score` computes from the cells; on every starting board the
two scores are 72 and 73.5. -/
theorem score_is_material (H : HashConstants) (b : Board) (hb : Reachable H b) :
    (score_cho b.toPosition = (squares.map fun yx => cell_value Side.CHO (b.board yx)).sum
      ∧ score_han b.toPosition
          = (squares.map fun yx => cell_value Side.HAN (b.board yx)).sum + 1.5)
    ∧ (score_cho b.toPosition = raw_score b.toPosition Side.CHO
      ∧ score_han b.toPosition = raw_score b.toPosition Side.HAN)
    ∧ ∀ cs hs : StartingState,
        score_cho (init H cs hs).toPosition = 72
          ∧ score_han (init H cs hs).toPosition = 73.5 := by
  have hi := reachable_inv hb
  refine ⟨⟨?_, ?_⟩, ⟨hi.cho, hi.han⟩, fun cs hs => ⟨rfl, rfl⟩⟩
  · show b.cached_score_cho = _
    rw [hi.cho, raw_score_eq]
    simp
  · show b.cached_score_han = _
    rw [hi.han, raw_score_eq]
    simp

/-- C2 at a concrete input: the opening position. -/
theorem score_is_material_witness :
    (score_cho opening.toPosition
        = (squares.map fun yx => cell_value Side.CHO (opening.board yx)).sum
      ∧ score_han opening.toPosition
          = (squares.map fun yx => cell_value Side.HAN (opening.board yx)).sum + 1.5)
    ∧ (score_cho opening.toPosition = raw_score opening.toPosition Side.CHO
      ∧ score_han opening.toPosition = raw_score opening.toPosition Side.HAN)
    ∧ ∀ cs hs : StartingState,
        score_cho (init example_hash cs hs).toPosition = 72
          ∧ score_han (init example_hash cs hs).toPosition = 73.5 :=
  score_is_material example_hash opening (Reachable.start _ _)

/-! ## The filter of `jang_move_is_illegal` -/

theorem jang_callback_eq {g : Globals} {p : Position} {m : Move} (hs : p.to_move ≠ Side.NONE)
    (hm : Generated p m)
    (hdef : (raw_get_legal_moves g (move_cells p m)).isSome = true) :
    jang_callback g p m = some (!loses_goong g p m) := by
  unfold jang_callback can_win_immediately loses_goong
  rw [unmove_cells_move_cells hs hm rfl rfl]
  cases h : raw_get_legal_moves g (move_cells p m) with
  | none => simp [h] at hdef
  | some oms => rfl

theorem jang_filter_eq {g : Globals} {p : Position} (k : Move → Bool) :
    ∀ (l : List Move), (∀ m ∈ l, jang_callback g p m = some (k m)) →
      jang_filter g p l = some (l.filter k)
  | [], _ => rfl
  | a :: rest, h => by
    unfold jang_filter
    rw [h a (List.mem_cons_self _ _),
      jang_filter_eq k rest (fun m hm => h m (List.mem_cons_of_mem _ hm))]
    cases hk : k a <;> simp [List.filter, hk]

/-- C3 (amended). On a board whose legal-move cache is empty, `get_legal_moves()` returns,
with `jang_move_is_illegal` on, exactly the sub-sequence in generation order of the moves of
the generator after which the opponent has no move, by a piece other than its General, that
captures a General (a capture by the opposing General, the face-off, does not count); with
the option off it returns the full output of the generator. -/
theorem legal_moves_filter (g : Globals) (b : Board) (raw : List Move)
    (hc : b.legal_move_cache = []) (hs : b.to_move ≠ Side.NONE)
    (hraw : raw_get_legal_moves g b.toPosition = some raw)
    (hdef : g.jang_move_is_illegal = true →
      ∀ m ∈ raw, (raw_get_legal_moves g (move_cells b.toPosition m)).isSome = true) :
    (get_legal_moves g b).map Prod.fst
      = some (if g.jang_move_is_illegal then raw.filter fun m => !loses_goong g b.toPosition m
              else raw) := by
  unfold get_legal_moves compute_legal_moves
  simp only [hc, List.isEmpty_nil, if_true, hraw]
  cases hj : g.jang_move_is_illegal with
  | false => simp
  | true =>
    have := jang_filter_eq (g := g) (p := b.toPosition)
      (fun m => !loses_goong g b.toPosition m) raw
      (fun m hm => jang_callback_eq hs (raw_generated hraw hm) (hdef hj m hm))
    simp [this]

/-- C3 (amended) at a concrete input: the opening position with the option on. -/
theorem legal_moves_filter_witness :
    (get_legal_moves ⟨false, false, true⟩ opening).map Prod.fst
      = some (if (⟨false, false, true⟩ : Globals).jang_move_is_illegal
              then opening_moves.filter fun m =>
                !loses_goong ⟨false, false, true⟩ opening.toPosition m
              else opening_moves) :=
  legal_moves_filter ⟨false, false, true⟩ opening opening_moves rfl (by decide) (by decide)
    (by decide)

/-- C3 as stated fails: with `allow_bikjang` and `jang_move_is_illegal` on, on the board
`exposed_board` the list of `get_legal_moves()` contains Han's Soldier move 34 -> 33 although
after it Cho has the move 84 -> 14 that captures Han's General; so the list is not the
sub-sequence the claim describes. -/
theorem legal_moves_filter_counterexample :
    (exposed_board.bind fun b =>
        (get_legal_moves ⟨true, false, true⟩ b).map fun r =>
          decide ((⟨29, 34, 33, 32⟩ : Move) ∈ r.1)) = some true
    ∧ (exposed_board.bind fun b =>
        (raw_get_legal_moves ⟨true, false, true⟩
          (move_cells b.toPosition ⟨29, 34, 33, 32⟩)).map fun oms =>
            decide ((⟨0, 84, 14, 16⟩ : Move) ∈ oms)) = some true
    ∧ (exposed_board.bind fun b => (get_legal_moves ⟨true, false, true⟩ b).map Prod.fst)
        ≠ exposed_board.bind fun b => spec_legal_moves ⟨true, false, true⟩ b.toPosition := by
  decide!

/-- No move of the double loop stays in place. -/
theorem piece_moves_not_pass {g : Globals} {p : Position} {pm : List Move} {m : Move}
    (h : piece_moves g p = some pm) (hm : m ∈ pm) : m.yx_from ≠ m.yx_to := by
  obtain ⟨f, hf, l, hl, hml⟩ := (mem_piece_moves_on squares pm h).1 hm
  obtain ⟨-, ⟨-, h2, -, -, h5⟩, -, -⟩ := mem_append_piece ((mem_squares f).1 hf) hl hml
  rw [h2]
  exact fun e => h5 e.symm

/-- C4. On every board on which the side to move has its General (and whose Generals and
Guards of the side to move stand on palace squares, as the generator asserts),
`get_legal_moves()` with `jang_move_is_illegal` off, computed on an empty cache, contains
exactly one move with `from == to`; it comes after every other move and is the pass
(piece = the General's code, from = to = the General's square, captured = that code). -/
theorem pass_is_last (g : Globals) (b : Board) (hj : g.jang_move_is_illegal = false)
    (hc : b.legal_move_cache = []) (hg : has_goong b.toPosition)
    (hpal : ∀ f, on_board f → is_side b.to_move (b.board f) → b.board f % 16 ≤ 2 → palace f) :
    ∃ ms b', get_legal_moves g b = some (ms, b')
      ∧ (ms.filter fun m => m.is_pass).length = 1
      ∧ ∃ pm gp, ms = pm ++ [⟨b.board gp, gp, gp, b.board gp⟩]
          ∧ (∀ m ∈ pm, m.yx_from ≠ m.yx_to)
          ∧ on_board gp ∧ is_side b.to_move (b.board gp) ∧ b.board gp % 16 = 0 := by
  obtain ⟨raw, hraw⟩ := (raw_get_legal_moves_some_iff (g := g)).2 ⟨hpal, hg⟩
  obtain ⟨pm, gp, hpm, hgp, rfl⟩ := raw_get_legal_moves_eq.1 hraw
  have hnp : ∀ m ∈ pm, m.yx_from ≠ m.yx_to := fun m hm => piece_moves_not_pass hpm hm
  refine ⟨_, { b with legal_move_cache := pm ++ [emit b.toPosition gp gp] }, ?_, ?_,
    pm, gp, rfl, hnp, goongpos_spec hgp⟩
  · unfold get_legal_moves compute_legal_moves
    simp [hc, hraw, hj, emit]
  · have h0 : pm.filter (fun m => m.is_pass) = [] := by
      rw [List.filter_eq_nil_iff]
      intro m hm
      simp [Move.is_pass, hnp m hm]
    rw [List.filter_append, h0]
    simp [Move.is_pass, emit]

/-- C4 at a concrete input: the opening position. -/
theorem pass_is_last_witness :
    ∃ ms b', get_legal_moves Globals.default opening = some (ms, b')
      ∧ (ms.filter fun m => m.is_pass).length = 1
      ∧ ∃ pm gp, ms = pm ++ [⟨opening.board gp, gp, gp, opening.board gp⟩]
          ∧ (∀ m ∈ pm, m.yx_from ≠ m.yx_to)
          ∧ on_board gp ∧ is_side opening.to_move (opening.board gp)
          ∧ opening.board gp % 16 = 0 :=
  pass_is_last Globals.default opening rfl rfl ⟨84, by decide⟩
    (fun f hf _ h2 =>
      init_palace_ok StartingState.SMSM StartingState.SMSM f hf
        (by
          have h : ∀ yx ∈ squares, is_side Side.CHO (opening.board yx) →
              opening.board yx < 0x20 := by decide
          exact h f ((mem_squares f).2 hf) ‹_›) h2)

theorem opening_raw (r : Bool) :
    raw_get_legal_moves ⟨false, r, false⟩ (init_position StartingState.SMSM StartingState.SMSM)
      = some opening_moves := by
  cases r <;> decide

/-- C5 (amended). On the opening position `Board("smsm","smsm")`, for any table of hash
constants, with `jang_move_is_illegal` off and `allow_bikjang` off, `get_legal_moves()`
returns the 32 moves of `opening_moves` (31 piece moves and 1 pass, the pass last) and
`winner()` is NONE. -/
theorem opening_legal_moves (H : HashConstants) (r : Bool) :
    (get_legal_moves ⟨false, r, false⟩
        (init H StartingState.SMSM StartingState.SMSM)).map Prod.fst = some opening_moves
    ∧ opening_moves.length = 32
    ∧ (opening_moves.filter fun m => m.is_pass) = [⟨0, 84, 84, 0⟩]
    ∧ winner ⟨false, r, false⟩ (init H StartingState.SMSM StartingState.SMSM)
        = some Side.NONE := by
  refine ⟨?_, by decide, by decide, ?_⟩
  · unfold get_legal_moves compute_legal_moves
    have h : (init H StartingState.SMSM StartingState.SMSM).toPosition
        = init_position StartingState.SMSM StartingState.SMSM := rfl
    simp [init, opening_raw]
  · have hw : winner_piece_only (init_position StartingState.SMSM StartingState.SMSM)
        = Side.NONE := by decide
    have hr : repeat_count ⟨false, r, false⟩ (init H StartingState.SMSM StartingState.SMSM)
        = 0 := by
      cases r <;> simp [repeat_count, init]
    unfold winner winner_rest
    simp only [hr, Bool.false_eq_true, if_false]
    simp [init, is_passend, score_cho, score_han, init_position, hw]
    norm_num
    exact hw

/-- C5 as stated fails: on the opening position `get_legal_moves()` has 32 entries, not
31. -/
theorem opening_legal_moves_counterexample :
    ¬ ((get_legal_moves Globals.default opening).map (fun r => r.1.length) = some 31
        ∧ winner Globals.default opening = some Side.NONE) := by
  decide

/-! ## Elephant -/

theorem free_at_iff {p : Position} {yo xo : Int} :
    free_at p yo xo = true ↔
      ((0 ≤ yo ∧ yo < 10 ∧ 0 ≤ xo ∧ xo < 9) ∧ p.board (yo * 10 + xo) = 0x20) := by
  unfold free_at in_range is_empty
  simp only [Bool.and_eq_true, decide_eq_true_eq, ge_iff_le]
  constructor
  · rintro ⟨h1, h2⟩; exact ⟨h1, h2.symm⟩
  · rintro ⟨h1, h2⟩; exact ⟨h1, h2.symm⟩

/-- One route of the Elephant, forward: two free intermediate squares and a guarded leap
give a leap of the claim. -/
theorem sang_leaf {p : Position} {s yo1 xo1 yo2 xo2 yo3 xo3 : Int} {m : Move}
    (hs : is_side p.to_move (p.board s))
    (h1 : free_at p yo1 xo1 = true) (h2 : free_at p yo2 xo2 = true)
    (h : m ∈ leap_to p s yo3 xo3)
    (ho : (yo1 - s / 10 = 0 ∧ (xo1 - s % 10 = 1 ∨ xo1 - s % 10 = -1))
      ∨ (xo1 - s % 10 = 0 ∧ (yo1 - s / 10 = 1 ∨ yo1 - s / 10 = -1)))
    (hd : (yo2 - yo1 = 1 ∨ yo2 - yo1 = -1) ∧ (xo2 - xo1 = 1 ∨ xo2 - xo1 = -1))
    (ha : (yo1 - s / 10 ≠ 0 → yo2 - yo1 = yo1 - s / 10)
      ∧ (xo1 - s % 10 ≠ 0 → xo2 - xo1 = xo1 - s % 10))
    (h3 : yo3 - yo2 = yo2 - yo1 ∧ xo3 - xo2 = xo2 - xo1) :
    m = emit p s m.yx_to ∧ spec_sang_leap p s m.yx_to := by
  obtain ⟨hr, rfl, hside⟩ := mem_leap_to.1 h
  obtain ⟨hr1, he1⟩ := free_at_iff.1 h1
  obtain ⟨hr2, he2⟩ := free_at_iff.1 h2
  refine ⟨rfl, ?_, yo1 - s / 10, xo1 - s % 10, yo2 - yo1, xo2 - xo1, ho, hd.1, hd.2, ha.1, ha.2,
    ?_, ?_, ?_, ?_, ?_⟩
  · show on_board (yo3 * 10 + xo3)
    unfold on_board; omega
  · show (yo3 * 10 + xo3) / 10 = _
    omega
  · show (yo3 * 10 + xo3) % 10 = _
    omega
  · rw [show (s / 10 + (yo1 - s / 10)) * 10 + (s % 10 + (xo1 - s % 10)) = yo1 * 10 + xo1 by ring]
    exact he1
  · rw [show (s / 10 + (yo1 - s / 10) + (yo2 - yo1)) * 10
        + (s % 10 + (xo1 - s % 10) + (xo2 - xo1)) = yo2 * 10 + xo2 by ring]
    exact he2
  · show ¬ is_side p.to_move (p.board (yo3 * 10 + xo3))
    unfold is_side at hs ⊢
    intro hc
    exact hside (by rw [hs, hc])

/-- Every move reported for an Elephant is a leap of the claim. -/
theorem append_sang_sound {p : Position} {s : Int} {m : Move}
    (hs : is_side p.to_move (p.board s)) (hm : m ∈ append_sang p s) :
    m = emit p s m.yx_to ∧ spec_sang_leap p s m.yx_to := by
  unfold append_sang sang_check_x sang_check_y at hm
  simp only [List.mem_append] at hm
  rcases hm with ((h | h) | h) | h <;> split at h <;>
    first
    | (rename_i h1
       rcases List.mem_append.1 h with h | h <;> split at h <;>
        first
        | (rename_i h2
           exact sang_leaf hs h1 h2 h (by omega) (by omega) (by omega) (by omega))
        | simp at h)
    | simp at h


theorem sang_check_x_up {p : Position} {s d : Int} {m : Move}
    (h1 : free_at p (s / 10) (s % 10 + d) = true)
    (h2 : free_at p (s / 10 + 1) (s % 10 + d + d) = true)
    (h3 : m ∈ leap_to p s (s / 10 + 1 + 1) (s % 10 + d + d + d)) :
    m ∈ sang_check_x p s d := by
  unfold sang_check_x
  simp only [h1, h2, if_true, List.mem_append]
  exact Or.inl h3

theorem sang_check_x_down {p : Position} {s d : Int} {m : Move}
    (h1 : free_at p (s / 10) (s % 10 + d) = true)
    (h2 : free_at p (s / 10 + 1 - 1 - 1) (s % 10 + d + d) = true)
    (h3 : m ∈ leap_to p s (s / 10 + 1 - 1 - 1 - 1) (s % 10 + d + d + d)) :
    m ∈ sang_check_x p s d := by
  unfold sang_check_x
  simp only [h1, h2, if_true, List.mem_append]
  exact Or.inr h3

theorem sang_check_y_right {p : Position} {s d : Int} {m : Move}
    (h1 : free_at p (s / 10 + d) (s % 10) = true)
    (h2 : free_at p (s / 10 + d + d) (s % 10 + 1) = true)
    (h3 : m ∈ leap_to p s (s / 10 + d + d + d) (s % 10 + 1 + 1)) :
    m ∈ sang_check_y p s d := by
  unfold sang_check_y
  simp only [h1, h2, if_true, List.mem_append]
  exact Or.inl h3

theorem sang_check_y_left {p : Position} {s d : Int} {m : Move}
    (h1 : free_at p (s / 10 + d) (s % 10) = true)
    (h2 : free_at p (s / 10 + d + d) (s % 10 + 1 - 1 - 1) = true)
    (h3 : m ∈ leap_to p s (s / 10 + d + d + d) (s % 10 + 1 - 1 - 1 - 1)) :
    m ∈ sang_check_y p s d := by
  unfold sang_check_y
  simp only [h1, h2, if_true, List.mem_append]
  exact Or.inr h3

/-- One route of the Elephant, backward: the facts of the claim give the three tests of the
code. -/
theorem sang_route {p : Position} {s t a1 a2 : Int} (yo1 xo1 yo2 xo2 yo3 xo3 : Int)
    (hsd : is_side p.to_move (p.board s)) (hside : ¬ is_side p.to_move (p.board t))
    (hb1 : p.board a1 = 0x20) (hb2 : p.board a2 = 0x20)
    (e1 : a1 = yo1 * 10 + xo1) (e2 : a2 = yo2 * 10 + xo2) (e3 : t = yo3 * 10 + xo3)
    (r1 : 0 ≤ yo1 ∧ yo1 < 10 ∧ 0 ≤ xo1 ∧ xo1 < 9) (r2 : 0 ≤ yo2 ∧ yo2 < 10 ∧ 0 ≤ xo2 ∧ xo2 < 9)
    (r3 : 0 ≤ yo3 ∧ yo3 < 10 ∧ 0 ≤ xo3 ∧ xo3 < 9) :
    free_at p yo1 xo1 = true ∧ free_at p yo2 xo2 = true
      ∧ emit p s t ∈ leap_to p s yo3 xo3 := by
  refine ⟨free_at_iff.2 ⟨r1, by rw [← e1]; exact hb1⟩, free_at_iff.2 ⟨r2, by rw [← e2]; exact hb2⟩,
    mem_leap_to.2 ⟨r3, by rw [e3], ?_⟩⟩
  rw [← e3]
  unfold is_side at hsd hside
  intro hc
  exact hside (by rw [← hc, hsd])

/-- Every leap of the claim from a square of the board holding a piece of the side to move
is reported by `append_sang`. -/
theorem append_sang_complete {p : Position} {s t : Int} (hs : on_board s)
    (hsd : is_side p.to_move (p.board s)) (h : spec_sang_leap p s t) :
    emit p s t ∈ append_sang p s := by
  obtain ⟨ht, oy, ox, dy, dx, ho, hdy, hdx, ha1, ha2, ety, etx, hb1, hb2, hside⟩ := h
  unfold on_board at hs ht
  unfold append_sang
  simp only [List.mem_append]
  rcases ho with ⟨rfl, rfl | rfl⟩ | ⟨rfl, rfl | rfl⟩
  · obtain rfl := ha2 (by norm_num)
    rcases hdy with rfl | rfl
    · obtain ⟨f1, f2, f3⟩ := sang_route (s / 10) (s % 10 + 1) (s / 10 + 1) (s % 10 + 1 + 1)
        (s / 10 + 1 + 1) (s % 10 + 1 + 1 + 1) hsd hside hb1 hb2 (by ring) (by ring) (by omega)
        (by omega) (by omega) (by omega)
      exact Or.inl (Or.inl (Or.inl (sang_check_x_up f1 f2 f3)))
    · obtain ⟨f1, f2, f3⟩ := sang_route (s / 10) (s % 10 + 1) (s / 10 + 1 - 1 - 1)
        (s % 10 + 1 + 1) (s / 10 + 1 - 1 - 1 - 1) (s % 10 + 1 + 1 + 1) hsd hside hb1 hb2
        (by ring) (by ring) (by omega) (by omega) (by omega) (by omega)
      exact Or.inl (Or.inl (Or.inl (sang_check_x_down f1 f2 f3)))
  · obtain rfl := ha2 (by norm_num)
    rcases hdy with rfl | rfl
    · obtain ⟨f1, f2, f3⟩ := sang_route (s / 10) (s % 10 + -1) (s / 10 + 1) (s % 10 + -1 + -1)
        (s / 10 + 1 + 1) (s % 10 + -1 + -1 + -1) hsd hside hb1 hb2 (by ring) (by ring)
        (by omega) (by omega) (by omega) (by omega)
      exact Or.inl (Or.inl (Or.inr (sang_check_x_up f1 f2 f3)))
    · obtain ⟨f1, f2, f3⟩ := sang_route (s / 10) (s % 10 + -1) (s / 10 + 1 - 1 - 1)
        (s % 10 + -1 + -1) (s / 10 + 1 - 1 - 1 - 1) (s % 10 + -1 + -1 + -1) hsd hside hb1 hb2
        (by ring) (by ring) (by omega) (by omega) (by omega) (by omega)
      exact Or.inl (Or.inl (Or.inr (sang_check_x_down f1 f2 f3)))
  · obtain rfl := ha1 (by norm_num)
    rcases hdx with rfl | rfl
    · obtain ⟨f1, f2, f3⟩ := sang_route (s / 10 + 1) (s % 10) (s / 10 + 1 + 1) (s % 10 + 1)
        (s / 10 + 1 + 1 + 1) (s % 10 + 1 + 1) hsd hside hb1 hb2 (by ring) (by ring) (by omega)
        (by omega) (by omega) (by omega)
      exact Or.inl (Or.inr (sang_check_y_right f1 f2 f3))
    · obtain ⟨f1, f2, f3⟩ := sang_route (s / 10 + 1) (s % 10) (s / 10 + 1 + 1)
        (s % 10 + 1 - 1 - 1) (s / 10 + 1 + 1 + 1) (s % 10 + 1 - 1 - 1 - 1) hsd hside hb1 hb2
        (by ring) (by ring) (by omega) (by omega) (by omega) (by omega)
      exact Or.inl (Or.inr (sang_check_y_left f1 f2 f3))
  · obtain rfl := ha1 (by norm_num)
    rcases hdx with rfl | rfl
    · obtain ⟨f1, f2, f3⟩ := sang_route (s / 10 + -1) (s % 10) (s / 10 + -1 + -1) (s % 10 + 1)
        (s / 10 + -1 + -1 + -1) (s % 10 + 1 + 1) hsd hside hb1 hb2 (by ring) (by ring)
        (by omega) (by omega) (by omega) (by omega)
      exact Or.inr (sang_check_y_right f1 f2 f3)
    · obtain ⟨f1, f2, f3⟩ := sang_route (s / 10 + -1) (s % 10) (s / 10 + -1 + -1)
        (s % 10 + 1 - 1 - 1) (s / 10 + -1 + -1 + -1) (s % 10 + 1 - 1 - 1 - 1) hsd hside hb1 hb2
        (by ring) (by ring) (by omega) (by omega) (by omega) (by omega)
      exact Or.inr (sang_check_y_left f1 f2 f3)


theorem append_piece_sang {g : Globals} {p : Position} {f : Int}
    (hs : is_side p.to_move (p.board f)) (h56 : p.board f % 16 = 5 ∨ p.board f % 16 = 6) :
    append_piece g p f = some (append_sang p f) := by
  unfold append_piece
  unfold is_side at hs
  simp only [hs, if_true]
  rw [if_neg (by omega), if_neg (by omega), if_neg (by omega), if_neg (by omega), if_pos h56]

/-- C7. On every board on which the generator runs to its end, it reports a move for an
Elephant of the side to move from square `s` to square `t` if and only if `t` is on the
board, `t` is a (3,2) leap from `s` (one orthogonal step, then two diagonal steps away from
`s`), the orthogonal and the diagonal intermediate squares are both empty and `t` does not
hold a piece of the mover's side; the move's `captured` is the content of `t` (and its
`piece` the content of `s`). -/
theorem sang_moves (g : Globals) (p : Position) (ms : List Move)
    (h : raw_get_legal_moves g p = some ms) (s t : Int) (pc c : Nat) :
    ((⟨pc, s, t, c⟩ : Move) ∈ ms ∧ (pc % 16 = 5 ∨ pc % 16 = 6)) ↔
      (on_board s ∧ p.board s = pc ∧ is_side p.to_move pc ∧ (pc % 16 = 5 ∨ pc % 16 = 6)
        ∧ spec_sang_leap p s t ∧ c = p.board t) := by
  obtain ⟨pm, gp, hpm, hgp, rfl⟩ := raw_get_legal_moves_eq.1 h
  constructor
  · rintro ⟨hm, h56⟩
    rcases List.mem_append.1 hm with hm | hm
    · obtain ⟨f, hf, l, hl, hml⟩ := (mem_piece_moves_on squares pm hpm).1 hm
      have hfb := (mem_squares f).1 hf
      obtain ⟨hs, ⟨h1, h2, -, -, -⟩, -, -⟩ := mem_append_piece hfb hl hml
      have h1' : pc = p.board f := h1
      have h2' : s = f := h2
      subst h2'
      subst h1'
      rw [append_piece_sang hs h56, Option.some.injEq] at hl
      subst hl
      obtain ⟨he, hsp⟩ := append_sang_sound hs hml
      have he' : c = p.board t := congrArg Move.captured he
      exact ⟨hfb, rfl, hs, h56, hsp, he'⟩
    · simp only [List.mem_singleton] at hm
      have h0 := (goongpos_spec hgp).2.2
      have hpc : pc = p.board gp := congrArg Move.piece hm
      omega
  · rintro ⟨hsb, rfl, hs, h56, hsp, rfl⟩
    refine ⟨List.mem_append.2 (Or.inl ?_), h56⟩
    exact (mem_piece_moves_on squares pm hpm).2
      ⟨s, (mem_squares s).2 hsb, _, append_piece_sang hs h56, append_sang_complete hsb hs hsp⟩

/-- C7 at a concrete input: the opening position, the Elephant on 91 and the square 63. -/
theorem sang_moves_witness :
    ((⟨5, 91, 63, 32⟩ : Move) ∈ opening_moves ∧ (5 % 16 = 5 ∨ 5 % 16 = 6)) ↔
      (on_board 91 ∧ opening.board 91 = 5 ∧ is_side opening.to_move 5
        ∧ (5 % 16 = 5 ∨ 5 % 16 = 6)
        ∧ spec_sang_leap opening.toPosition 91 63 ∧ 32 = opening.board 63) :=
  sang_moves Globals.default opening.toPosition opening_moves (by decide) 91 63 5 32

/-! ## Cannon -/

theorem is_empty_iff {p : Position} {yx : Int} : is_empty p yx = true ↔ p.board yx = 0x20 := by
  unfold is_empty
  simp only [decide_eq_true_eq]
  exact eq_comm

/-- After the screen: the move goes to a square reached over empty squares only. -/
theorem po_loop_true_spec {p : Position} {f : Int} {m : Move} :
    ∀ (l : List Int), m ∈ po_loop p f true l →
      ∃ mid t post, l = mid ++ t :: post ∧ (∀ x ∈ mid, p.board x = 0x20)
        ∧ m ∈ handle_as_po p f t
  | [], h => by simp [po_loop] at h
  | a :: rest, h => by
    unfold po_loop at h
    rcases List.mem_append.1 h with h | h
    · exact ⟨[], a, rest, rfl, by simp, h⟩
    · split at h
      · rename_i he
        obtain ⟨mid, t, post, e, hmid, hm⟩ := po_loop_true_spec rest h
        refine ⟨a :: mid, t, post, by rw [e]; rfl, ?_, hm⟩
        intro x hx
        rcases List.mem_cons.1 hx with rfl | hx
        · exact is_empty_iff.1 he
        · exact hmid x hx
      · simp at h

/-- Before the screen: empty squares, then a piece that is not a Cannon. -/
theorem po_loop_false_spec {p : Position} {f : Int} {m : Move} :
    ∀ (l : List Int), m ∈ po_loop p f false l →
      ∃ pre sc rest, l = pre ++ sc :: rest ∧ (∀ x ∈ pre, p.board x = 0x20)
        ∧ p.board sc ≠ 0x20 ∧ is_po (p.board sc) = false ∧ m ∈ po_loop p f true rest
  | [], h => by simp [po_loop] at h
  | a :: rest, h => by
    unfold po_loop at h
    split at h
    · rename_i he
      obtain ⟨pre, sc, rest', e, hpre, h1, h2, h3⟩ := po_loop_false_spec rest h
      refine ⟨a :: pre, sc, rest', by rw [e]; rfl, ?_, h1, h2, h3⟩
      intro x hx
      rcases List.mem_cons.1 hx with rfl | hx
      · exact is_empty_iff.1 he
      · exact hpre x hx
    · rename_i he
      split at h
      · simp at h
      · rename_i hpo
        refine ⟨[], a, rest, rfl, by simp, ?_, by simpa using hpo, h⟩
        intro hc
        exact he (is_empty_iff.2 hc)

/-- Shape of a scanning loop's squares: the square after a prefix `A` is `|A|` steps from
the start, and the prefix holds the squares before it. -/
theorem ray_split {cond : Int → Int → Bool} {dy dx : Int} :
    ∀ (n : Nat) (yo xo : Int) (A : List Int) (t : Int) (post : List Int),
      ray cond dy dx n yo xo = A ++ t :: post →
      t = (yo + (A.length : Int) * dy) * 10 + (xo + (A.length : Int) * dx)
        ∧ cond (yo + (A.length : Int) * dy) (xo + (A.length : Int) * dx) = true
        ∧ (A.length : Int) < n
        ∧ ∀ s, s ∈ A ↔ ∃ k : Nat, k < A.length ∧ s = (yo + (k : Int) * dy) * 10 + (xo + (k : Int) * dx)
  | 0, _, _, A, t, post, h => by
    cases A <;> simp [ray] at h
  | n + 1, yo, xo, A, t, post, h => by
    unfold ray at h
    split at h
    · rename_i hc
      cases A with
      | nil =>
        simp only [List.nil_append, List.cons.injEq] at h
        refine ⟨by simp [h.1], by simpa using hc, by simp, by simp⟩
      | cons a A' =>
        simp only [List.cons_append, List.cons.injEq] at h
        obtain ⟨ha, hrest⟩ := h
        obtain ⟨h1, h2, h3, h4⟩ := ray_split n _ _ A' t post hrest
        have e1 : yo + ((A'.length + 1 : Nat) : Int) * dy = yo + dy + (A'.length : Int) * dy := by
          push_cast; ring
        have e2 : xo + ((A'.length + 1 : Nat) : Int) * dx = xo + dx + (A'.length : Int) * dx := by
          push_cast; ring
        refine ⟨?_, ?_, ?_, ?_⟩
        · simp only [List.length_cons]; rw [e1, e2]; exact h1
        · simp only [List.length_cons]; rw [e1, e2]; exact h2
        · simp only [List.length_cons]; push_cast; omega
        · intro s
          simp only [List.mem_cons, List.length_cons, h4]
          constructor
          · rintro (rfl | ⟨k, hk, rfl⟩)
            · exact ⟨0, by omega, by simp [ha]⟩
            · exact ⟨k + 1, by omega, by push_cast; ring⟩
          · rintro ⟨k, hk, rfl⟩
            cases k with
            | zero => left; simp [ha]
            | succ k => right; exact ⟨k, by omega, by push_cast; ring⟩
    · cases A <;> simp at h

/-- The squares before a square `t` of the ray ray_up from `f` are the squares strictly
between `f` and `t`, and `t` is on the file of `f`. -/
theorem ray_up_between {f t : Int} {A post : List Int} (hf : on_board f)
    (h : ray_up (f / 10) (f % 10) = A ++ t :: post) :
    po_line f t ∧ ∀ s, on_board s → (strictly_between f t s ↔ s ∈ A) := by
  unfold on_board at hf
  unfold ray_up at h
  obtain ⟨h1, h2, h3, h4⟩ := ray_split _ _ _ _ _ _ h
  simp only [decide_eq_true_eq] at h2
  clear h
  have ht1 : t / 10 = f / 10 - 1 - (A.length : Int) := by clear h4; omega
  have ht2 : t % 10 = f % 10 := by clear h4; omega
  refine ⟨?_, ?_⟩
  · clear h4
    exact Or.inl ⟨by omega, by omega⟩
  · intro s hs
    unfold on_board at hs
    rw [h4]
    clear h4 h1
    constructor
    · intro hb
      have hb' : s % 10 = f % 10 ∧ t / 10 < s / 10 ∧ s / 10 < f / 10 := by
        rcases hb with ⟨b1, b2, b3⟩ | ⟨b1, b2, b3⟩ | ⟨b1, b2⟩ <;> omega
      exact ⟨(f / 10 - 1 - s / 10).toNat, by omega, by omega⟩
    · rintro ⟨k, hk, rfl⟩
      have hs1 : ((f / 10 - 1 + (k : Int) * -1) * 10 + (f % 10 + (k : Int) * 0)) / 10 = f / 10 - 1 - (k : Int) := by omega
      have hs2 : ((f / 10 - 1 + (k : Int) * -1) * 10 + (f % 10 + (k : Int) * 0)) % 10 = f % 10 := by omega
      refine Or.inl ⟨by omega, ?_, ?_⟩
      · omega
      · omega

/-- The squares before a square `t` of the ray ray_down from `f` are the squares strictly
between `f` and `t`, and `t` is on the file of `f`. -/
theorem ray_down_between {f t : Int} {A post : List Int} (hf : on_board f)
    (h : ray_down (f / 10) (f % 10) = A ++ t :: post) :
    po_line f t ∧ ∀ s, on_board s → (strictly_between f t s ↔ s ∈ A) := by
  unfold on_board at hf
  unfold ray_down at h
  obtain ⟨h1, h2, h3, h4⟩ := ray_split _ _ _ _ _ _ h
  simp only [decide_eq_true_eq] at h2
  clear h
  have ht1 : t / 10 = f / 10 + 1 + (A.length : Int) := by clear h4; omega
  have ht2 : t % 10 = f % 10 := by clear h4; omega
  refine ⟨?_, ?_⟩
  · clear h4
    exact Or.inl ⟨by omega, by omega⟩
  · intro s hs
    unfold on_board at hs
    rw [h4]
    clear h4 h1
    constructor
    · intro hb
      have hb' : s % 10 = f % 10 ∧ f / 10 < s / 10 ∧ s / 10 < t / 10 := by
        rcases hb with ⟨b1, b2, b3⟩ | ⟨b1, b2, b3⟩ | ⟨b1, b2⟩ <;> omega
      exact ⟨(s / 10 - (f / 10 + 1)).toNat, by omega, by omega⟩
    · rintro ⟨k, hk, rfl⟩
      have hs1 : ((f / 10 + 1 + (k : Int) * 1) * 10 + (f % 10 + (k : Int) * 0)) / 10 = f / 10 + 1 + (k : Int) := by omega
      have hs2 : ((f / 10 + 1 + (k : Int) * 1) * 10 + (f % 10 + (k : Int) * 0)) % 10 = f % 10 := by omega
      refine Or.inl ⟨by omega, ?_, ?_⟩
      · omega
      · omega

/-- The squares before a square `t` of the ray ray_left from `f` are the squares strictly
between `f` and `t`, and `t` is on the rank of `f`. -/
theorem ray_left_between {f t : Int} {A post : List Int} (hf : on_board f)
    (h : ray_left (f / 10) (f % 10) = A ++ t :: post) :
    po_line f t ∧ ∀ s, on_board s → (strictly_between f t s ↔ s ∈ A) := by
  unfold on_board at hf
  unfold ray_left at h
  obtain ⟨h1, h2, h3, h4⟩ := ray_split _ _ _ _ _ _ h
  simp only [decide_eq_true_eq] at h2
  clear h
  have ht1 : t / 10 = f / 10 := by clear h4; omega
  have ht2 : t % 10 = f % 10 - 1 - (A.length : Int) := by clear h4; omega
  refine ⟨?_, ?_⟩
  · clear h4
    exact Or.inr <| Or.inl ⟨by omega, by omega⟩
  · intro s hs
    unfold on_board at hs
    rw [h4]
    clear h4 h1
    constructor
    · intro hb
      have hb' : s / 10 = f / 10 ∧ t % 10 < s % 10 ∧ s % 10 < f % 10 := by
        rcases hb with ⟨b1, b2, b3⟩ | ⟨b1, b2, b3⟩ | ⟨b1, b2⟩ <;> omega
      exact ⟨(f % 10 - 1 - s % 10).toNat, by omega, by omega⟩
    · rintro ⟨k, hk, rfl⟩
      have hs1 : ((f / 10 + (k : Int) * 0) * 10 + (f % 10 - 1 + (k : Int) * -1)) / 10 = f / 10 := by omega
      have hs2 : ((f / 10 + (k : Int) * 0) * 10 + (f % 10 - 1 + (k : Int) * -1)) % 10 = f % 10 - 1 - (k : Int) := by omega
      refine Or.inr <| Or.inl ⟨by omega, ?_, ?_⟩
      · omega
      · omega

/-- The squares before a square `t` of the ray ray_right from `f` are the squares strictly
between `f` and `t`, and `t` is on the rank of `f`. -/
theorem ray_right_between {f t : Int} {A post : List Int} (hf : on_board f)
    (h : ray_right (f / 10) (f % 10) = A ++ t :: post) :
    po_line f t ∧ ∀ s, on_board s → (strictly_between f t s ↔ s ∈ A) := by
  unfold on_board at hf
  unfold ray_right at h
  obtain ⟨h1, h2, h3, h4⟩ := ray_split _ _ _ _ _ _ h
  simp only [decide_eq_true_eq] at h2
  clear h
  have ht1 : t / 10 = f / 10 := by clear h4; omega
  have ht2 : t % 10 = f % 10 + 1 + (A.length : Int) := by clear h4; omega
  refine ⟨?_, ?_⟩
  · clear h4
    exact Or.inr <| Or.inl ⟨by omega, by omega⟩
  · intro s hs
    unfold on_board at hs
    rw [h4]
    clear h4 h1
    constructor
    · intro hb
      have hb' : s / 10 = f / 10 ∧ f % 10 < s % 10 ∧ s % 10 < t % 10 := by
        rcases hb with ⟨b1, b2, b3⟩ | ⟨b1, b2, b3⟩ | ⟨b1, b2⟩ <;> omega
      exact ⟨(s % 10 - (f % 10 + 1)).toNat, by omega, by omega⟩
    · rintro ⟨k, hk, rfl⟩
      have hs1 : ((f / 10 + (k : Int) * 0) * 10 + (f % 10 + 1 + (k : Int) * 1)) / 10 = f / 10 := by omega
      have hs2 : ((f / 10 + (k : Int) * 0) * 10 + (f % 10 + 1 + (k : Int) * 1)) % 10 = f % 10 + 1 + (k : Int) := by omega
      refine Or.inr <| Or.inl ⟨by omega, ?_, ?_⟩
      · omega
      · omega

/-- Between two opposite corners of a palace stands the centre only. -/
theorem corner_between {f t : Int}
    (hft : (f = 93 ∧ t = 75) ∨ (f = 75 ∧ t = 93) ∨ (f = 23 ∧ t = 5) ∨ (f = 5 ∧ t = 23)
        ∨ (f = 95 ∧ t = 73) ∨ (f = 73 ∧ t = 95) ∨ (f = 25 ∧ t = 3) ∨ (f = 3 ∧ t = 25))
    (s : Int) (hs : on_board s) :
    strictly_between f t s ↔ s = (f + t) / 2 := by
  unfold on_board at hs
  rcases hft with h | h | h | h | h | h | h | h <;> obtain ⟨rfl, rfl⟩ := h <;>
  · constructor
    · intro hb
      rcases hb with ⟨b1, b2, b3⟩ | ⟨b1, b2, b3⟩ | ⟨b1 | b1, b2⟩ <;> omega
    · intro e
      subst e
      unfold strictly_between
      decide

/-- The same on the palace diagonals, from the corners the source allows for a Cannon. -/
theorem ray_diag_between {f t : Int} {A post : List Int}
    (h : ((f = 93 ∨ f = 75 ∨ f = 23 ∨ f = 5)
        ∧ (ray_right_up (f / 10) (f % 10) = A ++ t :: post
          ∨ ray_left_down (f / 10) (f % 10) = A ++ t :: post))
      ∨ ((f = 95 ∨ f = 73 ∨ f = 25 ∨ f = 3)
        ∧ (ray_right_down (f / 10) (f % 10) = A ++ t :: post
          ∨ ray_left_up (f / 10) (f % 10) = A ++ t :: post)))
    (hA : A ≠ []) :
    po_line f t ∧ ∀ s, on_board s → (strictly_between f t s ↔ s ∈ A) := by
  have hA' : 0 < A.length := List.length_pos.2 hA
  unfold ray_right_up ray_left_down ray_right_down ray_left_up at h
  rcases h with ⟨hf, h | h⟩ | ⟨hf, h | h⟩ <;>
  · obtain ⟨h1, h2, h3, h4⟩ := ray_split _ _ _ _ _ _ h
    simp only [decide_eq_true_eq] at h2
    clear h
    have hk : A.length = 1 := by
      clear h4
      rcases hf with rfl | rfl | rfl | rfl <;> omega
    rw [hk] at h1 h2
    have hft : (f = 93 ∧ t = 75) ∨ (f = 75 ∧ t = 93) ∨ (f = 23 ∧ t = 5) ∨ (f = 5 ∧ t = 23)
        ∨ (f = 95 ∧ t = 73) ∨ (f = 73 ∧ t = 95) ∨ (f = 25 ∧ t = 3) ∨ (f = 3 ∧ t = 25) := by
      clear h4
      rcases hf with rfl | rfl | rfl | rfl <;> omega
    refine ⟨?_, ?_⟩
    · clear h4 h1 h2
      unfold po_line
      rcases hft with h | h | h | h | h | h | h | h <;> obtain ⟨rfl, rfl⟩ := h <;> decide
    · intro s hs
      rw [corner_between hft s hs, h4, hk]
      clear h4
      constructor
      · intro e
        refine ⟨0, by omega, ?_⟩
        rw [e]
        rcases hft with h | h | h | h | h | h | h | h <;> obtain ⟨rfl, rfl⟩ := h <;> omega
      · rintro ⟨k, hk', rfl⟩
        have : k = 0 := by omega
        subst this
        rcases hft with h | h | h | h | h | h | h | h <;> obtain ⟨rfl, rfl⟩ := h <;> omega

/-- One Cannon loop: a reported move has exactly one occupied square among the squares the
loop visited before its destination, and that square holds no Cannon. -/
theorem po_loop_line {p : Position} {f : Int} {m : Move} {l : List Int}
    (hl : ∀ t ∈ l, on_board t) (hm : m ∈ po_loop p f false l)
    (hray : ∀ (A : List Int) (t : Int) (post : List Int), l = A ++ t :: post → A ≠ [] →
      po_line f t ∧ ∀ s, on_board s → (strictly_between f t s ↔ s ∈ A)) :
    po_line f m.yx_to ∧ ∃ sc, on_board sc ∧ strictly_between f m.yx_to sc
      ∧ p.board sc ≠ 0x20 ∧ is_po (p.board sc) = false
      ∧ ∀ s, on_board s → strictly_between f m.yx_to s → p.board s ≠ 0x20 → s = sc := by
  obtain ⟨pre, sc, rest, e1, hpre, hsc, hpo, hm1⟩ := po_loop_false_spec l hm
  obtain ⟨mid, t, post, e2, hmid, hm2⟩ := po_loop_true_spec rest hm1
  obtain ⟨rfl, -, -⟩ := mem_handle_as_po.1 hm2
  have e : l = (pre ++ sc :: mid) ++ t :: post := by rw [e1, e2]; simp
  obtain ⟨hline, hbt⟩ := hray _ _ _ e (by simp)
  have hscb : on_board sc := hl sc (by rw [e1]; simp)
  refine ⟨hline, sc, hscb, (hbt sc hscb).2 (by simp), hsc, hpo, ?_⟩
  intro s hs hb hne
  have hmem := (hbt s hs).1 hb
  rcases List.mem_append.1 hmem with h | h
  · exact absurd (hpre s h) hne
  · rcases List.mem_cons.1 h with h | h
    · exact h
    · exact absurd (hmid s h) hne

theorem append_po_line {p : Position} {f : Int} {m : Move} (hf : on_board f)
    (hm : m ∈ append_po p f) :
    po_line f m.yx_to ∧ ∃ sc, on_board sc ∧ strictly_between f m.yx_to sc
      ∧ p.board sc ≠ 0x20 ∧ is_po (p.board sc) = false
      ∧ ∀ s, on_board s → strictly_between f m.yx_to s → p.board s ≠ 0x20 → s = sc := by
  unfold append_po at hm
  simp only [List.mem_append] at hm
  rcases hm with ((((h | h) | h) | h) | h) | h
  · exact po_loop_line (fun t ht => (ray_orth_ok hf (Or.inl ht)).1) h
      (fun A t post e _ => ray_up_between hf e)
  · exact po_loop_line (fun t ht => (ray_orth_ok hf (Or.inr (Or.inl ht))).1) h
      (fun A t post e _ => ray_down_between hf e)
  · exact po_loop_line (fun t ht => (ray_orth_ok hf (Or.inr (Or.inr (Or.inl ht)))).1) h
      (fun A t post e _ => ray_left_between hf e)
  · exact po_loop_line (fun t ht => (ray_orth_ok hf (Or.inr (Or.inr (Or.inr ht)))).1) h
      (fun A t post e _ => ray_right_between hf e)
  · split at h
    · rename_i hc
      have hc' : f = 93 ∨ f = 84 ∨ f = 75 ∨ f = 23 ∨ f = 14 ∨ f = 5 := by omega
      rcases List.mem_append.1 h with h | h
      · exact po_loop_line (fun t ht => palace_on_board (ray_diag1_ok hc' (Or.inl ht)).1) h
          (fun A t post e hA => ray_diag_between (Or.inl ⟨hc, Or.inl e⟩) hA)
      · exact po_loop_line (fun t ht => palace_on_board (ray_diag1_ok hc' (Or.inr ht)).1) h
          (fun A t post e hA => ray_diag_between (Or.inl ⟨hc, Or.inr e⟩) hA)
    · simp at h
  · split at h
    · rename_i hc
      have hc' : f = 95 ∨ f = 84 ∨ f = 73 ∨ f = 25 ∨ f = 14 ∨ f = 3 := by omega
      rcases List.mem_append.1 h with h | h
      · exact po_loop_line (fun t ht => palace_on_board (ray_diag2_ok hc' (Or.inl ht)).1) h
          (fun A t post e hA => ray_diag_between (Or.inr ⟨hc, Or.inl e⟩) hA)
      · exact po_loop_line (fun t ht => palace_on_board (ray_diag2_ok hc' (Or.inr ht)).1) h
          (fun A t post e hA => ray_diag_between (Or.inr ⟨hc, Or.inr e⟩) hA)
    · simp at h

theorem append_piece_po {g : Globals} {p : Position} {f : Int}
    (hs : is_side p.to_move (p.board f)) (h9 : p.board f % 16 = 9 ∨ p.board f % 16 = 10) :
    append_piece g p f = some (append_po p f) := by
  unfold append_piece
  unfold is_side at hs
  simp only [hs, if_true]
  rw [if_neg (by omega), if_neg (by omega), if_neg (by omega), if_pos h9]

/-- C6. On every board, every move the generator reports for a Cannon (a piece whose code
selects `append_po`) travels along a file, a rank or a palace diagonal from a palace corner
through the centre to the opposite corner; exactly one occupied square lies strictly between
origin and destination, and it holds no Cannon of either side; the destination is empty or
holds a piece that is not of the mover's side and not a Cannon. -/
theorem po_moves (g : Globals) (p : Position) (ms : List Move)
    (h : raw_get_legal_moves g p = some ms) (m : Move) (hm : m ∈ ms)
    (h9 : m.piece % 16 = 9 ∨ m.piece % 16 = 10) :
    po_line m.yx_from m.yx_to
      ∧ (∃ sc, on_board sc ∧ strictly_between m.yx_from m.yx_to sc
          ∧ p.board sc ≠ 0x20 ∧ is_po (p.board sc) = false
          ∧ ∀ s, on_board s → strictly_between m.yx_from m.yx_to s → p.board s ≠ 0x20 →
              s = sc)
      ∧ (p.board m.yx_to = 0x20
          ∨ (p.board m.yx_to ≠ 0x20 ∧ ¬ is_side p.to_move (p.board m.yx_to)
              ∧ is_po (p.board m.yx_to) = false)) := by
  obtain ⟨pm, gp, hpm, hgp, rfl⟩ := raw_get_legal_moves_eq.1 h
  rcases List.mem_append.1 hm with hm | hm
  · obtain ⟨f, hf, l, hl, hml⟩ := (mem_piece_moves_on squares pm hpm).1 hm
    have hfb := (mem_squares f).1 hf
    obtain ⟨hs, ⟨h1, h2, -, -, -⟩, -, -⟩ := mem_append_piece hfb hl hml
    rw [h1] at h9
    rw [append_piece_po hs h9, Option.some.injEq] at hl
    subst hl
    obtain ⟨-, hside, hpo⟩ := mem_append_po hfb hml
    rw [h2]
    refine ⟨(append_po_line hfb hml).1, (append_po_line hfb hml).2, ?_⟩
    by_cases he : p.board m.yx_to = 0x20
    · exact Or.inl he
    · refine Or.inr ⟨he, ?_, hpo⟩
      unfold is_side at hs ⊢
      omega
  · simp only [List.mem_singleton] at hm
    have h0 := (goongpos_spec hgp).2.2
    have hpc : m.piece = p.board gp := by rw [hm]; rfl
    omega

/-- C6 at a concrete input: on `po_board` the Cannon on 71 jumps the Horse on 73 and lands
on 75. -/
theorem po_moves_witness :
    po_line 71 75
      ∧ (∃ sc, on_board sc ∧ strictly_between 71 75 sc
          ∧ po_board.board sc ≠ 0x20 ∧ is_po (po_board.board sc) = false
          ∧ ∀ s, on_board s → strictly_between 71 75 s → po_board.board s ≠ 0x20 → s = sc)
      ∧ (po_board.board 75 = 0x20
          ∨ (po_board.board 75 ≠ 0x20 ∧ ¬ is_side po_board.to_move (po_board.board 75)
              ∧ is_po (po_board.board 75) = false)) :=
  po_moves Globals.default po_board
    ((raw_get_legal_moves Globals.default po_board).get (by decide))
    (by decide) ⟨9, 71, 75, 32⟩ (by decide) (by decide)

/-! ## Face-off of the Generals -/

/-- A scanning loop reaches every square up to which its condition holds. -/
theorem mem_ray_of {cond : Int → Int → Bool} {dy dx : Int} :
    ∀ (n : Nat) (yo xo : Int) (k : Nat), k < n →
      (∀ j : Nat, j ≤ k → cond (yo + (j : Int) * dy) (xo + (j : Int) * dx) = true) →
      (yo + (k : Int) * dy) * 10 + (xo + (k : Int) * dx) ∈ ray cond dy dx n yo xo
  | 0, _, _, k, hk, _ => by omega
  | n + 1, yo, xo, k, hk, hc => by
    unfold ray
    have h0 := hc 0 (by omega)
    simp only [Nat.cast_zero, zero_mul, add_zero] at h0
    rw [if_pos h0]
    cases k with
    | zero => simp
    | succ k =>
      refine List.mem_cons_of_mem _ ?_
      have ih := mem_ray_of n (yo + dy) (xo + dx) k (by omega) (by
        intro j hj
        have := hc (j + 1) (by omega)
        have e1 : yo + ((j + 1 : Nat) : Int) * dy = yo + dy + (j : Int) * dy := by
          push_cast; ring
        have e2 : xo + ((j + 1 : Nat) : Int) * dx = xo + dx + (j : Int) * dx := by
          push_cast; ring
        rw [e1, e2] at this
        exact this)
      have e1 : yo + ((k + 1 : Nat) : Int) * dy = yo + dy + (k : Int) * dy := by
        push_cast; ring
      have e2 : xo + ((k + 1 : Nat) : Int) * dx = xo + dx + (k : Int) * dx := by
        push_cast; ring
      rw [e1, e2]
      exact ih

/-- The face-off loop reports a General that it reaches over empty squares. -/
theorem bikjang_loop_emit {p : Position} {f t : Int} :
    ∀ (A post : List Int), (∀ x ∈ A, p.board x = 0x20) →
      (p.board t = 0x00 ∨ p.board t = 0x10) → emit p f t ∈ bikjang_loop p f (A ++ t :: post)
  | [], post, _, ht => by
    have hne : ¬ is_empty p t = true := by
      rw [is_empty_iff]; omega
    simp only [List.nil_append, bikjang_loop, hne, ht, if_true]
    simp
  | a :: A, post, hA, ht => by
    have he : is_empty p a = true := is_empty_iff.2 (hA a (List.mem_cons_self _ _))
    simp only [List.cons_append, bikjang_loop, he, if_true]
    exact bikjang_loop_emit A post (fun x hx => hA x (List.mem_cons_of_mem _ hx)) ht

theorem sa_goong_targets_near {f : Int} {ts : List Int} (h : sa_goong_targets f = some ts) :
    ∀ t ∈ ts, f - 11 ≤ t ∧ t ≤ f + 11 := by
  unfold sa_goong_targets at h
  split_ifs at h <;> simp only [Option.some.injEq] at h <;> subst h <;>
    simp only [List.mem_cons, List.mem_singleton, List.not_mem_nil, or_false] <;>
    intro t ht <;> omega

/-- A General's or Guard's step ends next to its origin. -/
theorem append_sa_goong_near {p : Position} {f : Int} {l : List Move} {m : Move}
    (h : append_sa_goong p f = some l) (hm : m ∈ l) :
    f - 11 ≤ m.yx_to ∧ m.yx_to ≤ f + 11 := by
  unfold append_sa_goong at h
  cases hts : sa_goong_targets f with
  | none => simp [hts] at h
  | some ts =>
    simp only [hts, Option.map_some', Option.some.injEq] at h
    subst h
    obtain ⟨t, ht, hmt⟩ := List.mem_flatMap.1 hm
    obtain ⟨rfl, -⟩ := mem_possible_legal_move.1 hmt
    exact sa_goong_targets_near hts t ht

/-- The face-off loop from `gp` reports the General on `ge` when `ge` lies on the file of
`gp`, on the side the loop scans, behind empty squares only. -/
theorem bikjang_scan {p : Position} {gp ge : Int} (hgp : on_board gp) (hge : on_board ge)
    (hfile : gp % 10 = ge % 10)
    (hdir : (6 < gp / 10 ∧ ge / 10 < gp / 10) ∨ (gp / 10 ≤ 6 ∧ gp / 10 < ge / 10))
    (hg : p.board ge = 0x00 ∨ p.board ge = 0x10)
    (hempty : ∀ s, on_board s → strictly_between gp ge s → p.board s = 0x20) :
    emit p gp ge ∈ (if gp / 10 > 6 then bikjang_loop p gp (ray_up (gp / 10) (gp % 10))
      else bikjang_loop p gp (ray_down (gp / 10) (gp % 10))) := by
  unfold on_board at hgp hge
  rcases hdir with ⟨h6, hlt⟩ | ⟨h6, hlt⟩
  · rw [if_pos (by omega)]
    have hmem : ge ∈ ray_up (gp / 10) (gp % 10) := by
      unfold ray_up
      have := @mem_ray_of (fun yo _ => decide (yo ≥ 0)) (-1) 0 10
        (gp / 10 - 1) (gp % 10) (gp / 10 - 1 - ge / 10).toNat (by omega) (by
          intro j hj
          simp only [decide_eq_true_eq]
          omega)
      have e : (gp / 10 - 1 + ((gp / 10 - 1 - ge / 10).toNat : Int) * -1) * 10
          + (gp % 10 + ((gp / 10 - 1 - ge / 10).toNat : Int) * 0) = ge := by omega
      rw [e] at this
      exact this
    obtain ⟨A, post, e⟩ := List.append_of_mem hmem
    rw [e]
    refine bikjang_loop_emit A post ?_ hg
    intro x hx
    have hxb : on_board x :=
      (ray_orth_ok (f := gp) (by unfold on_board; omega) (Or.inl (by rw [e]; simp [hx]))).1
    exact hempty x hxb (((ray_up_between (by unfold on_board; omega) e).2 x hxb).2 hx)
  · rw [if_neg (by omega)]
    have hmem : ge ∈ ray_down (gp / 10) (gp % 10) := by
      unfold ray_down
      have := @mem_ray_of (fun yo _ => decide (yo < 10)) 1 0 10
        (gp / 10 + 1) (gp % 10) (ge / 10 - gp / 10 - 1).toNat (by omega) (by
          intro j hj
          simp only [decide_eq_true_eq]
          omega)
      have e : (gp / 10 + 1 + ((ge / 10 - gp / 10 - 1).toNat : Int) * 1) * 10
          + (gp % 10 + ((ge / 10 - gp / 10 - 1).toNat : Int) * 0) = ge := by omega
      rw [e] at this
      exact this
    obtain ⟨A, post, e⟩ := List.append_of_mem hmem
    rw [e]
    refine bikjang_loop_emit A post ?_ hg
    intro x hx
    have hxb : on_board x :=
      (ray_orth_ok (f := gp) (by unfold on_board; omega)
        (Or.inr (Or.inl (by rw [e]; simp [hx])))).1
    exact hempty x hxb (((ray_down_between (by unfold on_board; omega) e).2 x hxb).2 hx)


/-- What `append_piece` reports for the General of the side to move with `allow_bikjang`
on: the palace steps, then the face-off moves. -/
theorem append_piece_goong {g : Globals} {p : Position} {f : Int} {l : List Move}
    (hb : g.allow_bikjang = true) (hs : is_side p.to_move (p.board f))
    (h0 : p.board f % 16 = 0) (h : append_piece g p f = some l) :
    ∃ sa, append_sa_goong p f = some sa ∧ l = sa ++ append_bikjang p f := by
  unfold append_piece at h
  unfold is_side at hs
  simp only [hs, h0, hb, if_true] at h
  cases hsa : append_sa_goong p f with
  | none => simp [hsa] at h
  | some sa =>
    simp only [hsa, Option.map_some', Option.some.injEq] at h
    exact ⟨sa, rfl, h.symm⟩

/-- C8, amended. With `allow_bikjang` on, on every board on which the generator runs to its
end, with the General of the side to move and the enemy General each on the ranks of its own
palace, on the same file and with only empty squares between them: the generator reports the
face-off move (from the mover's General's square to the enemy General's square, `captured`
the enemy General) if and only if the score of the side NOT to move is below 72, whatever the
balance of material. -/
theorem bikjang_moves (g : Globals) (p : Position) (ms : List Move) (gp ge : Int)
    (hb : g.allow_bikjang = true)
    (h : raw_get_legal_moves g p = some ms)
    (hgp : on_board gp) (hge : on_board ge)
    (hgen : (p.to_move = Side.CHO ∧ p.board gp = 0x00 ∧ p.board ge = 0x10
              ∧ 7 ≤ gp / 10 ∧ ge / 10 ≤ 2)
          ∨ (p.to_move = Side.HAN ∧ p.board gp = 0x10 ∧ p.board ge = 0x00
              ∧ gp / 10 ≤ 2 ∧ 7 ≤ ge / 10))
    (hfile : gp % 10 = ge % 10)
    (hempty : ∀ s, on_board s → strictly_between gp ge s → p.board s = 0x20) :
    (⟨p.board gp, gp, ge, p.board ge⟩ : Move) ∈ ms ↔ opponent_score p < 72 := by
  obtain ⟨pm, gp', hpm, hgp', rfl⟩ := raw_get_legal_moves_eq.1 h
  have hs : is_side p.to_move (p.board gp) := by
    unfold is_side
    rcases hgen with ⟨h1, h2, -⟩ | ⟨h1, h2, -⟩ <;> rw [h1, h2] <;> decide
  have h0 : p.board gp % 16 = 0 := by
    rcases hgen with ⟨-, h2, -⟩ | ⟨-, h2, -⟩ <;> rw [h2]
  have hg : p.board ge = 0x00 ∨ p.board ge = 0x10 := by
    rcases hgen with ⟨-, -, h3, -⟩ | ⟨-, -, h3, -⟩ <;> simp [h3]
  have hdir : (6 < gp / 10 ∧ ge / 10 < gp / 10) ∨ (gp / 10 ≤ 6 ∧ gp / 10 < ge / 10) := by
    rcases hgen with ⟨-, -, -, h4, h5⟩ | ⟨-, -, -, h4, h5⟩ <;> omega
  have hfar : ¬ (gp - 11 ≤ ge ∧ ge ≤ gp + 11) := by
    rcases hgen with ⟨-, -, -, h4, h5⟩ | ⟨-, -, -, h4, h5⟩ <;> omega
  have hscore : append_bikjang p gp ≠ [] → opponent_score p < 72 := by
    intro hne
    unfold append_bikjang at hne
    unfold opponent_score
    rcases hgen with ⟨h1, -⟩ | ⟨h1, -⟩
    · rw [if_pos h1]
      by_contra hc
      exact hne (by rw [if_pos ⟨h1, not_lt.1 hc⟩])
    · rw [if_neg (by rw [h1]; decide)]
      by_contra hc
      exact hne (by rw [if_neg (by rw [h1]; simp), if_pos ⟨h1, not_lt.1 hc⟩])
  obtain ⟨l, hl⟩ := (piece_moves_on_some_iff squares).1 ⟨pm, hpm⟩ gp ((mem_squares gp).2 hgp)
  obtain ⟨sa, hsa, rfl⟩ := append_piece_goong hb hs h0 hl
  constructor
  · intro hm
    rcases List.mem_append.1 hm with hm | hm
    · obtain ⟨f, hf, l', hl', hml⟩ := (mem_piece_moves_on squares pm hpm).1 hm
      have hfb := (mem_squares f).1 hf
      obtain ⟨-, ⟨-, h2, -, -, -⟩, -, -⟩ := mem_append_piece hfb hl' hml
      have h2' : gp = f := h2
      subst h2'
      rw [hl, Option.some.injEq] at hl'
      subst hl'
      rcases List.mem_append.1 hml with hml | hml
      · exact absurd (append_sa_goong_near hsa hml) hfar
      · exact hscore (List.ne_nil_of_mem hml)
    · simp only [List.mem_singleton] at hm
      have e1 : gp = gp' := congrArg Move.yx_from hm
      have e2 : ge = gp' := congrArg Move.yx_to hm
      omega
  · intro hsc
    refine List.mem_append.2 (Or.inl ?_)
    refine (mem_piece_moves_on squares pm hpm).2 ⟨gp, (mem_squares gp).2 hgp, _, hl, ?_⟩
    refine List.mem_append.2 (Or.inr ?_)
    have hscan := bikjang_scan (p := p) hgp hge hfile hdir hg hempty
    unfold append_bikjang
    unfold opponent_score at hsc
    rcases hgen with ⟨h1, -⟩ | ⟨h1, -⟩
    · rw [if_pos h1] at hsc
      rw [if_neg (fun hc => absurd hsc (not_lt.2 hc.2)), if_neg (by rw [h1]; simp)]
      exact hscan
    · rw [if_neg (by rw [h1]; decide)] at hsc
      rw [if_neg (by rw [h1]; simp), if_neg (fun hc => absurd hsc (not_lt.2 hc.2))]
      exact hscan

/-- A property of the squares of the board can be checked on the list of the squares. -/
theorem forall_on_board {P : Int → Prop} (h : ∀ s ∈ squares, P s) :
    ∀ s, on_board s → P s := fun s hs => h s ((mem_squares s).2 hs)

/-- C8, amended, at a concrete input: on `faceoff_ahead` Cho is to move, Han's score is 71.5
and the face-off move 84 -> 14 is reported. -/
theorem bikjang_moves_witness :
    (⟨faceoff_ahead.board 84, 84, 14, faceoff_ahead.board 14⟩ : Move)
        ∈ (raw_get_legal_moves ⟨true, false, false⟩ faceoff_ahead).getD []
      ↔ opponent_score faceoff_ahead < 72 :=
  bikjang_moves ⟨true, false, false⟩ faceoff_ahead
    ((raw_get_legal_moves ⟨true, false, false⟩ faceoff_ahead).getD []) 84 14 rfl
    (by decide!) (by decide) (by decide) (Or.inl (by decide!)) (by decide)
    (forall_on_board (by decide!))

/-- C8 as stated fails in both directions (Cho to move, Generals on 84 and 14, the squares
24 .. 74 between them empty, `allow_bikjang` on).  On `faceoff_level` Cho is not ahead in
material (72 against 73.5) and the face-off move is not reported; on `faceoff_ahead` Cho is
ahead in material (72 against 71.5) and the face-off move is reported. -/
theorem bikjang_moves_counterexample :
    (faceoff_level.to_move = Side.CHO ∧ faceoff_level.board 84 = 0x00
        ∧ faceoff_level.board 14 = 0x10
        ∧ (∀ s ∈ squares, strictly_between 84 14 s → faceoff_level.board s = 0x20)
        ∧ ¬ score_cho faceoff_level > score_han faceoff_level
        ∧ (raw_get_legal_moves ⟨true, false, false⟩ faceoff_level).map
            (fun ms => decide ((⟨0x00, 84, 14, 0x10⟩ : Move) ∈ ms)) = some false)
    ∧ (faceoff_ahead.to_move = Side.CHO ∧ faceoff_ahead.board 84 = 0x00
        ∧ faceoff_ahead.board 14 = 0x10
        ∧ (∀ s ∈ squares, strictly_between 84 14 s → faceoff_ahead.board s = 0x20)
        ∧ score_cho faceoff_ahead > score_han faceoff_ahead
        ∧ (raw_get_legal_moves ⟨true, false, false⟩ faceoff_ahead).map
            (fun ms => decide ((⟨0x00, 84, 14, 0x10⟩ : Move) ∈ ms)) = some true) := by
  decide!

/-! ## The last terminal rule -/

/-- C9 at the failing input `faceoff_taken` (options: `allow_bikjang` on, the others off).
The board is reached by moves of `get_legal_moves()`; exactly one General is on the board,
Cho's, on square 14; none of the earlier rules applies (no repetition, both scores at least
10, seven plies played, the last two moves are not both passes; the double loop of the
generator reports 24 moves for Han's pieces); and `winner()` returns NONE, not CHO. -/
theorem winner_after_faceoff :
    faceoff_taken.map (fun b =>
      decide (b.to_move = Side.HAN
        ∧ squares.filter (fun s => b.board s = 0x00 ∨ b.board s = 0x10) = [14]
        ∧ b.board 14 = 0x00
        ∧ repeat_count ⟨true, false, false⟩ b = 0
        ∧ ¬ score_cho b.toPosition < 10 ∧ ¬ score_han b.toPosition < 10
        ∧ b.history.length = 7
        ∧ is_passend b = false
        ∧ (piece_moves ⟨true, false, false⟩ b.toPosition).map List.length = some 24
        ∧ winner_piece_only b.toPosition = Side.NONE
        ∧ winner ⟨true, false, false⟩ b = some Side.NONE)) = some true := by
  decide!

/-! ## Two passes -/

theorem play_legal_reachable {H : HashConstants} {g : Globals} :
    ∀ (l : List Move) (b b' : Board), Reachable H b → play_legal g H b l = some b' →
      Reachable H b'
  | [], b, b', hb, h => by
    simp only [play_legal, Option.some.injEq] at h
    exact h ▸ hb
  | m :: rest, b, b', hb, h => by
    unfold play_legal at h
    cases hl : get_legal_moves g b with
    | none => simp [hl] at h
    | some r =>
      obtain ⟨ms, b1⟩ := r
      simp only [hl] at h
      by_cases hm : m ∈ ms
      · rw [if_pos hm] at h
        cases hmv : move g H b1 m with
        | none => simp [hmv] at h
        | some b2 =>
          simp only [hmv] at h
          exact play_legal_reachable rest b2 b' (Reachable.step g g b b1 b2 ms m hb hl hm hmv) h
      · rw [if_neg hm] at h
        simp at h

theorem reachable_play_legal {H : HashConstants} {g : Globals} {b : Board} (l : List Move)
    (hb : Reachable H b) : Reachable H ((play_legal g H b l).getD b) := by
  cases h : play_legal g H b l with
  | none => exact hb
  | some b' => exact play_legal_reachable l b b' hb h

/-- A pass takes nothing from either score. -/
theorem pass_captured_value {p : Position} {m : Move} (hs : p.to_move ≠ Side.NONE)
    (hm : Generated p m) (hp : m.yx_from = m.yx_to) :
    captured_value_cho m.captured = 0 ∧ captured_value_han m.captured = 0 := by
  obtain ⟨-, -, hside, -, hcap, hpass, -, -⟩ := hm
  have h0 := hpass hp
  rw [← hp] at hcap
  unfold is_side at hside
  have hc : m.captured = 0 ∨ m.captured = 16 := by
    rw [hcap]
    cases hto : p.to_move with
    | CHO => rw [hto] at hside; simp only [Side.toNat] at hside; omega
    | HAN => rw [hto] at hside; simp only [Side.toNat] at hside; omega
    | NONE => exact absurd hto hs
  rcases hc with hc | hc <;> rw [hc] <;> constructor <;>
    norm_num [captured_value_cho, captured_value_han]

/-- A reachable board on which only passes were played has the scores of the start. -/
theorem reachable_all_passes {H : HashConstants} {b : Board} (h : Reachable H b) :
    (∀ r ∈ b.history, r.move.yx_from = r.move.yx_to) →
      b.cached_score_cho = 72 ∧ b.cached_score_han = 73.5 := by
  induction h with
  | start cs hs => intro _; exact ⟨rfl, rfl⟩
  | step g g' b b1 b2 ms m hb hl hm hmv ih =>
    intro hp
    have hi := reachable_inv hb
    obtain ⟨rfl, raw, hraw, hsub⟩ := get_legal_moves_spec hi.cache hl
    have hgen : Generated b.toPosition m := raw_generated hraw (hsub m hm)
    obtain ⟨oms, ho⟩ := move_some hmv
    rw [move_eq ho, Option.some.injEq] at hmv
    subst hmv
    have hp1 : ∀ r ∈ b.history, r.move.yx_from = r.move.yx_to := fun r hr =>
      hp r (List.mem_append.2 (Or.inl hr))
    have hp2 : m.yx_from = m.yx_to :=
      hp ⟨m, b.boardhash, b.playhash, oms.any threatens_goong⟩
        (List.mem_append.2 (Or.inr (List.mem_singleton.2 rfl)))
    obtain ⟨e1, e2⟩ := pass_captured_value hi.side hgen hp2
    obtain ⟨i1, i2⟩ := ih hp1
    refine ⟨?_, ?_⟩
    · show b.cached_score_cho - captured_value_cho m.captured = 72
      rw [e1, i1]; norm_num
    · show b.cached_score_han - captured_value_han m.captured = 73.5
      rw [e2, i2]; norm_num

/-- The record `history[i]` of a valid index is in the history. -/
theorem hist_mem {b : Board} {i : Int} (h0 : 0 ≤ i) (h : i < b.history.length) :
    hist b i ∈ b.history := by
  unfold hist
  have hlt : i.toNat < b.history.length := by omega
  rw [List.getD_eq_getElem _ _ hlt]
  exact List.getElem_mem _


/-- After a pass the repetition block of `winner()` counts nothing. -/
theorem repeat_count_pass (g : Globals) {b : Board}
    (hlast : (hist b ((b.history.length : Int) - 1)).move.is_pass = true) :
    repeat_count g b = 0 := by
  unfold repeat_count
  simp only [hlast, not_true_eq_false, and_false, if_false, if_true]
  split
  · simp
  · split <;> simp

/-- What `winner()` computes after its first block on a board whose last two moves are
passes with a recorded capture other than "empty". -/
theorem winner_rest_passend (g : Globals) {b : Board} (hp : is_passend b = true)
    (hcap : (hist b ((b.history.length : Int) - 1)).move.captured ≠ 0x20) :
    winner_rest g b = some (by_score b.toPosition) := by
  have hp' := hp
  unfold is_passend at hp'
  simp only at hp'
  split at hp'
  · simp at hp'
  · rw [Bool.and_eq_true] at hp'
    unfold winner_rest
    rw [repeat_count_pass g hp'.1]
    simp only [ge_iff_le, Nat.le_zero_eq, OfNat.ofNat_ne_zero, if_false, hcap, and_false, hp,
      if_true, ite_self]

/-- C10. On every board reachable from a starting layout whose last two moves are both
passes, and on which, when `jang_move_is_illegal` is on, `get_legal_moves()` returns a
non-empty list, `winner()` returns CHO if `score_cho() > score_han()` and HAN otherwise; and
when these two passes are the whole game (a pass of Cho and a pass of Han from a starting
layout, all material intact) it returns HAN. -/
theorem passend_winner (H : HashConstants) (g : Globals) (b : Board) (hb : Reachable H b)
    (hp : is_passend b = true)
    (hl : g.jang_move_is_illegal = true →
      ∃ ms b1, get_legal_moves g b = some (ms, b1) ∧ ms ≠ []) :
    winner g b
        = some (if score_cho b.toPosition > score_han b.toPosition then Side.CHO else Side.HAN)
      ∧ (b.history.length = 2 → winner g b = some Side.HAN) := by
  have hi := reachable_inv hb
  have hp' := hp
  unfold is_passend at hp'
  simp only at hp'
  have hlen : 2 ≤ b.history.length := by
    by_contra hc
    rw [if_pos (by omega)] at hp'
    simp at hp'
  rw [if_neg (by omega), Bool.and_eq_true] at hp'
  have hm1 := hist_mem (b := b) (i := (b.history.length : Int) - 1) (by omega) (by omega)
  have hm2 := hist_mem (b := b) (i := (b.history.length : Int) - 2) (by omega) (by omega)
  have hpass1 : (hist b ((b.history.length : Int) - 1)).move.yx_from
      = (hist b ((b.history.length : Int) - 1)).move.yx_to := by
    simpa [Move.is_pass] using hp'.1
  have hpass2 : (hist b ((b.history.length : Int) - 2)).move.yx_from
      = (hist b ((b.history.length : Int) - 2)).move.yx_to := by
    simpa [Move.is_pass] using hp'.2
  have hrest := winner_rest_passend g hp (hi.passes _ hm1 hpass1)
  have hw : winner g b = some (by_score b.toPosition) := by
    unfold winner
    cases hj : g.jang_move_is_illegal with
    | false => simpa using hrest
    | true =>
      obtain ⟨ms, b1, hg, hne⟩ := hl hj
      have hlen0 : ms.length ≠ 0 := fun h0 => hne (List.length_eq_zero.1 h0)
      simp only [if_true, hg, hlen0, false_and, if_false]
      exact hrest
  refine ⟨hw, ?_⟩
  intro h2
  rw [hw]
  have hall : ∀ r ∈ b.history, r.move.yx_from = r.move.yx_to := by
    intro r hr
    obtain ⟨n, hn, rfl⟩ := List.getElem_of_mem hr
    have hn2 : n = 0 ∨ n = 1 := by omega
    unfold hist at hpass1 hpass2
    rw [h2] at hpass1 hpass2
    rw [List.getD_eq_getElem _ _ (by rw [h2]; decide)] at hpass1 hpass2
    rcases hn2 with rfl | rfl
    · exact hpass2
    · exact hpass1
  obtain ⟨s1, s2⟩ := reachable_all_passes hb hall
  unfold by_score score_cho score_han
  rw [s1, s2, if_neg (by norm_num)]

/-- A non-empty list of legal moves, from an evaluation of `get_legal_moves()`. -/
theorem legal_moves_of_eval {g : Globals} {b : Board}
    (h : (get_legal_moves g b).map (fun r => decide (r.1 ≠ [])) = some true) :
    ∃ ms b1, get_legal_moves g b = some (ms, b1) ∧ ms ≠ [] := by
  cases hg : get_legal_moves g b with
  | none => simp [hg] at h
  | some r =>
    obtain ⟨ms, b1⟩ := r
    refine ⟨ms, b1, rfl, ?_⟩
    simpa [hg] using h

/-- C10 at a concrete input: the opening position after a pass of Cho and a pass of Han,
with `jang_move_is_illegal` on. -/
theorem passend_winner_witness :
    winner ⟨false, false, true⟩ two_passes
        = some (if score_cho two_passes.toPosition > score_han two_passes.toPosition
            then Side.CHO else Side.HAN)
      ∧ (two_passes.history.length = 2 →
          winner ⟨false, false, true⟩ two_passes = some Side.HAN) :=
  passend_winner example_hash ⟨false, false, true⟩ two_passes
    (reachable_play_legal _ (Reachable.start _ _)) (by decide!)
    (fun _ => legal_moves_of_eval (by decide!))

/-! ## The cap at 240 plies -/

/-- The part of `winner()` after the repetition rule returns a score comparison once the
history holds 240 records, provided the `is_jang()` it may call has a result. -/
theorem winner_rest_cap (g : Globals) {b : Board} (hlen : 240 ≤ b.history.length)
    (hrep : repeat_count g b < 2)
    (hj : (hist b ((b.history.length : Int) - 1)).move.captured = 0x20 →
      (is_jang g b).isSome = true) :
    winner_rest g b = some (by_score b.toPosition) := by
  unfold winner_rest
  rw [if_neg (by omega)]
  simp only
  rw [if_pos (Or.inr (Or.inr (by omega)))]
  by_cases hc : (hist b ((b.history.length : Int) - 1)).move.captured = 0x20
  · rw [if_pos ⟨by omega, hc⟩]
    cases hjang : is_jang g b with
    | none => rw [hjang] at hj; exact absurd (hj hc) (by simp)
    | some r =>
      simp only [Option.map_some']
      cases (!r.1 && !(hist b ((b.history.length : Int) - 1)).was_jang)
      · simp only
        rw [if_pos hlen]
      · rfl
  · rw [if_neg (fun h => hc h.2)]
    simp only
    rw [if_pos hlen]

/-- C11. On every board whose history holds at least 240 moves and whose side to move is CHO
or HAN, `winner()` (given that the `get_legal_moves()` and `is_jang()` calls it makes have a
result) returns CHO or HAN, never NONE; and when the side to move has a legal move (no
checkmate) and the repetition rule does not fire, it returns CHO if
`score_cho() > score_han()` and HAN otherwise. -/
theorem winner_at_cap (g : Globals) (b : Board) (hlen : 240 ≤ b.history.length)
    (hs : b.to_move ≠ Side.NONE)
    (hlm : g.jang_move_is_illegal = true → (get_legal_moves g b).isSome = true)
    (hj : (hist b ((b.history.length : Int) - 1)).move.captured = 0x20 →
      (is_jang g b).isSome = true) :
    (winner g b = some Side.CHO ∨ winner g b = some Side.HAN)
      ∧ ((g.jang_move_is_illegal = true →
            ∀ ms b1, get_legal_moves g b = some (ms, b1) → ms ≠ []) →
          repeat_count g b < 2 →
          winner g b = some (if score_cho b.toPosition > score_han b.toPosition
            then Side.CHO else Side.HAN)) := by
  have hside : b.to_move = Side.CHO ∨ b.to_move = Side.HAN := by
    cases h : b.to_move with
    | CHO => exact Or.inl rfl
    | HAN => exact Or.inr rfl
    | NONE => exact absurd h hs
  have hscore : by_score b.toPosition = Side.CHO ∨ by_score b.toPosition = Side.HAN := by
    unfold by_score
    split
    · exact Or.inl rfl
    · exact Or.inr rfl
  have hrest : winner_rest g b = some Side.CHO ∨ winner_rest g b = some Side.HAN := by
    by_cases hrep : repeat_count g b < 2
    · rw [winner_rest_cap g hlen hrep hj]
      rcases hscore with h | h <;> rw [h] <;> simp
    · unfold winner_rest
      rw [if_pos (by omega)]
      rcases hside with h | h <;> rw [h] <;> simp
  constructor
  · unfold winner
    cases hjm : g.jang_move_is_illegal with
    | false => simpa using hrest
    | true =>
      simp only [if_true]
      cases hg : get_legal_moves g b with
      | none => rw [hg] at hlm; exact absurd (hlm hjm) (by simp)
      | some r =>
        obtain ⟨ms, b1⟩ := r
        simp only
        split
        · exact Or.inl rfl
        · split
          · exact Or.inr rfl
          · exact hrest
  · intro hmate hrep
    have hw := winner_rest_cap g hlen hrep hj
    unfold by_score at hw
    unfold winner
    cases hjm : g.jang_move_is_illegal with
    | false => simpa using hw
    | true =>
      simp only [if_true]
      cases hg : get_legal_moves g b with
      | none => rw [hg] at hlm; exact absurd (hlm hjm) (by simp)
      | some r =>
        obtain ⟨ms, b1⟩ := r
        have hne : ms.length ≠ 0 := fun h0 => hmate hjm ms b1 hg (List.length_eq_zero.1 h0)
        simp only [hne, false_and, if_false]
        exact hw

/-- C11 at a concrete input: `capped_board`, with `jang_move_is_illegal` on. -/
theorem winner_at_cap_witness :
    (winner ⟨false, false, true⟩ capped_board = some Side.CHO
        ∨ winner ⟨false, false, true⟩ capped_board = some Side.HAN)
      ∧ (((⟨false, false, true⟩ : Globals).jang_move_is_illegal = true →
            ∀ ms b1, get_legal_moves ⟨false, false, true⟩ capped_board = some (ms, b1) →
              ms ≠ []) →
          repeat_count ⟨false, false, true⟩ capped_board < 2 →
          winner ⟨false, false, true⟩ capped_board
            = some (if score_cho capped_board.toPosition > score_han capped_board.toPosition
                then Side.CHO else Side.HAN)) :=
  winner_at_cap ⟨false, false, true⟩ capped_board
    (le_of_eq (List.length_replicate 240 _).symm) (by decide)
    (fun _ => by decide!) (fun _ => by decide!)

/-! ## Repetition, board-based variant -/

/-- C12 at the failing input `shuffle_game` (`board_based_repetitive_move` on, the other
options off): eight plies were played, no record is flagged as check, the `boardhash` of the
last record is found twice looking back in steps of four plies (the record itself and the
one four plies before; the loop stops there, the count is 2 and not 3), both Generals are on
the board, the scores are 72 and 73.5, and `winner()` returns the side to move, CHO. -/
theorem winner_repeat_two :
    shuffle_game.map (fun b =>
      decide (b.to_move = Side.CHO
        ∧ b.history.length = 8
        ∧ b.history.all (fun r => !r.was_jang) = true
        ∧ board_repeat_loop b (hist b 7).boardhash 8 0 7 = 2
        ∧ repeat_count ⟨false, true, false⟩ b = 2
        ∧ is_passend b = false
        ∧ score_cho b.toPosition = 72 ∧ score_han b.toPosition = 73.5
        ∧ winner_piece_only b.toPosition = Side.NONE
        ∧ winner ⟨false, true, false⟩ b = some Side.CHO)) = some true := by
  decide!

/-! ## The board hash -/

theorem xor_swap3 (a b c : Nat) : (a ^^^ b) ^^^ c = (a ^^^ c) ^^^ b := by
  rw [Nat.xor_assoc, Nat.xor_comm b c, ← Nat.xor_assoc]

theorem init_hash_foldl (H : HashConstants) (cells : Int → Nat) :
    ∀ (sq : List Int) (acc : Nat),
      sq.foldl (fun h yx =>
        if cells yx < 0x20 then h ^^^ H.table (hash_index yx (cells yx)) else h) acc
      = acc ^^^ xor_all (sq.map fun yx => piece_hash H yx (cells yx))
  | [], acc => by simp [xor_all]
  | yx :: rest, acc => by
    simp only [List.foldl_cons, List.map_cons, xor_all]
    rw [init_hash_foldl H cells rest]
    unfold piece_hash
    split
    · rw [Nat.xor_assoc]
    · simp

/-- The hash loop of `__init` is the XOR of the constants of the occupied cells. -/
theorem init_hash_eq (H : HashConstants) (cells : Int → Nat) :
    init_hash H cells = xor_all (squares.map fun yx => piece_hash H yx (cells yx)) := by
  unfold init_hash
  rw [init_hash_foldl]
  simp

/-- Writing one cell changes the XOR over a list of distinct squares by the constants of the
old and of the new content. -/
theorem xor_all_set_cell (H : HashConstants) (cells : Int → Nat) (k : Int) (v : Nat) :
    ∀ (sq : List Int), sq.Nodup →
      xor_all (sq.map fun yx => piece_hash H yx (set_cell cells k v yx))
        = xor_all (sq.map fun yx => piece_hash H yx (cells yx))
          ^^^ (if k ∈ sq then piece_hash H k (cells k) ^^^ piece_hash H k v else 0)
  | [], _ => by simp [xor_all]
  | yx :: rest, hn => by
    have hn' := List.nodup_cons.1 hn
    have ih := xor_all_set_cell H cells k v rest hn'.2
    simp only [List.map_cons, xor_all, ih, List.mem_cons]
    by_cases hk : yx = k
    · subst hk
      simp only [set_cell, if_true, hn'.1, if_false, true_or, Nat.xor_zero]
      generalize piece_hash H yx v = a
      generalize piece_hash H yx (cells yx) = c
      generalize xor_all (List.map (fun yx => piece_hash H yx (cells yx)) rest) = r
      apply Nat.eq_of_testBit_eq
      intro i
      simp only [Nat.testBit_xor]
      cases a.testBit i <;> cases c.testBit i <;> cases r.testBit i <;> rfl
    · have hk' : ¬ k = yx := fun h => hk h.symm
      simp only [set_cell, hk, hk', if_false, false_or]
      rw [Nat.xor_assoc]


theorem init_cells_le (cs hs : StartingState) (yx : Int) : init_cells cs hs yx ≤ 0x20 := by
  by_cases h : on_board yx
  · exact (init_table cs hs yx ((mem_squares yx).2 h)).1
  · unfold on_board at h
    unfold init_cells
    rw [if_neg h]

/-- No cell of a reachable board holds a code above `0x20`. -/
theorem reachable_cells_le {H : HashConstants} {b : Board} (h : Reachable H b) :
    ∀ yx, b.board yx ≤ 0x20 := by
  induction h with
  | start cs hs => exact init_cells_le cs hs
  | step g g' b b1 b2 ms m hb hl hm hmv ih =>
    have hi := reachable_inv hb
    obtain ⟨rfl, raw, hraw, hsub⟩ := get_legal_moves_spec hi.cache hl
    obtain ⟨oms, ho⟩ := move_some hmv
    rw [move_eq ho, Option.some.injEq] at hmv
    subst hmv
    intro yx
    show (move_cells b.toPosition m).board yx ≤ 0x20
    unfold move_cells set_cell
    simp only
    split
    · exact ih _
    · split
      · exact le_refl _
      · exact ih _

/-- A pass leaves the cells as they are. -/
theorem move_cells_pass {p : Position} {m : Move} (hp : m.yx_from = m.yx_to) :
    (move_cells p m).board = p.board := by
  funext i
  unfold move_cells set_cell
  simp only
  rw [hp]
  split
  · rename_i h; rw [h]
  · rfl

/-- The from-scratch hash of the cells after a reported move that is not a pass. -/
theorem init_hash_move_cells (H : HashConstants) {p : Position} {m : Move}
    (hf : on_board m.yx_from) (ht : on_board m.yx_to) (hne : m.yx_from ≠ m.yx_to) :
    init_hash H (move_cells p m).board
      = init_hash H p.board ^^^ piece_hash H m.yx_from (p.board m.yx_from)
          ^^^ piece_hash H m.yx_to (p.board m.yx_to)
          ^^^ piece_hash H m.yx_to (p.board m.yx_from) := by
  have hne' : ¬ m.yx_to = m.yx_from := fun h => hne h.symm
  rw [init_hash_eq, init_hash_eq]
  unfold move_cells
  simp only
  rw [xor_all_set_cell H _ _ _ squares squares_nodup,
    xor_all_set_cell H _ _ _ squares squares_nodup]
  simp only [(mem_squares _).2 hf, (mem_squares _).2 ht, if_true, set_cell, hne', if_false]
  have h20 : piece_hash H m.yx_from 0x20 = 0 := by simp [piece_hash]
  rw [h20, Nat.xor_zero]
  simp only [Nat.xor_assoc]

theorem side_salt_succ (H : HashConstants) (n : Nat) :
    side_salt H (n + 1) = side_salt H n ^^^ H.table ((H.size : Int) - 1) := by
  unfold side_salt
  by_cases h : n % 2 = 1
  · rw [if_pos h, if_neg (by omega), Nat.xor_self]
  · rw [if_neg h, if_pos (by omega), Nat.zero_xor]

theorem pass_salt_append (H : HashConstants) (r : BoardHistory) :
    ∀ (l : List BoardHistory),
      pass_salt H (l ++ [r]) = pass_salt H l
        ^^^ (if r.move.yx_from = r.move.yx_to
              then H.table (hash_index r.move.yx_to r.move.captured) else 0)
  | [] => by simp [pass_salt]
  | a :: rest => by
    show pass_salt H (a :: (rest ++ [r])) = _
    simp only [pass_salt, pass_salt_append H r rest, Nat.xor_assoc]

/-- The `boardhash` of a reachable board: the from-scratch hash of its cells, the constant
of the side toggles and what the passes left. -/
theorem reachable_boardhash {H : HashConstants} {b : Board} (h : Reachable H b) :
    b.boardhash
      = init_hash H b.board ^^^ side_salt H b.history.length ^^^ pass_salt H b.history := by
  induction h with
  | start cs hs => simp [init, side_salt, pass_salt, init_position]
  | step g g' b b1 b2 ms m hb hl hm hmv ih =>
    have hi := reachable_inv hb
    have hle := reachable_cells_le hb
    obtain ⟨rfl, raw, hraw, hsub⟩ := get_legal_moves_spec hi.cache hl
    have hgen : Generated b.toPosition m := raw_generated hraw (hsub m hm)
    obtain ⟨oms, ho⟩ := move_some hmv
    rw [move_eq ho, Option.some.injEq] at hmv
    subst hmv
    obtain ⟨hf, ht, hside, hpiece, hcap, -, -, -⟩ := hgen
    have hlt : b.board m.yx_from < 0x20 := is_side_lt hi.side hside
    show move_boardhash H { b with legal_move_cache := ms } m
      = init_hash H (move_cells b.toPosition m).board
        ^^^ side_salt H (b.history ++ [_]).length ^^^ pass_salt H (b.history ++ [_])
    rw [List.length_append, List.length_singleton, side_salt_succ, pass_salt_append]
    unfold move_boardhash
    simp only
    rw [ih]
    have hpf : piece_hash H m.yx_from (b.board m.yx_from)
        = H.table (hash_index m.yx_from (b.board m.yx_from)) := by
      unfold piece_hash; rw [if_pos hlt]
    have hpt : piece_hash H m.yx_to (b.board m.yx_from)
        = H.table (hash_index m.yx_to (b.board m.yx_from)) := by
      unfold piece_hash; rw [if_pos hlt]
    have hpc : piece_hash H m.yx_to (b.board m.yx_to)
        = (if m.captured ≠ 0x20 then H.table (hash_index m.yx_to m.captured) else 0) := by
      unfold piece_hash
      rw [hcap]
      have := hle m.yx_to
      by_cases h20 : b.board m.yx_to = 0x20
      · rw [if_neg (by omega), if_neg (by simpa using h20)]
      · rw [if_pos (by omega), if_pos h20]
    by_cases hp : m.yx_from = m.yx_to
    · rw [move_cells_pass hp, if_pos hp]
      have hc20 : m.captured ≠ 0x20 := by
        rw [hcap, ← hp]; omega
      rw [if_pos hc20, ← hp]
      generalize H.table (hash_index m.yx_from (b.board m.yx_from)) = t
      generalize H.table (hash_index m.yx_from m.captured) = c
      generalize H.table ((H.size : Int) - 1) = l
      generalize init_hash H b.board = x
      generalize side_salt H b.history.length = s
      generalize pass_salt H b.history = q
      apply Nat.eq_of_testBit_eq
      intro i
      simp only [Nat.testBit_xor]
      cases t.testBit i <;> cases c.testBit i <;> cases l.testBit i <;> cases x.testBit i <;>
        cases s.testBit i <;> cases q.testBit i <;> rfl
    · rw [init_hash_move_cells H hf ht hp, if_neg hp, hpf, hpt, hpc, Nat.xor_zero]
      by_cases hc : m.captured = 0x20
      · simp only [hc, ne_eq, not_true_eq_false, if_false, Nat.xor_zero]
        generalize H.table (hash_index m.yx_from (b.board m.yx_from)) = t
        generalize H.table (hash_index m.yx_to (b.board m.yx_from)) = u
        generalize H.table ((H.size : Int) - 1) = l
        generalize init_hash H b.board = x
        generalize side_salt H b.history.length = s
        generalize pass_salt H b.history = q
        apply Nat.eq_of_testBit_eq
        intro i
        simp only [Nat.testBit_xor]
        cases t.testBit i <;> cases u.testBit i <;> cases l.testBit i <;> cases x.testBit i <;>
          cases s.testBit i <;> cases q.testBit i <;> rfl
      · simp only [hc, ne_eq, not_false_eq_true, if_true]
        generalize H.table (hash_index m.yx_from (b.board m.yx_from)) = t
        generalize H.table (hash_index m.yx_to (b.board m.yx_from)) = u
        generalize H.table (hash_index m.yx_to m.captured) = c
        generalize H.table ((H.size : Int) - 1) = l
        generalize init_hash H b.board = x
        generalize side_salt H b.history.length = s
        generalize pass_salt H b.history = q
        apply Nat.eq_of_testBit_eq
        intro i
        simp only [Nat.testBit_xor]
        cases t.testBit i <;> cases u.testBit i <;> cases c.testBit i <;> cases l.testBit i <;>
          cases x.testBit i <;> cases s.testBit i <;> cases q.testBit i <;> rfl


theorem pass_salt_eq_zero (H : HashConstants) :
    ∀ (l : List BoardHistory), (∀ r ∈ l, r.move.yx_from ≠ r.move.yx_to) → pass_salt H l = 0
  | [], _ => rfl
  | a :: rest, h => by
    unfold pass_salt
    rw [if_neg (h a (List.mem_cons_self _ _)),
      pass_salt_eq_zero H rest (fun r hr => h r (List.mem_cons_of_mem _ hr))]
    rfl

/-- C13 (amended). On every board reachable from a starting layout by moves of
`get_legal_moves()` made with `Board::move`, none of them a pass, `boardhash` is the XOR,
computed from scratch over the 90 cells, of the constants of the occupied (square, piece)
pairs, XORed with the constant `board_hash_constants[BOARD_HASH_SIZE-1]` when an odd number
of moves has been played. -/
theorem boardhash_from_scratch (H : HashConstants) (b : Board) (hb : Reachable H b)
    (hnp : ∀ r ∈ b.history, r.move.yx_from ≠ r.move.yx_to) :
    b.boardhash = init_hash H b.board
      ^^^ (if b.history.length % 2 = 1 then H.table ((H.size : Int) - 1) else 0) := by
  rw [reachable_boardhash hb, pass_salt_eq_zero H _ hnp, Nat.xor_zero]
  rfl

/-- C13 (amended) at a concrete input: the opening position after the Soldier move 60-50,
one move and no pass. -/
theorem boardhash_from_scratch_witness :
    (∀ r ∈ (one_move.getD opening).history, r.move.yx_from ≠ r.move.yx_to)
      ∧ (one_move.getD opening).history.length = 1
      ∧ (one_move.getD opening).boardhash = init_hash example_hash (one_move.getD opening).board
          ^^^ (if (one_move.getD opening).history.length % 2 = 1
                then example_hash.table ((example_hash.size : Int) - 1) else 0) :=
  have h : (∀ r ∈ (one_move.getD opening).history, r.move.yx_from ≠ r.move.yx_to)
      ∧ (one_move.getD opening).history.length = 1 := by decide!
  ⟨h.1, h.2,
    boardhash_from_scratch example_hash (one_move.getD opening)
      (reachable_play_legal _ (Reachable.start _ _)) h.1⟩

/-- C13 as stated fails: after the first move from the opening position (Soldier 60 -> 50,
no pass played) `boardhash` is not the from-scratch XOR over the cells. -/
theorem boardhash_from_scratch_counterexample :
    one_move.map (fun b => decide (b.boardhash = init_hash example_hash b.board))
      = some false := by
  decide!

/-- C14 at the failing input: the opening position and the board `two_passes` reached from
it by a pass of each side (both moves taken from `get_legal_moves()`) have the same 90 cells
and the same side to move, and different values of `boardhash`: the two passes left the
constants of the two Generals in it. -/
theorem boardhash_after_passes :
    two_passes.history.length = 2
      ∧ (∀ s ∈ squares, two_passes.board s = opening.board s)
      ∧ two_passes.to_move = opening.to_move
      ∧ two_passes.boardhash ≠ opening.boardhash
      ∧ two_passes.boardhash
          = opening.boardhash ^^^ example_hash.table (hash_index 84 0x00)
              ^^^ example_hash.table (hash_index 14 0x10) := by
  decide!

/-! ## Text form of a move -/

theorem coord_text : ∀ s ∈ squares, toString (convert_to_printable false s) = text_coord s := by
  decide

theorem coord_no_dash : ∀ s ∈ squares, '-' ∉ (text_coord s).data := by
  decide

theorem coord_nodup : (squares.map text_coord).Nodup := by
  decide

/-- Two texts cut at their first `-` agree part by part. -/
theorem split_at_dash :
    ∀ (a c b d : List Char), '-' ∉ a → '-' ∉ c → a ++ '-' :: b = c ++ '-' :: d →
      a = c ∧ b = d
  | [], [], b, d, _, _, h => by
    simp only [List.nil_append, List.cons.injEq, true_and] at h
    exact ⟨rfl, h⟩
  | [], y :: c, b, d, _, hc, h => by
    simp only [List.nil_append, List.cons_append, List.cons.injEq] at h
    exact absurd (h.1 ▸ List.mem_cons_self _ _) hc
  | x :: a, [], b, d, ha, _, h => by
    simp only [List.nil_append, List.cons_append, List.cons.injEq] at h
    exact absurd (h.1 ▸ List.mem_cons_self _ _) ha
  | x :: a, y :: c, b, d, ha, hc, h => by
    simp only [List.cons_append, List.cons.injEq] at h
    obtain ⟨e1, e2⟩ := split_at_dash a c b d
      (fun hm => ha (List.mem_cons_of_mem _ hm)) (fun hm => hc (List.mem_cons_of_mem _ hm)) h.2
    exact ⟨by rw [h.1, e1], e2⟩

theorem move_string_eq (m : Move) (hf : on_board m.yx_from) (ht : on_board m.yx_to) :
    Move.string false m = text_coord m.yx_from ++ "-" ++ text_coord m.yx_to := by
  unfold Move.string
  rw [coord_text _ ((mem_squares _).2 hf), coord_text _ ((mem_squares _).2 ht)]

/-- C15, amended. With `flip_display` off, for every move whose from and to squares are on
the board, the text form is `FF-TT` where the text of a square of row `y` in 0..8 is the
two-digit decimal `RC` with `R = y+1` and `C = x+1`, and the text of a square of row 9 is
the single digit `C` (the integer `0C` is written without its leading zero); distinct
(from, to) pairs give distinct texts. -/
theorem move_text (m : Move) (hf : on_board m.yx_from) (ht : on_board m.yx_to) :
    Move.string false m = text_coord m.yx_from ++ "-" ++ text_coord m.yx_to
      ∧ (m.yx_from / 10 ≠ 9 → m.yx_to / 10 ≠ 9 → Move.string false m = spec_move_text m)
      ∧ ∀ m' : Move, on_board m'.yx_from → on_board m'.yx_to →
          Move.string false m = Move.string false m' →
          m.yx_from = m'.yx_from ∧ m.yx_to = m'.yx_to := by
  refine ⟨move_string_eq m hf ht, ?_, ?_⟩
  · intro h1 h2
    rw [move_string_eq m hf ht]
    unfold spec_move_text text_coord
    rw [if_neg h1, if_neg h2]
  · intro m' hf' ht' e
    rw [move_string_eq m hf ht, move_string_eq m' hf' ht'] at e
    have e' := congrArg String.data e
    simp only [String.data_append] at e'
    rw [List.append_assoc, List.append_assoc, List.singleton_append,
      List.singleton_append] at e'
    obtain ⟨e1, e2⟩ := split_at_dash _ _ _ _
      (coord_no_dash _ ((mem_squares _).2 hf)) (coord_no_dash _ ((mem_squares _).2 hf')) e'
    have inj := List.inj_on_of_nodup_map coord_nodup
    exact ⟨inj ((mem_squares _).2 hf) ((mem_squares _).2 hf') (String.ext e1),
      inj ((mem_squares _).2 ht) ((mem_squares _).2 ht') (String.ext e2)⟩

/-- C15, amended, at a concrete input: the Chariot move 90 -> 80 is written `1-91`. -/
theorem move_text_witness :
    Move.string false ⟨3, 90, 80, 32⟩ = text_coord 90 ++ "-" ++ text_coord 80
      ∧ ((90 : Int) / 10 ≠ 9 → (80 : Int) / 10 ≠ 9 →
          Move.string false ⟨3, 90, 80, 32⟩ = spec_move_text ⟨3, 90, 80, 32⟩)
      ∧ ∀ m' : Move, on_board m'.yx_from → on_board m'.yx_to →
          Move.string false ⟨3, 90, 80, 32⟩ = Move.string false m' →
          (90 : Int) = m'.yx_from ∧ (80 : Int) = m'.yx_to :=
  move_text ⟨3, 90, 80, 32⟩ (by decide) (by decide)

/-- C15 as stated fails on row 9: the Chariot move 90 -> 80 has the text `1-91`, not
`01-91`. -/
theorem move_text_counterexample :
    on_board 90 ∧ on_board 80
      ∧ Move.string false ⟨3, 90, 80, 32⟩ = "1-91"
      ∧ spec_move_text ⟨3, 90, 80, 32⟩ = "01-91"
      ∧ Move.string false ⟨3, 90, 80, 32⟩ ≠ spec_move_text ⟨3, 90, 80, 32⟩ := by
  decide

/-! ## Evaluation cache -/

theorem find_eq_none {m : CacheMap} {h : Nat} :
    CacheMap.find m h = none ↔ h ∉ CacheMap.keys m := by
  induction m with
  | nil => simp [CacheMap.find, CacheMap.keys]
  | cons e rest ih =>
    unfold CacheMap.find
    unfold CacheMap.keys at ih ⊢
    by_cases he : e.1 = h
    · simp [he]
    · simp only [he, if_false, ih, List.map_cons, List.mem_cons, not_or]
      constructor
      · intro h1; exact ⟨fun e' => he e'.symm, h1⟩
      · intro h1; exact h1.2

theorem assign_new {m : CacheMap} {h : Nat} (r : EvalResult) (hn : h ∉ CacheMap.keys m) :
    CacheMap.assign m h r = m ++ [(h, r)] := by
  induction m with
  | nil => rfl
  | cons e rest ih =>
    unfold CacheMap.keys at hn ih
    simp only [List.map_cons, List.mem_cons, not_or] at hn
    unfold CacheMap.assign
    rw [if_neg (fun e' => hn.1 e'.symm), ih hn.2]
    rfl

/-- A miss: the key is in neither map. -/
theorem evaluate_miss (c : Nat) {bk : Bucket} {h : Nat} (lm : List Move) (raw : EvalResult)
    (h1 : h ∉ CacheMap.keys bk.primary) (h2 : h ∉ CacheMap.keys bk.secondary) :
    evaluate_bucket c bk h lm raw
      = some (raw, if (bk.primary ++ [(h, raw)]).length ≥ c
          then ⟨[], bk.primary ++ [(h, raw)]⟩
          else ⟨bk.primary ++ [(h, raw)], bk.secondary⟩) := by
  unfold evaluate_bucket
  rw [find_eq_none.2 h1, find_eq_none.2 h2]
  simp only [assign_new raw h1]
  split <;> rfl

/-- Misses that do not fill the primary map are appended to it. -/
theorem run_fill (c : Nat) :
    ∀ (l : List EvalCall) (P S : CacheMap),
      (l.map EvalCall.hash).Nodup →
      (∀ x ∈ l, x.hash ∉ CacheMap.keys P ∧ x.hash ∉ CacheMap.keys S) →
      P.length + l.length < c →
      run_bucket c ⟨P, S⟩ l = some ⟨P ++ entries l, S⟩
  | [], P, S, _, _, _ => by simp [run_bucket, entries]
  | x :: rest, P, S, hn, hd, hlen => by
    have hn' := List.nodup_cons.1 hn
    simp only [List.length_cons] at hlen
    unfold run_bucket
    rw [evaluate_miss c x.legal x.raw (hd x (List.mem_cons_self _ _)).1
      (hd x (List.mem_cons_self _ _)).2]
    simp only
    rw [if_neg (by simp only [List.length_append, List.length_singleton]; omega)]
    rw [run_fill c rest (P ++ [(x.hash, x.raw)]) S hn'.2 ?_
      (by simp only [List.length_append, List.length_singleton]; omega)]
    · simp [entries]
    · intro y hy
      refine ⟨?_, (hd y (List.mem_cons_of_mem _ hy)).2⟩
      unfold CacheMap.keys
      simp only [List.map_append, List.map_cons, List.map_nil, List.mem_append,
        List.mem_singleton, not_or]
      refine ⟨(hd y (List.mem_cons_of_mem _ hy)).1, ?_⟩
      intro e
      exact hn'.1 (e ▸ List.mem_map_of_mem _ hy)

theorem run_append (c : Nat) :
    ∀ (l1 l2 : List EvalCall) (b1 b2 : Bucket),
      run_bucket c b1 l1 = some b2 → run_bucket c b1 (l1 ++ l2) = run_bucket c b2 l2
  | [], l2, b1, b2, h => by
    simp only [run_bucket, Option.some.injEq] at h
    rw [h]; rfl
  | a :: rest, l2, b1, b2, h => by
    simp only [List.cons_append]
    simp only [run_bucket] at h ⊢
    cases he : evaluate_bucket c b1 a.hash a.legal a.raw with
    | none => simp [he] at h
    | some r => simp only [he] at h ⊢; exact run_append c rest l2 r.2 b2 h

/-- Misses that fill the primary map exactly: the last one rotates the two maps. -/
theorem run_fill_rotate (c : Nat) (l : List EvalCall) (x : EvalCall) (P S : CacheMap)
    (hn : ((l ++ [x]).map EvalCall.hash).Nodup)
    (hd : ∀ y ∈ l ++ [x], y.hash ∉ CacheMap.keys P ∧ y.hash ∉ CacheMap.keys S)
    (hlen : P.length + l.length + 1 = c) :
    run_bucket c ⟨P, S⟩ (l ++ [x]) = some ⟨[], P ++ entries (l ++ [x])⟩ := by
  rw [List.map_append] at hn
  have hn1 := (List.nodup_append.1 hn).1
  have hdisj := (List.nodup_append.1 hn).2.2
  have h1 := run_fill c l P S hn1 (fun y hy => hd y (List.mem_append.2 (Or.inl hy)))
    (by omega)
  rw [run_append c l [x] _ _ h1]
  unfold run_bucket
  have hx := hd x (List.mem_append.2 (Or.inr (List.mem_singleton.2 rfl)))
  have hxk : x.hash ∉ CacheMap.keys (P ++ entries l) := by
    unfold CacheMap.keys entries
    simp only [List.map_append, List.map_map, List.mem_append, not_or]
    refine ⟨hx.1, ?_⟩
    intro hm
    have hm' : x.hash ∈ l.map EvalCall.hash := by
      simpa [Function.comp] using hm
    exact hdisj hm' (by simp)
  rw [evaluate_miss c x.legal x.raw hxk hx.2]
  simp only
  rw [if_pos (by simp only [List.length_append, List.length_singleton, entries,
    List.length_map]; omega)]
  simp [run_bucket, entries]

/-- A non-empty run of misses that fills the primary map exactly ends with the entries in
the secondary map. -/
theorem run_rotate (c : Nat) (L : List EvalCall) (P S : CacheMap) (hL : L ≠ [])
    (hn : (L.map EvalCall.hash).Nodup)
    (hd : ∀ y ∈ L, y.hash ∉ CacheMap.keys P ∧ y.hash ∉ CacheMap.keys S)
    (hlen : P.length + L.length = c) :
    run_bucket c ⟨P, S⟩ L = some ⟨[], P ++ entries L⟩ := by
  rcases List.eq_nil_or_concat L with h | ⟨l, x, rfl⟩
  · exact absurd h hL
  · simp only [List.concat_eq_append] at hn hd hlen ⊢
    exact run_fill_rotate c l x P S hn hd
      (by simp only [List.length_append, List.length_singleton] at hlen; omega)

theorem keys_entries (l : List EvalCall) : CacheMap.keys (entries l) = l.map EvalCall.hash := by
  unfold CacheMap.keys entries
  simp [Function.comp]

/-- C16, amended. In one bucket with threshold `cache_size = c`, `c` at least 2, starting
from the empty bucket, when `2c + 1` positions with pairwise distinct hashes are evaluated
one after another: after the first `c + 1` evaluations the first position's entry is held
in the secondary map and not in the primary, and after all `2c + 1` evaluations it is held
in neither map.  (The calls are `first`, the `c - 1` calls `A`, `x`, the `c - 1` calls `B`,
and `y`.) -/
theorem cache_migration (c : Nat) (hc : 2 ≤ c) (first x y : EvalCall) (A B : List EvalCall)
    (hA : A.length + 1 = c) (hB : B.length + 1 = c)
    (hn : ((first :: A ++ x :: B ++ [y]).map EvalCall.hash).Nodup) :
    (∃ bk, run_bucket c ⟨[], []⟩ (first :: A ++ [x]) = some bk
        ∧ first.hash ∈ CacheMap.keys bk.secondary ∧ first.hash ∉ CacheMap.keys bk.primary)
      ∧ (∃ bk, run_bucket c ⟨[], []⟩ (first :: A ++ x :: B ++ [y]) = some bk
        ∧ first.hash ∉ CacheMap.keys bk.primary
        ∧ first.hash ∉ CacheMap.keys bk.secondary) := by
  have e : first :: A ++ x :: B ++ [y] = (first :: A) ++ ((x :: B) ++ [y]) := by simp
  rw [e, List.map_append, List.map_append] at hn
  obtain ⟨hn1, hn23, hd1⟩ := List.nodup_append.1 hn
  obtain ⟨hn2, hn3, hd2⟩ := List.nodup_append.1 hn23
  have hfa : first.hash ∈ (first :: A).map EvalCall.hash := by simp
  have r1 : run_bucket c ⟨[], []⟩ (first :: A) = some ⟨[], entries (first :: A)⟩ := by
    have := run_rotate c (first :: A) [] [] (by simp) hn1
      (fun y _ => by simp [CacheMap.keys]) (by simp only [List.length_nil, List.length_cons]; omega)
    simpa using this
  have hxA : x.hash ∉ (first :: A).map EvalCall.hash := by
    intro hm
    exact hd1 hm (by simp)
  have hfx : first.hash ≠ x.hash := fun e' => hd1 hfa (by simp [e'])
  have hfB : first.hash ∉ (x :: B).map EvalCall.hash := by
    intro hm
    exact hd1 hfa (List.mem_append.2 (Or.inl hm))
  have hfy : first.hash ≠ y.hash := fun e' => hd1 hfa (by simp [e'])
  constructor
  · have e1 : first :: A ++ [x] = (first :: A) ++ [x] := rfl
    rw [e1, run_append c _ _ _ _ r1]
    unfold run_bucket
    rw [evaluate_miss c x.legal x.raw (by simp [CacheMap.keys])
      (by rw [keys_entries]; exact hxA)]
    simp only [List.nil_append, List.length_singleton]
    rw [if_neg (by omega)]
    refine ⟨_, rfl, ?_, ?_⟩
    · simp only [keys_entries]; exact hfa
    · simp only [CacheMap.keys, List.map_cons, List.map_nil, List.mem_singleton]
      exact hfx
  · have hxBA : ∀ z ∈ x :: B, z.hash ∉ CacheMap.keys ([] : CacheMap)
        ∧ z.hash ∉ CacheMap.keys (entries (first :: A)) := by
      intro z hz
      refine ⟨by simp [CacheMap.keys], ?_⟩
      rw [keys_entries]
      intro hm
      exact hd1 hm (List.mem_append.2 (Or.inl (List.mem_map_of_mem _ hz)))
    have r2 := run_rotate c (x :: B) [] (entries (first :: A)) (by simp) hn2 hxBA
      (by simp only [List.length_nil, List.length_cons]; omega)
    rw [e, run_append c _ _ _ _ r1, run_append c _ _ _ _ r2]
    unfold run_bucket
    have hyB : y.hash ∉ (x :: B).map EvalCall.hash := by
      intro hm
      exact hd2 hm (by simp)
    rw [evaluate_miss c y.legal y.raw (by simp [CacheMap.keys])
      (by simp only [List.nil_append, keys_entries]; exact hyB)]
    simp only [List.nil_append, List.length_singleton]
    rw [if_neg (by omega)]
    refine ⟨_, rfl, ?_, ?_⟩
    · simp only [CacheMap.keys, List.map_cons, List.map_nil, List.mem_singleton]
      exact hfy
    · simp only [keys_entries]; exact hfB

/-- C16, amended, at a concrete input: threshold 2 and five positions. -/
theorem cache_migration_witness :
    (∃ bk, run_bucket 2 ⟨[], []⟩ (sample_call 1 :: [sample_call 2] ++ [sample_call 3])
          = some bk
        ∧ (sample_call 1).hash ∈ CacheMap.keys bk.secondary
        ∧ (sample_call 1).hash ∉ CacheMap.keys bk.primary)
      ∧ (∃ bk, run_bucket 2 ⟨[], []⟩
            (sample_call 1 :: [sample_call 2] ++ sample_call 3 :: [sample_call 4]
              ++ [sample_call 5]) = some bk
        ∧ (sample_call 1).hash ∉ CacheMap.keys bk.primary
        ∧ (sample_call 1).hash ∉ CacheMap.keys bk.secondary) :=
  cache_migration 2 (by decide) (sample_call 1) (sample_call 3) (sample_call 5)
    [sample_call 2] [sample_call 4] (by decide) (by decide) (by decide)

/-- C16 as stated fails for the threshold 1: after `c + 1 = 2` evaluations of positions
with distinct hashes the first entry is in neither map (every miss rotates the maps). -/
theorem cache_migration_counterexample :
    (run_bucket 1 ⟨[], []⟩ [sample_call 1, sample_call 2]).map (fun bk =>
        decide ((sample_call 1).hash ∈ CacheMap.keys bk.secondary
          ∨ (sample_call 1).hash ∈ CacheMap.keys bk.primary)) = some false := by
  decide!

/-- Hits in the secondary map: every entry is moved to the primary map, none is dropped. -/
theorem run_promote (c : Nat) :
    ∀ (L : List EvalCall) (P : CacheMap),
      (L.map EvalCall.hash).Nodup →
      (∀ x ∈ L, x.hash ∉ CacheMap.keys P) →
      (∀ x ∈ L, validate x.raw.policy x.legal = some false) →
      run_bucket c ⟨P, entries L⟩ L = some ⟨P ++ entries L, []⟩
  | [], P, _, _, _ => by simp [run_bucket, entries]
  | x :: rest, P, hn, hd, hv => by
    have hn' := List.nodup_cons.1 hn
    have hx := hd x (List.mem_cons_self _ _)
    unfold run_bucket
    have he : evaluate_bucket c ⟨P, entries (x :: rest)⟩ x.hash x.legal x.raw
        = some (x.raw, ⟨P ++ [(x.hash, x.raw)], entries rest⟩) := by
      unfold evaluate_bucket
      simp only
      rw [find_eq_none.2 hx]
      simp only [entries, List.map_cons, CacheMap.find, if_true, CacheMap.erase]
      rw [assign_new _ hx]
      unfold evaluate_hit
      rw [hv x (List.mem_cons_self _ _)]
    rw [he]
    simp only
    rw [run_promote c rest (P ++ [(x.hash, x.raw)]) hn'.2 ?_
      (fun y hy => hv y (List.mem_cons_of_mem _ hy))]
    · simp [entries]
    · intro y hy
      unfold CacheMap.keys
      simp only [List.map_append, List.map_cons, List.map_nil, List.mem_append,
        List.mem_singleton, not_or]
      refine ⟨hd y (List.mem_cons_of_mem _ hy), ?_⟩
      intro e
      exact hn'.1 (e ▸ List.mem_map_of_mem _ hy)

theorem sample_hash_nodup (n : Nat) :
    (((List.range n).map sample_call).map EvalCall.hash).Nodup := by
  rw [List.map_map]
  refine List.Nodup.map ?_ (List.nodup_range n)
  intro a b h
  simp only [Function.comp, sample_call] at h
  omega

theorem sample_hash_not_mem (n : Nat) :
    (sample_call n).hash ∉ ((List.range n).map sample_call).map EvalCall.hash := by
  rw [List.map_map]
  simp only [List.mem_map, List.mem_range, Function.comp, sample_call, not_exists, not_and]
  intro k hk
  omega

/-- The state of the bucket after `growth_calls c n`: nothing in the primary map and
`c + n` entries in the secondary map. -/
theorem run_growth (c : Nat) :
    ∀ n, run_bucket c ⟨[], []⟩ (growth_calls c n)
      = some ⟨[], entries ((List.range (c + n)).map sample_call)⟩
  | 0 => by
    unfold growth_calls
    cases c with
    | zero => rfl
    | succ k =>
      have := run_rotate (k + 1) ((List.range (k + 1)).map sample_call) [] []
        (by simp) (sample_hash_nodup (k + 1))
        (fun y _ => by simp [CacheMap.keys]) (by simp)
      simpa using this
  | n + 1 => by
    unfold growth_calls
    rw [List.append_assoc, run_append c _ _ _ _ (run_growth c n)]
    have hp := run_promote c ((List.range (c + n)).map sample_call) []
      (sample_hash_nodup (c + n)) (fun x _ => by simp [CacheMap.keys])
      (fun x hx => by
        obtain ⟨k, -, rfl⟩ := List.mem_map.1 hx
        rfl)
    rw [run_append c _ _ _ _ hp]
    unfold run_bucket
    rw [evaluate_miss c _ _ (by
        simp only [List.nil_append, keys_entries]
        exact sample_hash_not_mem (c + n)) (by simp [CacheMap.keys])]
    simp only [List.nil_append]
    rw [if_pos (by simp [entries]; omega)]
    simp only [run_bucket, Option.some.injEq, Bucket.mk.injEq, true_and]
    rw [show c + (n + 1) = (c + n) + 1 from rfl, List.range_succ]
    simp [entries]

/-- C17 does not hold of the code: whatever the threshold `c`, after the calls
`growth_calls c n` (misses, and hits in the secondary map) the bucket holds `c + n`
entries, so no bound that depends on `c` alone limits the size of a bucket. -/
theorem cache_unbounded (c n : Nat) :
    ∃ bk, run_bucket c ⟨[], []⟩ (growth_calls c n) = some bk
      ∧ bk.primary.length + bk.secondary.length = c + n := by
  refine ⟨_, run_growth c n, ?_⟩
  simp [entries]

/-- C18 at failing inputs, in a bucket whose primary map holds, under the hash 16, a result
with the policy (Soldier 60-50, Soldier 60-61).  If the legal moves of the position that
hashes to 16 are (Soldier 60-50) alone, the cached result with its two moves is returned and
nothing is recomputed; the same if they are the two moves with other `captured` fields; if
they are (Soldier 60-50, Soldier 60-61, Soldier 62-52), the cached policy is read at index 2,
past its end. -/
theorem evaluate_stale :
    evaluate_bucket 20000
        ⟨[(16, ⟨[(⟨11, 60, 50, 32⟩, 1 / 2), (⟨11, 60, 61, 32⟩, 1 / 2)], 0⟩)], []⟩ 16
        [⟨11, 60, 50, 32⟩] ⟨[(⟨11, 60, 50, 32⟩, 1)], 0⟩
      = some (⟨[(⟨11, 60, 50, 32⟩, 1 / 2), (⟨11, 60, 61, 32⟩, 1 / 2)], 0⟩,
          ⟨[(16, ⟨[(⟨11, 60, 50, 32⟩, 1 / 2), (⟨11, 60, 61, 32⟩, 1 / 2)], 0⟩)], []⟩)
    ∧ (evaluate_bucket 20000
        ⟨[(16, ⟨[(⟨11, 60, 50, 32⟩, 1 / 2), (⟨11, 60, 61, 32⟩, 1 / 2)], 0⟩)], []⟩ 16
        [⟨11, 60, 50, 27⟩, ⟨11, 60, 61, 28⟩]
        ⟨[(⟨11, 60, 50, 27⟩, 1 / 2), (⟨11, 60, 61, 28⟩, 1 / 2)], 0⟩).map Prod.fst
      = some ⟨[(⟨11, 60, 50, 32⟩, 1 / 2), (⟨11, 60, 61, 32⟩, 1 / 2)], 0⟩
    ∧ evaluate_bucket 20000
        ⟨[(16, ⟨[(⟨11, 60, 50, 32⟩, 1 / 2), (⟨11, 60, 61, 32⟩, 1 / 2)], 0⟩)], []⟩ 16
        [⟨11, 60, 50, 32⟩, ⟨11, 60, 61, 32⟩, ⟨12, 62, 52, 32⟩]
        ⟨[(⟨11, 60, 50, 32⟩, 1 / 3), (⟨11, 60, 61, 32⟩, 1 / 3), (⟨12, 62, 52, 32⟩, 1 / 3)], 0⟩
      = none := by
  decide!

/-! ## Selection of the candidate -/

/-- C19 (failing input). `Search::search` with `visits = 2` on the opening position, the
evaluator giving equal priors to the first three legal moves and none to the others.  After
the first descent the scores of the root's 32 candidates are 35651585/16777216 for the
first three and 1/8 for the others: the maximum is reached first at index 0.  The second
descent goes into the candidate of index 2: `best_val` is a `float`, the score a `double`,
35651585/16777216 is stored as 17/8, and every later candidate with the same score passes
the test `value > best_val`. -/
theorem expand_tie_goes_last :
    ((expand three_way_env SearchNode.fresh empty_eval opening).map fun d =>
        (candidate_values d.node d.board.to_move, select_best (raised d.node) d.board.to_move))
      = some (List.replicate 3 (some (35651585 / 16777216)) ++ List.replicate 29 (some (1 / 8)),
          some 2)
    ∧ spec_first_max (List.replicate 3 (35651585 / 16777216) ++ List.replicate 29 (1 / 8))
      = some 0
    ∧ f32 (35651585 / 16777216) = 17 / 8
    ∧ (search three_way_env opening empty_eval 2 fun _ => false).map
        (fun r => (visited_indices r.root.children, r.results.map fun x => x.visits))
      = some ([2], [0, 0, 1] ++ List.replicate 29 0) := by
  decide!

/-! ## Search: the board through a descent -/

theorem move_clear_cache (g : Globals) (H : HashConstants) (b : Board) (m : Move) :
    move g H (clear_cache b) m = move g H b m := rfl

theorem unmove_clear_cache (H : HashConstants) (b : Board) :
    unmove H (clear_cache b) = unmove H b := rfl

theorem move_congr {g : Globals} {H : HashConstants} {b b' : Board} (m : Move)
    (h : clear_cache b = clear_cache b') : move g H b m = move g H b' m := by
  rw [← move_clear_cache g H b, ← move_clear_cache g H b', h]

theorem unmove_congr {H : HashConstants} {b b' : Board}
    (h : clear_cache b = clear_cache b') : unmove H b = unmove H b' := by
  rw [← unmove_clear_cache H b, ← unmove_clear_cache H b', h]

theorem clear_cache_fields {b b' : Board} (h : clear_cache b = clear_cache b') :
    b.toPosition = b'.toPosition ∧ b.history = b'.history ∧ b.boardhash = b'.boardhash
      ∧ b.playhash = b'.playhash := by
  have h1 := congrArg Board.toPosition h
  have h2 := congrArg Board.history h
  have h3 := congrArg Board.boardhash h
  have h4 := congrArg Board.playhash h
  exact ⟨h1, h2, h3, h4⟩

theorem cache_ok_clear (g : Globals) (b : Board) : cache_ok g (clear_cache b) :=
  ⟨Or.inl rfl, Or.inl rfl⟩

/-- `get_legal_moves` gives what the generator computes and changes the cache only. -/
theorem get_legal_moves_cache {g : Globals} {b b1 : Board} {ms : List Move}
    (h : get_legal_moves g b = some (ms, b1)) :
    clear_cache b1 = clear_cache b ∧ (cache_ok g b → cache_ok g b1) := by
  unfold get_legal_moves at h
  split at h
  · cases hm : compute_legal_moves g b.toPosition with
    | none => rw [hm] at h; simp at h
    | some l =>
      rw [hm] at h
      simp only [Option.map_some', Option.some.injEq, Prod.mk.injEq] at h
      obtain ⟨rfl, rfl⟩ := h
      exact ⟨rfl, fun hc => ⟨Or.inr hm, hc.2⟩⟩
  · simp only [Option.some.injEq, Prod.mk.injEq] at h
    obtain ⟨-, rfl⟩ := h
    exact ⟨rfl, fun hc => hc⟩

/-- With coherent caches `get_legal_moves` returns what the generator computes. -/
theorem get_legal_moves_fst {g : Globals} {b : Board} (hc : cache_ok g b) :
    (get_legal_moves g b).map Prod.fst = compute_legal_moves g b.toPosition := by
  unfold get_legal_moves
  split
  · simp only [Option.map_map]
    cases compute_legal_moves g b.toPosition <;> rfl
  · rename_i hne
    rcases hc.1 with h | h
    · rw [h] at hne; simp at hne
    · rw [h]; rfl

theorem opponent_cache {g : Globals} {b b1 : Board} {ms : List Move}
    (h : get_legal_moves_if_opponent g b = some (ms, b1)) :
    clear_cache b1 = clear_cache b ∧ (cache_ok g b → cache_ok g b1) := by
  unfold get_legal_moves_if_opponent at h
  split at h
  · simp only [Option.some.injEq, Prod.mk.injEq] at h
    obtain ⟨-, rfl⟩ := h
    exact ⟨rfl, fun hc => hc⟩
  · cases hm : raw_get_legal_moves g { b.toPosition with to_move := opponent b.to_move } with
    | none => rw [hm] at h; simp at h
    | some l =>
      rw [hm] at h
      simp only [Option.map_some', Option.some.injEq, Prod.mk.injEq] at h
      obtain ⟨rfl, rfl⟩ := h
      exact ⟨rfl, fun hc => ⟨hc.1, Or.inr hm⟩⟩

theorem opponent_fst {g : Globals} {b : Board} (hc : cache_ok g b) :
    (get_legal_moves_if_opponent g b).map Prod.fst
      = raw_get_legal_moves g { b.toPosition with to_move := opponent b.to_move } := by
  unfold get_legal_moves_if_opponent
  split
  · rename_i hne
    rcases hc.2 with h | h
    · rw [h] at hne; simp at hne
    · rw [h]; rfl
  · simp only [Option.map_map]
    cases raw_get_legal_moves g { b.toPosition with to_move := opponent b.to_move } <;> rfl

theorem is_jang_fst {g : Globals} {b : Board} (hc : cache_ok g b) :
    (is_jang g b).map Prod.fst
      = (raw_get_legal_moves g { b.toPosition with to_move := opponent b.to_move }).map
          fun ms => ms.any threatens_goong := by
  unfold is_jang
  rw [← opponent_fst hc]
  simp only [Option.map_map]
  rfl

theorem fill_legal_cache (g : Globals) (b : Board) :
    clear_cache (fill_legal g b) = clear_cache b
      ∧ (cache_ok g b → cache_ok g (fill_legal g b)) := by
  unfold fill_legal
  cases h : get_legal_moves g b with
  | none => exact ⟨rfl, fun hc => hc⟩
  | some r => exact @get_legal_moves_cache g b r.2 r.1 h

theorem fill_opponent_cache (g : Globals) (b : Board) :
    clear_cache (fill_opponent g b) = clear_cache b
      ∧ (cache_ok g b → cache_ok g (fill_opponent g b)) := by
  unfold fill_opponent is_jang
  cases h : get_legal_moves_if_opponent g b with
  | none => exact ⟨rfl, fun hc => hc⟩
  | some r => exact @opponent_cache g b r.2 r.1 h

/-- `winner()` changes the caches only. -/
theorem winner_board_cache (g : Globals) (b : Board) :
    clear_cache (winner_board g b) = clear_cache b
      ∧ (cache_ok g b → cache_ok g (winner_board g b)) := by
  have h1 : clear_cache (if g.jang_move_is_illegal then fill_legal g b else b) = clear_cache b
      ∧ (cache_ok g b → cache_ok g (if g.jang_move_is_illegal then fill_legal g b else b)) := by
    split
    · exact fill_legal_cache g b
    · exact ⟨rfl, fun hc => hc⟩
  unfold winner_board
  simp only
  generalize (if g.jang_move_is_illegal then fill_legal g b else b) = b1 at h1 ⊢
  split
  · exact h1
  · split
    · exact h1
    · split
      · exact ⟨(fill_opponent_cache g b1).1.trans h1.1,
          fun hc => (fill_opponent_cache g b1).2 (h1.2 hc)⟩
      · exact h1

/-- `PositionEval::evaluate` changes the caches of the board only. -/
theorem evaluate_board {env : SearchEnv} {ev ev1 : Nat → Bucket} {b b1 : Board}
    {r : EvalResult} (hk : keeps_board env) (h : evaluate env ev b = some (r, ev1, b1)) :
    clear_cache b1 = clear_cache b ∧ (cache_ok env.g b → cache_ok env.g b1) := by
  unfold evaluate at h
  simp only at h
  cases hf : cache_lookup (ev (b.playhash % 16)) b.playhash with
  | none =>
    rw [hf] at h
    simp only at h
    cases hr : env.evaluate_raw b with
    | none => rw [hr] at h; simp at h
    | some x =>
      obtain ⟨raw, b2⟩ := x
      rw [hr] at h
      simp only [Option.some.injEq, Prod.mk.injEq] at h
      obtain ⟨-, -, rfl⟩ := h
      exact hk b raw _ hr
  | some x =>
    obtain ⟨ret, bk1⟩ := x
    rw [hf] at h
    simp only at h
    cases hl : get_legal_moves env.g b with
    | none => rw [hl] at h; simp at h
    | some y =>
      obtain ⟨lm, b2⟩ := y
      rw [hl] at h
      simp only at h
      have h2 := get_legal_moves_cache hl
      cases hv : validate ret.policy lm with
      | none => rw [hv] at h; simp at h
      | some t =>
        rw [hv] at h
        cases t with
        | false =>
          simp only [Option.some.injEq, Prod.mk.injEq] at h
          obtain ⟨-, -, rfl⟩ := h
          exact h2
        | true =>
          simp only at h
          cases hr : env.evaluate_raw b2 with
          | none => rw [hr] at h; simp at h
          | some z =>
            obtain ⟨raw, b3⟩ := z
            rw [hr] at h
            simp only [Option.some.injEq, Prod.mk.injEq] at h
            obtain ⟨-, -, rfl⟩ := h
            have h3 := hk b2 raw _ hr
            exact ⟨h3.1.trans h2.1, fun hc => h3.2 (h2.2 hc)⟩

theorem board_repeat_loop_clear (b : Board) (last : Nat) :
    ∀ fuel cnt pt, board_repeat_loop (clear_cache b) last fuel cnt pt
      = board_repeat_loop b last fuel cnt pt := by
  have e4 : hist (clear_cache b) = hist b := rfl
  intro fuel
  induction fuel with
  | zero => intro cnt pt; rfl
  | succ k ih =>
    intro cnt pt
    simp only [board_repeat_loop, e4, ih]

theorem move_repeat_loop_clear (b : Board) (mv : Move) :
    ∀ fuel cnt pt, move_repeat_loop (clear_cache b) mv fuel cnt pt
      = move_repeat_loop b mv fuel cnt pt := by
  have e4 : hist (clear_cache b) = hist b := rfl
  intro fuel
  induction fuel with
  | zero => intro cnt pt; rfl
  | succ k ih =>
    intro cnt pt
    simp only [move_repeat_loop, e4, ih]

theorem repeat_count_clear (g : Globals) (b : Board) :
    repeat_count g (clear_cache b) = repeat_count g b := by
  have e2 : (clear_cache b).history = b.history := rfl
  have e4 : hist (clear_cache b) = hist b := rfl
  unfold repeat_count
  simp only [e2, e4, board_repeat_loop_clear, move_repeat_loop_clear]

theorem winner_rest_clear {g : Globals} {b : Board} (hc : cache_ok g b) :
    winner_rest g (clear_cache b) = winner_rest g b := by
  have key : (is_jang g b).map
        (fun r => !r.1 && !(hist b ((b.history.length : Int) - 1)).was_jang)
      = (is_jang g (clear_cache b)).map
        (fun r => !r.1 && !(hist b ((b.history.length : Int) - 1)).was_jang) := by
    have h1 := is_jang_fst hc
    have h2 := is_jang_fst (cache_ok_clear g b)
    have e : ∀ o : Option (Bool × Board),
        o.map (fun r => !r.1 && !(hist b ((b.history.length : Int) - 1)).was_jang)
          = (o.map Prod.fst).map
              (fun j => !j && !(hist b ((b.history.length : Int) - 1)).was_jang) := by
      intro o; cases o <;> rfl
    rw [e, e, h1, h2]
    rfl
  have e1 : (clear_cache b).toPosition = b.toPosition := rfl
  have e2 : (clear_cache b).history = b.history := rfl
  have e3 := repeat_count_clear g b
  have e4 : hist (clear_cache b) = hist b := rfl
  have e5 : is_passend (clear_cache b) = is_passend b := rfl
  have e6 : (clear_cache b).to_move = b.to_move := rfl
  unfold winner_rest
  simp only [key, e1, e2, e3, e4, e5, e6]

/-- With coherent caches `winner()` returns what it returns with empty caches. -/
theorem winner_clear {g : Globals} {b : Board} (hc : cache_ok g b) :
    winner g (clear_cache b) = winner g b := by
  unfold winner
  rw [winner_rest_clear hc]
  have h1 := get_legal_moves_fst hc
  have h2 := get_legal_moves_fst (cache_ok_clear g b)
  have h3 : (get_legal_moves g (clear_cache b)).map Prod.fst
      = (get_legal_moves g b).map Prod.fst := by rw [h1, h2]; rfl
  split
  · cases ha : get_legal_moves g (clear_cache b) with
    | none =>
      rw [ha] at h3
      cases hb : get_legal_moves g b with
      | none => rfl
      | some r => rw [hb] at h3; simp at h3
    | some r =>
      rw [ha] at h3
      cases hb : get_legal_moves g b with
      | none => rw [hb] at h3; simp at h3
      | some r' =>
        rw [hb] at h3
        simp only [Option.map_some', Option.some.injEq] at h3
        obtain ⟨ms, x⟩ := r
        obtain ⟨ms', x'⟩ := r'
        simp only at h3
        subst h3
        rfl
  · rfl

theorem winner_congr {g : Globals} {b b' : Board} (hc : cache_ok g b) (hc' : cache_ok g b')
    (h : clear_cache b = clear_cache b') : winner g b = winner g b' := by
  rw [← winner_clear hc, ← winner_clear hc', h]

/-- The cells and the side to move that `unmove_piece_only` gives back after
`move_piece_only` of a move whose `captured` is the content of its destination. -/
theorem unmove_cells_restore {p q r : Position} {m : Move} (hs : p.to_move ≠ Side.NONE)
    (hcap : m.captured = p.board m.yx_to) (hq1 : q.board = (move_cells p m).board)
    (hq2 : q.to_move = toggle p.to_move) (h : unmove_cells q m = some r) :
    r = { q with board := p.board, to_move := p.to_move } := by
  unfold unmove_cells at h
  simp only at h
  split at h
  · simp only [Option.some.injEq] at h
    subst h
    have hb : set_cell (set_cell q.board m.yx_to m.captured) m.yx_from (q.board m.yx_to)
        = p.board := by
      funext i
      rw [hq1]
      simp only [set_cell, move_cells]
      by_cases h1 : i = m.yx_from
      · simp [h1]
      · by_cases h2 : i = m.yx_to
        · subst h2
          simp [h1, hcap]
        · simp [h1, h2]
    rw [hb, hq2, toggle_toggle hs]
  · simp at h

/-- The board that `Board::unmove` gives back on a board that has the fields `Board::move`
gives it, for a move whose `captured` is the content of its destination. -/
theorem unmove_restore_fields {H : HashConstants} {b q b4 : Board} {m m' : Move} {jang : Bool}
    (hs : b.to_move ≠ Side.NONE) (hcap : m.captured = b.board m.yx_to)
    (hph : b.playhash < 2 ^ 64)
    (h1 : q.board = (move_cells b.toPosition m).board)
    (h2 : q.to_move = toggle b.to_move)
    (h3 : q.cached_score_cho = b.cached_score_cho - captured_value_cho m.captured)
    (h4 : q.cached_score_han = b.cached_score_han - captured_value_han m.captured)
    (h5 : q.history = b.history ++ [⟨m, b.boardhash, b.playhash, jang⟩])
    (h6 : q.boardhash = move_boardhash H b m)
    (h7 : q.playhash = move_playhash H b m)
    (h : unmove H q = some (m', b4)) :
    b4 = clear_cache b := by
  have hto : q.board m.yx_to = b.board m.yx_from := by rw [h1, move_cells_to]
  have hh : unmove_boardhash H (clear_cache q) m = b.boardhash := by
    unfold unmove_boardhash move_boardhash at *
    simp only [clear_cache, hto, h6]
    split
    · exact xor_cancel_capture _ _ _ _ _
    · exact xor_cancel_quiet _ _ _ _
  have hp : unmove_playhash H (clear_cache q) m = b.playhash := by
    unfold unmove_playhash move_playhash at *
    have hl : q.history.length = 1 + b.history.length := by
      rw [h5, List.length_append, List.length_singleton]; omega
    simp only [clear_cache, hto, h7, hl]
    split
    · rw [play_unapply_apply H _ (play_apply_lt _ _ _ _ _), play_unapply_apply H _
        (play_apply_lt _ _ _ _ _), play_unapply_apply H _ hph]
    · rw [play_unapply_apply H _ (play_apply_lt _ _ _ _ _), play_unapply_apply H _ hph]
  unfold unmove at h
  rw [h5] at h
  simp only [List.getLast?_append, List.getLast?_singleton, Option.or_some] at h
  unfold unmove_piece_only at h
  cases hu : unmove_cells (clear_cache q).toPosition m with
  | none => rw [hu] at h; simp at h
  | some r =>
    have hr := unmove_cells_restore (q := (clear_cache q).toPosition) hs hcap h1 h2 hu
    rw [hu] at h
    simp only [hh, hp, and_self, if_true, Option.some.injEq, Prod.mk.injEq] at h
    obtain ⟨-, rfl⟩ := h
    have e1 : (clear_cache q).cached_score_cho + captured_value_cho m.captured
        = b.cached_score_cho := by
      show q.cached_score_cho + _ = _
      rw [h3, sub_add_cancel]
    have e2 : (clear_cache q).cached_score_han + captured_value_han m.captured
        = b.cached_score_han := by
      show q.cached_score_han + _ = _
      rw [h4, sub_add_cancel]
    have e3 : (clear_cache q).history.dropLast = b.history := by
      show q.history.dropLast = _
      rw [h5, List.dropLast_concat]
    subst hr
    simp only
    have e1' : q.cached_score_cho + captured_value_cho m.captured = b.cached_score_cho := e1
    have e2' : q.cached_score_han + captured_value_han m.captured = b.cached_score_han := e2
    have e3' : q.history.dropLast = b.history := e3
    simp only [clear_cache, e1', e2', e3']

/-- The board after `move`, a descent that changes the caches only, and `unmove`: the board
before the move, caches cleared. -/
theorem unmove_restore {g : Globals} {H : HashConstants} {b b2 b3 b4 : Board} {m m' : Move}
    (hs : b.to_move ≠ Side.NONE) (hcap : m.captured = b.board m.yx_to)
    (hph : b.playhash < 2 ^ 64) (hm : move g H b m = some b2)
    (he : clear_cache b3 = clear_cache b2) (h : unmove H b3 = some (m', b4)) :
    b4 = clear_cache b := by
  rw [unmove_congr he] at h
  obtain ⟨oms, ho⟩ := move_some hm
  rw [move_eq ho, Option.some.injEq] at hm
  subst hm
  exact unmove_restore_fields hs hcap hph rfl rfl rfl rfl rfl rfl rfl h

/-- The board after `move`: side to move, `playhash` below `2 ^ 64`. -/
theorem move_board_ok {g : Globals} {H : HashConstants} {b b2 : Board} {m : Move}
    (hm : move g H b m = some b2) :
    b2.to_move ≠ Side.NONE ∧ b2.playhash < 2 ^ 64 := by
  obtain ⟨oms, ho⟩ := move_some hm
  rw [move_eq ho, Option.some.injEq] at hm
  subst hm
  exact ⟨toggle_ne_none _, move_playhash_lt _ _ _⟩

/-! ## Search: the tally of the visits -/

theorem int32_eq {x : Int} (h0 : 0 ≤ x) (h1 : x < 2 ^ 31) : int32 x = x := by
  unfold int32
  norm_num at h1 ⊢
  omega

theorem all_null_cons {c : SearchCandidate} {cs : List SearchCandidate}
    (h : all_null (c :: cs)) : c.get_child = none ∧ all_null cs :=
  ⟨h c (List.mem_cons_self _ _), fun x hx => h x (List.mem_cons_of_mem _ hx)⟩

theorem child_visits_cons (c : SearchCandidate) (cs : List SearchCandidate) :
    child_visits (c :: cs)
      = (match c.get_child with
          | some ch => ch.accum_visits
          | none => 0) + child_visits cs := by
  simp [child_visits]

theorem all_null_visits {cs : List SearchCandidate} (h : all_null cs) : child_visits cs = 0 := by
  induction cs with
  | nil => rfl
  | cons c rest ih =>
    rw [child_visits_cons, (all_null_cons h).1, ih (all_null_cons h).2]
    rfl

theorem all_null_counted {cs : List SearchCandidate} (h : all_null cs) :
    counted_children cs := by
  induction cs with
  | nil => simp [counted_children]
  | cons c rest ih =>
    obtain ⟨ch, m, p⟩ := c
    have h1 := (all_null_cons h).1
    simp only [SearchCandidate.get_child] at h1
    subst h1
    simp only [counted_children]
    exact ih (all_null_cons h).2

theorem all_null_live {g : Globals} {H : HashConstants} {b : Board}
    {cs : List SearchCandidate} (h : all_null cs) : live_children g H b cs := by
  induction cs with
  | nil => simp [live_children]
  | cons c rest ih =>
    obtain ⟨ch, m, p⟩ := c
    have h1 := (all_null_cons h).1
    simp only [SearchCandidate.get_child] at h1
    subst h1
    simp only [live_children]
    exact ih (all_null_cons h).2

theorem live_children_congr {g : Globals} {H : HashConstants} {b b' : Board}
    (h : clear_cache b = clear_cache b') (cs : List SearchCandidate) :
    live_children g H b cs ↔ live_children g H b' cs := by
  induction cs with
  | nil => simp [live_children]
  | cons c rest ih =>
    obtain ⟨ch, m, p⟩ := c
    cases ch with
    | none => simp only [live_children]; exact ih
    | some n => simp only [live_children, move_congr m h, ih]

theorem wf_children_congr {g : Globals} {H : HashConstants} {b b' : Board}
    (h : clear_cache b = clear_cache b') (cs : List SearchCandidate) :
    wf_children g H b cs = wf_children g H b' cs := by
  have hb : b.board = b'.board := congrArg Position.board (clear_cache_fields h).1
  induction cs with
  | nil => simp [wf_children]
  | cons c rest ih =>
    obtain ⟨ch, m, p⟩ := c
    cases ch with
    | none => simp only [wf_children, hb, ih]
    | some n => simp only [wf_children, move_congr m h, hb, ih]

theorem counted_children_nonneg {cs : List SearchCandidate} (h : counted_children cs) :
    0 ≤ child_visits cs ∧ ∀ c ∈ cs, ∀ ch, c.get_child = some ch →
      0 ≤ ch.accum_visits ∧ ch.accum_visits ≤ child_visits cs := by
  induction cs with
  | nil => exact ⟨le_refl _, fun c hc => absurd hc (List.not_mem_nil _)⟩
  | cons c rest ih =>
    obtain ⟨ch, m, p⟩ := c
    cases ch with
    | none =>
      simp only [counted_children] at h
      obtain ⟨h0, hr⟩ := ih h
      rw [child_visits_cons]
      simp only [SearchCandidate.get_child, zero_add]
      refine ⟨h0, ?_⟩
      intro c hc x hx
      rcases List.mem_cons.1 hc with rfl | hc
      · simp [SearchCandidate.get_child] at hx
      · exact hr c hc x hx
    | some n =>
      simp only [counted_children] at h
      obtain ⟨hn, hrest⟩ := h
      obtain ⟨h0, hr⟩ := ih hrest
      have hn0 : 0 ≤ n.accum_visits := by
        obtain ⟨av, k, vl, st, cs'⟩ := n
        simp only [counted] at hn
        exact hn.1
      rw [child_visits_cons]
      simp only [SearchCandidate.get_child]
      refine ⟨by omega, ?_⟩
      intro c hc x hx
      rcases List.mem_cons.1 hc with rfl | hc
      · simp only [SearchCandidate.get_child, Option.some.injEq] at hx
        subst hx
        exact ⟨hn0, by omega⟩
      · have := hr c hc x hx
        exact ⟨this.1, by omega⟩

theorem create_children_spec {env : SearchEnv} {node made : SearchNode} {er : EvalResult}
    {board : Board} (h : create_children env node er board = some made) :
    made.accum_visits = int32 (node.accum_visits + 1)
      ∧ ∃ l, made.children = node.children ++ l ∧ all_null l := by
  unfold create_children at h
  simp only at h
  split at h
  · simp at h
  · simp only [Option.some.injEq] at h
    subst h
    refine ⟨rfl, _, rfl, ?_⟩
    intro c hc
    obtain ⟨x, -, rfl⟩ := List.mem_map.1 hc
    rfl

theorem side_cases (w : Side) (h1 : w ≠ Side.CHO) (h2 : w ≠ Side.HAN) : w = Side.NONE := by
  cases w
  · exact absurd rfl h1
  · exact absurd rfl h2
  · rfl

/-- The call of `expand` that hands the board on for the descent: the node is expanded and
the board has no winner. -/
theorem expand_head_inr {env : SearchEnv} {node : SearchNode} {ev : Nat → Bucket}
    {b b0 : Board} (h : expand_head env node ev b = some (Sum.inr b0)) :
    3 ≤ node.state ∧ b0 = winner_board env.g b ∧ winner env.g b = some Side.NONE := by
  unfold expand_head at h
  cases hw : winner env.g b with
  | none => rw [hw] at h; simp at h
  | some w =>
    rw [hw] at h
    simp only at h
    split at h
    · simp at h
    · split at h
      · simp at h
      · rename_i h1 h2
        split at h
        · exfalso
          revert h
          cases evaluate env ev (winner_board env.g b) with
          | none => simp
          | some x =>
            obtain ⟨r1, ev1, b1⟩ := x
            simp only
            split
            · simp
            · rename_i r2 ev2 b2 _
              split
              · simp
              · cases create_children env _ r2 b2 <;> simp
        · split at h
          · rename_i h4
            simp only [Option.some.injEq, Sum.inr.injEq] at h
            exact ⟨h4, h.symm, by rw [side_cases w h1 h2]⟩
          · simp at h

/-- The call of `expand` that ends before the descent: the board keeps all but its caches,
the visit count goes up by one, and either the board has a winner and the node is otherwise
as before, or the board has none and the node, which was unexpanded, is expanded with
candidates that have no child. -/
theorem expand_head_inl {env : SearchEnv} {node : SearchNode} {ev : Nat → Bucket}
    {b : Board} {d : Descent} (hk : keeps_board env)
    (h : expand_head env node ev b = some (Sum.inl d)) :
    clear_cache d.board = clear_cache b ∧ (cache_ok env.g b → cache_ok env.g d.board)
      ∧ d.node.accum_visits = int32 (node.accum_visits + 1)
      ∧ ((d.node.state = node.state ∧ d.node.children = node.children
            ∧ (winner env.g b = some Side.CHO ∨ winner env.g b = some Side.HAN))
        ∨ (node.state = 0 ∧ node.children = [] ∧ d.node.state = 3
            ∧ all_null d.node.children ∧ winner env.g b = some Side.NONE)) := by
  unfold expand_head at h
  have hwb := winner_board_cache env.g b
  cases hw : winner env.g b with
  | none => rw [hw] at h; simp at h
  | some w =>
    rw [hw] at h
    simp only at h
    split at h
    · rename_i h1
      simp only [Option.some.injEq, Sum.inl.injEq] at h
      subst h
      exact ⟨hwb.1, hwb.2, rfl, Or.inl ⟨rfl, rfl, Or.inl (by rw [h1])⟩⟩
    · split at h
      · rename_i h1 h2
        simp only [Option.some.injEq, Sum.inl.injEq] at h
        subst h
        exact ⟨hwb.1, hwb.2, rfl, Or.inl ⟨rfl, rfl, Or.inr (by rw [h2])⟩⟩
      · rename_i h1 h2
        have hn := side_cases w h1 h2
        split at h
        · rename_i h3
          cases he : evaluate env ev (winner_board env.g b) with
          | none => rw [he] at h; simp at h
          | some x =>
            obtain ⟨r1, ev1, b1⟩ := x
            rw [he] at h
            simp only at h
            have hb1 := evaluate_board hk he
            have hagain : ∀ r2 ev2 b2,
                (if r1.policy.isEmpty then evaluate env ev1 b1 else some (r1, ev1, b1))
                  = some (r2, ev2, b2) →
                clear_cache b2 = clear_cache b
                  ∧ (cache_ok env.g b → cache_ok env.g b2) := by
              intro r2 ev2 b2 h5
              split at h5
              · have hb2 := evaluate_board hk h5
                exact ⟨hb2.1.trans (hb1.1.trans hwb.1),
                  fun hc => hb2.2 (hb1.2 (hwb.2 hc))⟩
              · simp only [Option.some.injEq, Prod.mk.injEq] at h5
                obtain ⟨-, -, rfl⟩ := h5
                exact ⟨hb1.1.trans hwb.1, fun hc => hb1.2 (hwb.2 hc)⟩
            split at h
            · simp at h
            · rename_i r2 ev2 b2 h5
              have hb2 := hagain r2 ev2 b2 h5
              split at h
              · simp at h
              · rename_i h6
                have hcs : node.children = [] := by
                  cases hcs : node.children with
                  | nil => rfl
                  | cons c rest => rw [hcs] at h6; simp at h6
                cases hcr : create_children env
                    (SearchNode.mk node.accum_value node.accum_visits
                      (int32 (node.vloss + VIRTUAL_LOSS)) 1 node.children) r2 b2 with
                | none => rw [hcr] at h; simp at h
                | some made =>
                  rw [hcr] at h
                  simp only [Option.some.injEq, Sum.inl.injEq] at h
                  subst h
                  obtain ⟨hv, l, hl, hnull⟩ := create_children_spec hcr
                  refine ⟨hb2.1, hb2.2, hv, Or.inr ⟨h3, hcs, rfl, ?_, by rw [hn]⟩⟩
                  have hl' : made.children = node.children ++ l := hl
                  show all_null made.children
                  rw [hl', hcs, List.nil_append]
                  exact hnull
        · split at h <;> simp at h

theorem wf_tree_children (g : Globals) (H : HashConstants) (b : Board) (node : SearchNode) :
    wf_tree g H b node = wf_children g H b node.children := by
  obtain ⟨av, n, vl, st, cs⟩ := node
  simp only [wf_tree, SearchNode.children]

theorem child_sizeOf_lt {c : SearchCandidate} {cs : List SearchCandidate} (hc : c ∈ cs)
    {ch : SearchNode} (h : c.get_child = some ch) (av : ℚ) (n vl st : Int) :
    sizeOf ch < sizeOf (SearchNode.mk av n vl st cs) := by
  have h1 := List.sizeOf_lt_of_mem hc
  obtain ⟨x, m, p⟩ := c
  simp only [SearchCandidate.get_child] at h
  subst h
  simp only [SearchCandidate.mk.sizeOf_spec, Option.some.sizeOf_spec] at h1
  simp only [SearchNode.mk.sizeOf_spec]
  omega

/-- What `descend` leaves of the candidates: the tree under the new list is the tree under
the old one with nodes added. -/
theorem descend_wf_back {env : SearchEnv} (cs : List SearchCandidate)
    (hW : ∀ c ∈ cs, ∀ ch, c.get_child = some ch →
      ∀ ev b d b', expand env ch ev b = some d →
        wf_tree env.g env.H b' d.node = true → wf_tree env.g env.H b' ch = true) :
    ∀ i ev b ret cs1 ev1 b1 b', descend env cs i ev b = some (ret, cs1, ev1, b1) →
      wf_children env.g env.H b' cs1 = true → wf_children env.g env.H b' cs = true := by
  induction cs with
  | nil =>
    intro i ev b ret cs1 ev1 b1 b' h
    simp [descend] at h
  | cons c rest ih =>
    have ih' := ih fun x hx => hW x (List.mem_cons_of_mem _ hx)
    intro i ev b ret cs1 ev1 b1 b' h hwf
    obtain ⟨ch, m, p⟩ := c
    cases i with
    | succ k =>
      simp only [descend] at h
      cases hd : descend env rest k ev b with
      | none => rw [hd] at h; simp at h
      | some x =>
        obtain ⟨ret', rest1, ev', b1'⟩ := x
        rw [hd] at h
        simp only [Option.some.injEq, Prod.mk.injEq] at h
        obtain ⟨-, rfl, -, -⟩ := h
        have hr := ih' k ev b ret' rest1 ev' b1' b' hd
        cases ch with
        | none =>
          simp only [wf_children, Bool.and_eq_true] at hwf ⊢
          exact ⟨hwf.1, hr hwf.2⟩
        | some n =>
          simp only [wf_children, Bool.and_eq_true] at hwf ⊢
          exact ⟨hwf.1, hr hwf.2⟩
    | zero =>
      cases ch with
      | none =>
        simp only [descend] at h
        cases hm : move env.g env.H b m with
        | none => rw [hm] at h; simp at h
        | some b2 =>
          rw [hm] at h
          simp only at h
          split at h
          · simp only [Option.some.injEq, Prod.mk.injEq] at h
            obtain ⟨-, rfl, -, -⟩ := h
            simp only [wf_children, Bool.and_eq_true] at hwf ⊢
            exact ⟨hwf.1.1, hwf.2⟩
          · simp at h
      | some n =>
        simp only [descend] at h
        cases hm : move env.g env.H b m with
        | none => rw [hm] at h; simp at h
        | some b2 =>
          rw [hm] at h
          simp only at h
          cases he : expand env n ev b2 with
          | none => rw [he] at h; simp at h
          | some d =>
            rw [he] at h
            simp only [Option.some.injEq, Prod.mk.injEq] at h
            obtain ⟨-, rfl, -, -⟩ := h
            simp only [wf_children, Bool.and_eq_true] at hwf ⊢
            refine ⟨⟨hwf.1.1, ?_⟩, hwf.2⟩
            cases hm' : move env.g env.H b' m with
            | none => rfl
            | some b3 =>
              have h2 := hwf.1.2
              rw [hm'] at h2
              exact hW _ (List.mem_cons_self _ _) n rfl ev b2 d b3 he h2

/-- A call of `expand` adds nodes to the tree and changes no candidate's move. -/
theorem expand_wf_back (env : SearchEnv) (hk : keeps_board env) :
    ∀ k (node : SearchNode), sizeOf node < k →
      ∀ ev b d b', expand env node ev b = some d →
        wf_tree env.g env.H b' d.node = true → wf_tree env.g env.H b' node = true := by
  intro k
  induction k with
  | zero => intro node h; omega
  | succ k ih =>
    intro node hsz ev b d b' h hwf
    obtain ⟨av, n, vl, st, cs⟩ := node
    rw [expand] at h
    cases hh : expand_head env (SearchNode.mk av n vl st cs) ev b with
    | none => rw [hh] at h; simp at h
    | some x =>
      rw [hh] at h
      cases x with
      | inl d0 =>
        simp only [Option.some.injEq] at h
        subst h
        obtain ⟨-, -, -, h1 | h1⟩ := expand_head_inl hk hh
        · rw [wf_tree_children] at hwf ⊢
          rw [h1.2.1] at hwf
          exact hwf
        · rw [wf_tree_children, h1.2.1]
          rfl
      | inr b0 =>
        simp only at h
        split at h
        · simp at h
        · rename_i i hi
          cases hd : descend env cs i ev b0 with
          | none => rw [hd] at h; simp at h
          | some y =>
            obtain ⟨ret, cs1, ev1, b1⟩ := y
            rw [hd] at h
            simp only at h
            cases hu : unmove env.H b1 with
            | none => rw [hu] at h; simp at h
            | some z =>
              rw [hu] at h
              simp only [Option.some.injEq] at h
              subst h
              simp only [wf_tree] at hwf ⊢
              refine descend_wf_back cs ?_ i ev b0 ret cs1 ev1 b1 b' hd hwf
              intro c hc ch hch
              exact ih ch (by have := child_sizeOf_lt hc hch av n vl st; omega)

theorem counted_iff (node : SearchNode) :
    counted node ↔ 0 ≤ node.accum_visits
      ∧ ((node.state = 0 ∧ node.children = [])
        ∨ (3 ≤ node.state ∧ node.accum_visits = 1 + child_visits node.children))
      ∧ counted_children node.children := by
  obtain ⟨av, n, vl, st, cs⟩ := node
  simp only [counted, SearchNode.accum_visits, SearchNode.state, SearchNode.children]

theorem live_iff (g : Globals) (H : HashConstants) (b : Board) (node : SearchNode) :
    live g H b node ↔ (3 ≤ node.state → winner g b = some Side.NONE)
      ∧ (node.state = 0 → node.accum_visits ≠ 0 →
          winner g b = some Side.CHO ∨ winner g b = some Side.HAN)
      ∧ live_children g H b node.children := by
  obtain ⟨av, n, vl, st, cs⟩ := node
  simp only [live, SearchNode.accum_visits, SearchNode.state, SearchNode.children]

/-- The call of `expand` that ends before the descent keeps the tally. -/
theorem head_inl_ok {env : SearchEnv} {node : SearchNode} {ev : Nat → Bucket}
    {b : Board} {d : Descent} (hk : keeps_board env) (hc : counted node)
    (hl : live env.g env.H b node) (hn : node.accum_visits + 1 < 2 ^ 31)
    (h : expand_head env node ev b = some (Sum.inl d)) :
    clear_cache d.board = clear_cache b ∧ (cache_ok env.g b → cache_ok env.g d.board)
      ∧ counted d.node ∧ live env.g env.H b d.node
      ∧ d.node.accum_visits = node.accum_visits + 1 := by
  obtain ⟨hb1, hb2, hv, hcase⟩ := expand_head_inl hk h
  rw [counted_iff] at hc
  rw [live_iff] at hl
  obtain ⟨h0, hst, hcc⟩ := hc
  obtain ⟨hl1, hl2, hl3⟩ := hl
  rw [int32_eq (by omega) hn] at hv
  refine ⟨hb1, hb2, ?_, ?_, hv⟩
  · rw [counted_iff]
    rcases hcase with ⟨e1, e2, hw⟩ | ⟨e1, e2, e3, e4, hw⟩
    · rcases hst with ⟨s0, c0⟩ | ⟨s3, -⟩
      · refine ⟨by omega, Or.inl ⟨by rw [e1, s0], by rw [e2, c0]⟩, ?_⟩
        rw [e2, c0]
        simp [counted_children]
      · have := hl1 s3
        rcases hw with hw | hw <;> rw [hw] at this <;> simp at this
    · have hn0 : node.accum_visits = 0 := by
        by_contra hne
        rcases hl2 e1 hne with hw' | hw' <;> rw [hw'] at hw <;> simp at hw
      refine ⟨by omega, Or.inr ⟨by omega, ?_⟩, all_null_counted e4⟩
      rw [hv, hn0, all_null_visits e4]
      rfl
  · rw [live_iff]
    rcases hcase with ⟨e1, e2, hw⟩ | ⟨e1, e2, e3, e4, hw⟩
    · rcases hst with ⟨s0, c0⟩ | ⟨s3, -⟩
      · refine ⟨fun h3 => by omega, fun _ _ => hw, ?_⟩
        rw [e2, c0]
        simp [live_children]
      · have := hl1 s3
        rcases hw with hw | hw <;> rw [hw] at this <;> simp at this
    · exact ⟨fun _ => hw, fun h0 => by omega, all_null_live e4⟩

theorem counted_fresh : counted SearchNode.fresh := by
  simp [SearchNode.fresh, counted, counted_children]

theorem live_fresh (g : Globals) (H : HashConstants) (b : Board) :
    live g H b SearchNode.fresh := by
  simp [SearchNode.fresh, live, live_children]

/-- The descent into the candidate of index `i`: the move played has the content of its
destination as `captured`, the board that comes back is the board after the move but for
its caches, and one child has one visit more. -/
theorem descend_spec {env : SearchEnv} (hk : keeps_board env) (cs : List SearchCandidate)
    (hP : ∀ c ∈ cs, ∀ ch, c.get_child = some ch → descent_ok env ch) :
    ∀ i ev b ret cs1 ev1 b1, b.to_move ≠ Side.NONE → counted_children cs →
      live_children env.g env.H b cs →
      (∀ c ∈ cs, ∀ ch, c.get_child = some ch → ch.accum_visits + 1 < 2 ^ 31) →
      descend env cs i ev b = some (ret, cs1, ev1, b1) →
      wf_children env.g env.H b cs1 = true →
      ∃ m b2, m.captured = b.board m.yx_to ∧ move env.g env.H b m = some b2
        ∧ clear_cache b1 = clear_cache b2 ∧ counted_children cs1
        ∧ live_children env.g env.H b cs1 ∧ child_visits cs1 = child_visits cs + 1 := by
  induction cs with
  | nil =>
    intro i ev b ret cs1 ev1 b1 _ _ _ _ h
    simp [descend] at h
  | cons c rest ih =>
    have ih' := ih fun x hx => hP x (List.mem_cons_of_mem _ hx)
    intro i ev b ret cs1 ev1 b1 hs hc hl hn h hwf
    obtain ⟨ch, m, p⟩ := c
    cases i with
    | succ k =>
      simp only [descend] at h
      cases hd : descend env rest k ev b with
      | none => rw [hd] at h; simp at h
      | some x =>
        obtain ⟨ret', rest1, ev', b1'⟩ := x
        rw [hd] at h
        simp only [Option.some.injEq, Prod.mk.injEq] at h
        obtain ⟨-, rfl, -, rfl⟩ := h
        have hn' : ∀ c ∈ rest, ∀ ch, c.get_child = some ch → ch.accum_visits + 1 < 2 ^ 31 :=
          fun x hx => hn x (List.mem_cons_of_mem _ hx)
        cases ch with
        | none =>
          simp only [wf_children, Bool.and_eq_true] at hwf
          simp only [counted_children] at hc
          simp only [live_children] at hl
          obtain ⟨m', b2, h1, h2, h3, h4, h5, h6⟩ :=
            ih' k ev b ret' rest1 ev' b1' hs hc hl hn' hd hwf.2
          refine ⟨m', b2, h1, h2, h3, ?_, ?_, ?_⟩
          · simp only [counted_children]; exact h4
          · simp only [live_children]; exact h5
          · rw [child_visits_cons, child_visits_cons, h6]; ring
        | some n =>
          simp only [wf_children, Bool.and_eq_true] at hwf
          simp only [counted_children] at hc
          simp only [live_children] at hl
          obtain ⟨m', b2, h1, h2, h3, h4, h5, h6⟩ :=
            ih' k ev b ret' rest1 ev' b1' hs hc.2 hl.2 hn' hd hwf.2
          refine ⟨m', b2, h1, h2, h3, ?_, ?_, ?_⟩
          · simp only [counted_children]; exact ⟨hc.1, h4⟩
          · simp only [live_children]; exact ⟨hl.1, h5⟩
          · rw [child_visits_cons, child_visits_cons, h6]; ring
    | zero =>
      cases ch with
      | none =>
        simp only [descend] at h
        cases hm : move env.g env.H b m with
        | none => rw [hm] at h; simp at h
        | some b2 =>
          rw [hm] at h
          simp only at h
          split at h
          · rename_i d hd
            simp only [Option.some.injEq, Prod.mk.injEq] at h
            obtain ⟨-, rfl, -, rfl⟩ := h
            simp only [wf_children, Bool.and_eq_true, decide_eq_true_eq] at hwf
            simp only [counted_children] at hc
            simp only [live_children] at hl
            obtain ⟨e1, -, e3, e4, e5⟩ :=
              head_inl_ok hk counted_fresh (live_fresh env.g env.H b2) (by decide) hd
            refine ⟨m, b2, hwf.1.1, hm, e1, ?_, ?_, ?_⟩
            · simp only [counted_children]; exact ⟨e3, hc⟩
            · simp only [live_children, hm]; exact ⟨e4, hl⟩
            · rw [child_visits_cons, child_visits_cons]
              simp only [SearchCandidate.get_child, e5]
              simp only [SearchNode.fresh, SearchNode.accum_visits]
              ring
          · simp at h
      | some n =>
        simp only [descend] at h
        cases hm : move env.g env.H b m with
        | none => rw [hm] at h; simp at h
        | some b2 =>
          rw [hm] at h
          simp only at h
          cases he : expand env n ev b2 with
          | none => rw [he] at h; simp at h
          | some d =>
            rw [he] at h
            simp only [Option.some.injEq, Prod.mk.injEq] at h
            obtain ⟨-, rfl, -, rfl⟩ := h
            simp only [wf_children, Bool.and_eq_true, decide_eq_true_eq, hm] at hwf
            simp only [counted_children] at hc
            simp only [live_children, hm] at hl
            obtain ⟨e1, -, e3, e4, e5⟩ :=
              hP _ (List.mem_cons_self _ _) n rfl ev b2 d (move_board_ok hm).1
                (move_board_ok hm).2 hc.1 hl.1 (hn _ (List.mem_cons_self _ _) n rfl) he
                hwf.1.2
            refine ⟨m, b2, hwf.1.1, hm, e1, ?_, ?_, ?_⟩
            · simp only [counted_children]; exact ⟨e3, hc.2⟩
            · simp only [live_children, hm]; exact ⟨e4, hl.2⟩
            · rw [child_visits_cons, child_visits_cons]
              simp only [SearchCandidate.get_child, e5]
              ring

/-- Every call of `expand` is as `descent_ok` says. -/
theorem expand_spec (env : SearchEnv) (hk : keeps_board env) :
    ∀ k (node : SearchNode), sizeOf node < k → descent_ok env node := by
  intro k
  induction k with
  | zero => intro node h; omega
  | succ k ih =>
    intro node hsz ev b d hs hph hc hl hn h hwf
    obtain ⟨av, n, vl, st, cs⟩ := node
    have h' := h
    rw [expand] at h
    cases hh : expand_head env (SearchNode.mk av n vl st cs) ev b with
    | none => rw [hh] at h; simp at h
    | some x =>
      rw [hh] at h
      cases x with
      | inl d0 =>
        simp only [Option.some.injEq] at h
        subst h
        exact head_inl_ok hk hc hl hn hh
      | inr b0 =>
        obtain ⟨hst, hb0, hw⟩ := expand_head_inr hh
        have hbb : clear_cache b0 = clear_cache b := by
          rw [hb0]; exact (winner_board_cache env.g b).1
        simp only at h
        split at h
        · simp at h
        · rename_i i hi
          cases hd : descend env cs i ev b0 with
          | none => rw [hd] at h; simp at h
          | some y =>
            obtain ⟨ret, cs1, ev1, b1⟩ := y
            rw [hd] at h
            simp only at h
            cases hu : unmove env.H b1 with
            | none => rw [hu] at h; simp at h
            | some z =>
              obtain ⟨m', b2⟩ := z
              rw [hu] at h
              simp only [Option.some.injEq] at h
              subst h
              simp only [wf_tree] at hwf
              simp only [counted] at hc
              simp only [live] at hl
              simp only [SearchNode.accum_visits] at hn
              obtain ⟨hn0, hcase, hcc⟩ := hc
              have htally : n = 1 + child_visits cs := by
                rcases hcase with ⟨s0, -⟩ | ⟨-, ht⟩
                · simp only [SearchNode.state] at hst; omega
                · exact ht
              have hf := clear_cache_fields hbb
              have hs0 : b0.to_move ≠ Side.NONE := by
                have : b0.to_move = b.to_move := congrArg Position.to_move hf.1
                rw [this]; exact hs
              have hph0 : b0.playhash < 2 ^ 64 := by rw [hf.2.2.2]; exact hph
              have hnn := counted_children_nonneg hcc
              obtain ⟨m, b3, g1, g2, g3, g4, g5, g6⟩ :=
                descend_spec hk cs
                  (fun c hc ch hch =>
                    ih ch (by have := child_sizeOf_lt hc hch av n vl st; omega))
                  i ev b0 ret cs1 ev1 b1 hs0 hcc
                  ((live_children_congr hbb cs).2 hl.2.2)
                  (fun c hc ch hch => by have := (hnn.2 c hc ch hch).2; omega)
                  hd (by rw [wf_children_congr hbb]; exact hwf)
              have hb2 : b2 = clear_cache b0 := unmove_restore hs0 g1 hph0 g2 g3 hu
              have hb2' : b2 = clear_cache b := by rw [hb2, hbb]
              refine ⟨by rw [hb2']; rfl, fun _ => by rw [hb2']; exact cache_ok_clear _ _,
                ?_, ?_, ?_⟩
              · simp only [counted]
                rw [int32_eq (by omega) hn]
                exact ⟨by omega, Or.inr ⟨by simpa [SearchNode.state] using hst, by omega⟩, g4⟩
              · simp only [live]
                exact ⟨hl.1, hl.2.1 |> fun f s0 => by
                    simp only [SearchNode.state] at hst; omega,
                  (live_children_congr hbb cs1).1 g5⟩
              · simp only [SearchNode.accum_visits]
                exact int32_eq (by omega) hn

/-- The bound on the iterations of `search_loop` is never what ends the loop: any two bounds
above `target - runcount` give the same result. -/
theorem search_loop_fuel (env : SearchEnv) (timeout : Nat → Bool) (target : Nat)
    (ht : target < 2 ^ 64) :
    ∀ f1 f2 root ev b rc k, (rc < target ∨ rc = 0) → target - rc < f1 → target - rc < f2 →
      search_loop env timeout target f1 root ev b rc k
        = search_loop env timeout target f2 root ev b rc k := by
  intro f1
  induction f1 with
  | zero => intro f2 root ev b rc k _ h1; omega
  | succ f1 ih =>
    intro f2 root ev b rc k hrc h1 h2
    cases f2 with
    | zero => omega
    | succ f2 =>
      simp only [search_loop]
      cases expand env root ev b with
      | none => rfl
      | some d =>
        simp only
        have hm : (rc + 1) % 2 ^ 64 = rc + 1 := by
          apply Nat.mod_eq_of_lt
          rcases hrc with h | h
          · omega
          · rw [h]; norm_num
        rw [hm]
        split
        · rfl
        · split
          · rename_i hlt
            exact ih f2 _ _ _ _ _ (Or.inl hlt) (by omega) (by omega)
          · rfl

/-- `Search::search` does not depend on the bound given to its loop. -/
theorem search_fuel (env : SearchEnv) (b : Board) (ev : Nat → Bucket) (visits : Int)
    (timeout : Nat → Bool) (extra : Nat) :
    search_loop env timeout (visits % 2 ^ 64).toNat ((visits % 2 ^ 64).toNat + 1 + extra)
        SearchNode.fresh ev b 0 0
      = search env b ev visits timeout := by
  have ht : (visits % 2 ^ 64).toNat < 2 ^ 64 := by
    have h1 : visits % 2 ^ 64 < 2 ^ 64 := Int.emod_lt_of_pos _ (by norm_num)
    have h0 : 0 ≤ visits % 2 ^ 64 := Int.emod_nonneg _ (by norm_num)
    omega
  exact search_loop_fuel env timeout _ ht _ _ _ _ _ _ _ (Or.inr rfl) (by omega) (by omega)

theorem analyze_visits (root : SearchNode) :
    ((analyze root).map fun r => r.visits).sum = child_visits root.children := by
  unfold analyze child_visits
  rw [List.map_map]
  congr 1
  apply List.map_congr_left
  intro c _
  simp only [Function.comp]
  cases c.get_child <;> rfl

/-- The root that the loop of `search` leaves is the first root with nodes added. -/
theorem search_loop_wf_back (env : SearchEnv) (hk : keeps_board env) (timeout : Nat → Bool)
    (target : Nat) (b' : Board) :
    ∀ fuel root ev b rc k out,
      search_loop env timeout target fuel root ev b rc k = some out →
      wf_tree env.g env.H b' out.root = true → wf_tree env.g env.H b' root = true := by
  intro fuel
  induction fuel with
  | zero => intro root ev b rc k out h; simp [search_loop] at h
  | succ f ih =>
    intro root ev b rc k out h hwf
    simp only [search_loop] at h
    cases he : expand env root ev b with
    | none => rw [he] at h; simp at h
    | some d =>
      rw [he] at h
      simp only at h
      have hback := expand_wf_back env hk (sizeOf root + 1) root (Nat.lt_succ_self _) ev b d b' he
      split at h
      · simp only [Option.some.injEq] at h
        subst h
        exact hback hwf
      · split at h
        · exact hback (ih _ _ _ _ _ _ h hwf)
        · simp only [Option.some.injEq] at h
          subst h
          exact hback hwf

/-- The loop of `search` makes at least one descent more. -/
theorem search_loop_descents (env : SearchEnv) (timeout : Nat → Bool) (target : Nat) :
    ∀ fuel root ev b rc k out,
      search_loop env timeout target fuel root ev b rc k = some out → k + 1 ≤ out.descents := by
  intro fuel
  induction fuel with
  | zero => intro root ev b rc k out h; simp [search_loop] at h
  | succ f ih =>
    intro root ev b rc k out h
    simp only [search_loop] at h
    cases he : expand env root ev b with
    | none => rw [he] at h; simp at h
    | some d =>
      rw [he] at h
      simp only at h
      split at h
      · simp only [Option.some.injEq] at h
        subst h
        exact le_refl _
      · split at h
        · have := ih _ _ _ _ _ _ h
          omega
        · simp only [Option.some.injEq] at h
          subst h
          exact le_refl _

/-- The tally at the end of the loop of `search`. -/
theorem search_loop_spec (env : SearchEnv) (hk : keeps_board env) (timeout : Nat → Bool)
    (target : Nat) (b0 : Board) (hs : b0.to_move ≠ Side.NONE) (hph : b0.playhash < 2 ^ 64)
    (hc0 : cache_ok env.g b0) (hw : winner env.g b0 = some Side.NONE) :
    ∀ fuel root ev b (rc k : Nat) out, counted root → live env.g env.H b0 root →
      root.accum_visits = (k : Int) → clear_cache b = clear_cache b0 → cache_ok env.g b →
      rc = k → search_loop env timeout target fuel root ev b rc k = some out →
      wf_tree env.g env.H b0 out.root = true → out.descents < 2 ^ 31 →
      (out.results.map fun r => r.visits).sum + 1 = (out.descents : Int)
        ∧ out.runcount = out.descents ∧ counted out.root := by
  intro fuel
  induction fuel with
  | zero => intro root ev b rc k out _ _ _ _ _ _ h; simp [search_loop] at h
  | succ f ih =>
    intro root ev b rc k out hcnt hlive hv hbb hcb hrc h hwf hn
    have hdesc := search_loop_descents env timeout target _ _ _ _ _ _ _ h
    have hwf0 := search_loop_wf_back env hk timeout target b0 _ _ _ _ _ _ _ h hwf
    simp only [search_loop] at h
    cases he : expand env root ev b with
    | none => rw [he] at h; simp at h
    | some d =>
      rw [he] at h
      simp only at h
      have hf := clear_cache_fields hbb
      have hsb : b.to_move ≠ Side.NONE := by
        have : b.to_move = b0.to_move := congrArg Position.to_move hf.1
        rw [this]; exact hs
      have hphb : b.playhash < 2 ^ 64 := by rw [hf.2.2.2]; exact hph
      have hwb : winner env.g b = winner env.g b0 := winner_congr hcb hc0 hbb
      have hliveb : live env.g env.H b root := by
        rw [live_iff] at hlive ⊢
        rw [hwb]
        exact ⟨hlive.1, hlive.2.1, (live_children_congr hbb _).2 hlive.2.2⟩
      have hk31 : (k : Int) + 1 < 2 ^ 31 := by
        have : ((k + 1 : Nat) : Int) < ((2 ^ 31 : Nat) : Int) := by
          exact_mod_cast lt_of_le_of_lt hdesc hn
        push_cast at this
        exact this
      have hwfd : wf_tree env.g env.H b0 d.node = true := by
        split at h
        · simp only [Option.some.injEq] at h
          subst h
          exact hwf
        · split at h
          · exact search_loop_wf_back env hk timeout target b0 _ _ _ _ _ _ _ h hwf
          · simp only [Option.some.injEq] at h
            subst h
            exact hwf
      have hwfb : wf_tree env.g env.H b d.node = true := by
        rw [wf_tree_children] at hwfd ⊢
        rw [wf_children_congr hbb]
        exact hwfd
      obtain ⟨e1, e2, e3, e4, e5⟩ :=
        expand_spec env hk (sizeOf root + 1) root (Nat.lt_succ_self _) ev b d hsb hphb hcnt
          hliveb (by rw [hv]; exact hk31) he hwfb
      have hlive' : live env.g env.H b0 d.node := by
        rw [live_iff] at e4 ⊢
        rw [← hwb]
        exact ⟨e4.1, e4.2.1, (live_children_congr hbb _).1 e4.2.2⟩
      have hv' : d.node.accum_visits = ((k + 1 : Nat) : Int) := by
        rw [e5, hv]; push_cast; rfl
      have hrc' : (rc + 1) % 2 ^ 64 = k + 1 := by
        rw [hrc]
        apply Nat.mod_eq_of_lt
        have : k + 1 < 2 ^ 31 := lt_of_le_of_lt hdesc hn
        exact lt_trans this (by norm_num)
      have hend : (((analyze d.node).map fun r => r.visits).sum + 1 = ((k + 1 : Nat) : Int)
          ∧ (rc + 1) % 2 ^ 64 = k + 1 ∧ counted d.node) := by
        refine ⟨?_, hrc', e3⟩
        rw [analyze_visits, ← hv']
        have hc3 := (counted_iff d.node).1 e3
        rcases hc3.2.1 with ⟨s0, -⟩ | ⟨-, ht⟩
        · exfalso
          have hl3 := (live_iff env.g env.H b0 d.node).1 hlive'
          have hne : d.node.accum_visits ≠ 0 := by rw [hv']; exact_mod_cast Nat.succ_ne_zero k
          rcases hl3.2.1 s0 hne with hw' | hw' <;> rw [hw'] at hw <;> simp at hw
        · omega
      split at h
      · simp only [Option.some.injEq] at h
        subst h
        exact hend
      · split at h
        · exact ih _ _ _ _ _ _ e3 hlive' hv' (e1.trans hbb) (e2 hcb) hrc' h hwf hn
        · simp only [Option.some.injEq] at h
          subst h
          exact hend

theorem uniform_keeps (g : Globals) (H : HashConstants) (c : Nat) (r : ℚ) (t : ℚ → ℚ) :
    keeps_board ⟨g, H, c, r, t, uniform_eval g⟩ := by
  intro b res b1 h
  simp only [uniform_eval] at h
  cases hl : get_legal_moves g b with
  | none => rw [hl] at h; simp at h
  | some x =>
    obtain ⟨lm, b2⟩ := x
    rw [hl] at h
    simp only [Option.some.injEq, Prod.mk.injEq] at h
    obtain ⟨-, rfl⟩ := h
    exact get_legal_moves_cache hl

/-- The visit tally of `Search::search` with one thread and a new root, on a board `b`
without a winner whose side to move is CHO or HAN, whose `playhash` is a 64-bit value and
whose caches are coherent, with an `evaluate_raw` that changes nothing of a board but its
caches: when the call returns after fewer than `2 ^ 31` descents and, in the tree it leaves,
every candidate's `captured` is the content of the move's destination on the board of its
node, then the sum of the `visits` of the results plus one is the number of calls of
`root->expand`, which is also the final `runcount`, and every node of the tree is either
unexpanded without candidates or expanded with a visit count of one plus the sum of the
visit counts of its children. -/
theorem search_visits (env : SearchEnv) (b : Board) (ev : Nat → Bucket) (visits : Int)
    (timeout : Nat → Bool) (out : SearchOutcome) (hk : keeps_board env)
    (hs : b.to_move ≠ Side.NONE) (hph : b.playhash < 2 ^ 64) (hc : cache_ok env.g b)
    (hw : winner env.g b = some Side.NONE)
    (h : search env b ev visits timeout = some out)
    (hwf : wf_tree env.g env.H b out.root = true) (hn : out.descents < 2 ^ 31) :
    (out.results.map fun r => r.visits).sum + 1 = (out.descents : Int)
      ∧ out.runcount = out.descents ∧ counted out.root := by
  unfold search at h
  exact search_loop_spec env hk timeout _ b hs hph hc hw _ _ _ _ _ _ _ counted_fresh
    (live_fresh _ _ _) rfl rfl hc rfl h hwf hn

theorem aimed_keeps (g : Globals) (H : HashConstants) (c : Nat) (r : ℚ) (t : ℚ → ℚ) :
    keeps_board ⟨g, H, c, r, t, aimed_eval g⟩ := by
  intro b res b1 h
  simp only [aimed_eval] at h
  cases hl : get_legal_moves g b with
  | none => rw [hl] at h; simp at h
  | some x =>
    obtain ⟨lm, b2⟩ := x
    rw [hl] at h
    simp only [Option.some.injEq, Prod.mk.injEq] at h
    obtain ⟨-, rfl⟩ := h
    exact get_legal_moves_cache hl

/-- The tally at a concrete input: two descents from the board `trap` with the evaluator
`aimed_eval` and an empty cache. -/
theorem search_visits_witness :
    ∃ out, search aimed_env trap empty_eval 2 (fun _ => false) = some out
      ∧ out.descents = 2
      ∧ (out.results.map fun r => r.visits).sum + 1 = (out.descents : Int)
      ∧ out.runcount = out.descents ∧ counted out.root := by
  have hq : ((search aimed_env trap empty_eval 2 fun _ => false).map fun o =>
      (wf_tree aimed_env.g aimed_env.H trap o.root, o.descents)) = some (true, 2) := by
    decide!
  cases h : search aimed_env trap empty_eval 2 fun _ => false with
  | none => rw [h] at hq; simp at hq
  | some out =>
    rw [h] at hq
    simp only [Option.map_some', Option.some.injEq, Prod.mk.injEq] at hq
    exact ⟨out, rfl, hq.2,
      search_visits aimed_env trap empty_eval 2 (fun _ => false) out
        (aimed_keeps _ _ _ _ _) (by decide) (by decide) ⟨Or.inl rfl, Or.inl rfl⟩
        (by decide!) h hq.1 (by rw [hq.2]; norm_num)⟩

/-- `evaluate` with its sixteen buckets does on the bucket of the position what
`evaluate_bucket` says, when `get_legal_moves` and `evaluate_raw` have the results `lm` and
`raw`. -/
theorem evaluate_eq_bucket (env : SearchEnv) (ev : Nat → Bucket) (b b1 b2 b3 : Board)
    (lm : List Move) (raw : EvalResult) (hl : get_legal_moves env.g b = some (lm, b1))
    (hr : env.evaluate_raw b = some (raw, b2)) (hr1 : env.evaluate_raw b1 = some (raw, b3)) :
    (evaluate env ev b).map (fun r => (r.1, r.2.1 (b.playhash % 16)))
      = evaluate_bucket env.cache_size (ev (b.playhash % 16)) b.playhash lm raw := by
  unfold evaluate evaluate_bucket cache_lookup
  simp only [hl, hr, hr1]
  cases CacheMap.find (ev (b.playhash % 16)).primary b.playhash with
  | some ret =>
    simp only [evaluate_hit]
    cases validate ret.policy lm with
    | none => rfl
    | some t => cases t <;> simp
  | none =>
    simp only
    cases CacheMap.find (ev (b.playhash % 16)).secondary b.playhash with
    | some ret =>
      simp only [evaluate_hit]
      cases validate ret.policy lm with
      | none => rfl
      | some t => cases t <;> simp
    | none =>
      simp only [Option.map_some', Function.update_same]
      split <;> rfl

/-! ## The history record -/

/-- The history after `Board::move`: the record pushed holds the move, the two hashes from
before the move and the `is_jang()` computed on the new cells. -/
theorem move_record {g : Globals} {H : HashConstants} {b b2 : Board} {m : Move}
    (h : move g H b m = some b2) :
    ∃ oms, raw_get_legal_moves g
        { move_cells b.toPosition m with to_move := opponent (move_cells b.toPosition m).to_move }
          = some oms
      ∧ b2.history = b.history ++ [⟨m, b.boardhash, b.playhash, oms.any threatens_goong⟩] := by
  obtain ⟨oms, ho⟩ := move_some h
  rw [move_eq ho, Option.some.injEq] at h
  subst h
  exact ⟨oms, ho, rfl⟩

/-- C25 (amended). The record pushed by `Board::move(m)` holds `m`, the `boardhash` and the
`playhash` from before the move, and in `was_jang` the check status of the position that
results from `m`: whether a move generated for the mover on the new cells, other than a
pass, captures a General (`is_jang()` is called after `move_piece_only`). -/
theorem move_history_record (g : Globals) (H : HashConstants) (b b2 : Board) (m : Move)
    (h : move g H b m = some b2) :
    ∃ oms, raw_get_legal_moves g
        { move_cells b.toPosition m with to_move := opponent (move_cells b.toPosition m).to_move }
          = some oms
      ∧ b2.history = b.history ++ [⟨m, b.boardhash, b.playhash, oms.any threatens_goong⟩] :=
  move_record h

/-- C25 at a concrete input: the Soldier move 60-50 on the opening position. -/
theorem move_history_record_witness :
    ∃ b2, move Globals.default example_hash opening ⟨11, 60, 50, 32⟩ = some b2
      ∧ ∃ oms, raw_get_legal_moves Globals.default
          { move_cells opening.toPosition ⟨11, 60, 50, 32⟩ with
            to_move := opponent (move_cells opening.toPosition ⟨11, 60, 50, 32⟩).to_move }
            = some oms
        ∧ b2.history = opening.history
            ++ [⟨⟨11, 60, 50, 32⟩, opening.boardhash, opening.playhash,
                oms.any threatens_goong⟩] := by
  cases h : move Globals.default example_hash opening ⟨11, 60, 50, 32⟩ with
  | none =>
    have : (move Globals.default example_hash opening ⟨11, 60, 50, 32⟩).isSome = true := by
      decide
    rw [h] at this
    simp at this
  | some b2 =>
    exact ⟨b2, rfl, move_history_record Globals.default example_hash opening b2 _ h⟩

/-- C25 (counterexample). After Soldier 60-61 and Soldier 30-31 from the opening position
the side to move, Cho, is not in check (`is_jang()` is false); the Chariot move 90-10 gives
check, and the record pushed by it has `was_jang == true`: the status of the position after
the move, not of the board on which it was played. -/
theorem move_history_record_counterexample :
    (before_check.bind fun b => (is_jang Globals.default b).map Prod.fst) = some false
      ∧ (before_check.bind fun b =>
          (move Globals.default example_hash b checking_move).bind fun b2 =>
            b2.history.getLast?.map fun r => (r.move, r.was_jang))
        = some (checking_move, true) := by
  decide

/-! ## Weight files -/

theorem residual_lines_ge {l : Nat} (h : 19 ≤ l) (h2 : l < 2 ^ 64) :
    residual_lines l = l - 19 := by
  unfold residual_lines
  have : ((l : Int) - (1 + 4 + 14)) % 2 ^ 64 = (l : Int) - 19 := by
    apply Int.emod_eq_of_lt <;> omega
  rw [this]
  omega

theorem residual_lines_lt {l : Nat} (h : l < 19) :
    residual_lines l = 2 ^ 64 - 19 + l := by
  unfold residual_lines
  have : ((l : Int) - (1 + 4 + 14)) % 2 ^ 64 = (l : Int) - 19 + 2 ^ 64 := by
    rw [← Int.add_mul_emod_self (a := (l : Int) - (1 + 4 + 14)) (b := 1) (c := 2 ^ 64)]
    apply Int.emod_eq_of_lt <;> omega
  rw [this]
  omega

/-- C26 (failing inputs). A version-1 file of 11 lines and a version-5 file of 13 lines are
not rejected by the test on the number of lines: `linecount - 19` wraps to `2 ^ 64 - 8` and
to `2 ^ 64 - 6`, multiples of 8 and of 10, and the loaders go on with `2 ^ 61 - 1` and
`(2 ^ 64 - 6) / 10` residual blocks.  In general, for a count below `2 ^ 64`,
`load_v1_network` throws exactly when the count is not 3 modulo 8 (so it accepts 3 and 11
besides `19 + 8k`), and `load_v5_network` throws on a count of 19 or more exactly when it
is not `19 + 10k`, and on a count below 19 exactly when it is neither 3 nor 13. -/
theorem short_weight_file_accepted :
    load_v1_network_blocks 11 = some (2 ^ 61 - 1)
      ∧ load_v5_network_blocks 13 = some ((2 ^ 64 - 6) / 10)
      ∧ (∀ l, l < 2 ^ 64 → (load_v1_network_blocks l = none ↔ l % 8 ≠ 3))
      ∧ (∀ l, 19 ≤ l → l < 2 ^ 64 → (load_v5_network_blocks l = none ↔ (l - 19) % 10 ≠ 0))
      ∧ (∀ l, l < 19 → (load_v5_network_blocks l = none ↔ (l ≠ 3 ∧ l ≠ 13))) := by
  refine ⟨by decide, by decide, ?_, ?_, ?_⟩
  · intro l hl
    unfold load_v1_network_blocks
    by_cases h : 19 ≤ l
    · rw [residual_lines_ge h hl]
      split <;> simp <;> omega
    · rw [residual_lines_lt (by omega)]
      split <;> simp <;> omega
  · intro l h hl
    unfold load_v5_network_blocks
    rw [residual_lines_ge h hl]
    split <;> simp <;> omega
  · intro l h
    unfold load_v5_network_blocks
    rw [residual_lines_lt h]
    split <;> simp <;> omega

/-! ## The strict legal-move utility -/

/-- The loop of `get_legal_moves_wrapper` leaves the board as it found it, caches apart,
when every move of the list is one the generator reports on the board. -/
theorem wrapper_loop_board {g : Globals} {H : HashConstants} {to_move : Side} {b0 : Board}
    (hs : b0.to_move ≠ Side.NONE) (hph : b0.playhash < 2 ^ 64) :
    ∀ (lm : List Move) (b : Board) (ret : List Move) (b5 : Board),
      (∀ x ∈ lm, Generated b0.toPosition x) → clear_cache b = clear_cache b0 →
      wrapper_loop g H to_move b lm = some (ret, b5) → clear_cache b5 = clear_cache b0 := by
  intro lm
  induction lm with
  | nil =>
    intro b ret b5 _ hb h
    simp only [wrapper_loop, Option.some.injEq, Prod.mk.injEq] at h
    obtain ⟨-, rfl⟩ := h
    exact hb
  | cons x rest ih =>
    intro b ret b5 hgen hb h
    simp only [wrapper_loop] at h
    cases hm : move g H b x with
    | none => rw [hm] at h; simp at h
    | some b1 =>
      rw [hm] at h
      simp only at h
      cases hw : winner g b1 with
      | none => rw [hw] at h; simp at h
      | some w =>
        rw [hw] at h
        simp only at h
        have e3 : clear_cache (if w = Side.NONE then winner_board g b1
            else winner_board g (winner_board g b1)) = clear_cache b1 := by
          split
          · exact (winner_board_cache g b1).1
          · exact (winner_board_cache g _).1.trans (winner_board_cache g b1).1
        cases hu : unmove H (if w = Side.NONE then winner_board g b1
            else winner_board g (winner_board g b1)) with
        | none => rw [hu] at h; simp at h
        | some z =>
          obtain ⟨m', b4⟩ := z
          rw [hu] at h
          simp only at h
          have hm0 : move g H b0 x = some b1 := by rw [← move_congr x hb]; exact hm
          have hu0 : unmove H b1 = some (m', b4) := by rw [← unmove_congr e3]; exact hu
          have h4 := unmove_move hs (hgen x (List.mem_cons_self _ _)) hph hm0
          rw [h4, Option.some.injEq, Prod.mk.injEq] at hu0
          cases hr : wrapper_loop g H to_move b4 rest with
          | none => rw [hr] at h; simp at h
          | some y =>
            obtain ⟨ret', b5'⟩ := y
            rw [hr] at h
            simp only [Option.some.injEq, Prod.mk.injEq] at h
            obtain ⟨-, rfl⟩ := h
            refine ih b4 ret' b5' (fun y hy => hgen y (List.mem_cons_of_mem _ hy)) ?_ hr
            rw [← hu0.2]
            rfl

/-- C23 (amended). For every board whose side to move is CHO or HAN and whose `playhash`
is a 64-bit value: when `get_legal_moves_wrapper` returns, `jang_move_is_illegal` is false,
whatever it was before the call, the other options are as before, and the board is the
board before the call with its two caches cleared: cells, side to move, history, hashes
and scores are unchanged. -/
theorem wrapper_effect (g g2 : Globals) (H : HashConstants) (b b2 : Board)
    (ret : List Move) (hs : b.to_move ≠ Side.NONE) (hph : b.playhash < 2 ^ 64)
    (h : get_legal_moves_wrapper g H b = some (ret, g2, b2)) :
    g2 = { g with jang_move_is_illegal := false } ∧ b2 = clear_cache b := by
  unfold get_legal_moves_wrapper at h
  simp only at h
  cases hl : get_legal_moves { g with jang_move_is_illegal := true } (clear_cache b) with
  | none => rw [hl] at h; simp at h
  | some x =>
    obtain ⟨lm, b1⟩ := x
    rw [hl] at h
    simp only at h
    obtain ⟨hb1, raw, hraw, hsub⟩ := get_legal_moves_spec (by rfl) hl
    cases hw : wrapper_loop { g with jang_move_is_illegal := true } H b1.to_move b1 lm with
    | none => rw [hw] at h; simp at h
    | some y =>
      obtain ⟨ret', b3⟩ := y
      rw [hw] at h
      simp only [Option.some.injEq, Prod.mk.injEq] at h
      obtain ⟨-, rfl, rfl⟩ := h
      refine ⟨rfl, ?_⟩
      have hc1 : clear_cache b1 = clear_cache b := by rw [hb1]; rfl
      exact wrapper_loop_board hs hph lm b1 ret' b3
        (fun x hx => raw_generated hraw (hsub x hx)) hc1 hw

/-- The call on the board `duel` with the option on: it returns, with the option off. -/
theorem wrapper_duel :
    ((get_legal_moves_wrapper ⟨false, false, true⟩ example_hash duel).map
      fun r => r.2.1.jang_move_is_illegal) = some false := by
  decide!

/-- C23 at a concrete input: the board `duel`, with the option on before the call. -/
theorem wrapper_effect_witness :
    ∃ ret g2 b2, get_legal_moves_wrapper ⟨false, false, true⟩ example_hash duel
        = some (ret, g2, b2)
      ∧ g2 = { (⟨false, false, true⟩ : Globals) with jang_move_is_illegal := false }
      ∧ b2 = clear_cache duel := by
  cases h : get_legal_moves_wrapper ⟨false, false, true⟩ example_hash duel with
  | none =>
    have := wrapper_duel
    rw [h] at this
    simp at this
  | some x =>
    obtain ⟨ret, g2, b2⟩ := x
    exact ⟨ret, g2, b2, rfl,
      wrapper_effect ⟨false, false, true⟩ g2 example_hash duel b2 ret (by decide) (by decide) h⟩

/-- C23 (counterexample). With `jang_move_is_illegal` on before the call (on the board
`duel`), the option is off after the call: the value is not restored. -/
theorem wrapper_effect_counterexample :
    ((get_legal_moves_wrapper ⟨false, false, true⟩ example_hash duel).map
      fun r => r.2.1.jang_move_is_illegal) = some false
      ∧ (⟨false, false, true⟩ : Globals).jang_move_is_illegal = true :=
  ⟨wrapper_duel, rfl⟩

/-! ## Soldiers -/

theorem reachable_of_under {ok : Globals → Prop} {H : HashConstants} {b : Board}
    (h : ReachableUnder ok H b) : Reachable H b := by
  induction h with
  | start cs hs => exact Reachable.start cs hs
  | step g g' b b1 b2 ms m _ _ _ hl hm hmv ih => exact Reachable.step g g' b b1 b2 ms m ih hl hm hmv

/-- The cells after `Board::move`. -/
theorem move_board {g : Globals} {H : HashConstants} {b b2 : Board} {m : Move}
    (h : move g H b m = some b2) :
    b2.board = (move_cells b.toPosition m).board ∧ b2.to_move = toggle b.to_move := by
  obtain ⟨oms, ho⟩ := move_some h
  rw [move_eq ho, Option.some.injEq] at h
  subst h
  exact ⟨rfl, rfl⟩

/-- Where a move reported by `append_jol` goes. -/
theorem append_jol_to {p : Position} {f : Int} {m : Move} (hm : m ∈ append_jol p f) :
    m = emit p f m.yx_to ∧ ∃ yo xo, (0 ≤ yo ∧ yo < 10 ∧ 0 ≤ xo ∧ xo < 9)
      ∧ m.yx_to = yo * 10 + xo
      ∧ ((yo = f / 10 + (if p.to_move = Side.CHO then -1 else 1) ∧ xo = f % 10)
        ∨ (yo = f / 10 ∧ (xo = f % 10 + 1 ∨ xo = f % 10 - 1))
        ∨ (f = 14 ∧ yo = 0 ∧ (xo = 3 ∨ xo = 5))
        ∨ ((f = 23 ∨ f = 25) ∧ yo = 1 ∧ xo = 4)
        ∨ (f = 84 ∧ yo = 9 ∧ (xo = 3 ∨ xo = 5))
        ∨ ((f = 73 ∨ f = 75) ∧ yo = 8 ∧ xo = 4)) := by
  have key : ∀ yo xo, m ∈ leap_to p f yo xo →
      m = emit p f m.yx_to ∧ (0 ≤ yo ∧ yo < 10 ∧ 0 ≤ xo ∧ xo < 9) ∧ m.yx_to = yo * 10 + xo := by
    intro yo xo h
    obtain ⟨hr, he, -⟩ := mem_leap_to.1 h
    have ht : m.yx_to = yo * 10 + xo := by rw [he]; rfl
    refine ⟨?_, hr, ht⟩
    rw [ht]; exact he
  unfold append_jol at hm
  simp only [List.mem_append] at hm
  rcases hm with ((((((((h | h) | h) | h) | h) | h) | h) | h) | h)
  · obtain ⟨e, r, t⟩ := key _ _ h
    exact ⟨e, _, _, r, t, Or.inl ⟨by ring_nf, by ring_nf⟩⟩
  · obtain ⟨e, r, t⟩ := key _ _ h
    exact ⟨e, _, _, r, t, Or.inr (Or.inl ⟨by ring_nf, Or.inl rfl⟩)⟩
  · obtain ⟨e, r, t⟩ := key _ _ h
    exact ⟨e, _, _, r, t, Or.inr (Or.inl ⟨by ring_nf, Or.inr (by ring_nf)⟩)⟩
  · split at h
    · rename_i hf
      simp only [List.mem_append] at h
      rcases h with h | h
      · obtain ⟨e, r, t⟩ := key _ _ h
        exact ⟨e, _, _, r, t, Or.inr (Or.inr (Or.inl ⟨hf, by omega, by omega⟩))⟩
      · obtain ⟨e, r, t⟩ := key _ _ h
        exact ⟨e, _, _, r, t, Or.inr (Or.inr (Or.inl ⟨hf, by omega, by omega⟩))⟩
    · simp at h
  · split at h
    · rename_i hf
      simp only [List.mem_append] at h
      rcases h with h | h
      · obtain ⟨e, r, t⟩ := key _ _ h
        exact ⟨e, _, _, r, t,
          Or.inr (Or.inr (Or.inr (Or.inr (Or.inl ⟨hf, by omega, by omega⟩))))⟩
      · obtain ⟨e, r, t⟩ := key _ _ h
        exact ⟨e, _, _, r, t,
          Or.inr (Or.inr (Or.inr (Or.inr (Or.inl ⟨hf, by omega, by omega⟩))))⟩
    · simp at h
  · split at h
    · rename_i hf
      obtain ⟨e, r, t⟩ := key _ _ h
      exact ⟨e, _, _, r, t,
        Or.inr (Or.inr (Or.inr (Or.inl ⟨Or.inl hf, by omega, by omega⟩)))⟩
    · simp at h
  · split at h
    · rename_i hf
      obtain ⟨e, r, t⟩ := key _ _ h
      exact ⟨e, _, _, r, t,
        Or.inr (Or.inr (Or.inr (Or.inl ⟨Or.inr hf, by omega, by omega⟩)))⟩
    · simp at h
  · split at h
    · rename_i hf
      obtain ⟨e, r, t⟩ := key _ _ h
      exact ⟨e, _, _, r, t,
        Or.inr (Or.inr (Or.inr (Or.inr (Or.inr ⟨Or.inl hf, by omega, by omega⟩))))⟩
    · simp at h
  · split at h
    · rename_i hf
      obtain ⟨e, r, t⟩ := key _ _ h
      exact ⟨e, _, _, r, t,
        Or.inr (Or.inr (Or.inr (Or.inr (Or.inr ⟨Or.inr hf, by omega, by omega⟩))))⟩
    · simp at h

/-- A reported move of a piece that is not the General comes from the body of the double
loop at its origin. -/
theorem raw_from_piece {g : Globals} {p : Position} {ms : List Move} {m : Move}
    (h : raw_get_legal_moves g p = some ms) (hm : m ∈ ms) (hp : m.piece % 16 ≠ 0) :
    on_board m.yx_from ∧ m.piece = p.board m.yx_from
      ∧ ∃ l, append_piece g p m.yx_from = some l ∧ m ∈ l := by
  obtain ⟨pm, gp, hpm, hgp, rfl⟩ := raw_get_legal_moves_eq.1 h
  rcases List.mem_append.1 hm with hm | hm
  · obtain ⟨f, hf, l, hl, hml⟩ := (mem_piece_moves_on squares pm hpm).1 hm
    have hfb := (mem_squares f).1 hf
    obtain ⟨-, hrep, -, -⟩ := mem_append_piece hfb hl hml
    obtain ⟨e1, e2, -⟩ := hrep
    rw [e2]
    exact ⟨hfb, e1, l, hl, hml⟩
  · exfalso
    simp only [List.mem_singleton] at hm
    have := (goongpos_spec hgp).2.2
    rw [hm] at hp
    exact hp this

/-- A reported Soldier move is reported by `append_jol`, and the Soldier is of the side to
move. -/
theorem raw_jol {g : Globals} {p : Position} {ms : List Move} {m : Move}
    (h : raw_get_legal_moves g p = some ms) (hm : m ∈ ms) (hp : 11 ≤ m.piece % 16) :
    on_board m.yx_from ∧ m.piece = p.board m.yx_from
      ∧ m.piece / 16 = p.to_move.toNat / 16 ∧ m ∈ append_jol p m.yx_from := by
  obtain ⟨hf, hpc, l, hl, hml⟩ := raw_from_piece h hm (by omega)
  refine ⟨hf, hpc, ?_, ?_⟩
  · exact hpc ▸ (mem_append_piece hf hl hml).1
  · unfold append_piece at hl
    simp only at hl
    rw [← hpc] at hl
    have hlt : m.piece % 16 < 16 := Nat.mod_lt _ (by norm_num)
    split at hl
    · rw [if_neg (by omega), if_neg (by omega), if_neg (by omega), if_neg (by omega)] at hl
      rw [if_neg (by omega), if_neg (by omega), if_pos (by omega)] at hl
      simp only [Option.some.injEq] at hl
      rw [hl]; exact hml
    · simp only [Option.some.injEq] at hl
      rw [← hl] at hml
      simp at hml

/-- A reported move keeps the Soldiers on their rows. -/
theorem jol_rows_move {g : Globals} {p : Position} {ms : List Move} {m : Move}
    (hr : jol_rows p.board) (h : raw_get_legal_moves g p = some ms) (hm : m ∈ ms) :
    jol_rows (move_cells p m).board := by
  have hgen := raw_generated h hm
  obtain ⟨hf, ht, hside, hpiece, -, -, -, -⟩ := hgen
  intro yx hyx
  by_cases h2 : yx = m.yx_to
  · subst h2
    rw [move_cells_to]
    rw [← hpiece]
    have hfrom := hr m.yx_from hf
    rw [← hpiece] at hfrom
    unfold is_side at hside
    rw [← hpiece] at hside
    constructor
    · intro hc
      unfold is_cho_jol at hc
      obtain ⟨-, -, hs, hmj⟩ := raw_jol h hm (by omega)
      obtain ⟨-, yo, xo, hrange, hto, hcase⟩ := append_jol_to hmj
      have hrow := hfrom.1 hc
      have hcho : p.to_move = Side.CHO := by
        cases hp : p.to_move <;> rw [hp] at hs <;> simp [Side.toNat] at hs <;> omega
      rw [hcho] at hcase
      simp only [if_true] at hcase
      omega
    · intro hc
      unfold is_han_jol at hc
      obtain ⟨-, -, hs, hmj⟩ := raw_jol h hm (by omega)
      obtain ⟨-, yo, xo, hrange, hto, hcase⟩ := append_jol_to hmj
      have hrow := hfrom.2 hc
      have hhan : p.to_move = Side.HAN := by
        cases hp : p.to_move <;> rw [hp] at hs <;> simp [Side.toNat] at hs <;> omega
      rw [hhan] at hcase
      simp only [reduceCtorEq, if_false] at hcase
      omega
  · by_cases h1 : yx = m.yx_from
    · subst h1
      rw [move_cells_from p m (fun e => h2 e)]
      unfold is_cho_jol is_han_jol
      constructor <;> intro hc <;> omega
    · rw [move_cells_other p m h1 h2]
      exact hr yx hyx

theorem init_jol_rows (cs hs : StartingState) : jol_rows (init_cells cs hs) := by
  intro yx h
  obtain ⟨-, -, -, -, -, t6, t7⟩ := init_table cs hs yx ((mem_squares yx).2 h)
  exact ⟨t6, t7⟩

theorem reachable_jol_rows {H : HashConstants} {b : Board} (h : Reachable H b) :
    jol_rows b.board := by
  induction h with
  | start cs hs => exact init_jol_rows cs hs
  | step g g' b b1 b2 ms m hb hl hm hmv ih =>
    have hi := reachable_inv hb
    obtain ⟨rfl, raw, hraw, hsub⟩ := get_legal_moves_spec hi.cache hl
    rw [(move_board hmv).1]
    exact jol_rows_move ih hraw (hsub m hm)

/-- C29. On every board reachable from a starting layout by moves of `get_legal_moves()`:
every Cho Soldier stands on a row `y <= 6` and every Han Soldier on a row `y >= 3`; and
every Soldier move that the generator reports, run for the side to move or for the opponent
(under any options), is one step forward, one step sideways, or one forward-diagonal step
inside the enemy palace. -/
theorem soldier_steps (H : HashConstants) (g : Globals) (b : Board) (hb : Reachable H b) :
    jol_rows b.board
      ∧ ∀ s, (s = b.to_move ∨ s = opponent b.to_move) → ∀ ms,
          raw_get_legal_moves g { b.toPosition with to_move := s } = some ms →
          ∀ m ∈ ms, 11 ≤ m.piece % 16 → spec_jol_step s m := by
  have hr := reachable_jol_rows hb
  have hle := reachable_cells_le hb
  refine ⟨hr, ?_⟩
  intro s _ ms hraw m hm hp
  obtain ⟨hf, hpc, hs, hmj⟩ := raw_jol hraw hm hp
  obtain ⟨he, yo, xo, hrange, hto, hcase⟩ := append_jol_to hmj
  have hfrom := hr m.yx_from hf
  have hpc' : m.piece = b.board m.yx_from := hpc
  have hs' : m.piece / 16 = s.toNat / 16 := hs
  have hcase' : ((yo = m.yx_from / 10 + (if s = Side.CHO then -1 else 1) ∧ xo = m.yx_from % 10)
        ∨ (yo = m.yx_from / 10 ∧ (xo = m.yx_from % 10 + 1 ∨ xo = m.yx_from % 10 - 1))
        ∨ (m.yx_from = 14 ∧ yo = 0 ∧ (xo = 3 ∨ xo = 5))
        ∨ ((m.yx_from = 23 ∨ m.yx_from = 25) ∧ yo = 1 ∧ xo = 4)
        ∨ (m.yx_from = 84 ∧ yo = 9 ∧ (xo = 3 ∨ xo = 5))
        ∨ ((m.yx_from = 73 ∨ m.yx_from = 75) ∧ yo = 8 ∧ xo = 4)) := hcase
  have hcell := hle m.yx_from
  rw [← hpc'] at hfrom hcell
  have hfb := hf
  unfold on_board at hfb
  unfold is_cho_jol is_han_jol at hfrom
  have hy : m.yx_to / 10 = yo := by omega
  have hx : m.yx_to % 10 = xo := by omega
  unfold spec_jol_step palace
  simp only
  rw [hy, hx]
  cases hsd : s with
  | CHO =>
    rw [hsd] at hs' hcase'
    simp only [Side.toNat, if_true] at hs' hcase' ⊢
    have hrow := hfrom.1 (by omega)
    rcases hcase' with ⟨h1, h2⟩ | ⟨h1, h2⟩ | ⟨h0, h1, h2⟩ | ⟨h0, h1, h2⟩ | ⟨h0, h1, h2⟩
      | ⟨h0, h1, h2⟩
    · exact Or.inl (by omega)
    · exact Or.inr (Or.inl (by omega))
    · exact Or.inr (Or.inr (by omega))
    · exact Or.inr (Or.inr (by omega))
    · exfalso; omega
    · exfalso; omega
  | HAN =>
    rw [hsd] at hs' hcase'
    simp only [Side.toNat, reduceCtorEq, if_false] at hs' hcase' ⊢
    have hrow := hfrom.2 (by omega)
    rcases hcase' with ⟨h1, h2⟩ | ⟨h1, h2⟩ | ⟨h0, h1, h2⟩ | ⟨h0, h1, h2⟩ | ⟨h0, h1, h2⟩
      | ⟨h0, h1, h2⟩
    · exact Or.inl (by omega)
    · exact Or.inr (Or.inl (by omega))
    · exfalso; omega
    · exfalso; omega
    · exact Or.inr (Or.inr (by omega))
    · exact Or.inr (Or.inr (by omega))
  | NONE =>
    rw [hsd] at hs'
    simp only [Side.toNat] at hs'
    omega

/-- C29 at a concrete input: the opening position. -/
theorem soldier_steps_witness :
    jol_rows opening.board
      ∧ ∀ s, (s = opening.to_move ∨ s = opponent opening.to_move) → ∀ ms,
          raw_get_legal_moves Globals.default { opening.toPosition with to_move := s } = some ms →
          ∀ m ∈ ms, 11 ≤ m.piece % 16 → spec_jol_step s m :=
  soldier_steps example_hash Globals.default opening (Reachable.start _ _)

/-! ## Generals and Guards at home -/

theorem reachable_under_mono {ok ok' : Globals → Prop} {H : HashConstants} {b : Board}
    (hi : ∀ g, ok g → ok' g) (h : ReachableUnder ok H b) : ReachableUnder ok' H b := by
  induction h with
  | start cs hs => exact ReachableUnder.start cs hs
  | step g g' b b1 b2 ms m _ h1 h2 hl hm hmv ih =>
    exact ReachableUnder.step g g' b b1 b2 ms m ih (hi g h1) (hi g' h2) hl hm hmv

/-- The destinations tried by `append_sa_goong` are squares of the palace of the origin. -/
theorem sa_goong_targets_home {f : Int} {ts : List Int} (h : sa_goong_targets f = some ts) :
    ∀ t ∈ ts, (3 ≤ t % 10 ∧ t % 10 ≤ 5 ∧ 0 ≤ t ∧ t < 100)
      ∧ (7 ≤ f / 10 → 7 ≤ t / 10) ∧ (f / 10 ≤ 2 → t / 10 ≤ 2) := by
  unfold sa_goong_targets at h
  split_ifs at h with h1 h2 h3 h4 h5 h6 h7 h8 h9 <;>
    simp only [Option.some.injEq] at h <;> subst h
  · rcases h1 with rfl | rfl <;> decide
  · rcases h2 with rfl | rfl <;> decide
  · rcases h3 with rfl | rfl <;> decide
  · rcases h4 with rfl | rfl <;> decide
  · rcases h5 with rfl | rfl <;> decide
  · rcases h6 with rfl | rfl <;> decide
  · rcases h7 with rfl | rfl <;> decide
  · rcases h8 with rfl | rfl <;> decide
  · rcases h9 with rfl | rfl <;> decide

/-- A move reported by `append_sa_goong` goes to one of the destinations of the `switch`. -/
theorem append_sa_goong_target {p : Position} {f : Int} {l : List Move} {m : Move}
    (h : append_sa_goong p f = some l) (hm : m ∈ l) :
    ∃ ts, sa_goong_targets f = some ts ∧ m.yx_to ∈ ts := by
  unfold append_sa_goong at h
  cases hts : sa_goong_targets f with
  | none => rw [hts] at h; simp at h
  | some ts =>
    rw [hts] at h
    simp only [Option.map_some', Option.some.injEq] at h
    subst h
    obtain ⟨t, ht, hmt⟩ := List.mem_flatMap.1 hm
    obtain ⟨he, -⟩ := mem_possible_legal_move.1 hmt
    refine ⟨ts, rfl, ?_⟩
    rw [he]
    exact ht

/-- With `allow_bikjang` off, a reported move of a General or Guard is the pass or goes to
one of the destinations of the `switch` of `append_sa_goong`. -/
theorem raw_sa_goong {g : Globals} {p : Position} {ms : List Move} {m : Move}
    (hg : g.allow_bikjang = false) (h : raw_get_legal_moves g p = some ms) (hm : m ∈ ms)
    (hp : m.piece % 16 ≤ 2) :
    m.yx_from = m.yx_to ∨ ∃ ts, sa_goong_targets m.yx_from = some ts ∧ m.yx_to ∈ ts := by
  obtain ⟨pm, gp, hpm, hgp, rfl⟩ := raw_get_legal_moves_eq.1 h
  rcases List.mem_append.1 hm with hm | hm
  · right
    obtain ⟨f, hf, l, hl, hml⟩ := (mem_piece_moves_on squares pm hpm).1 hm
    have hfb := (mem_squares f).1 hf
    obtain ⟨-, hrep, -, -⟩ := mem_append_piece hfb hl hml
    obtain ⟨e1, e2, -⟩ := hrep
    rw [e2]
    rw [e1] at hp
    unfold append_piece at hl
    simp only at hl
    split at hl
    · split at hl
      · cases hsa : append_sa_goong p f with
        | none => rw [hsa] at hl; simp at hl
        | some l0 =>
          rw [hsa] at hl
          simp only [hg, Bool.false_eq_true, if_false, List.append_nil, Option.map_some',
            Option.some.injEq] at hl
          subst hl
          exact append_sa_goong_target hsa hml
      · split at hl
        · exact append_sa_goong_target hl hml
        · exfalso; omega
    · simp only [Option.some.injEq] at hl
      rw [← hl] at hml
      simp at hml
  · left
    simp only [List.mem_singleton] at hm
    rw [hm]
    rfl

/-- With `allow_bikjang` off, a reported move keeps Generals and Guards in the palace of
their side. -/
theorem at_home_move {g : Globals} {p : Position} {ms : List Move} {m : Move}
    (hg : g.allow_bikjang = false) (hh : at_home p.board)
    (h : raw_get_legal_moves g p = some ms) (hm : m ∈ ms) :
    at_home (move_cells p m).board := by
  obtain ⟨hf, ht, -, hpiece, -, -, -, -⟩ := raw_generated h hm
  intro yx hyx hlt h2
  by_cases e2 : yx = m.yx_to
  · subst e2
    rw [move_cells_to] at hlt h2 ⊢
    rw [← hpiece] at hlt h2 ⊢
    have hfrom := hh m.yx_from hf (by rw [← hpiece]; exact hlt) (by rw [← hpiece]; exact h2)
    rw [← hpiece] at hfrom
    rcases raw_sa_goong hg h hm h2 with e | ⟨ts, hts, hmem⟩
    · rw [← e]; exact hfrom
    · obtain ⟨hc, h7, h0⟩ := sa_goong_targets_home hts _ hmem
      unfold home_palace at hfrom ⊢
      refine ⟨hc.1, hc.2.1, hc.2.2.1, hc.2.2.2, ?_⟩
      split
      · rename_i hc0
        rw [if_pos hc0] at hfrom
        exact h7 hfrom.2.2.2.2
      · rename_i hc0
        rw [if_neg hc0] at hfrom
        exact h0 hfrom.2.2.2.2
  · by_cases e1 : yx = m.yx_from
    · subst e1
      rw [move_cells_from p m (fun e => e2 e)] at hlt
      omega
    · rw [move_cells_other p m e1 e2] at hlt h2 ⊢
      exact hh yx hyx hlt h2

theorem init_at_home (cs hs : StartingState) : at_home (init_cells cs hs) := by
  intro yx h hlt h2
  obtain ⟨-, t2, t3, t4, t5, -, -⟩ := init_table cs hs yx ((mem_squares yx).2 h)
  unfold on_board at h
  unfold home_palace
  generalize init_cells cs hs yx = c at *
  have hc : c = 0 ∨ c = 1 ∨ c = 2 ∨ c = 16 ∨ c = 17 ∨ c = 18 := by omega
  rcases hc with rfl | rfl | rfl | rfl | rfl | rfl <;> simp at t2 t3 t4 t5 ⊢ <;> omega

theorem reachable_at_home {H : HashConstants} {b : Board}
    (h : ReachableUnder no_bikjang H b) : at_home b.board := by
  induction h with
  | start cs hs => exact init_at_home cs hs
  | step g g' b b1 b2 ms m hb hg _ hl hm hmv ih =>
    have hi := reachable_inv (reachable_of_under hb)
    obtain ⟨rfl, raw, hraw, hsub⟩ := get_legal_moves_spec hi.cache hl
    rw [(move_board hmv).1]
    exact at_home_move hg ih hraw (hsub m hm)

/-- C30. On every board reachable from a starting layout by moves of `get_legal_moves()`,
all calls being made with `allow_bikjang` off: every General and Guard stands on a square
of the palace of its side, and on the square of every General or Guard `append_sa_goong`
does not reach `assert(false)` and every move it reports goes to a square of the board that
is a palace square, of the palace of the piece's side. -/
theorem home_palaces (H : HashConstants) (b : Board) (hb : ReachableUnder no_bikjang H b) :
    at_home b.board
      ∧ ∀ f, on_board f → b.board f < 0x20 → b.board f % 16 ≤ 2 →
          ∃ l, append_sa_goong b.toPosition f = some l
            ∧ ∀ m ∈ l, on_board m.yx_to ∧ palace m.yx_to ∧ home_palace (b.board f) m.yx_to := by
  have hh := reachable_at_home hb
  refine ⟨hh, ?_⟩
  intro f hf hlt h2
  have hhome := hh f hf hlt h2
  have hpal : palace f := by
    unfold home_palace at hhome
    unfold palace
    obtain ⟨c1, c2, c3, c4, c5⟩ := hhome
    refine ⟨?_, c1, c2, c3, c4⟩
    split at c5
    · exact Or.inr c5
    · exact Or.inl c5
  obtain ⟨ts, hts⟩ := sa_goong_targets_of_palace hpal
  refine ⟨ts.flatMap (possible_legal_move b.toPosition f), by simp [append_sa_goong, hts], ?_⟩
  intro m hm
  have hsa : append_sa_goong b.toPosition f
      = some (ts.flatMap (possible_legal_move b.toPosition f)) := by
    simp [append_sa_goong, hts]
  obtain ⟨-, hrep, hpt, -⟩ := mem_append_sa_goong hsa hm
  obtain ⟨ts', hts', hmem⟩ := append_sa_goong_target hsa hm
  rw [hts, Option.some.injEq] at hts'
  subst hts'
  obtain ⟨hc, h7, h0⟩ := sa_goong_targets_home hts _ hmem
  refine ⟨hrep.2.2.2.1, hpt, ?_⟩
  unfold home_palace at hhome ⊢
  refine ⟨hc.1, hc.2.1, hc.2.2.1, hc.2.2.2, ?_⟩
  split
  · rename_i hc0
    rw [if_pos hc0] at hhome
    exact h7 hhome.2.2.2.2
  · rename_i hc0
    rw [if_neg hc0] at hhome
    exact h0 hhome.2.2.2.2

/-- C30 at a concrete input: the opening position. -/
theorem home_palaces_witness :
    at_home opening.board
      ∧ ∀ f, on_board f → opening.board f < 0x20 → opening.board f % 16 ≤ 2 →
          ∃ l, append_sa_goong opening.toPosition f = some l
            ∧ ∀ m ∈ l, on_board m.yx_to ∧ palace m.yx_to
              ∧ home_palace (opening.board f) m.yx_to :=
  home_palaces example_hash opening (ReachableUnder.start _ _)

/-! ## Capture of the General -/

theorem init_goongs (cs hs : StartingState) :
    ∀ yx, on_board yx → init_cells cs hs yx < 0x20 → init_cells cs hs yx % 16 = 0 →
      (yx = 84 ∧ init_cells cs hs yx = 0) ∨ (yx = 14 ∧ init_cells cs hs yx = 16) := by
  intro yx h hlt h0
  obtain ⟨-, t2, t3, -, -, -, -⟩ := init_table cs hs yx ((mem_squares yx).2 h)
  omega

theorem init_one_goong (cs hs : StartingState) : one_goong (init_cells cs hs) := by
  intro a b ha hb hab hlt h0
  have h1 := init_goongs cs hs a ha hlt h0
  have h2 := init_goongs cs hs b hb (by rw [← hab]; exact hlt) (by rw [← hab]; exact h0)
  omega

/-- A reported move leaves no side with two Generals. -/
theorem one_goong_move {p : Position} {m : Move} (h1 : one_goong p.board)
    (hm : Generated p m) : one_goong (move_cells p m).board := by
  obtain ⟨hf, ht, -, -, -, -, -, -⟩ := hm
  intro a b ha hb hab hlt h0
  by_cases ea : a = m.yx_to
  · by_cases eb : b = m.yx_to
    · rw [ea, eb]
    · exfalso
      rw [ea, move_cells_to] at hab hlt h0
      by_cases eb1 : b = m.yx_from
      · rw [eb1, move_cells_from p m (fun e => eb (eb1.trans e))] at hab
        omega
      · rw [move_cells_other p m eb1 eb] at hab
        exact eb1 (h1 _ _ hf hb hab hlt h0).symm
  · by_cases ea1 : a = m.yx_from
    · exfalso
      rw [ea1, move_cells_from p m (fun e => ea (ea1.trans e))] at hlt
      omega
    · rw [move_cells_other p m ea1 ea] at hab hlt h0
      by_cases eb : b = m.yx_to
      · exfalso
        rw [eb, move_cells_to] at hab
        exact ea1 (h1 _ _ ha hf hab hlt h0)
      · by_cases eb1 : b = m.yx_from
        · exfalso
          rw [eb1, move_cells_from p m (fun e => eb (eb1.trans e))] at hab
          omega
        · rw [move_cells_other p m eb1 eb] at hab
          exact h1 _ _ ha hb hab hlt h0

theorem reachable_one_goong {H : HashConstants} {b : Board} (h : Reachable H b) :
    one_goong b.board := by
  induction h with
  | start cs hs => exact init_one_goong cs hs
  | step g g' b b1 b2 ms m hb hl hm hmv ih =>
    have hi := reachable_inv hb
    obtain ⟨rfl, raw, hraw, hsub⟩ := get_legal_moves_spec hi.cache hl
    rw [(move_board hmv).1]
    exact one_goong_move ih (raw_generated hraw (hsub m hm))

/-- The variable `found_han_goong` of `winner_piece_only`. -/
theorem found_han_iff (cells : Int → Nat) :
    ([(0 : Int), 1, 2].any fun y => [(3 : Int), 4, 5].any fun x => cells (y * 10 + x) == 0x10)
        = true
      ↔ ∃ yx, home_palace 16 yx ∧ cells yx = 16 := by
  constructor
  · intro h
    simp only [List.any_cons, List.any_nil, Bool.or_false, Bool.or_eq_true, beq_iff_eq] at h
    rcases h with (h | h | h) | (h | h | h) | (h | h | h)
    all_goals exact ⟨_, by decide, h⟩
  · rintro ⟨yx, hp, h⟩
    have hp' : 3 ≤ yx % 10 ∧ yx % 10 ≤ 5 ∧ 0 ≤ yx ∧ yx < 100 ∧ yx / 10 ≤ 2 := by
      simpa [home_palace] using hp
    have : yx = 3 ∨ yx = 4 ∨ yx = 5 ∨ yx = 13 ∨ yx = 14 ∨ yx = 15 ∨ yx = 23 ∨ yx = 24
        ∨ yx = 25 := by omega
    simp only [List.any_cons, List.any_nil, Bool.or_false, Bool.or_eq_true, beq_iff_eq]
    rcases this with rfl | rfl | rfl | rfl | rfl | rfl | rfl | rfl | rfl <;> simp [h]

/-- The variable `found_cho_goong` of `winner_piece_only`. -/
theorem found_cho_iff (cells : Int → Nat) :
    ([(7 : Int), 8, 9].any fun y => [(3 : Int), 4, 5].any fun x => cells (y * 10 + x) == 0x0)
        = true
      ↔ ∃ yx, home_palace 0 yx ∧ cells yx = 0 := by
  constructor
  · intro h
    simp only [List.any_cons, List.any_nil, Bool.or_false, Bool.or_eq_true, beq_iff_eq] at h
    rcases h with (h | h | h) | (h | h | h) | (h | h | h)
    all_goals exact ⟨_, by decide, h⟩
  · rintro ⟨yx, hp, h⟩
    have hp' : 3 ≤ yx % 10 ∧ yx % 10 ≤ 5 ∧ 0 ≤ yx ∧ yx < 100 ∧ 7 ≤ yx / 10 := by
      simpa [home_palace] using hp
    have : yx = 73 ∨ yx = 74 ∨ yx = 75 ∨ yx = 83 ∨ yx = 84 ∨ yx = 85 ∨ yx = 93 ∨ yx = 94
        ∨ yx = 95 := by omega
    simp only [List.any_cons, List.any_nil, Bool.or_false, Bool.or_eq_true, beq_iff_eq]
    rcases this with rfl | rfl | rfl | rfl | rfl | rfl | rfl | rfl | rfl <;> simp [h]

/-- After the capture of the enemy General by a piece that is not a General, on a board
with the two Generals at home and no second General, `winner_piece_only` is the mover. -/
theorem winner_piece_only_capture {p : Position} {m : Move} (hs : p.to_move ≠ Side.NONE)
    (hh : at_home p.board) (h1 : one_goong p.board) (hcho : ∃ a, on_board a ∧ p.board a = 0)
    (hhan : ∃ a, on_board a ∧ p.board a = 16) (hm : Generated p m)
    (hp : m.piece % 16 ≠ 0) (hc : m.captured = 0 ∨ m.captured = 16) :
    winner_piece_only (move_cells p m) = p.to_move := by
  obtain ⟨hf, ht, hside, hpiece, hcap, hpass, hother, -⟩ := hm
  rw [← hpiece] at hother hpass hside
  have hne : m.yx_from ≠ m.yx_to := fun e => hp (hpass e)
  have hdiff := hother hp
  rw [← hcap] at hdiff
  obtain ⟨a, ha, hca⟩ := hcho
  obtain ⟨c, hcb, hcc⟩ := hhan
  unfold is_side at hside
  have hah := hh a ha (by omega) (by omega)
  have hch := hh c hcb (by omega) (by omega)
  rw [hca] at hah
  rw [hcc] at hch
  have cell : ∀ yx, yx ≠ m.yx_to → yx ≠ m.yx_from → (move_cells p m).board yx = p.board yx :=
    fun yx e2 e1 => move_cells_other p m e1 e2
  unfold winner_piece_only
  simp only
  rcases hc with hc | hc
  · -- Han takes Cho's General
    have hto : p.board m.yx_to = 0 := by rw [← hcap]; exact hc
    have hfc : ¬ ([(7 : Int), 8, 9].any fun y => [(3 : Int), 4, 5].any fun x =>
        (move_cells p m).board (y * 10 + x) == 0x0) = true := by
      rw [found_cho_iff]
      rintro ⟨yx, hy, hv⟩
      have hyb : on_board yx := by
        have : 3 ≤ yx % 10 ∧ yx % 10 ≤ 5 ∧ 0 ≤ yx ∧ yx < 100 := ⟨hy.1, hy.2.1, hy.2.2.1, hy.2.2.2.1⟩
        unfold on_board; omega
      by_cases e2 : yx = m.yx_to
      · rw [e2, move_cells_to, ← hpiece] at hv; omega
      · by_cases e1 : yx = m.yx_from
        · rw [e1, move_cells_from p m hne] at hv; omega
        · rw [cell yx e2 e1] at hv
          exact e2 (h1 _ _ hyb ht (by rw [hv, hto]) (by omega) (by omega))
    have hfh : ([(0 : Int), 1, 2].any fun y => [(3 : Int), 4, 5].any fun x =>
        (move_cells p m).board (y * 10 + x) == 0x10) = true := by
      rw [found_han_iff]
      refine ⟨c, hch, ?_⟩
      rw [cell c (fun e => by rw [e, hto] at hcc; omega)
        (fun e => by rw [e, ← hpiece] at hcc; omega)]
      exact hcc
    have hsd : p.to_move = Side.HAN := by
      cases hs' : p.to_move with
      | CHO => rw [hs'] at hside; simp only [Side.toNat] at hside; omega
      | HAN => rfl
      | NONE => exact absurd hs' hs
    simp only [hfc, hfh, Bool.false_and, Bool.false_eq_true, if_false, if_true]
    exact hsd.symm
  · -- Cho takes Han's General
    have hto : p.board m.yx_to = 16 := by rw [← hcap]; exact hc
    have hfh : ¬ ([(0 : Int), 1, 2].any fun y => [(3 : Int), 4, 5].any fun x =>
        (move_cells p m).board (y * 10 + x) == 0x10) = true := by
      rw [found_han_iff]
      rintro ⟨yx, hy, hv⟩
      have hyb : on_board yx := by
        have : 3 ≤ yx % 10 ∧ yx % 10 ≤ 5 ∧ 0 ≤ yx ∧ yx < 100 := ⟨hy.1, hy.2.1, hy.2.2.1, hy.2.2.2.1⟩
        unfold on_board; omega
      by_cases e2 : yx = m.yx_to
      · rw [e2, move_cells_to, ← hpiece] at hv; omega
      · by_cases e1 : yx = m.yx_from
        · rw [e1, move_cells_from p m hne] at hv; omega
        · rw [cell yx e2 e1] at hv
          exact e2 (h1 _ _ hyb ht (by rw [hv, hto]) (by omega) (by omega))
    have hfc : ([(7 : Int), 8, 9].any fun y => [(3 : Int), 4, 5].any fun x =>
        (move_cells p m).board (y * 10 + x) == 0x0) = true := by
      rw [found_cho_iff]
      refine ⟨a, hah, ?_⟩
      rw [cell a (fun e => by rw [e, hto] at hca; omega)
        (fun e => by rw [e, ← hpiece] at hca; omega)]
      exact hca
    have hsd : p.to_move = Side.CHO := by
      cases hs' : p.to_move with
      | CHO => rfl
      | HAN => rw [hs'] at hside; simp only [Side.toNat] at hside; omega
      | NONE => exact absurd hs' hs
    simp only [hfc, hfh, Bool.true_and, Bool.false_eq_true, if_false, if_true]
    exact hsd.symm

/-- The loop of the move-based repetition rule counts nothing for a move that captures. -/
theorem move_repeat_loop_capture (b : Board) (mv : Move) (hc : mv.captured ≠ 0x20) :
    ∀ fuel cnt pt, move_repeat_loop b mv fuel cnt pt = cnt := by
  intro fuel
  induction fuel with
  | zero => intro cnt pt; rfl
  | succ k ih =>
    intro cnt pt
    simp only [move_repeat_loop]
    split
    · split
      · exact ih _ _
      · rw [if_neg (fun h => hc h.1)]
    · rfl

theorem hist_last {b : Board} {l : List BoardHistory} {r : BoardHistory}
    (h : b.history = l ++ [r]) : hist b ((b.history.length : Int) - 1) = r := by
  unfold hist
  rw [h]
  have : ((((l ++ [r]).length : Nat) : Int) - 1).toNat = l.length := by
    rw [List.length_append, List.length_singleton]
    omega
  rw [this]
  simp [List.getD_eq_getElem?_getD]

/-- C28. With the options of `globals.cpp`, on every board reachable from a starting layout
(all calls under these options) on which both Generals are present, for every move `m` of
`get_legal_moves()` by which a piece that is not a General captures a General: after
`move(m)`, if the history holds fewer than 240 moves, `winner()` is the side that moved. -/
theorem capture_wins (H : HashConstants) (b b1 b2 : Board) (ms : List Move) (m : Move)
    (hb : ReachableUnder default_options H b)
    (hcho : ∃ a, on_board a ∧ b.board a = 0) (hhan : ∃ a, on_board a ∧ b.board a = 16)
    (hl : get_legal_moves Globals.default b = some (ms, b1)) (hm : m ∈ ms)
    (hp : m.piece % 16 ≠ 0) (hc : m.captured = 0 ∨ m.captured = 16)
    (hmv : move Globals.default H b1 m = some b2) (hlen : b2.history.length < 240) :
    winner Globals.default b2 = some b.to_move := by
  have hr := reachable_of_under hb
  have hi := reachable_inv hr
  have hh : at_home b.board :=
    reachable_at_home (reachable_under_mono (fun g hg => by rw [hg]; rfl) hb)
  have h1 := reachable_one_goong hr
  obtain ⟨rfl, raw, hraw, hsub⟩ := get_legal_moves_spec hi.cache hl
  have hgen := raw_generated hraw (hsub m hm)
  have hwp := winner_piece_only_capture hi.side hh h1 hcho hhan hgen hp hc
  have hne : m.yx_from ≠ m.yx_to := by
    intro e
    have := hgen.2.2.2.2.2.1 e
    rw [← hgen.2.2.2.1] at this
    exact hp this
  have hc20 : m.captured ≠ 0x20 := by omega
  obtain ⟨oms, -, hhist⟩ := move_record hmv
  have hboard := (move_board hmv).1
  have hlast := hist_last hhist
  have hlen' : ¬ b2.history.length ≥ 240 := by omega
  unfold winner
  simp only [Globals.default, Bool.false_eq_true, if_false]
  unfold winner_rest
  have hrep : ¬ repeat_count ⟨false, false, false⟩ b2 ≥ 2 := by
    unfold repeat_count
    simp only [Bool.false_eq_true, if_false, hlast]
    split
    · omega
    · split
      · split
        · omega
        · split
          · omega
          · rw [move_repeat_loop_capture _ _ hc20]; omega
      · omega
  rw [if_neg hrep]
  simp only [hlast]
  have hlate : (if score_cho b2.toPosition < 10 ∨ score_han b2.toPosition < 10
        ∨ b2.history.length ≥ 200 then
      (if b2.history.length > 0 ∧ m.captured = 0x20 then
        (is_jang ⟨false, false, false⟩ b2).map fun r => !r.1 && !(oms.any threatens_goong)
      else some false) else some false) = some false := by
    split
    · rw [if_neg (fun h => hc20 h.2)]
    · rfl
  rw [hlate]
  simp only
  rw [if_neg hlen']
  have hpe : is_passend b2 = false := by
    unfold is_passend
    simp only [hlast]
    split
    · rfl
    · simp [Move.is_pass, hne]
  rw [hpe]
  simp only [Bool.false_eq_true, if_false, Option.some.injEq]
  rw [← hwp]
  unfold winner_piece_only
  rw [hboard]

theorem play_legal_under {ok : Globals → Prop} {H : HashConstants} {g : Globals}
    (hg : ok g) :
    ∀ (l : List Move) (b : Board), ReachableUnder ok H b →
      ReachableUnder ok H ((play_legal g H b l).getD b)
  | [], b, hb => by simpa [play_legal] using hb
  | m :: rest, b, hb => by
    unfold play_legal
    cases hl : get_legal_moves g b with
    | none => simpa using hb
    | some r =>
      obtain ⟨ms, b1⟩ := r
      simp only
      by_cases hm : m ∈ ms
      · rw [if_pos hm]
        cases hmv : move g H b1 m with
        | none => simpa using hb
        | some b2 =>
          simp only
          have h2 := ReachableUnder.step g g b b1 b2 ms m hb hg hg hl hm hmv
          have h3 := play_legal_under hg rest b2 h2
          cases hp : play_legal g H b2 rest with
          | none => simpa using hb
          | some b3 =>
            rw [hp] at h3
            simpa using h3
      · rw [if_neg hm]
        simpa using hb

/-- C28 at a concrete input: in the game `capture_game` Cho's Chariot takes Han's General,
10x14, and `winner()` is CHO. -/
theorem capture_wins_witness :
    capture_game.to_move = Side.CHO
      ∧ ∃ ms b1 b2, get_legal_moves Globals.default capture_game = some (ms, b1)
        ∧ move Globals.default example_hash b1 ⟨3, 10, 14, 16⟩ = some b2
        ∧ winner Globals.default b2 = some capture_game.to_move := by
  have hq : ((get_legal_moves Globals.default capture_game).bind fun r =>
      (move Globals.default example_hash r.2 ⟨3, 10, 14, 16⟩).map fun b2 =>
        (decide ((⟨3, 10, 14, 16⟩ : Move) ∈ r.1), decide (b2.history.length < 240),
          decide (r.2.board 84 = 0), decide (r.2.board 14 = 16),
          decide (r.2.to_move = Side.CHO))) = some (true, true, true, true, true) := by
    decide!
  cases hl : get_legal_moves Globals.default capture_game with
  | none => rw [hl] at hq; simp at hq
  | some r =>
    obtain ⟨ms, b1⟩ := r
    rw [hl] at hq
    simp only [Option.some_bind] at hq
    cases hmv : move Globals.default example_hash b1 ⟨3, 10, 14, 16⟩ with
    | none => rw [hmv] at hq; simp at hq
    | some b2 =>
      rw [hmv] at hq
      simp only [Option.map_some', Option.some.injEq, Prod.mk.injEq, decide_eq_true_eq] at hq
      obtain ⟨hm, hlen, h84, h14, hside⟩ := hq
      have hr : ReachableUnder default_options example_hash capture_game :=
        @play_legal_under default_options example_hash Globals.default rfl _ opening
          (ReachableUnder.start _ _)
      have hb1 : b1.toPosition = capture_game.toPosition := by
        have hi := reachable_inv (reachable_of_under hr)
        obtain ⟨e, -⟩ := get_legal_moves_spec hi.cache hl
        rw [e]
      rw [hb1] at h84 h14 hside
      exact ⟨hside, ms, b1, b2, rfl, hmv,
        capture_wins example_hash capture_game b1 b2 ms ⟨3, 10, 14, 16⟩ hr
          ⟨84, by decide, h84⟩ ⟨14, by decide, h14⟩ hl hm (by decide)
          (Or.inr rfl) hmv hlen⟩

/-! ## Forced wins -/

theorem home_palace_on_board {c : Nat} {yx : Int} (h : home_palace c yx) : on_board yx := by
  obtain ⟨h1, h2, h3, h4, -⟩ := h
  exact ⟨h3, h4, by omega⟩

theorem home_palace_palace {c : Nat} {yx : Int} (h : home_palace c yx) : palace yx := by
  obtain ⟨c1, c2, c3, c4, c5⟩ := h
  refine ⟨?_, c1, c2, c3, c4⟩
  split at c5
  · exact Or.inr c5
  · exact Or.inl c5

theorem winner_piece_only_none_iff {p : Position} (hh : at_home p.board)
    (hsome : ∃ a, on_board a ∧ (p.board a = 0x00 ∨ p.board a = 0x10)) :
    winner_piece_only p = Side.NONE ↔ both_goongs p := by
  have hc : ([(7 : Int), 8, 9].any fun y => [(3 : Int), 4, 5].any fun x =>
      p.board (y * 10 + x) == 0x0) = true ↔ ∃ a, on_board a ∧ p.board a = 0x00 := by
    rw [found_cho_iff]
    constructor
    · rintro ⟨yx, hp, h⟩
      exact ⟨yx, home_palace_on_board hp, h⟩
    · rintro ⟨a, ha, h⟩
      have := hh a ha (by omega) (by omega)
      rw [h] at this
      exact ⟨a, this, h⟩
  have hn : ([(0 : Int), 1, 2].any fun y => [(3 : Int), 4, 5].any fun x =>
      p.board (y * 10 + x) == 0x10) = true ↔ ∃ a, on_board a ∧ p.board a = 0x10 := by
    rw [found_han_iff]
    constructor
    · rintro ⟨yx, hp, h⟩
      exact ⟨yx, home_palace_on_board hp, h⟩
    · rintro ⟨a, ha, h⟩
      have := hh a ha (by omega) (by omega)
      rw [h] at this
      exact ⟨a, this, h⟩
  have hor : (∃ a, on_board a ∧ p.board a = 0x00) ∨ (∃ a, on_board a ∧ p.board a = 0x10) := by
    obtain ⟨a, ha, h | h⟩ := hsome
    · exact Or.inl ⟨a, ha, h⟩
    · exact Or.inr ⟨a, ha, h⟩
  unfold winner_piece_only both_goongs
  simp only
  rw [← hc, ← hn] at hor ⊢
  generalize ([(7 : Int), 8, 9].any fun y => [(3 : Int), 4, 5].any fun x =>
      p.board (y * 10 + x) == 0x0) = fc at hor ⊢
  generalize ([(0 : Int), 1, 2].any fun y => [(3 : Int), 4, 5].any fun x =>
      p.board (y * 10 + x) == 0x10) = fh at hor ⊢
  cases fc <;> cases fh <;> simp at hor ⊢

theorem captures_goong_iff {p : Position} {m : Move} (hs : p.to_move ≠ Side.NONE)
    (hm : Generated p m) : captures_goong m = true ↔ takes_goong m := by
  obtain ⟨-, -, hside, hpiece, hcap, hpass, hother, -⟩ := hm
  have hlt := is_side_lt hs hside
  rw [← hpiece] at hlt hpass hother
  rw [← hcap] at hother
  unfold captures_goong takes_goong
  simp only [Bool.and_eq_true, Bool.or_eq_true, decide_eq_true_eq]
  constructor
  · rintro ⟨⟨h1, h2, h3⟩, h4⟩
    have h5 : m.piece % 16 ≠ 0 := by omega
    exact ⟨h5, by omega, fun e => hother h5 e.symm⟩
  · rintro ⟨h1, h2, h3⟩
    exact ⟨⟨fun e => h1 (hpass e), by omega, by omega⟩, by omega⟩

theorem any_captures_iff {g : Globals} {p : Position} {ms : List Move}
    (hs : p.to_move ≠ Side.NONE) (h : raw_get_legal_moves g p = some ms) :
    ms.any captures_goong = true ↔ spec_capture g p := by
  unfold spec_capture
  rw [List.any_eq_true]
  constructor
  · rintro ⟨m, hm, hc⟩
    exact ⟨ms, h, m, hm, (captures_goong_iff hs (raw_generated h hm)).1 hc⟩
  · rintro ⟨ms', h', m, hm, hc⟩
    rw [h] at h'
    cases h'
    exact ⟨m, hm, (captures_goong_iff hs (raw_generated h hm)).2 hc⟩

theorem search_board_raw {g : Globals} {p : Position} (hJ : search_board p)
    (hb : both_goongs p) {s : Side} (hs : s ≠ Side.NONE) :
    ∃ ms, raw_get_legal_moves g { p with to_move := s } = some ms := by
  refine raw_get_legal_moves_some_iff.2 ⟨?_, ?_⟩
  · intro f hf hside h2
    exact home_palace_palace (hJ.2.1 f hf (is_side_lt hs hside) h2)
  · obtain ⟨⟨a, ha, hca⟩, ⟨c, hc, hcc⟩⟩ := hb
    cases s with
    | CHO => exact ⟨a, ha, by show is_side Side.CHO (p.board a); rw [hca]; decide,
        by show p.board a % 16 = 0; rw [hca]⟩
    | HAN => exact ⟨c, hc, by show is_side Side.HAN (p.board c); rw [hcc]; decide,
        by show p.board c % 16 = 0; rw [hcc]⟩
    | NONE => exact absurd rfl hs

theorem search_board_move {g : Globals} {p : Position} {ms : List Move} {m : Move}
    (hg : g.allow_bikjang = false) (hJ : search_board p)
    (h : raw_get_legal_moves g p = some ms) (hm : m ∈ ms) : search_board (move_cells p m) := by
  have hgen := raw_generated h hm
  refine ⟨toggle_ne_none _, at_home_move hg hJ.2.1 h hm, one_goong_move hJ.2.2.1 hgen, ?_⟩
  have hgo : has_goong p := (raw_get_legal_moves_some_iff.1 ⟨ms, h⟩).2
  obtain ⟨yx, hyx, hside, h0⟩ := has_goong_move_cells hgo hgen
  have hside' : is_side p.to_move ((move_cells p m).board yx) := hside
  have h0' : (move_cells p m).board yx % 16 = 0 := h0
  have hlt := is_side_lt hJ.1 hside'
  exact ⟨yx, hyx, by omega⟩

theorem raw_ne_nil {g : Globals} {p : Position} {ms : List Move}
    (h : raw_get_legal_moves g p = some ms) : ms ≠ [] := by
  obtain ⟨pm, gp, -, -, rfl⟩ := raw_get_legal_moves_eq.1 h
  simp

/-- The callbacks of `__can_win`: a result exists, it is not empty exactly when a reported
move captures the General or (with `depth > 1`) leads to a lost position, and it is a
capturing move or a move followed by the line of `__must_lose`. -/
theorem can_win_scan_spec (ml : Position → Option (List Move)) (deep : Bool) (p : Position)
    (L : Position → Prop) (ms : List Move)
    (h : deep = true → ∀ m ∈ ms, ∃ v, ml (move_cells p m) = some v
      ∧ (v ≠ [] ↔ L (move_cells p m)) ∧ (unmove_cells (move_cells p m) m).isSome = true) :
    ∃ res, can_win_scan ml deep p ms = some res
      ∧ (res ≠ [] ↔ ∃ m ∈ ms, captures_goong m = true ∨ (deep = true ∧ L (move_cells p m)))
      ∧ (res ≠ [] → ∃ m ∈ ms, (res = [m] ∧ captures_goong m = true)
          ∨ (deep = true ∧ ∃ v, v ≠ [] ∧ ml (move_cells p m) = some v ∧ res = m :: v)) := by
  induction ms with
  | nil => exact ⟨[], rfl, by simp, by simp⟩
  | cons m rest ih =>
    have ih' := ih (fun hd x hx => h hd x (List.mem_cons_of_mem _ hx))
    obtain ⟨res, hres, hiff, hshape⟩ := ih'
    unfold can_win_scan
    by_cases hc : captures_goong m = true
    · rw [if_pos hc]
      exact ⟨[m], rfl, by simp [hc], fun _ => ⟨m, List.mem_cons_self _ _, Or.inl ⟨rfl, hc⟩⟩⟩
    · rw [if_neg hc]
      by_cases hd : deep = true
      · rw [if_pos hd]
        obtain ⟨v, hv, hvL, hun⟩ := h hd m (List.mem_cons_self _ _)
        rw [hv]
        simp only
        cases hu : unmove_cells (move_cells p m) m with
        | none => rw [hu] at hun; simp at hun
        | some q =>
          simp only
          by_cases hv0 : v.length > 0
          · rw [if_pos hv0]
            have hvne : v ≠ [] := by
              intro e; rw [e] at hv0; simp at hv0
            refine ⟨m :: v, rfl, ?_, ?_⟩
            · simp only [ne_eq, reduceCtorEq, not_false_eq_true, true_iff]
              exact ⟨m, List.mem_cons_self _ _, Or.inr ⟨hd, hvL.1 hvne⟩⟩
            · intro _
              exact ⟨m, List.mem_cons_self _ _, Or.inr ⟨hd, v, hvne, hv, rfl⟩⟩
          · rw [if_neg hv0]
            have hve : v = [] := by
              cases v with
              | nil => rfl
              | cons a l => simp at hv0
            have hnL : ¬ L (move_cells p m) := fun hl => (hvL.2 hl) hve
            refine ⟨res, hres, ?_, ?_⟩
            · rw [hiff]
              simp [hc, hnL]
            · intro hne
              obtain ⟨x, hx, hx'⟩ := hshape hne
              exact ⟨x, List.mem_cons_of_mem _ hx, hx'⟩
      · rw [if_neg hd]
        refine ⟨res, hres, ?_, ?_⟩
        · rw [hiff]
          simp [hc, hd]
        · intro hne
          obtain ⟨x, hx, hx'⟩ := hshape hne
          exact ⟨x, List.mem_cons_of_mem _ hx, hx'⟩

/-- The callbacks of `__must_lose`: a result exists, it is not empty exactly when every
reply has a winning answer (and there is a reply, or the accumulator was not empty), and it
is the accumulator or a reply followed by the line of `__can_win`. -/
theorem must_lose_scan_spec (cw : Position → Option (List Move)) (p : Position)
    (W : Position → Prop) (ms : List Move) (vv : List Move)
    (h : ∀ m ∈ ms, ∃ v, cw (move_cells p m) = some v
      ∧ (v ≠ [] ↔ W (move_cells p m)) ∧ (unmove_cells (move_cells p m) m).isSome = true) :
    ∃ res, must_lose_scan cw p ms vv = some res
      ∧ (res ≠ [] ↔ (∀ m ∈ ms, W (move_cells p m)) ∧ (ms ≠ [] ∨ vv ≠ []))
      ∧ (res ≠ [] → res = vv
          ∨ ∃ m ∈ ms, ∃ v, v ≠ [] ∧ cw (move_cells p m) = some v ∧ res = m :: v) := by
  induction ms generalizing vv with
  | nil => exact ⟨vv, rfl, by simp, fun _ => Or.inl rfl⟩
  | cons m rest ih =>
    obtain ⟨v, hv, hvW, hun⟩ := h m (List.mem_cons_self _ _)
    unfold must_lose_scan
    rw [hv]
    simp only
    cases hu : unmove_cells (move_cells p m) m with
    | none => rw [hu] at hun; simp at hun
    | some q =>
      simp only
      by_cases hv0 : v.length > 0
      · rw [if_pos hv0]
        have hvne : v ≠ [] := by
          intro e; rw [e] at hv0; simp at hv0
        obtain ⟨res, hres, hiff, hshape⟩ :=
          ih (if vv.length ≤ v.length then m :: v else vv)
            (fun x hx => h x (List.mem_cons_of_mem _ hx))
        have hacc : (if vv.length ≤ v.length then m :: v else vv) ≠ [] := by
          split
          · simp
          · rename_i hlen
            intro e
            rw [e] at hlen
            simp at hlen
        refine ⟨res, hres, ?_, ?_⟩
        · rw [hiff]
          simp only [List.mem_cons, forall_eq_or_imp, ne_eq, reduceCtorEq, not_false_eq_true,
            true_or, and_true]
          constructor
          · rintro ⟨h1, -⟩
            exact ⟨hvW.1 hvne, h1⟩
          · rintro ⟨-, h1⟩
            exact ⟨h1, Or.inr hacc⟩
        · intro hne
          rcases hshape hne with e | ⟨x, hx, w, hw, hcw, e⟩
          · by_cases hlen : vv.length ≤ v.length
            · rw [if_pos hlen] at e
              exact Or.inr ⟨m, List.mem_cons_self _ _, v, hvne, hv, e⟩
            · rw [if_neg hlen] at e
              exact Or.inl e
          · exact Or.inr ⟨x, List.mem_cons_of_mem _ hx, w, hw, hcw, e⟩
      · rw [if_neg hv0]
        have hve : v = [] := by
          cases v with
          | nil => rfl
          | cons a l => simp at hv0
        have hnW : ¬ W (move_cells p m) := fun hl => (hvW.2 hl) hve
        refine ⟨[], rfl, ?_, by simp⟩
        simp [hnW]

theorem opponent_ne_none {s : Side} (hs : s ≠ Side.NONE) : opponent s ≠ Side.NONE := by
  cases s <;> simp [opponent] at hs ⊢

theorem forced_line_cons {g : Globals} {p : Position} {ms : List Move} {m : Move}
    {v : List Move} {par : Nat} (hms : raw_get_legal_moves g p = some ms) (hm : m ∈ ms)
    (hv : v ≠ []) (h : forced_line par g (move_cells p m) v) :
    forced_line (1 - par) g p (m :: v) := by
  obtain ⟨h1, h2, x, hx, hxt⟩ := h
  refine ⟨?_, ⟨⟨ms, hms, hm⟩, h2⟩, x, ?_, hxt⟩
  · rw [List.length_cons]
    omega
  · cases v with
    | nil => exact absurd rfl hv
    | cons a l => rw [List.getLast?_cons_cons]; exact hx

/-- `__must_lose` decides `Lose`, given that the two `__can_win` it calls decide `Win`. -/
theorem must_lose_ok {g : Globals} (hg : g.allow_bikjang = false)
    {cs cl : Position → Option (List Move)} {Ws Wl : Position → Prop}
    (hs : win_ok g cs Ws) (hl : win_ok g cl Wl) (d : Nat) (p : Position)
    (hJ : search_board p) :
    ∃ res, must_lose g cs cl d p = some res
      ∧ (res ≠ [] ↔ spec_lose_of g Ws Wl d p)
      ∧ (res ≠ [] → forced_line 0 g p res) := by
  unfold must_lose
  by_cases hd : d = 0
  · rw [if_pos hd]
    refine ⟨[], rfl, ?_, by simp⟩
    unfold spec_lose_of
    simp [hd]
  · rw [if_neg hd]
    by_cases hw : winner_piece_only p ≠ Side.NONE
    · rw [if_pos hw]
      refine ⟨[], rfl, ?_, by simp⟩
      have hnb : ¬ both_goongs p :=
        fun hb => hw ((winner_piece_only_none_iff hJ.2.1 hJ.2.2.2).2 hb)
      unfold spec_lose_of
      simp [hnb]
    · rw [if_neg hw]
      have hb : both_goongs p := (winner_piece_only_none_iff hJ.2.1 hJ.2.2.2).1 (not_not.1 hw)
      have hos : opponent p.to_move ≠ Side.NONE := opponent_ne_none hJ.1
      obtain ⟨oms, hom⟩ := @search_board_raw g p hJ hb _ hos
      have hjang : oms.any captures_goong = true ↔ spec_in_check g p :=
        @any_captures_iff g { p with to_move := opponent p.to_move } oms hos hom
      unfold can_win_immediately
      rw [hom]
      simp only [Option.map_some']
      obtain ⟨ms, hms0⟩ := @search_board_raw g p hJ hb _ hJ.1
      have hms : raw_get_legal_moves g p = some ms := hms0
      have hscan : ∀ cw W, win_ok g cw W →
          ∃ res, must_lose_scan cw p ms [] = some res
            ∧ (res ≠ [] ↔ ∀ m ∈ ms, W (move_cells p m))
            ∧ (res ≠ [] → forced_line 0 g p res) := by
        intro cw W hcw
        have hall : ∀ m ∈ ms, ∃ v, cw (move_cells p m) = some v
            ∧ (v ≠ [] ↔ W (move_cells p m))
            ∧ (unmove_cells (move_cells p m) m).isSome = true := by
          intro m hm
          obtain ⟨v, hv, h1, -⟩ := hcw (move_cells p m) (search_board_move hg hJ hms hm)
          refine ⟨v, hv, h1, ?_⟩
          rw [unmove_cells_move_cells hJ.1 (raw_generated hms hm) rfl rfl]
          rfl
        obtain ⟨res, hres, hiff, hshape⟩ := must_lose_scan_spec cw p W ms [] hall
        refine ⟨res, hres, ?_, ?_⟩
        · rw [hiff]
          constructor
          · exact fun h => h.1
          · exact fun h => ⟨h, Or.inl (raw_ne_nil hms)⟩
        · intro hne
          rcases hshape hne with e | ⟨m, hm, v, hv, hcv, e⟩
          · exact absurd e hne
          · obtain ⟨v', hv', -, h2⟩ := hcw (move_cells p m) (search_board_move hg hJ hms hm)
            rw [hcv, Option.some.injEq] at hv'
            subst hv'
            rw [e]
            exact forced_line_cons hms hm hv (h2 hv)
      cases hj : oms.any captures_goong with
      | true =>
        have hic : spec_in_check g p := hjang.1 hj
        simp only [if_true, hd, if_false]
        rw [hms]
        simp only
        obtain ⟨res, hres, hiff, hshape⟩ := hscan cs Ws hs
        refine ⟨res, hres, ?_, hshape⟩
        rw [hiff]
        unfold spec_lose_of
        constructor
        · intro h1
          refine ⟨hb, Or.inl ⟨hic, by omega, ?_⟩⟩
          intro ms' hms' r hr
          rw [hms, Option.some.injEq] at hms'
          subst hms'
          exact h1 r hr
        · rintro ⟨-, ⟨-, -, h1⟩ | ⟨h2, -⟩⟩
          · exact fun m hm => h1 ms hms m hm
          · exact absurd hic h2
      | false =>
        have hic : ¬ spec_in_check g p := fun h => by
          have := hjang.2 h
          rw [hj] at this
          exact Bool.false_ne_true this
        simp only [Bool.false_eq_true, if_false]
        by_cases hd1 : d - 1 = 0
        · rw [if_pos hd1]
          refine ⟨[], rfl, ?_, by simp⟩
          unfold spec_lose_of
          simp [hic, hd1]
        · rw [if_neg hd1, hms]
          simp only
          obtain ⟨res, hres, hiff, hshape⟩ := hscan cl Wl hl
          refine ⟨res, hres, ?_, hshape⟩
          rw [hiff]
          unfold spec_lose_of
          constructor
          · intro h1
            refine ⟨hb, Or.inr ⟨hic, by omega, ?_⟩⟩
            intro ms' hms' r hr
            rw [hms, Option.some.injEq] at hms'
            subst hms'
            exact h1 r hr
          · rintro ⟨-, ⟨h2, -⟩ | ⟨-, -, h1⟩⟩
            · exact absurd h2 hic
            · exact fun m hm => h1 ms hms m hm

/-- The body of `__can_win` decides `Win`, given that `__must_lose` decides `Lose`. -/
theorem can_win_body_ok {g : Globals} (hg : g.allow_bikjang = false)
    (ml : Position → Option (List Move)) (L : Position → Prop) (deep : Bool)
    (hml : deep = true → ∀ p, search_board p →
      ∃ v, ml p = some v ∧ (v ≠ [] ↔ L p) ∧ (v ≠ [] → forced_line 0 g p v)) :
    win_ok g (can_win_body g ml deep)
      (fun p => both_goongs p
        ∧ (spec_capture g p
          ∨ (deep = true
            ∧ ∃ ms, raw_get_legal_moves g p = some ms ∧ ∃ m ∈ ms, L (move_cells p m)))) := by
  intro p hJ
  unfold can_win_body
  by_cases hw : winner_piece_only p ≠ Side.NONE
  · rw [if_pos hw]
    refine ⟨[], rfl, ?_, by simp⟩
    have hnb : ¬ both_goongs p :=
      fun hb => hw ((winner_piece_only_none_iff hJ.2.1 hJ.2.2.2).2 hb)
    simp [hnb]
  · rw [if_neg hw]
    have hb : both_goongs p := (winner_piece_only_none_iff hJ.2.1 hJ.2.2.2).1 (not_not.1 hw)
    obtain ⟨ms, hms0⟩ := @search_board_raw g p hJ hb _ hJ.1
    have hms : raw_get_legal_moves g p = some ms := hms0
    rw [hms]
    simp only
    have hall : deep = true → ∀ m ∈ ms, ∃ v, ml (move_cells p m) = some v
        ∧ (v ≠ [] ↔ L (move_cells p m))
        ∧ (unmove_cells (move_cells p m) m).isSome = true := by
      intro hd m hm
      obtain ⟨v, hv, h1, -⟩ := hml hd (move_cells p m) (search_board_move hg hJ hms hm)
      refine ⟨v, hv, h1, ?_⟩
      rw [unmove_cells_move_cells hJ.1 (raw_generated hms hm) rfl rfl]
      rfl
    obtain ⟨res, hres, hiff, hshape⟩ := can_win_scan_spec ml deep p L ms hall
    refine ⟨res, hres, ?_, ?_⟩
    · rw [hiff]
      constructor
      · rintro ⟨m, hm, h1 | ⟨h1, h2⟩⟩
        · exact ⟨hb, Or.inl ⟨ms, hms, m, hm, (captures_goong_iff hJ.1 (raw_generated hms hm)).1 h1⟩⟩
        · exact ⟨hb, Or.inr ⟨h1, ms, hms, m, hm, h2⟩⟩
      · rintro ⟨-, ⟨ms', hms', m, hm, h1⟩ | ⟨h1, ms', hms', m, hm, h2⟩⟩
        · rw [hms, Option.some.injEq] at hms'
          subst hms'
          exact ⟨m, hm, Or.inl ((captures_goong_iff hJ.1 (raw_generated hms hm)).2 h1)⟩
        · rw [hms, Option.some.injEq] at hms'
          subst hms'
          exact ⟨m, hm, Or.inr ⟨h1, h2⟩⟩
    · intro hne
      obtain ⟨m, hm, ⟨e, hc⟩ | ⟨hd, v, hv, hmv, e⟩⟩ := hshape hne
      · rw [e]
        exact ⟨rfl, ⟨⟨ms, hms, hm⟩, trivial⟩, m, rfl,
          (captures_goong_iff hJ.1 (raw_generated hms hm)).1 hc⟩
      · obtain ⟨v', hv', -, h2⟩ := hml hd (move_cells p m) (search_board_move hg hJ hms hm)
        rw [hmv, Option.some.injEq] at hv'
        subst hv'
        rw [e]
        exact forced_line_cons hms hm hv (h2 hv)

/-- `__can_win(depth, timeout)` with the flag unset decides `Win(., depth)`. -/
theorem can_win_rec_ok {g : Globals} (hg : g.allow_bikjang = false) :
    ∀ d, win_ok g (can_win_rec g false d) (spec_win g d)
      ∧ win_ok g (can_win_rec g false (d + 1)) (spec_win g (d + 1))
  | 0 => by
    constructor
    · intro p _
      exact ⟨[], rfl, by simp [spec_win], by simp⟩
    · intro p hJ
      obtain ⟨res, hres, hiff, hshape⟩ :=
        can_win_body_ok hg (fun _ => some []) (fun _ => False) false (by simp) p hJ
      refine ⟨res, hres, ?_, hshape⟩
      rw [hiff]
      simp [spec_win]
  | d + 1 => by
    have ih := can_win_rec_ok hg d
    refine ⟨ih.2, ?_⟩
    intro p hJ
    obtain ⟨res, hres, hiff, hshape⟩ :=
      can_win_body_ok hg
        (must_lose g (can_win_rec g false (d + 1)) (can_win_rec g false d) (d + 1))
        (spec_lose_of g (spec_win g (d + 1)) (spec_win g d) (d + 1)) true
        (fun _ q hq => must_lose_ok hg ih.2 ih.1 (d + 1) q hq) p hJ
    refine ⟨res, ?_, ?_, hshape⟩
    · rw [← hres]
      simp [can_win_rec]
    · rw [hiff]
      simp [spec_win]

theorem can_win_loop_ok {g : Globals} (hg : g.allow_bikjang = false) (p : Position)
    (hJ : search_board p) :
    ∀ n i, ∃ res, can_win_loop g false p n i = some res
      ∧ (res ≠ [] ↔ ∃ d, i ≤ d ∧ d < i + n ∧ spec_win g d p)
      ∧ (res ≠ [] → forced_line 1 g p res) := by
  intro n
  induction n with
  | zero =>
    intro i
    refine ⟨[], rfl, ?_, by simp⟩
    simp only [ne_eq, not_true_eq_false, false_iff, not_exists]
    intro d hd
    omega
  | succ n ih =>
    intro i
    obtain ⟨x, hx, hxi, hxs⟩ := (can_win_rec_ok hg i).1 p hJ
    unfold can_win_loop
    simp only [Bool.false_eq_true, if_false]
    rw [hx]
    simp only
    by_cases hx0 : x.length > 0
    · rw [if_pos hx0]
      have hxne : x ≠ [] := by
        intro e; rw [e] at hx0; simp at hx0
      refine ⟨x, rfl, ?_, hxs⟩
      simp only [hxne, ne_eq, not_false_eq_true, true_iff]
      exact ⟨i, le_refl _, by omega, hxi.1 hxne⟩
    · rw [if_neg hx0]
      have hxe : x = [] := by
        cases x with
        | nil => rfl
        | cons a l => simp at hx0
      have hnw : ¬ spec_win g i p := fun h => (hxi.2 h) hxe
      obtain ⟨res, hres, hiff, hshape⟩ := ih (i + 1)
      refine ⟨res, hres, ?_, hshape⟩
      rw [hiff]
      constructor
      · rintro ⟨d, h1, h2, h3⟩
        exact ⟨d, by omega, by omega, h3⟩
      · rintro ⟨d, h1, h2, h3⟩
        have hne : d ≠ i := by
          intro e; rw [e] at h3; exact hnw h3
        exact ⟨d, by omega, by omega, h3⟩

theorem search_board_mate : search_board mate_position := by
  refine ⟨by decide, ?_, ?_, ⟨83, by decide, Or.inl rfl⟩⟩
  · intro yx _ hlt h2
    simp only [mate_position] at hlt h2 ⊢
    split_ifs at hlt h2 ⊢ with e1 e2 e3 e4
    · rw [e1]; decide
    · rw [e2]; decide
    · omega
    · omega
    · omega
  · intro a b _ _ hab hlt h0
    simp only [mate_position] at hab hlt h0
    split_ifs at hab hlt h0 <;> omega

/-- C27 (amended). With `allow_bikjang` off, on a board whose side to move is CHO or HAN,
with Generals and Guards in the palace of their side, at most one General a side and at
least one General (every board reachable from a starting layout with the option off is
such a board, `reachable_search_board`): `can_win(D)` whose timer does not fire returns; the result is not empty exactly when
`Win(b, d)` holds for some `d` in `1..D`; and a result that is not empty has odd length, is a
line of generated moves (each generated on the position the moves before it lead to, the
sides alternating from the side to move), and ends with the capture of the enemy General by
a piece that is not a General. -/
theorem can_win_sound_complete (g : Globals) (hg : g.allow_bikjang = false) (p : Position)
    (hp : search_board p) (D : Int) :
    ∃ res, can_win g D false p = some res
      ∧ (res ≠ [] ↔ ∃ d : Nat, 1 ≤ d ∧ (d : Int) ≤ D ∧ spec_win g d p)
      ∧ (res ≠ [] →
          res.length % 2 = 1 ∧ is_line g p res
            ∧ ∃ m, res.getLast? = some m ∧ takes_goong m) := by
  obtain ⟨res, hres, hiff, hshape⟩ := can_win_loop_ok hg p hp D.toNat 1
  refine ⟨res, hres, ?_, hshape⟩
  rw [hiff]
  constructor
  · rintro ⟨d, h1, h2, h3⟩
    exact ⟨d, h1, by omega, h3⟩
  · rintro ⟨d, h1, h2, h3⟩
    exact ⟨d, h1, by omega, h3⟩

/-- C27 (amended) at a concrete input: `can_win(2)` on `mate_position`. -/
theorem can_win_sound_complete_witness :
    search_board mate_position
      ∧ ∃ res, can_win Globals.default 2 false mate_position = some res
        ∧ (res ≠ [] ↔ ∃ d : Nat, 1 ≤ d ∧ (d : Int) ≤ 2 ∧ spec_win Globals.default d mate_position)
        ∧ (res ≠ [] →
            res.length % 2 = 1 ∧ is_line Globals.default mate_position res
              ∧ ∃ m, res.getLast? = some m ∧ takes_goong m) :=
  ⟨search_board_mate,
    can_win_sound_complete Globals.default rfl mate_position search_board_mate 2⟩

/-- The boards reachable with `allow_bikjang` off satisfy the conditions of the forced-win
search. -/
theorem reachable_search_board {H : HashConstants} {b : Board}
    (hb : ReachableUnder no_bikjang H b) : search_board b.toPosition := by
  have hr := reachable_of_under hb
  refine ⟨(reachable_inv hr).side, reachable_at_home hb, reachable_one_goong hr, ?_⟩
  cases hb with
  | start cs hs => exact ⟨84, by decide, Or.inl (by cases cs <;> cases hs <;> rfl)⟩
  | step g g' b0 b1 b2 ms m hb0 hg hg' hl hm hmv =>
    have hi := reachable_inv (reachable_of_under hb0)
    obtain ⟨rfl, raw, hraw, hsub⟩ := get_legal_moves_spec hi.cache hl
    have hgen := raw_generated hraw (hsub m hm)
    have hgo : has_goong b0.toPosition := (raw_get_legal_moves_some_iff.1 ⟨raw, hraw⟩).2
    obtain ⟨yx, hyx, hside, h0⟩ := has_goong_move_cells hgo hgen
    have hside' : is_side b0.to_move ((move_cells b0.toPosition m).board yx) := hside
    have h0' : (move_cells b0.toPosition m).board yx % 16 = 0 := h0
    have hlt := is_side_lt hi.side hside'
    rw [(move_board hmv).1]
    refine ⟨yx, hyx, ?_⟩
    show (move_cells b0.toPosition m).board yx = 0x00 ∨ (move_cells b0.toPosition m).board yx = 0x10
    clear hside h0
    unfold is_side at hside'
    omega

theorem search_board_facing : search_board facing := by
  refine ⟨by decide, ?_, ?_, ⟨93, by decide, Or.inl rfl⟩⟩
  · intro yx _ hlt h2
    simp only [facing] at hlt h2 ⊢
    split_ifs at hlt h2 ⊢ with e1 e2
    · rw [e1]; decide
    · rw [e2]; decide
    · omega
  · intro a b _ _ hab hlt h0
    simp only [facing] at hab hlt h0
    split_ifs at hab hlt h0 <;> omega

/-- C27 as stated fails with `allow_bikjang` on: on the position `facing` (Generals at home,
Cho to move) `can_win(2)` returns the empty sequence and `can_win(3)` has no result.  At
depth 3 the search plays the capture 93x3 of Han's General by Cho's General, which
`__can_win` does not count as a win; `winner_piece_only()` finds no General in its own
palace and returns NONE, and `__must_lose` runs the generator for Han, who has no General:
the pass is reported from `board[-1]`. -/
theorem can_win_sound_complete_counterexample :
    search_board facing
      ∧ can_win ⟨true, false, false⟩ 2 false facing = some []
      ∧ can_win ⟨true, false, false⟩ 3 false facing = none :=
  ⟨search_board_facing, by decide!, by decide!⟩

/-! ## Immediate capture -/

theorem winner_piece_only_home {p : Position}
    (hcho : ∃ a, home_palace 0x00 a ∧ p.board a = 0x00)
    (hhan : ∃ a, home_palace 0x10 a ∧ p.board a = 0x10) :
    winner_piece_only p = Side.NONE := by
  have hc := (found_cho_iff p.board).2 hcho
  have hn := (found_han_iff p.board).2 hhan
  unfold winner_piece_only
  simp only
  rw [hc, hn]
  rfl

/-- `__can_win(1, timeout)` on a board with both Generals at home: the first reported move
that captures the General, or nothing. -/
theorem can_win_rec_one {g : Globals} {p : Position} {ms : List Move}
    (hs : p.to_move ≠ Side.NONE)
    (hcho : ∃ a, home_palace 0x00 a ∧ p.board a = 0x00)
    (hhan : ∃ a, home_palace 0x10 a ∧ p.board a = 0x10)
    (hraw : raw_get_legal_moves g p = some ms) :
    ∃ res, can_win_rec g false 1 p = some res
      ∧ (res ≠ [] ↔ spec_capture g p)
      ∧ (res ≠ [] → ∃ m ∈ ms, res = [m] ∧ takes_goong m) := by
  obtain ⟨res, hres, hiff, hshape⟩ :=
    can_win_scan_spec (fun _ => some []) false p (fun _ => False) ms (by simp)
  refine ⟨res, ?_, ?_, ?_⟩
  · rw [← hres]
    show can_win_body g (fun _ => some []) false p = _
    unfold can_win_body
    rw [winner_piece_only_home hcho hhan, hraw]
    simp
  · rw [hiff, ← any_captures_iff hs hraw, List.any_eq_true]
    simp
  · intro hne
    obtain ⟨m, hm, ⟨e, hc⟩ | ⟨hd, -⟩⟩ := hshape hne
    · exact ⟨m, hm, e, (captures_goong_iff hs (raw_generated hraw hm)).1 hc⟩
    · exact absurd hd (by simp)

/-- C22. On a board whose side to move is CHO or HAN, with both Generals in their own
palaces, on which the generator has a result: if some generated move of a piece that is not
a General captures the enemy General, `can_win(depth)` with `depth >= 1` (timer not fired)
returns exactly one move, a generated move that captures the enemy General; otherwise
`can_win(1)` returns the empty sequence. -/
theorem can_win_one_move (g : Globals) (p : Position) (ms : List Move)
    (hs : p.to_move ≠ Side.NONE)
    (hcho : ∃ a, home_palace 0x00 a ∧ p.board a = 0x00)
    (hhan : ∃ a, home_palace 0x10 a ∧ p.board a = 0x10)
    (hraw : raw_get_legal_moves g p = some ms) :
    (spec_capture g p → ∀ depth : Int, 1 ≤ depth →
        ∃ m ∈ ms, can_win g depth false p = some [m] ∧ takes_goong m)
      ∧ (¬ spec_capture g p → can_win g 1 false p = some []) := by
  obtain ⟨res, hres, hiff, hshape⟩ := can_win_rec_one hs hcho hhan hraw
  constructor
  · intro hc depth hd
    have hne := hiff.2 hc
    obtain ⟨m, hm, e, ht⟩ := hshape hne
    refine ⟨m, hm, ?_, ht⟩
    obtain ⟨n, hn⟩ : ∃ n, depth.toNat = n + 1 := ⟨depth.toNat - 1, by omega⟩
    unfold can_win
    rw [hn]
    unfold can_win_loop
    rw [hres, e]
    simp
  · intro hc
    have he : res = [] := by
      by_contra hne
      exact hc (hiff.1 hne)
    unfold can_win
    show can_win_loop g false p 1 1 = some []
    unfold can_win_loop
    rw [hres, he]
    simp [can_win_loop]

/-- C22 at a concrete input: on `check_position` the Chariot takes the General along the
top row. -/
theorem can_win_one_move_witness :
    spec_capture Globals.default check_position
      ∧ can_win Globals.default 3 false check_position = some [⟨4, 8, 4, 16⟩]
      ∧ takes_goong ⟨4, 8, 4, 16⟩ := by
  have hsome : (raw_get_legal_moves Globals.default check_position).isSome = true := by decide
  cases hr : raw_get_legal_moves Globals.default check_position with
  | none => rw [hr] at hsome; simp at hsome
  | some ms =>
    have hcap : spec_capture Globals.default check_position := by
      refine ⟨ms, hr, ⟨4, 8, 4, 16⟩, ?_, by decide⟩
      have : ((raw_get_legal_moves Globals.default check_position).map
          fun l => decide ((⟨4, 8, 4, 16⟩ : Move) ∈ l)) = some true := by decide
      rw [hr] at this
      simpa using this
    obtain ⟨m, -, hm, -⟩ :=
      (can_win_one_move Globals.default check_position ms (by decide)
        ⟨83, by decide, rfl⟩ ⟨4, by decide, rfl⟩ hr).1 hcap 3 (by decide)
    have hval : ((can_win Globals.default 3 false check_position).map
        fun l => decide (l = [⟨4, 8, 4, 16⟩])) = some true := by decide
    rw [hm] at hval ⊢
    refine ⟨hcap, ?_, by decide⟩
    simpa using hval

/-! ## The expansion lock -/

theorem countP_set (p : Pc → Bool) (l : List Pc) (i : Nat) (a b : Pc) (h : l[i]? = some a) :
    (l.set i b).countP p + (if p a then 1 else 0) = l.countP p + (if p b then 1 else 0) := by
  induction l generalizing i with
  | nil => simp at h
  | cons x xs ih =>
    cases i with
    | zero =>
      simp only [List.getElem?_cons_zero, Option.some.injEq] at h
      subst h
      simp only [List.set_cons_zero, List.countP_cons]
      omega
    | succ j =>
      simp only [List.getElem?_cons_succ] at h
      have := ih j h
      simp only [List.set_cons_succ, List.countP_cons]
      omega

theorem mem_set_cases {l : List Pc} {i : Nat} {b q : Pc} (h : q ∈ l.set i b) :
    q ∈ l ∨ q = b := List.mem_or_eq_of_mem_set h

theorem mem_of_index {l : List Pc} {i : Nat} {a : Pc} (h : l[i]? = some a) : a ∈ l := by
  obtain ⟨hlt, he⟩ := List.getElem?_eq_some.1 h
  rw [← he]
  exact List.getElem_mem hlt

/-- Every step keeps the invariant. -/
theorem expand_step_inv (c : NodeLock) (i : Nat) (s : Bool) (h : lock_inv c) :
    lock_inv (expand_step c i s) := by
  obtain ⟨ha, hx, hk⟩ := h
  unfold expand_step
  cases hp : c.pcs[i]? with
  | none => exact ⟨ha, hx, hk⟩
  | some pc =>
    have hA := fun b => countP_set is_asserting c.pcs i pc b hp
    have hC := fun b => countP_set is_creating c.pcs i pc b hp
    have hR := fun b => countP_set is_reading c.pcs i pc b hp
    have hmem : pc ∈ c.pcs := mem_of_index hp
    have hx' : ∀ b, (∀ y, b = Pc.rlock_cas y → 3 ≤ y) →
        ∀ y, Pc.rlock_cas y ∈ c.pcs.set i b → 3 ≤ y := by
      intro b hb y hy
      rcases mem_set_cases hy with h1 | h1
      · exact hx y h1
      · exact hb y h1.symm
    have hk' : ∀ b, b ≠ Pc.crashed → Pc.crashed ∉ c.pcs.set i b := by
      intro b hb hy
      rcases mem_set_cases hy with h1 | h1
      · exact hk h1
      · exact hb h1.symm
    cases pc with
    | idle =>
      simp only
      · have h1 := hA Pc.acquire_load
        have h2 := hC Pc.acquire_load
        have h3 := hR Pc.acquire_load
        simp only [is_asserting, is_creating, is_reading, Bool.false_eq_true, if_false,
          if_true, Nat.add_zero] at h1 h2 h3
        refine ⟨?_, hx' _ (by simp), hk' _ (by simp)⟩
        simp only [true_and]
        rcases ha with ha | ha | ha <;>
          first
          | (exfalso; omega)
          | exact Or.inl (by omega)
          | exact Or.inr (Or.inl (by omega))
          | exact Or.inr (Or.inr (by omega))
    | acquire_load =>
      simp only [is_expanded, decide_eq_true_eq]
      split
      · have h1 := hA Pc.acquire_cas
        have h2 := hC Pc.acquire_cas
        have h3 := hR Pc.acquire_cas
        simp only [is_asserting, is_creating, is_reading, Bool.false_eq_true, if_false,
          if_true, Nat.add_zero] at h1 h2 h3
        refine ⟨?_, hx' _ (by simp), hk' _ (by simp)⟩
        simp only [true_and]
        rcases ha with ha | ha | ha <;>
          first
          | (exfalso; omega)
          | exact Or.inl (by omega)
      · split
        · rename_i hn0 hge
          have h1 := hA Pc.rlock_load
          have h2 := hC Pc.rlock_load
          have h3 := hR Pc.rlock_load
          simp only [is_asserting, is_creating, is_reading, Bool.false_eq_true, if_false,
            if_true, Nat.add_zero] at h1 h2 h3
          refine ⟨?_, hx' _ (by simp), hk' _ (by simp)⟩
          simp only [true_and]
          rcases ha with ha | ha | ha <;>
            first
            | (exfalso; omega)
            | exact Or.inl (by omega)
            | exact Or.inr (Or.inl (by omega))
            | exact Or.inr (Or.inr (by omega))
        · exact ⟨ha, hx, hk⟩
    | acquire_cas =>
      simp only
      split
      · rename_i hc
        have hc0 := hc.1
        have h1 := hA Pc.asserting
        have h2 := hC Pc.asserting
        have h3 := hR Pc.asserting
        simp only [is_asserting, is_creating, is_reading, Bool.false_eq_true, if_false,
          if_true, Nat.add_zero] at h1 h2 h3
        refine ⟨?_, hx' _ (by simp), hk' _ (by simp)⟩
        simp only [true_and]
        rcases ha with ha | ha | ha <;>
          first
          | (exfalso; omega)
          | exact Or.inl (by omega)
          | exact Or.inr (Or.inl (by omega))
      · have h1 := hA Pc.acquire_load
        have h2 := hC Pc.acquire_load
        have h3 := hR Pc.acquire_load
        simp only [is_asserting, is_creating, is_reading, Bool.false_eq_true, if_false,
          if_true, Nat.add_zero] at h1 h2 h3
        refine ⟨?_, hx' _ (by simp), hk' _ (by simp)⟩
        simp only [true_and]
        rcases ha with ha | ha | ha <;>
          first
          | (exfalso; omega)
          | exact Or.inl (by omega)
          | exact Or.inr (Or.inl (by omega))
          | exact Or.inr (Or.inr (by omega))
    | asserting =>
      have hpos : 0 < c.pcs.countP is_asserting :=
        List.countP_pos_iff.2 ⟨Pc.asserting, hmem, rfl⟩
      simp only
      split
      · rename_i hb
        have h1 := hA Pc.creating
        have h2 := hC Pc.creating
        have h3 := hR Pc.creating
        simp only [is_asserting, is_creating, is_reading, Bool.false_eq_true, if_false,
          if_true, Nat.add_zero] at h1 h2 h3
        refine ⟨?_, hx' _ (by simp), hk' _ (by simp)⟩
        simp only [true_and]
        rcases ha with ha | ha | ha <;>
          first
          | (exfalso; omega)
          | exact Or.inl (by omega)
          | exact Or.inr (Or.inl (by omega))
      · rename_i hb
        exfalso
        rcases ha with ha | ha | ha <;> omega
    | creating =>
      have hpos : 0 < c.pcs.countP is_creating :=
        List.countP_pos_iff.2 ⟨Pc.creating, hmem, rfl⟩
      simp only
      split
      · rename_i hb
        refine ⟨?_, hx, hk⟩
        simp only [true_and]
        rcases ha with ha | ha | ha <;>
          first
          | (exfalso; omega)
          | exact Or.inl (by omega)
          | exact Or.inr (Or.inl (by omega))
      · rename_i hb
        have h1 := hA Pc.idle
        have h2 := hC Pc.idle
        have h3 := hR Pc.idle
        simp only [is_asserting, is_creating, is_reading, Bool.false_eq_true, if_false,
          if_true, Nat.add_zero] at h1 h2 h3
        refine ⟨?_, hx' _ (by simp), hk' _ (by simp)⟩
        simp only [expand_done, true_and]
        rcases ha with ha | ha | ha <;>
          first
          | (exfalso; omega)
          | exact Or.inl (by omega)
          | exact Or.inr (Or.inl (by omega))
          | exact Or.inr (Or.inr (by omega))
    | rlock_load =>
      simp only
      split
      · rename_i hge
        have h1 := hA (Pc.rlock_cas c.state)
        have h2 := hC (Pc.rlock_cas c.state)
        have h3 := hR (Pc.rlock_cas c.state)
        simp only [is_asserting, is_creating, is_reading, Bool.false_eq_true, if_false,
          Nat.add_zero] at h1 h2 h3
        refine ⟨?_, hx' _ ?_, hk' _ (by simp)⟩
        · simp only
          rcases ha with ha | ha | ha <;>
            first
            | (exfalso; omega)
            | exact Or.inl (by omega)
            | exact Or.inr (Or.inl (by omega))
            | exact Or.inr (Or.inr (by omega))
        · intro y hy
          simp only [Pc.rlock_cas.injEq] at hy
          omega
      · exact ⟨ha, hx, hk⟩
    | rlock_cas x =>
      have hx3 := hx x hmem
      simp only
      split
      · rename_i hc
        have hc0 := hc.1
        have h1 := hA Pc.reading
        have h2 := hC Pc.reading
        have h3 := hR Pc.reading
        simp only [is_asserting, is_creating, is_reading, Bool.false_eq_true, if_false,
          if_true, Nat.add_zero] at h1 h2 h3
        refine ⟨?_, hx' _ (by simp), hk' _ (by simp)⟩
        simp only [true_and]
        rcases ha with ha | ha | ha <;>
          first
          | (exfalso; omega)
          | exact Or.inl (by omega)
          | exact Or.inr (Or.inl (by omega))
          | exact Or.inr (Or.inr (by omega))
      · have h1 := hA Pc.rlock_load
        have h2 := hC Pc.rlock_load
        have h3 := hR Pc.rlock_load
        simp only [is_asserting, is_creating, is_reading, Bool.false_eq_true, if_false,
          if_true, Nat.add_zero] at h1 h2 h3
        refine ⟨?_, hx' _ (by simp), hk' _ (by simp)⟩
        simp only [true_and]
        rcases ha with ha | ha | ha <;>
          first
          | (exfalso; omega)
          | exact Or.inl (by omega)
          | exact Or.inr (Or.inl (by omega))
          | exact Or.inr (Or.inr (by omega))
    | reading =>
      have hpos : 0 < c.pcs.countP is_reading :=
        List.countP_pos_iff.2 ⟨Pc.reading, hmem, rfl⟩
      simp only
      · have h1 := hA Pc.idle
        have h2 := hC Pc.idle
        have h3 := hR Pc.idle
        simp only [is_asserting, is_creating, is_reading, Bool.false_eq_true, if_false,
          if_true, Nat.add_zero] at h1 h2 h3
        refine ⟨?_, hx' _ (by simp), hk' _ (by simp)⟩
        simp only [expanded_runlock]
        rcases ha with ha | ha | ha <;>
          first
          | (exfalso; omega)
          | exact Or.inl (by omega)
          | exact Or.inr (Or.inl (by omega))
          | exact Or.inr (Or.inr (by omega))
    | crashed => exact absurd hmem hk

theorem fresh_lock_inv (n total : Nat) : lock_inv (fresh_lock n total) := by
  refine ⟨Or.inl ⟨rfl, rfl, ?_, ?_, ?_, rfl⟩, ?_, ?_⟩
  · rw [List.countP_eq_zero]
    intro a ha
    rw [List.eq_of_mem_replicate ha]
    simp [is_asserting]
  · rw [List.countP_eq_zero]
    intro a ha
    rw [List.eq_of_mem_replicate ha]
    simp [is_creating]
  · rw [List.countP_eq_zero]
    intro a ha
    rw [List.eq_of_mem_replicate ha]
    simp [is_reading]
  · intro x hx
    have := List.eq_of_mem_replicate hx
    simp at this
  · intro hx
    have := List.eq_of_mem_replicate hx
    simp at this

theorem run_schedule_inv (sched : List (Nat × Bool)) :
    ∀ c, lock_inv c → lock_inv (run_schedule c sched) := by
  induction sched with
  | nil => exact fun c h => h
  | cons a rest ih =>
    intro c h
    obtain ⟨i, s⟩ := a
    exact ih _ (expand_step_inv c i s h)

theorem run_schedule_wins (sched : List (Nat × Bool)) :
    ∀ c, c.wins ≤ (run_schedule c sched).wins
      ∧ (run_schedule c sched).pcs.length = c.pcs.length := by
  induction sched with
  | nil => exact fun c => ⟨le_refl _, rfl⟩
  | cons a rest ih =>
    intro c
    obtain ⟨i, s⟩ := a
    have h1 := ih (expand_step c i s)
    have h2 : c.wins ≤ (expand_step c i s).wins
        ∧ (expand_step c i s).pcs.length = c.pcs.length := by
      unfold expand_step
      split <;> (try split) <;> (try split) <;> simp [expand_done, expanded_runlock]
    exact ⟨le_trans h2.1 h1.1, h1.2.trans h2.2⟩

/-- C24. In every execution of any number of threads calling `expand` on a new node, under
any schedule and any spurious failures of the weak exchanges: `acquire_expand()` has
returned true at most once (the exchange from 0 to 1 has succeeded at most once), at most
one thread is between that return and `expand_done()`, and while one is, `state` is 1 and
no thread holds the read lock; a thread that holds the read lock, between the return of
`expanded_rlock()` and `expanded_runlock()`, finds `state >= 4` (3 plus the number of
readers) and all the candidates in `children`; `assert(children.empty())` never fails; and
`state` stays within 3 plus the number of threads. -/
theorem expand_lock_safe (n total : Nat) (sched : List (Nat × Bool)) :
    (run_schedule (fresh_lock n total) sched).wins ≤ 1
      ∧ (run_schedule (fresh_lock n total) sched).pcs.countP is_expander ≤ 1
      ∧ (∀ pc ∈ (run_schedule (fresh_lock n total) sched).pcs, is_expander pc = true →
          (run_schedule (fresh_lock n total) sched).state = 1
            ∧ Pc.reading ∉ (run_schedule (fresh_lock n total) sched).pcs)
      ∧ (Pc.reading ∈ (run_schedule (fresh_lock n total) sched).pcs →
          4 ≤ (run_schedule (fresh_lock n total) sched).state
            ∧ (run_schedule (fresh_lock n total) sched).built
              = (run_schedule (fresh_lock n total) sched).total
            ∧ (run_schedule (fresh_lock n total) sched).pcs.countP is_expander = 0)
      ∧ Pc.crashed ∉ (run_schedule (fresh_lock n total) sched).pcs
      ∧ 0 ≤ (run_schedule (fresh_lock n total) sched).state
      ∧ (run_schedule (fresh_lock n total) sched).state ≤ 3 + n := by
  have hinv := run_schedule_inv sched _ (fresh_lock_inv n total)
  have hlen := (run_schedule_wins sched (fresh_lock n total)).2
  generalize run_schedule (fresh_lock n total) sched = c at hinv hlen
  obtain ⟨ha, hx, hk⟩ := hinv
  have hsum : c.pcs.countP is_expander
      = c.pcs.countP is_asserting + c.pcs.countP is_creating := by
    generalize c.pcs = l
    induction l with
    | nil => rfl
    | cons a l ih =>
      simp only [List.countP_cons, ih]
      cases a <;> simp [is_expander, is_asserting, is_creating] <;> omega
  have hrd : Pc.reading ∈ c.pcs ↔ 0 < c.pcs.countP is_reading := by
    rw [List.countP_pos_iff]
    constructor
    · exact fun h => ⟨_, h, rfl⟩
    · rintro ⟨a, ha1, ha2⟩
      cases a <;> simp [is_reading] at ha2
      exact ha1
  have hex : ∀ pc ∈ c.pcs, is_expander pc = true → 0 < c.pcs.countP is_expander :=
    fun pc h1 h2 => List.countP_pos_iff.2 ⟨pc, h1, h2⟩
  have hle : c.pcs.countP is_reading ≤ n := by
    have := @List.countP_le_length _ is_reading c.pcs
    rw [hlen] at this
    simpa [fresh_lock] using this
  refine ⟨by omega, by omega, ?_, ?_, hk, by omega, by omega⟩
  · intro pc h1 h2
    have := hex pc h1 h2
    rw [hrd]
    omega
  · intro h
    rw [hrd] at h
    omega

/-- An execution of two threads on a node with two candidates: both load 0, thread 0 wins
the exchange and thread 1 loses it and waits; thread 0 fills `children` and calls
`expand_done()`; thread 1 then takes the read lock, after one spurious failure, and reads
with `state == 4`. -/
theorem expand_lock_example :
    (run_schedule (fresh_lock 2 2)
        [(0, false), (0, false), (1, false), (1, false), (0, false), (1, false), (1, false),
          (0, false), (0, false), (0, false), (0, false), (1, false), (1, false), (1, true),
          (1, false), (1, false)]).pcs = [Pc.idle, Pc.reading]
      ∧ (run_schedule (fresh_lock 2 2)
        [(0, false), (0, false), (1, false), (1, false), (0, false), (1, false), (1, false),
          (0, false), (0, false), (0, false), (0, false), (1, false), (1, false), (1, true),
          (1, false), (1, false)]).state = 4
      ∧ (run_schedule (fresh_lock 2 2)
        [(0, false), (0, false), (1, false), (1, false), (0, false), (1, false), (1, false),
          (0, false), (0, false), (0, false), (0, false), (1, false), (1, false), (1, true),
          (1, false), (1, false)]).built = 2 := by
  decide

/-! ## Reuse of the cached root -/

theorem move_same_self (m : Move) : move_same m m = true := by
  simp [move_same]

theorem compare_clear (b : Board) : compare b (clear_cache b) = some true := by
  have h1 : (squares.any fun yx => decide (b.board yx ≠ (clear_cache b).board yx)) = false := by
    rw [List.any_eq_false]
    intro yx _
    simp [clear_cache]
  have h2 : ((b.history.zip (clear_cache b).history).any
      fun x => !(move_same x.1.move x.2.move)) = false := by
    rw [List.any_eq_false]
    intro x hx
    have hx' : x ∈ b.history.zip b.history := hx
    have : x.1 = x.2 := by
      clear hx
      generalize b.history = l at hx'
      induction l with
      | nil => simp at hx'
      | cons a l ih =>
        simp only [List.zip_cons_cons, List.mem_cons] at hx'
        rcases hx' with e | e
        · rw [e]
        · exact ih e
    rw [this]
    simp [move_same_self]
  unfold compare
  rw [h1, h2]
  simp [clear_cache]

/-- The search after the move of a candidate that has a child starts from that child: the
cached board is the board before the move, the candidate is the first of the root with that
move. -/
theorem reuse_root_child {env : SearchEnv} {root ch : SearchNode} {x : SearchCandidate}
    {b b1 : Board} {m : Move} (hs : b.to_move ≠ Side.NONE) (hgen : Generated b.toPosition m)
    (hph : b.playhash < 2 ^ 64) (hm : move env.g env.H b m = some b1)
    (hx : (root.children.find? fun x => move_same x.move m) = some x)
    (hch : x.get_child = some ch) (ev : Nat → Bucket) (visits : Int) (timeout : Nat → Bool) :
    reuse_root env (some root) b b1 = some (some ch, b1)
      ∧ search_cached env (some root) b b1 ev visits timeout
        = search_loop env timeout (visits % 2 ^ 64).toNat ((visits % 2 ^ 64).toNat + 1) ch ev b1
            (ch.accum_visits % 2 ^ 64).toNat 0 := by
  have hlen : b1.history.length = b.history.length + 1 := by
    obtain ⟨oms, -, hh⟩ := move_record hm
    rw [hh, List.length_append, List.length_singleton]
  have hun := unmove_move hs hgen hph hm
  have hr : reuse_root env (some root) b b1 = some (some ch, b1) := by
    unfold reuse_root
    simp only
    rw [if_pos (by omega)]
    have hk : b1.history.length - b.history.length = 1 := by omega
    rw [hk]
    simp only [unmake, hun, compare_clear, play]
    have hm' : move env.g env.H (clear_cache b) m = some b1 := hm
    rw [hm']
    simp only [if_true, follow, promote, hx, hch]
  refine ⟨hr, ?_⟩
  unfold search_cached
  rw [hr]
  rfl

/-- The search after the move of a candidate that has no child starts from a new node. -/
theorem reuse_root_no_child {env : SearchEnv} {root : SearchNode} {x : SearchCandidate}
    {b b1 : Board} {m : Move} (hs : b.to_move ≠ Side.NONE) (hgen : Generated b.toPosition m)
    (hph : b.playhash < 2 ^ 64) (hm : move env.g env.H b m = some b1)
    (hx : (root.children.find? fun x => move_same x.move m) = some x)
    (hch : x.get_child = none) :
    reuse_root env (some root) b b1 = some (none, b1) := by
  have hlen : b1.history.length = b.history.length + 1 := by
    obtain ⟨oms, -, hh⟩ := move_record hm
    rw [hh, List.length_append, List.length_singleton]
  have hun := unmove_move hs hgen hph hm
  unfold reuse_root
  simp only
  rw [if_pos (by omega)]
  have hk : b1.history.length - b.history.length = 1 := by omega
  rw [hk]
  simp only [unmake, hun, compare_clear, play]
  have hm' : move env.g env.H (clear_cache b) m = some b1 := hm
  rw [hm']
  simp only [if_true, follow, promote, hx, hch]

/-- With a cached board that has more moves than the input board, or that `compare` finds
different from the input board unmade to its length, the search starts from a new node. -/
theorem reuse_root_other_board (env : SearchEnv) (root : SearchNode) (boardcache b : Board) :
    (b.history.length < boardcache.history.length →
        reuse_root env (some root) boardcache b = some (none, b))
      ∧ ∀ r b1, reuse_root env (some root) boardcache b = some (r, b1) →
          (∀ b0 stack,
            unmake env.H (b.history.length - boardcache.history.length) b [] = some (b0, stack) →
              compare boardcache b0 = some false) →
          r = none := by
  constructor
  · intro h
    unfold reuse_root
    simp only
    rw [if_neg (by omega)]
  · intro r b1 h hc
    unfold reuse_root at h
    simp only at h
    split at h
    · cases hu : unmake env.H (b.history.length - boardcache.history.length) b [] with
      | none => rw [hu] at h; simp at h
      | some y =>
        obtain ⟨b0, stack⟩ := y
        rw [hu] at h
        simp only [hc b0 stack hu] at h
        cases hp : play env.g env.H b0 stack with
        | none => rw [hp] at h; simp at h
        | some b2 =>
          rw [hp] at h
          simp only [Bool.false_eq_true, if_false, Option.some.injEq, Prod.mk.injEq] at h
          exact h.1.symm
    · simp only [Option.some.injEq, Prod.mk.injEq] at h
      exact h.1.symm

/-- When no candidate of the root has the move, the loop of `Search::search` leaves the
root as it is. -/
theorem follow_no_candidate (root : SearchNode) (mv : Move)
    (h : ∀ x ∈ root.children, move_same x.move mv = false) :
    follow (some root) [mv] = some root := by
  have : (root.children.find? fun x => move_same x.move mv) = none := by
    rw [List.find?_eq_none]
    intro x hx
    rw [h x hx]
    simp
  simp only [follow, promote, this]

/-- C21 (failing input). A `Search` object searches the opening position after a pass of
each side (the game is over, every descent ends at the root): its root is left with 2
visits, no candidate and no result.  The Soldier move 60-61 is played and the object
searches again with `visits = 2`: the cached board is a prefix of the input board and the
move has no child in the cached root, materialised or not; the block on `rootcache` leaves
`root` on the cached root (2 visits, no candidate) and not on a new node, the initial
`runcount` is 2, and the call makes one descent: `runcount` and the visits of the root end
at 3 and none of the 32 results has a visit.  The three lists are: visits, candidates and
results of the first root; visits and candidates of `root` after the block; descents,
`runcount`, visits of the root and visits of the results of the second call. -/
theorem reuse_keeps_stale_root :
    (finished_search.bind fun o => passed_out.bind fun b => played_on.bind fun b1 =>
        (search_cached uniform_env (some o.root) b b1 o.eval 2 fun _ => false).bind fun o2 =>
          (reuse_root uniform_env (some o.root) b b1).map fun r =>
            ([o.root.accum_visits, (o.root.children.length : Int), (o.results.length : Int)],
              r.1.map (fun n => [n.accum_visits, (n.children.length : Int)]),
              [(o2.descents : Int), (o2.runcount : Int), o2.root.accum_visits]
                ++ o2.results.map fun x => x.visits))
      = some ([2, 0, 0], some [2, 0], [1, 3, 3] ++ List.replicate 32 0) := by
  decide!

end Board

end gmgm
